import Mathlib

/-! # Adaptive radix tree: a shallow embedding of `src/impl/adaptive_radix_tree.cpp`

The C++ objects become values:

* a node pointer `CArtNode*` is a `Ptr CArtNode` (`nullptr`, the V256 sentinel
  `EMPTY_NODE`, or an owned node); a pointer to a child slot (`CArtNode**`)
  returned by `FindChild` / `InsertInNode` is the index of the slot in `child_`;
* the fixed-size arrays `key_`, `child_`, `child_index_` are lists of that size;
* bytes (`char`, `uint8_t`) are natural numbers below 256, a key is a list of bytes;
* `uint32_t` values written through a `static_cast<uint32_t>` are reduced
  modulo `2^32`; the `size_t` sum `total_string_length_` is reduced modulo the width of
  `size_t`, while `unique_string_count_` counts nodes held in memory and cannot wrap;
* the tree object is `CAdaptiveRadixTree`; the row-id vector behind the
  `shared_ptr` (`indexes_`) is passed explicitly, next to the tree, because several
  trees alias it;
* the visitor (`CActionBase`) is the list of calls it receives.

The preprocessor switch `ENVIRONMENT_64` of the source is a Boolean parameter.
-/

set_option linter.unusedVariables false

/-! ## Nodes (`adaptive_radix_tree_node.hpp`) -/

/-- Represents final index for tuples: `static const uint32_t LAST_INDEX_IDENTIFIER = -1`. -/
def LAST_INDEX_IDENTIFIER : Nat := 4294967295

/-- Value of a `static_cast<uint32_t>`. -/
def u32 (x : Nat) : Nat := x % 4294967296

/-- Arithmetic on `size_t`: 64 bits wide on a 64-bit system (`ENVIRONMENT_64`), else 32. -/
def sizeT (ENVIRONMENT_64 : Bool) (x : Nat) : Nat :=
  x % (if ENVIRONMENT_64 then 18446744073709551616 else 4294967296)

/-- A value of type `CArtNode*`.
Modelled from the spec: `CArtNode256::EMPTY_NODE` is declared in
`adaptive_radix_tree_node.hpp` but its definition is not part of the sources; the
specification describes it as "a reserved sentinel EMPTY [that] distinguishes absent
slots from present-but-null children", and the `memset( child_, ~0, .. )` of the
`CArtNode256` constructor fills a fresh node with it. -/
inductive Ptr (α : Type) where
  | nullptr : Ptr α
  | EMPTY_NODE : Ptr α
  | to (n : α) : Ptr α

/-- The members of `struct CArtNode` (the variant tag `node_type_` is the constructor
of `CArtNode` below). -/
structure CArtNodeBase where
  prefix_length_ : Nat
  prefix_position_ : Nat
  value_ : Nat
  children_count_ : Nat
  end_of_string_ : Bool
deriving DecidableEq, Repr

/-- Members as set by `explicit CArtNode( Type type )`. -/
def CArtNodeBase.init : CArtNodeBase :=
  { prefix_length_ := 0, prefix_position_ := 0, value_ := LAST_INDEX_IDENTIFIER,
    children_count_ := 0, end_of_string_ := false }

/-- The four node structs `CArtNode4`, `CArtNode16`, `CArtNode48`, `CArtNode256`. -/
inductive CArtNode where
  | Fanout4 (base : CArtNodeBase) (key_ : List Nat) (child_ : List (Ptr CArtNode)) : CArtNode
  | Fanout16 (base : CArtNodeBase) (key_ : List Nat) (child_ : List (Ptr CArtNode)) : CArtNode
  | Fanout48 (base : CArtNodeBase) (child_index_ : List Nat) (child_ : List (Ptr CArtNode)) :
      CArtNode
  | Fanout256 (base : CArtNodeBase) (child_ : List (Ptr CArtNode)) : CArtNode

namespace CArtNode

/-- The `CArtNode` base sub-object. -/
def base : CArtNode → CArtNodeBase
  | Fanout4 b _ _ => b
  | Fanout16 b _ _ => b
  | Fanout48 b _ _ => b
  | Fanout256 b _ => b

/-- Assignment to members of the base sub-object. -/
def setBase (b : CArtNodeBase) : CArtNode → CArtNode
  | Fanout4 _ k c => Fanout4 b k c
  | Fanout16 _ k c => Fanout16 b k c
  | Fanout48 _ k c => Fanout48 b k c
  | Fanout256 _ c => Fanout256 b c

/-- The array `child_`. -/
def child_ : CArtNode → List (Ptr CArtNode)
  | Fanout4 _ _ c => c
  | Fanout16 _ _ c => c
  | Fanout48 _ _ c => c
  | Fanout256 _ c => c

/-- Store through a slot pointer: `*slot = p`, where `slot` points into `child_`. -/
def setChild (i : Nat) (p : Ptr CArtNode) : CArtNode → CArtNode
  | Fanout4 b k c => Fanout4 b k (c.set i p)
  | Fanout16 b k c => Fanout16 b k (c.set i p)
  | Fanout48 b k c => Fanout48 b k (c.set i p)
  | Fanout256 b c => Fanout256 b (c.set i p)

/-- Constructor `CArtNode4()`. -/
def new4 : CArtNode := Fanout4 CArtNodeBase.init (List.replicate 4 0) (List.replicate 4 Ptr.nullptr)

/-- Constructor `CArtNode16()`. -/
def new16 : CArtNode :=
  Fanout16 CArtNodeBase.init (List.replicate 16 0) (List.replicate 16 Ptr.nullptr)

/-- `CArtNode48::EMPTY_MARKER`. -/
def EMPTY_MARKER : Nat := 48

/-- Constructor `CArtNode48()`. -/
def new48 : CArtNode :=
  Fanout48 CArtNodeBase.init (List.replicate 256 EMPTY_MARKER) (List.replicate 48 Ptr.nullptr)

/-- Constructor `CArtNode256()`. -/
def new256 : CArtNode := Fanout256 CArtNodeBase.init (List.replicate 256 Ptr.EMPTY_NODE)

end CArtNode

/-- The null test `if ( p )` on a pointer. -/
def Ptr.isNull {α : Type} : Ptr α → Bool
  | Ptr.nullptr => true
  | _ => false

/-- The test `p != CArtNode256::EMPTY_NODE`. -/
def Ptr.isEmpty {α : Type} : Ptr α → Bool
  | Ptr.EMPTY_NODE => true
  | _ => false

/-! ## `detail::Helper` and the SSE2 intrinsics used on `CArtNode16` -/

/-- Flip the sign bit: `keyByte ^ 128`. -/
def FlipSign (keyByte : Nat) : Nat := keyByte ^^^ 128

/-- Count trailing zeros of the low `n` bits. -/
def ctzAux : Nat → Nat → Nat
  | 0, _ => 0
  | n + 1, x => if x % 2 = 1 then 0 else ctzAux n (x / 2) + 1

/-- Count trailing zeros (`__builtin_ctz`), only defined for `x > 0`. -/
def ctz (x : Nat) : Nat := ctzAux 32 x

/-- A byte read as a signed 8-bit integer. -/
def toInt8 (b : Nat) : Int := if b < 128 then (b : Int) else (b : Int) - 256

/-- Broadcast of one byte to the 16 lanes. -/
def mm_set1_epi8 (b : Nat) : List Nat := List.replicate 16 b

/-- Lane-wise equality: `0xFF` where equal, `0` elsewhere. -/
def mm_cmpeq_epi8 (a b : List Nat) : List Nat :=
  List.zipWith (fun x y => if x = y then 255 else 0) a b

/-- Lane-wise signed less-than. -/
def mm_cmplt_epi8 (a b : List Nat) : List Nat :=
  List.zipWith (fun x y => if toInt8 x < toInt8 y then 255 else 0) a b

/-- Mask made of the most significant bit of every lane (lane 0 is bit 0). -/
def mm_movemask_epi8 (v : List Nat) : Nat := v.foldr (fun x acc => x / 128 + 2 * acc) 0

/-- Effect on an array of `memmove( a + dst, a + src, n )` (counts are in elements). -/
def memmove {α : Type} (a : List α) (dst src n : Nat) : List α :=
  a.take dst ++ ((a.drop src).take n ++ a.drop (dst + n))

/-- Effect on `dst` of `memcpy( dst, src, n )` (counts are in elements). -/
def memcpy {α : Type} (dst src : List α) (n : Nat) : List α :=
  src.take n ++ dst.drop n

/-! ## The tree object (`adaptive_radix_tree.hpp`) -/

/-- The data members of `class CAdaptiveRadixTree`, except the handle `indexes_` of the
shared row-id vector, which every operation takes and returns as a separate argument. -/
structure CAdaptiveRadixTree where
  root_ : Ptr CArtNode
  null_string_ : Nat
  null_string_count_ : Nat
  max_string_length_ : Nat
  unique_string_count_ : Nat
  total_string_length_ : Nat
  suffix_table_ : List Nat

namespace CAdaptiveRadixTree

/-- Constructor `CAdaptiveRadixTree( std::shared_ptr<std::vector<uint32_t>> indexes )`:
the tree part (the vector is whatever the handle refers to). -/
def newShared : CAdaptiveRadixTree :=
  { root_ := Ptr.to CArtNode.new256, null_string_ := LAST_INDEX_IDENTIFIER,
    null_string_count_ := 0, max_string_length_ := 0, unique_string_count_ := 0,
    total_string_length_ := 0, suffix_table_ := [] }

/-- Constructor `CAdaptiveRadixTree( uint32_t max_index_count )`: the tree and its new,
value-initialised row-id vector. -/
def new (max_index_count : Nat) : CAdaptiveRadixTree × List Nat :=
  (newShared, List.replicate (u32 max_index_count) 0)

end CAdaptiveRadixTree

/-! ## `FindChild` -/

/-- The scalar search loop of `FindChild` (`Fanout4`, and `Fanout16` without
`ENVIRONMENT_64`): the first `i < children_count_` with `key_[i] == c`. -/
def findKeyLoop (key_ : List Nat) (children_count_ c : Nat) : Option Nat :=
  (List.range children_count_).find? (fun i => key_.getD i 0 == c)

/-- `CAdaptiveRadixTree::FindChild`: the index in `child_` of the slot whose address the
source returns, `none` for `nullptr`. -/
def FindChild (ENVIRONMENT_64 : Bool) (node : CArtNode) (c : Nat) : Option Nat :=
  match node with
  | CArtNode.Fanout4 b key_ child_ => findKeyLoop key_ b.children_count_ c
  | CArtNode.Fanout16 b key_ child_ =>
    if ENVIRONMENT_64 then
      let cmp := mm_cmpeq_epi8 (mm_set1_epi8 (FlipSign c)) key_
      let bitfield := mm_movemask_epi8 cmp &&& ((1 <<< b.children_count_) - 1)
      if bitfield ≠ 0 then some (ctz bitfield) else none
    else findKeyLoop key_ b.children_count_ c
  | CArtNode.Fanout48 b child_index_ child_ =>
    if child_index_.getD c 0 ≠ CArtNode.EMPTY_MARKER then some (child_index_.getD c 0) else none
  | CArtNode.Fanout256 b child_ =>
    if (child_.getD c Ptr.nullptr).isEmpty then none else some c

/-! ## `InsertInNode` -/

/-- The scalar position loop `for ( pos = 0; pos < children_count_ && key_[pos] < c; ++pos )`. -/
def insertPosLoop (key_ : List Nat) (children_count_ c : Nat) : Nat :=
  ((List.range children_count_).find? (fun pos => !(decide (key_.getD pos 0 < c)))).getD
    children_count_

/-- `InsertInNode` on a `CArtNode256`. -/
def InsertInNode256 (b : CArtNodeBase) (child_ : List (Ptr CArtNode)) (c : Nat)
    (child_node : Ptr CArtNode) : CArtNode × Nat :=
  (CArtNode.Fanout256 { b with children_count_ := b.children_count_ + 1 }
    (child_.set c child_node), c)

/-- `InsertInNode` on a `CArtNode48`; the retry after the grow runs on the new
`CArtNode256`. -/
def InsertInNode48 (b : CArtNodeBase) (child_index_ : List Nat) (child_ : List (Ptr CArtNode))
    (c : Nat) (child_node : Ptr CArtNode) : CArtNode × Nat :=
  if b.children_count_ < 48 then
    let pos := b.children_count_
    let pos := if !(child_.getD pos Ptr.nullptr).isNull then
        ((List.range 48).find? (fun i => (child_.getD i Ptr.nullptr).isNull)).getD 48
      else pos
    (CArtNode.Fanout48 { b with children_count_ := b.children_count_ + 1 }
      (child_index_.set c pos) (child_.set pos child_node), pos)
  else
    let newChild := (List.range 256).map (fun i =>
      if child_index_.getD i 0 ≠ 48 then child_.getD (child_index_.getD i 0) Ptr.nullptr
      else Ptr.EMPTY_NODE)
    InsertInNode256 b newChild c child_node

/-- `InsertInNode` on a `CArtNode16`; the retry after the grow runs on the new
`CArtNode48`. -/
def InsertInNode16 (ENVIRONMENT_64 : Bool) (b : CArtNodeBase) (key_ : List Nat)
    (child_ : List (Ptr CArtNode)) (c : Nat) (child_node : Ptr CArtNode) : CArtNode × Nat :=
  if b.children_count_ < 16 then
    let keyByteFlipped := if ENVIRONMENT_64 then FlipSign c else c
    let pos :=
      if ENVIRONMENT_64 then
        let cmp := mm_cmplt_epi8 (mm_set1_epi8 keyByteFlipped) key_
        let bitfield := mm_movemask_epi8 cmp &&& (0xFFFF >>> (16 - b.children_count_))
        if bitfield ≠ 0 then ctz bitfield else b.children_count_
      else insertPosLoop key_ b.children_count_ c
    let key_ := (memmove key_ (pos + 1) pos (b.children_count_ - pos)).set pos keyByteFlipped
    let child_ := (memmove child_ (pos + 1) pos (b.children_count_ - pos)).set pos
      child_node
    (CArtNode.Fanout16 { b with children_count_ := b.children_count_ + 1 } key_ child_, pos)
  else
    let newChild := memcpy (List.replicate 48 Ptr.nullptr) child_ b.children_count_
    let newIndex := (List.range b.children_count_).foldl
      (fun idx i =>
        idx.set (if ENVIRONMENT_64 then FlipSign (key_.getD i 0) else key_.getD i 0) i)
      (List.replicate 256 CArtNode.EMPTY_MARKER)
    InsertInNode48 b newIndex newChild c child_node

/-- `InsertInNode` on a `CArtNode4`; the retry after the grow runs on the new
`CArtNode16`. -/
def InsertInNode4 (ENVIRONMENT_64 : Bool) (b : CArtNodeBase) (key_ : List Nat)
    (child_ : List (Ptr CArtNode)) (c : Nat) (child_node : Ptr CArtNode) : CArtNode × Nat :=
  if b.children_count_ < 4 then
    let pos := insertPosLoop key_ b.children_count_ c
    let key_ := (memmove key_ (pos + 1) pos (b.children_count_ - pos)).set pos c
    let child_ := (memmove child_ (pos + 1) pos (b.children_count_ - pos)).set pos
      child_node
    (CArtNode.Fanout4 { b with children_count_ := b.children_count_ + 1 } key_ child_, pos)
  else
    let newKey := (List.range 4).foldl
      (fun k i => k.set i (if ENVIRONMENT_64 then FlipSign (key_.getD i 0) else key_.getD i 0))
      (List.replicate 16 0)
    let newChild := memcpy (List.replicate 16 Ptr.nullptr) child_ b.children_count_
    InsertInNode16 ENVIRONMENT_64 b newKey newChild c child_node

/-- `CAdaptiveRadixTree::InsertInNode( base_node, c, child_node )`: the node that
`*base_node` points to afterwards, and the index in its `child_` of the returned slot. -/
def InsertInNode (ENVIRONMENT_64 : Bool) (node : CArtNode) (c : Nat)
    (child_node : Ptr CArtNode) : CArtNode × Nat :=
  match node with
  | CArtNode.Fanout4 b key_ child_ => InsertInNode4 ENVIRONMENT_64 b key_ child_ c child_node
  | CArtNode.Fanout16 b key_ child_ => InsertInNode16 ENVIRONMENT_64 b key_ child_ c child_node
  | CArtNode.Fanout48 b child_index_ child_ => InsertInNode48 b child_index_ child_ c child_node
  | CArtNode.Fanout256 b child_ => InsertInNode256 b child_ c child_node

/-! ## `InsertValue` and `AddEntry` -/

/-- `CAdaptiveRadixTree::InsertValue( node_base, node, value )`: the node, the tree
members and the row-id vector afterwards. -/
def InsertValue (t : CAdaptiveRadixTree) (indexes : List Nat) (node : CArtNode) (value : Nat) :
    CArtNode × CAdaptiveRadixTree × List Nat :=
  let b := node.base
  let t := if !b.end_of_string_ then
      { t with unique_string_count_ := t.unique_string_count_ + 1 } else t
  let index := b.value_
  (node.setBase { b with end_of_string_ := true, value_ := value }, t, indexes.set value index)

/-- The comparison loop at the head of the `while` body of `AddEntry`: the value of
`mismatch_position` when the loop is left (it is entered with `mismatch_position == 0`, and
runs at most `prefix_length_` times). -/
def mismatchLoop (key suffix_table_ : List Nat) (depth pos len : Nat) : Nat → Nat → Nat
  | 0, m => m
  | fuel + 1, m =>
    if depth + m < key.length ∧ m < len then
      if key.getD (depth + m) 0 ≠ suffix_table_.getD (pos + m) 0 then m
      else mismatchLoop key suffix_table_ depth pos len fuel (m + 1)
    else m

/-- One run of the `while ( node )` loop of `AddEntry` from the slot `node_base` holding
`node`: the node held by that slot when `AddEntry` returns, with the tree members and the
row-id vector. An iteration that ends in `continue` moves `node_base` to a child slot; the
rest of the loop is then the recursive call on that child, whose result is stored back in
the slot. `depth` grows by at least one per iteration and stays `≤ key_length`, so
`key_length + 1 - depth` iterations (the first argument) are never exceeded. -/
def AddEntryLoop (ENVIRONMENT_64 : Bool) (key : List Nat) (value : Nat) :
    Nat → Nat → CArtNode → CAdaptiveRadixTree → List Nat →
      CArtNode × CAdaptiveRadixTree × List Nat
  | 0, _, node, t, indexes => (node, t, indexes)
  | fuel + 1, depth, node, t, indexes =>
    let b := node.base
    let mismatch_position :=
      mismatchLoop key t.suffix_table_ depth b.prefix_position_ b.prefix_length_
        b.prefix_length_ 0
    if depth + mismatch_position = key.length ∧ mismatch_position = b.prefix_length_ then
      InsertValue t indexes node value
    else if mismatch_position < b.prefix_length_ then
      let new_node := CArtNode.new4
      let (new_node, node) :=
        if mismatch_position ≠ 0 then
          (new_node.setBase { new_node.base with
              prefix_position_ := b.prefix_position_, prefix_length_ := mismatch_position },
           node.setBase { b with
              prefix_length_ := b.prefix_length_ - mismatch_position,
              prefix_position_ := b.prefix_position_ + mismatch_position })
        else (new_node, node)
      let c := t.suffix_table_.getD node.base.prefix_position_ 0
      let node := node.setBase { node.base with
        prefix_length_ := node.base.prefix_length_ - 1,
        prefix_position_ := node.base.prefix_position_ + 1 }
      let (new_node, _) := InsertInNode ENVIRONMENT_64 new_node c (Ptr.to node)
      if depth + mismatch_position < key.length then
        let key_offset := depth + mismatch_position + 1
        let remaining_length := key.length - key_offset
        let leaf := CArtNode.new4
        let leaf := leaf.setBase { leaf.base with prefix_length_ := u32 remaining_length }
        let (leaf, t) :=
          if remaining_length ≠ 0 then
            (leaf.setBase { leaf.base with prefix_position_ := u32 t.suffix_table_.length },
             { t with suffix_table_ :=
                 t.suffix_table_ ++ (key.drop key_offset).take remaining_length })
          else (leaf, t)
        let (new_node, slot) :=
          InsertInNode ENVIRONMENT_64 new_node (key.getD (depth + mismatch_position) 0)
            (Ptr.to leaf)
        match new_node.child_.getD slot Ptr.nullptr with
        | Ptr.to child =>
          let (child, t, indexes) :=
            AddEntryLoop ENVIRONMENT_64 key value fuel (depth + mismatch_position + 1) child t
              indexes
          (new_node.setChild slot (Ptr.to child), t, indexes)
        | _ => (new_node, t, indexes)
      else
        InsertValue t indexes new_node value
    else if depth + mismatch_position < key.length then
      match FindChild ENVIRONMENT_64 node (key.getD (depth + mismatch_position) 0) with
      | some slot =>
        match node.child_.getD slot Ptr.nullptr with
        | Ptr.to child =>
          let (child, t, indexes) :=
            AddEntryLoop ENVIRONMENT_64 key value fuel (depth + mismatch_position + 1) child t
              indexes
          (node.setChild slot (Ptr.to child), t, indexes)
        | _ => (node, t, indexes)
      | none =>
        let key_offset := depth + mismatch_position + 1
        let leaf := CArtNode.new4
        let leaf := leaf.setBase { leaf.base with prefix_length_ := u32 (key.length - key_offset) }
        let (leaf, t) :=
          if leaf.base.prefix_length_ ≠ 0 then
            (leaf.setBase { leaf.base with prefix_position_ := u32 t.suffix_table_.length },
             { t with suffix_table_ :=
                 t.suffix_table_ ++ (key.drop key_offset).take leaf.base.prefix_length_ })
          else (leaf, t)
        let (node, slot) :=
          InsertInNode ENVIRONMENT_64 node (key.getD (depth + mismatch_position) 0) (Ptr.to leaf)
        match node.child_.getD slot Ptr.nullptr with
        | Ptr.to child =>
          let (child, t, indexes) :=
            AddEntryLoop ENVIRONMENT_64 key value fuel (depth + mismatch_position + 1) child t
              indexes
          (node.setChild slot (Ptr.to child), t, indexes)
        | _ => (node, t, indexes)
    else (node, t, indexes)

/-- `CAdaptiveRadixTree::AddEntry( key, key_length, value )`; `key` is the byte string
`key[0 .. key_length)`. -/
def AddEntry (ENVIRONMENT_64 : Bool) (t : CAdaptiveRadixTree) (indexes : List Nat)
    (key : List Nat) (value : Nat) : CAdaptiveRadixTree × List Nat :=
  let t := { t with
    total_string_length_ := sizeT ENVIRONMENT_64 (t.total_string_length_ + key.length),
    max_string_length_ := max t.max_string_length_ key.length }
  match t.root_ with
  | Ptr.to node =>
    let (node, t, indexes) := AddEntryLoop ENVIRONMENT_64 key value (key.length + 1) 0 node t indexes
    ({ t with root_ := Ptr.to node }, indexes)
  | _ => (t, indexes)

/-! ## `CIndexIterator` and the visitor -/

/-- `CIndexIterator`: the member `index_` (the vector `indexes_` it refers to is passed to
the operations). -/
structure CIndexIterator where
  index_ : Nat
deriving DecidableEq, Repr

/-- `CIndexIterator::operator++`. -/
def CIndexIterator.next (indexes : List Nat) (it : CIndexIterator) : CIndexIterator :=
  { index_ := indexes.getD it.index_ 0 }

/-- The values a consumer reads with `for ( ; begin != end; ++begin ) out.push_back( *begin )`,
or `none` when `end` is not reached within `fuel` increments. -/
def CIndexIterator.collect (indexes : List Nat) : Nat → CIndexIterator → CIndexIterator →
    Option (List Nat)
  | 0, _, _ => none
  | fuel + 1, begin_, end_ =>
    if begin_ = end_ then some []
    else (CIndexIterator.collect indexes fuel (begin_.next indexes) end_).map
      (fun rest => begin_.index_ :: rest)

/-- A call received by a `CActionBase` visitor. -/
inductive Call where
  | HandleNode (node : CArtNode) (pfx : List Nat) (level : Nat) : Call
  | HandleTuple (key : List Nat) (begin_ : CIndexIterator) (end_ : CIndexIterator) : Call

/-- `std::string::resize( n )`. -/
def resize (s : List Nat) (n : Nat) : List Nat := s.take n ++ List.replicate (n - s.length) 0

/-- `std::string::append( str, pos, n )` for `pos <= str.size()`: the characters
`str[pos .. pos + n)`, as far as `str` has them, are appended. For `pos > str.size()` the
call throws `std::out_of_range`; `appendSubChecked` has that case, and `TraverseChecked` is
`Traverse` with it. -/
def appendSub (s str : List Nat) (pos n : Nat) : List Nat := s ++ (str.drop pos).take n

/-! ## `Traverse` -/

/-- State of a traversal: the calls made so far and the `key` buffer. -/
abbrev TraverseState := List Call × List Nat

mutual
/-- `CAdaptiveRadixTree::TraverseRecursive( iNode, action, key, level )`: appends the
calls made on `action` and returns the final contents of the buffer `key`. The recursive
call on the node held by `child_[j]` is `(TraverseChildren .. child_).get j`. -/
def TraverseRecursive (ENVIRONMENT_64 : Bool) (suffix_table_ : List Nat) :
    CArtNode → Nat → TraverseState → TraverseState
  | CArtNode.Fanout4 b key_ child_, level, (calls, key) =>
    let calls := calls ++ [Call.HandleNode (CArtNode.Fanout4 b key_ child_) key level]
    let (key, level) := if b.prefix_length_ ≠ 0 then
        (appendSub key suffix_table_ b.prefix_position_ b.prefix_length_, level + b.prefix_length_)
      else (key, level)
    let calls := if b.end_of_string_ then
        calls ++ [Call.HandleTuple key ⟨b.value_⟩ ⟨LAST_INDEX_IDENTIFIER⟩]
      else calls
    let recurse := TraverseChildren ENVIRONMENT_64 suffix_table_ child_
    (List.range b.children_count_).foldl
      (fun (st : TraverseState) i =>
        let st := (st.1, st.2 ++ [key_.getD i 0])
        let st := (recurse.getD i (fun _ st => st)) (level + 1) st
        (st.1, resize st.2 level))
      (calls, key)
  | CArtNode.Fanout16 b key_ child_, level, (calls, key) =>
    let calls := calls ++ [Call.HandleNode (CArtNode.Fanout16 b key_ child_) key level]
    let (key, level) := if b.prefix_length_ ≠ 0 then
        (appendSub key suffix_table_ b.prefix_position_ b.prefix_length_, level + b.prefix_length_)
      else (key, level)
    let calls := if b.end_of_string_ then
        calls ++ [Call.HandleTuple key ⟨b.value_⟩ ⟨LAST_INDEX_IDENTIFIER⟩]
      else calls
    let recurse := TraverseChildren ENVIRONMENT_64 suffix_table_ child_
    (List.range b.children_count_).foldl
      (fun (st : TraverseState) i =>
        let ch := if ENVIRONMENT_64 then FlipSign (key_.getD i 0) else key_.getD i 0
        if ch = 0 then st
        else
          let st := (st.1, st.2 ++ [ch])
          let st := if !(child_.getD i Ptr.nullptr).isNull then
              (recurse.getD i (fun _ st => st)) (level + 1) st
            else st
          (st.1, resize st.2 level))
      (calls, key)
  | CArtNode.Fanout48 b child_index_ child_, level, (calls, key) =>
    let calls := calls ++ [Call.HandleNode (CArtNode.Fanout48 b child_index_ child_) key level]
    let (key, level) := if b.prefix_length_ ≠ 0 then
        (appendSub key suffix_table_ b.prefix_position_ b.prefix_length_, level + b.prefix_length_)
      else (key, level)
    let calls := if b.end_of_string_ then
        calls ++ [Call.HandleTuple key ⟨b.value_⟩ ⟨LAST_INDEX_IDENTIFIER⟩]
      else calls
    let recurse := TraverseChildren ENVIRONMENT_64 suffix_table_ child_
    if b.children_count_ ≠ 0 then
      (List.range 256).foldl
        (fun (st : TraverseState) i =>
          if child_index_.getD i 0 ≠ CArtNode.EMPTY_MARKER then
            let st := (st.1, st.2 ++ [i])
            let st := if !(child_.getD (child_index_.getD i 0) Ptr.nullptr).isNull then
                (recurse.getD (child_index_.getD i 0) (fun _ st => st)) (level + 1) st
              else st
            (st.1, resize st.2 level)
          else st)
        (calls, key)
    else (calls, key)
  | CArtNode.Fanout256 b child_, level, (calls, key) =>
    let calls := calls ++ [Call.HandleNode (CArtNode.Fanout256 b child_) key level]
    let (key, level) := if b.prefix_length_ ≠ 0 then
        (appendSub key suffix_table_ b.prefix_position_ b.prefix_length_, level + b.prefix_length_)
      else (key, level)
    let calls := if b.end_of_string_ then
        calls ++ [Call.HandleTuple key ⟨b.value_⟩ ⟨LAST_INDEX_IDENTIFIER⟩]
      else calls
    let recurse := TraverseChildren ENVIRONMENT_64 suffix_table_ child_
    if b.children_count_ ≠ 0 then
      (List.range 256).foldl
        (fun (st : TraverseState) i =>
          if !(child_.getD i Ptr.nullptr).isEmpty then
            let st := (st.1, st.2 ++ [i])
            let st := (recurse.getD i (fun _ st => st)) (level + 1) st
            (st.1, resize st.2 level)
          else st)
        (calls, key)
    else (calls, key)
/-- For every slot of `child_`, the effect of `TraverseRecursive( child_[j], .. )` (nothing
when the slot holds no node). -/
def TraverseChildren (ENVIRONMENT_64 : Bool) (suffix_table_ : List Nat) :
    List (Ptr CArtNode) → List (Nat → TraverseState → TraverseState)
  | [] => []
  | p :: ps =>
    TraversePtr ENVIRONMENT_64 suffix_table_ p :: TraverseChildren ENVIRONMENT_64 suffix_table_ ps
/-- Effect of `TraverseRecursive( p, .. )` for a pointer `p`. -/
def TraversePtr (ENVIRONMENT_64 : Bool) (suffix_table_ : List Nat) :
    Ptr CArtNode → Nat → TraverseState → TraverseState
  | Ptr.to n => TraverseRecursive ENVIRONMENT_64 suffix_table_ n
  | _ => fun _ st => st
end

/-- `CAdaptiveRadixTree::Traverse( action )`: the calls received by `action`. -/
def Traverse (ENVIRONMENT_64 : Bool) (t : CAdaptiveRadixTree) : List Call :=
  match t.root_ with
  | Ptr.to root => (TraverseRecursive ENVIRONMENT_64 t.suffix_table_ root 0 ([], [])).1
  | _ => []

/-- The `HandleTuple` calls of a call list, as pairs of the key and the start index of the
chain. -/
def tuplesOf : List Call → List (List Nat × Nat)
  | [] => []
  | Call.HandleTuple key begin_ _ :: cs => (key, begin_.index_) :: tuplesOf cs
  | Call.HandleNode _ _ _ :: cs => tuplesOf cs

/-! ## `Traverse` with the exception of `std::string::append` -/

/-- `std::string::append( str, pos, n )` with its exception: `none` when `pos > str.size()`,
where the call throws `std::out_of_range`; otherwise the string of `appendSub`. -/
def appendSubChecked (s str : List Nat) (pos n : Nat) : Option (List Nat) :=
  if pos ≤ str.length then some (appendSub s str pos n) else none

/-- Outcome of a traversal: `Except.ok` with the state when `TraverseRecursive` returns,
`Except.error calls` when it is left by the exception of `append`, where `calls` are the
calls made on `action` until then. -/
abbrev TraverseOutcome := Except (List Call) TraverseState

mutual
/-- `CAdaptiveRadixTree::TraverseRecursive( iNode, action, key, level )` with the exception
of `key.append( suffix_table_, prefix_position_, prefix_length_ )`: as `TraverseRecursive`,
but the traversal ends at the first `append` whose position lies behind the end of the
suffix table, with the calls made until then. -/
def TraverseRecursiveChecked (ENVIRONMENT_64 : Bool) (suffix_table_ : List Nat) :
    CArtNode → Nat → TraverseState → TraverseOutcome
  | CArtNode.Fanout4 b key_ child_, level, (calls, key) =>
    let calls := calls ++ [Call.HandleNode (CArtNode.Fanout4 b key_ child_) key level]
    match (if b.prefix_length_ ≠ 0 then
        (appendSubChecked key suffix_table_ b.prefix_position_ b.prefix_length_).map
          (fun key => (key, level + b.prefix_length_))
      else some (key, level)) with
    | none => Except.error calls
    | some (key, level) =>
      let calls := if b.end_of_string_ then
          calls ++ [Call.HandleTuple key ⟨b.value_⟩ ⟨LAST_INDEX_IDENTIFIER⟩]
        else calls
      let recurse := TraverseChildrenChecked ENVIRONMENT_64 suffix_table_ child_
      (List.range b.children_count_).foldl
        (fun (r : TraverseOutcome) i =>
          r.bind (fun st =>
            let st := (st.1, st.2 ++ [key_.getD i 0])
            ((recurse.getD i (fun _ st => Except.ok st)) (level + 1) st).map
              (fun st => (st.1, resize st.2 level))))
        (Except.ok (calls, key))
  | CArtNode.Fanout16 b key_ child_, level, (calls, key) =>
    let calls := calls ++ [Call.HandleNode (CArtNode.Fanout16 b key_ child_) key level]
    match (if b.prefix_length_ ≠ 0 then
        (appendSubChecked key suffix_table_ b.prefix_position_ b.prefix_length_).map
          (fun key => (key, level + b.prefix_length_))
      else some (key, level)) with
    | none => Except.error calls
    | some (key, level) =>
      let calls := if b.end_of_string_ then
          calls ++ [Call.HandleTuple key ⟨b.value_⟩ ⟨LAST_INDEX_IDENTIFIER⟩]
        else calls
      let recurse := TraverseChildrenChecked ENVIRONMENT_64 suffix_table_ child_
      (List.range b.children_count_).foldl
        (fun (r : TraverseOutcome) i =>
          r.bind (fun st =>
            let ch := if ENVIRONMENT_64 then FlipSign (key_.getD i 0) else key_.getD i 0
            if ch = 0 then Except.ok st
            else
              let st := (st.1, st.2 ++ [ch])
              (if !(child_.getD i Ptr.nullptr).isNull then
                  (recurse.getD i (fun _ st => Except.ok st)) (level + 1) st
                else Except.ok st).map
                (fun st => (st.1, resize st.2 level))))
        (Except.ok (calls, key))
  | CArtNode.Fanout48 b child_index_ child_, level, (calls, key) =>
    let calls := calls ++ [Call.HandleNode (CArtNode.Fanout48 b child_index_ child_) key level]
    match (if b.prefix_length_ ≠ 0 then
        (appendSubChecked key suffix_table_ b.prefix_position_ b.prefix_length_).map
          (fun key => (key, level + b.prefix_length_))
      else some (key, level)) with
    | none => Except.error calls
    | some (key, level) =>
      let calls := if b.end_of_string_ then
          calls ++ [Call.HandleTuple key ⟨b.value_⟩ ⟨LAST_INDEX_IDENTIFIER⟩]
        else calls
      let recurse := TraverseChildrenChecked ENVIRONMENT_64 suffix_table_ child_
      if b.children_count_ ≠ 0 then
        (List.range 256).foldl
          (fun (r : TraverseOutcome) i =>
            r.bind (fun st =>
              if child_index_.getD i 0 ≠ CArtNode.EMPTY_MARKER then
                let st := (st.1, st.2 ++ [i])
                (if !(child_.getD (child_index_.getD i 0) Ptr.nullptr).isNull then
                    (recurse.getD (child_index_.getD i 0) (fun _ st => Except.ok st)) (level + 1)
                      st
                  else Except.ok st).map
                  (fun st => (st.1, resize st.2 level))
              else Except.ok st))
          (Except.ok (calls, key))
      else Except.ok (calls, key)
  | CArtNode.Fanout256 b child_, level, (calls, key) =>
    let calls := calls ++ [Call.HandleNode (CArtNode.Fanout256 b child_) key level]
    match (if b.prefix_length_ ≠ 0 then
        (appendSubChecked key suffix_table_ b.prefix_position_ b.prefix_length_).map
          (fun key => (key, level + b.prefix_length_))
      else some (key, level)) with
    | none => Except.error calls
    | some (key, level) =>
      let calls := if b.end_of_string_ then
          calls ++ [Call.HandleTuple key ⟨b.value_⟩ ⟨LAST_INDEX_IDENTIFIER⟩]
        else calls
      let recurse := TraverseChildrenChecked ENVIRONMENT_64 suffix_table_ child_
      if b.children_count_ ≠ 0 then
        (List.range 256).foldl
          (fun (r : TraverseOutcome) i =>
            r.bind (fun st =>
              if !(child_.getD i Ptr.nullptr).isEmpty then
                let st := (st.1, st.2 ++ [i])
                ((recurse.getD i (fun _ st => Except.ok st)) (level + 1) st).map
                  (fun st => (st.1, resize st.2 level))
              else Except.ok st))
          (Except.ok (calls, key))
      else Except.ok (calls, key)
/-- For every slot of `child_`, the outcome of `TraverseRecursive( child_[j], .. )` (nothing
when the slot holds no node). -/
def TraverseChildrenChecked (ENVIRONMENT_64 : Bool) (suffix_table_ : List Nat) :
    List (Ptr CArtNode) → List (Nat → TraverseState → TraverseOutcome)
  | [] => []
  | p :: ps =>
    TraversePtrChecked ENVIRONMENT_64 suffix_table_ p ::
      TraverseChildrenChecked ENVIRONMENT_64 suffix_table_ ps
/-- Outcome of `TraverseRecursive( p, .. )` for a pointer `p`. -/
def TraversePtrChecked (ENVIRONMENT_64 : Bool) (suffix_table_ : List Nat) :
    Ptr CArtNode → Nat → TraverseState → TraverseOutcome
  | Ptr.to n => TraverseRecursiveChecked ENVIRONMENT_64 suffix_table_ n
  | _ => fun _ st => Except.ok st
end

/-- `CAdaptiveRadixTree::Traverse( action )` with the exception of `append`: `Except.ok`
with the calls received by `action` when `Traverse` returns, `Except.error` with the calls
received until the exception when it is left by `std::out_of_range`. -/
def TraverseChecked (ENVIRONMENT_64 : Bool) (t : CAdaptiveRadixTree) :
    Except (List Call) (List Call) :=
  match t.root_ with
  | Ptr.to root =>
    (TraverseRecursiveChecked ENVIRONMENT_64 t.suffix_table_ root 0 ([], [])).map Prod.fst
  | _ => Except.ok []

/-! ## Null strings and the queries -/

/-- `CAdaptiveRadixTree::AddNullString( value )`; `null_string_count_` is a `uint32_t`. -/
def AddNullString (t : CAdaptiveRadixTree) (indexes : List Nat) (value : Nat) :
    CAdaptiveRadixTree × List Nat :=
  ({ t with null_string_ := value, null_string_count_ := u32 (t.null_string_count_ + 1) },
   indexes.set value t.null_string_)

/-- `CAdaptiveRadixTree::GetNullStringBegin`. -/
def GetNullStringBegin (t : CAdaptiveRadixTree) : CIndexIterator := ⟨t.null_string_⟩

/-- `CAdaptiveRadixTree::GetNullStringEnd`. -/
def GetNullStringEnd (t : CAdaptiveRadixTree) : CIndexIterator := ⟨LAST_INDEX_IDENTIFIER⟩

/-- `CAdaptiveRadixTree::GetNullStringCount`. -/
def GetNullStringCount (t : CAdaptiveRadixTree) : Nat := t.null_string_count_

/-- `CAdaptiveRadixTree::GetMaxStringLength`. -/
def GetMaxStringLength (t : CAdaptiveRadixTree) : Nat := t.max_string_length_

/-- `CAdaptiveRadixTree::GetUniqueStringCount`. -/
def GetUniqueStringCount (t : CAdaptiveRadixTree) : Nat :=
  if t.null_string_ = LAST_INDEX_IDENTIFIER then t.unique_string_count_
  else t.unique_string_count_ + 1

/-- `CAdaptiveRadixTree::GetIndexVectorLength`. -/
def GetIndexVectorLength (indexes : List Nat) : Nat := indexes.length

/-- `CAdaptiveRadixTree::GetTotalStringLength`. -/
def GetTotalStringLength (t : CAdaptiveRadixTree) : Nat := t.total_string_length_

/-! ## `MovePrefix` -/

/-- State threaded through the child loop of `MovePrefix`: the array `child_` of the node
being rewritten and the members of the receiving tree. -/
abbrev MoveState := List (Ptr CArtNode) × CAdaptiveRadixTree

mutual
/-- `CAdaptiveRadixTree::MovePrefix( input_node, other_suffix_table )`: the rewritten node
and the members of `this`. The recursive call on the node held by `child_[j]` is
`(MovePrefixChildren .. child_).get j`; it returns the rewritten contents of the slot. -/
def MovePrefix (ENVIRONMENT_64 : Bool) (other_suffix_table : List Nat) :
    CArtNode → CAdaptiveRadixTree → CArtNode × CAdaptiveRadixTree
  | CArtNode.Fanout4 b key_ child_, t =>
    let (b, t) := if b.prefix_length_ ≠ 0 then
        ({ b with prefix_position_ := u32 t.suffix_table_.length },
         { t with suffix_table_ :=
             appendSub t.suffix_table_ other_suffix_table b.prefix_position_ b.prefix_length_ })
      else (b, t)
    let t := if b.end_of_string_ then
        { t with unique_string_count_ := t.unique_string_count_ + 1 } else t
    let recurse := MovePrefixChildren ENVIRONMENT_64 other_suffix_table child_
    let st := (List.range b.children_count_).foldl
      (fun (st : MoveState) i =>
        let r := (recurse.getD i (fun t => (Ptr.nullptr, t))) st.2
        (st.1.set i r.1, r.2))
      (child_, t)
    (CArtNode.Fanout4 b key_ st.1, st.2)
  | CArtNode.Fanout16 b key_ child_, t =>
    let (b, t) := if b.prefix_length_ ≠ 0 then
        ({ b with prefix_position_ := u32 t.suffix_table_.length },
         { t with suffix_table_ :=
             appendSub t.suffix_table_ other_suffix_table b.prefix_position_ b.prefix_length_ })
      else (b, t)
    let t := if b.end_of_string_ then
        { t with unique_string_count_ := t.unique_string_count_ + 1 } else t
    let recurse := MovePrefixChildren ENVIRONMENT_64 other_suffix_table child_
    let st := (List.range b.children_count_).foldl
      (fun (st : MoveState) i =>
        let ch := if ENVIRONMENT_64 then FlipSign (key_.getD i 0) else key_.getD i 0
        if ch = 0 then st
        else if !(child_.getD i Ptr.nullptr).isNull then
          let r := (recurse.getD i (fun t => (Ptr.nullptr, t))) st.2
          (st.1.set i r.1, r.2)
        else st)
      (child_, t)
    (CArtNode.Fanout16 b key_ st.1, st.2)
  | CArtNode.Fanout48 b child_index_ child_, t =>
    let (b, t) := if b.prefix_length_ ≠ 0 then
        ({ b with prefix_position_ := u32 t.suffix_table_.length },
         { t with suffix_table_ :=
             appendSub t.suffix_table_ other_suffix_table b.prefix_position_ b.prefix_length_ })
      else (b, t)
    let t := if b.end_of_string_ then
        { t with unique_string_count_ := t.unique_string_count_ + 1 } else t
    let recurse := MovePrefixChildren ENVIRONMENT_64 other_suffix_table child_
    let st := if b.children_count_ ≠ 0 then
        (List.range 256).foldl
          (fun (st : MoveState) i =>
            if child_index_.getD i 0 ≠ CArtNode.EMPTY_MARKER then
              if !(child_.getD (child_index_.getD i 0) Ptr.nullptr).isNull then
                let r := (recurse.getD (child_index_.getD i 0) (fun t => (Ptr.nullptr, t))) st.2
                (st.1.set (child_index_.getD i 0) r.1, r.2)
              else st
            else st)
          (child_, t)
      else (child_, t)
    (CArtNode.Fanout48 b child_index_ st.1, st.2)
  | CArtNode.Fanout256 b child_, t =>
    let (b, t) := if b.prefix_length_ ≠ 0 then
        ({ b with prefix_position_ := u32 t.suffix_table_.length },
         { t with suffix_table_ :=
             appendSub t.suffix_table_ other_suffix_table b.prefix_position_ b.prefix_length_ })
      else (b, t)
    let t := if b.end_of_string_ then
        { t with unique_string_count_ := t.unique_string_count_ + 1 } else t
    let recurse := MovePrefixChildren ENVIRONMENT_64 other_suffix_table child_
    let st := if b.children_count_ ≠ 0 then
        (List.range 256).foldl
          (fun (st : MoveState) i =>
            if !(child_.getD i Ptr.nullptr).isEmpty then
              let r := (recurse.getD i (fun t => (Ptr.nullptr, t))) st.2
              (st.1.set i r.1, r.2)
            else st)
          (child_, t)
      else (child_, t)
    (CArtNode.Fanout256 b st.1, st.2)
/-- For every slot of `child_`, the effect of `MovePrefix( child_[j], .. )` on the node in
the slot and on the tree members (nothing when the slot holds no node). -/
def MovePrefixChildren (ENVIRONMENT_64 : Bool) (other_suffix_table : List Nat) :
    List (Ptr CArtNode) → List (CAdaptiveRadixTree → Ptr CArtNode × CAdaptiveRadixTree)
  | [] => []
  | p :: ps =>
    MovePrefixPtr ENVIRONMENT_64 other_suffix_table p ::
      MovePrefixChildren ENVIRONMENT_64 other_suffix_table ps
/-- Effect of `MovePrefix( p, .. )` for a pointer `p`. -/
def MovePrefixPtr (ENVIRONMENT_64 : Bool) (other_suffix_table : List Nat) :
    Ptr CArtNode → CAdaptiveRadixTree → Ptr CArtNode × CAdaptiveRadixTree
  | Ptr.to n, t =>
    let r := MovePrefix ENVIRONMENT_64 other_suffix_table n t
    (Ptr.to r.1, r.2)
  | Ptr.nullptr, t => (Ptr.nullptr, t)
  | Ptr.EMPTY_NODE, t => (Ptr.EMPTY_NODE, t)
end

/-! ## `Merge`, `MergeChildNodes` and `Join` -/

/-- The comparison loop at the head of `Merge`: the value of `mismatch_position` when the
loop is left. -/
def mergeMismatchLoop (suffix_table_ right_suffix_table_ : List Nat)
    (lpos llen rpos rlen : Nat) : Nat → Nat → Nat
  | 0, m => m
  | fuel + 1, m =>
    if m < llen ∧ m < rlen then
      if suffix_table_.getD (lpos + m) 0 ≠ right_suffix_table_.getD (rpos + m) 0 then m
      else mergeMismatchLoop suffix_table_ right_suffix_table_ lpos llen rpos rlen fuel (m + 1)
    else m

/-- The chain loop of `MergeChildNodes`:
`for ( ; it != end; ) { auto value = *it; ++it; InsertValue( left, *left, value ); }`,
`none` when `end` is not reached within `fuel` iterations. -/
def mergeChainLoop : Nat → CIndexIterator → CArtNode → CAdaptiveRadixTree → List Nat →
    Option (CArtNode × CAdaptiveRadixTree × List Nat)
  | 0, _, _, _, _ => none
  | fuel + 1, it, left, t, indexes =>
    if it = ⟨LAST_INDEX_IDENTIFIER⟩ then some (left, t, indexes)
    else
      let value := it.index_
      let it := it.next indexes
      let (left, t, indexes) := InsertValue t indexes left value
      mergeChainLoop fuel it left t indexes

/-- State threaded through `Merge` and `MergeChildNodes`: the node held by the slot
`left`, the members of `this`, and the row-id vector. -/
abbrev MergeState := CArtNode × CAdaptiveRadixTree × List Nat

mutual
/-- `CAdaptiveRadixTree::Merge( left, right, right_suffix_table_ )` with `*left == node_left`
and `*right == node_right`: the node held by `*left` afterwards, the pointer held by
`*right` afterwards, the members of `this` and the row-id vector. `none` when the
recursion is deeper than the first argument or a chain loop runs longer than it. -/
def Merge (ENVIRONMENT_64 : Bool) (right_suffix_table_ : List Nat) :
    Nat → CArtNode → CArtNode → CAdaptiveRadixTree → List Nat →
      Option (CArtNode × Ptr CArtNode × CAdaptiveRadixTree × List Nat)
  | 0, _, _, _, _ => none
  | fuel + 1, node_left, node_right, t, indexes =>
    let lb := node_left.base
    let rb := node_right.base
    let mismatch_position :=
      mergeMismatchLoop t.suffix_table_ right_suffix_table_ lb.prefix_position_ lb.prefix_length_
        rb.prefix_position_ rb.prefix_length_ lb.prefix_length_ 0
    if mismatch_position = lb.prefix_length_ ∧ mismatch_position = rb.prefix_length_ then
      (MergeChildNodes ENVIRONMENT_64 right_suffix_table_ fuel node_left node_right t indexes).map
        (fun (st : MergeState) => (st.1, Ptr.nullptr, st.2.1, st.2.2))
    else if mismatch_position < lb.prefix_length_ then
      let new_node := CArtNode.new4
      let (new_node, node_left, node_right) :=
        if mismatch_position ≠ 0 then
          (new_node.setBase { new_node.base with
              prefix_position_ := lb.prefix_position_, prefix_length_ := mismatch_position },
           node_left.setBase { lb with
              prefix_length_ := lb.prefix_length_ - mismatch_position,
              prefix_position_ := lb.prefix_position_ + mismatch_position },
           node_right.setBase { rb with
              prefix_length_ := rb.prefix_length_ - mismatch_position,
              prefix_position_ := rb.prefix_position_ + mismatch_position })
        else (new_node, node_left, node_right)
      let c := t.suffix_table_.getD node_left.base.prefix_position_ 0
      let node_left := node_left.setBase { node_left.base with
        prefix_length_ := node_left.base.prefix_length_ - 1,
        prefix_position_ := node_left.base.prefix_position_ + 1 }
      let (new_node, _) := InsertInNode ENVIRONMENT_64 new_node c (Ptr.to node_left)
      if node_right.base.prefix_length_ > 0 then
        let addressing_char := right_suffix_table_.getD node_right.base.prefix_position_ 0
        let node_right := node_right.setBase { node_right.base with
          prefix_length_ := node_right.base.prefix_length_ - 1,
          prefix_position_ := node_right.base.prefix_position_ + 1 }
        let (node_right, t) := MovePrefix ENVIRONMENT_64 right_suffix_table_ node_right t
        let (new_node, _) :=
          InsertInNode ENVIRONMENT_64 new_node addressing_char (Ptr.to node_right)
        some (new_node, Ptr.to node_right, t, indexes)
      else
        (MergeChildNodes ENVIRONMENT_64 right_suffix_table_ fuel new_node node_right t indexes).map
          (fun (st : MergeState) => (st.1, Ptr.nullptr, st.2.1, st.2.2))
    else if mismatch_position < rb.prefix_length_ then
      let node_right := node_right.setBase { rb with
        prefix_length_ := rb.prefix_length_ - mismatch_position,
        prefix_position_ := rb.prefix_position_ + mismatch_position }
      let addressing_char := right_suffix_table_.getD node_right.base.prefix_position_ 0
      let node_right := node_right.setBase { node_right.base with
        prefix_position_ := node_right.base.prefix_position_ + 1,
        prefix_length_ := node_right.base.prefix_length_ - 1 }
      match FindChild ENVIRONMENT_64 node_left addressing_char with
      | some slot =>
        match node_left.child_.getD slot Ptr.nullptr with
        | Ptr.to left_child =>
          (Merge ENVIRONMENT_64 right_suffix_table_ fuel left_child node_right t indexes).map
            (fun r => (node_left.setChild slot (Ptr.to r.1), r.2.1, r.2.2.1, r.2.2.2))
        | _ => some (node_left, Ptr.to node_right, t, indexes)
      | none =>
        let (node_right, t) := MovePrefix ENVIRONMENT_64 right_suffix_table_ node_right t
        let (node_left, _) :=
          InsertInNode ENVIRONMENT_64 node_left addressing_char (Ptr.to node_right)
        some (node_left, Ptr.to node_right, t, indexes)
    else some (node_left, Ptr.to node_right, t, indexes)
/-- `CAdaptiveRadixTree::MergeChildNodes( left, right, right_suffix_table_ )` with
`*left == left`: the node held by `*left` afterwards, the members of `this` and the row-id
vector. The body of the four child loops is `mergeChild` below, applied to the key byte and
the child slot of `right` that the loop has reached. -/
def MergeChildNodes (ENVIRONMENT_64 : Bool) (right_suffix_table_ : List Nat) :
    Nat → CArtNode → CArtNode → CAdaptiveRadixTree → List Nat → Option MergeState
  | 0, _, _, _, _ => none
  | fuel + 1, left, right, t, indexes =>
    let rb := right.base
    let st : Option MergeState :=
      if rb.end_of_string_ then mergeChainLoop (fuel + 1) ⟨rb.value_⟩ left t indexes
      else some (left, t, indexes)
    let mergeChild := fun (key : Nat) (child : Ptr CArtNode) (st : Option MergeState) =>
      st.bind (fun (st : MergeState) =>
        match FindChild ENVIRONMENT_64 st.1 key with
        | some slot =>
          match st.1.child_.getD slot Ptr.nullptr, child with
          | Ptr.to left_child, Ptr.to right_child =>
            (Merge ENVIRONMENT_64 right_suffix_table_ fuel left_child right_child st.2.1
                st.2.2).map
              (fun r => (st.1.setChild slot (Ptr.to r.1), r.2.2.1, r.2.2.2))
          | _, _ => some st
        | none =>
          let r := MovePrefixPtr ENVIRONMENT_64 right_suffix_table_ child st.2.1
          some ((InsertInNode ENVIRONMENT_64 st.1 key r.1).1, r.2, st.2.2))
    match right with
    | CArtNode.Fanout4 _ key_ child_ =>
      if rb.children_count_ ≠ 0 then
        (List.range rb.children_count_).foldl
          (fun st i => mergeChild (key_.getD i 0) (child_.getD i Ptr.nullptr) st) st
      else st
    | CArtNode.Fanout16 _ key_ child_ =>
      if rb.children_count_ ≠ 0 then
        (List.range rb.children_count_).foldl
          (fun st i =>
            let ch := if ENVIRONMENT_64 then FlipSign (key_.getD i 0) else key_.getD i 0
            if ch = 0 then st
            else if !(child_.getD i Ptr.nullptr).isNull then
              mergeChild ch (child_.getD i Ptr.nullptr) st
            else st) st
      else st
    | CArtNode.Fanout48 _ child_index_ child_ =>
      if rb.children_count_ ≠ 0 then
        (List.range 256).foldl
          (fun st i =>
            if child_index_.getD i 0 ≠ CArtNode.EMPTY_MARKER then
              mergeChild i (child_.getD (child_index_.getD i 0) Ptr.nullptr) st
            else st) st
      else st
    | CArtNode.Fanout256 _ child_ =>
      if rb.children_count_ ≠ 0 then
        (List.range 256).foldl
          (fun st i =>
            if !(child_.getD i Ptr.nullptr).isEmpty then
              mergeChild i (child_.getD i Ptr.nullptr) st
            else st) st
      else st
end

/-- The loop of `Join` that moves the null-string positions of `other` to `this`:
`while ( it != end ) { auto value = *it; ++it; AddNullString( value ); }`, `none` when
`end` is not reached within `fuel` iterations. -/
def joinNullLoop : Nat → CIndexIterator → CAdaptiveRadixTree → List Nat →
    Option (CAdaptiveRadixTree × List Nat)
  | 0, _, _, _ => none
  | fuel + 1, it, t, indexes =>
    if it = ⟨LAST_INDEX_IDENTIFIER⟩ then some (t, indexes)
    else
      let value := it.index_
      let it := it.next indexes
      let (t, indexes) := AddNullString t indexes value
      joinNullLoop fuel it t indexes

/-- `this->Join( other )` for two trees on one row-id vector: `this`, `other` and the vector
afterwards; `none` when a loop or the recursion of `Merge` needs more than `fuel` steps.
(`Merge` dereferences both roots; with a null root the source has no defined behaviour and
the model leaves the trees as they are.) -/
def Join (ENVIRONMENT_64 : Bool) (fuel : Nat) (this other : CAdaptiveRadixTree)
    (indexes : List Nat) : Option (CAdaptiveRadixTree × CAdaptiveRadixTree × List Nat) :=
  (joinNullLoop fuel (GetNullStringBegin other) this indexes).bind (fun s =>
    let this := s.1
    let indexes := s.2
    let merged : Option (CAdaptiveRadixTree × CAdaptiveRadixTree × List Nat) :=
      match this.root_, other.root_ with
      | Ptr.to l, Ptr.to r =>
        (Merge ENVIRONMENT_64 other.suffix_table_ fuel l r this indexes).map (fun m =>
          ({ m.2.2.1 with root_ := Ptr.to m.1 }, { other with root_ := m.2.1 }, m.2.2.2))
      | _, _ => some (this, other, indexes)
    merged.map (fun m =>
      ({ m.1 with
          total_string_length_ :=
            sizeT ENVIRONMENT_64 (m.1.total_string_length_ + GetTotalStringLength m.2.1),
          max_string_length_ := max m.1.max_string_length_ (GetMaxStringLength m.2.1) },
        m.2.1, m.2.2)))
/-! ## `Reset`, `Split` and `TraverseIndexes` -/

/-- `CAdaptiveRadixTree::Reset()`: the members of the tree afterwards. The nodes are
deleted and a new `CArtNode256` becomes the root; the assignments are to `null_string_`,
`null_string_count_`, `unique_string_count_` and `suffix_table_`. The row-id vector is not
touched. -/
def Reset (t : CAdaptiveRadixTree) : CAdaptiveRadixTree :=
  { t with root_ := Ptr.to CArtNode.new256, null_string_ := LAST_INDEX_IDENTIFIER,
           null_string_count_ := 0, unique_string_count_ := 0, suffix_table_ := [] }

/-- An object of `class CAdaptiveRadixTree` together with its member `indexes_`: the
`shared_ptr` is the position of the row-id vector in the store of all row-id vectors. -/
structure TreeObject where
  members : CAdaptiveRadixTree
  indexes_ : Nat

/-- The vector that the handle `indexes_` of `o` refers to in the store `heap`. -/
def TreeObject.indexes (heap : List (List Nat)) (o : TreeObject) : List Nat :=
  heap.getD o.indexes_ []

/-- `CAdaptiveRadixTree::Split()`: the object `this` afterwards and the returned tree,
`std::make_unique<CAdaptiveRadixTree>( this->indexes_ )`. -/
def Split (this : TreeObject) : TreeObject × TreeObject :=
  (this, { members := CAdaptiveRadixTree.newShared, indexes_ := this.indexes_ })

/-- `AddEntry` called on the object `o`: the object and the store afterwards. -/
def AddEntryOn (ENVIRONMENT_64 : Bool) (heap : List (List Nat)) (o : TreeObject)
    (key : List Nat) (value : Nat) : TreeObject × List (List Nat) :=
  ({ o with members := (AddEntry ENVIRONMENT_64 o.members (o.indexes heap) key value).1 },
   heap.set o.indexes_ (AddEntry ENVIRONMENT_64 o.members (o.indexes heap) key value).2)

/-- `AddNullString` called on the object `o`: the object and the store afterwards. -/
def AddNullStringOn (heap : List (List Nat)) (o : TreeObject) (value : Nat) :
    TreeObject × List (List Nat) :=
  ({ o with members := (AddNullString o.members (o.indexes heap) value).1 },
   heap.set o.indexes_ (AddNullString o.members (o.indexes heap) value).2)

/-- A call `HandleTuple( begin, end )` received by a `CIndexActionBase` visitor. -/
abbrev IndexCall := CIndexIterator × CIndexIterator

mutual
/-- `CAdaptiveRadixTree::TraverseIndexRecursive( iNode, action )`: appends the calls made
on `action`. The recursive call on the node held by `child_[j]` is
`(TraverseIndexChildren .. child_).get j`. -/
def TraverseIndexRecursive (ENVIRONMENT_64 : Bool) : CArtNode → List IndexCall → List IndexCall
  | CArtNode.Fanout4 b key_ child_, calls =>
    let calls := if b.end_of_string_ then
        calls ++ [(⟨b.value_⟩, ⟨LAST_INDEX_IDENTIFIER⟩)]
      else calls
    let recurse := TraverseIndexChildren ENVIRONMENT_64 child_
    (List.range b.children_count_).foldl
      (fun (st : List IndexCall) i => (recurse.getD i (fun st => st)) st)
      calls
  | CArtNode.Fanout16 b key_ child_, calls =>
    let calls := if b.end_of_string_ then
        calls ++ [(⟨b.value_⟩, ⟨LAST_INDEX_IDENTIFIER⟩)]
      else calls
    let recurse := TraverseIndexChildren ENVIRONMENT_64 child_
    (List.range b.children_count_).foldl
      (fun (st : List IndexCall) i =>
        let ch := if ENVIRONMENT_64 then FlipSign (key_.getD i 0) else key_.getD i 0
        if ch = 0 then st
        else if !(child_.getD i Ptr.nullptr).isNull then (recurse.getD i (fun st => st)) st
        else st)
      calls
  | CArtNode.Fanout48 b child_index_ child_, calls =>
    let calls := if b.end_of_string_ then
        calls ++ [(⟨b.value_⟩, ⟨LAST_INDEX_IDENTIFIER⟩)]
      else calls
    let recurse := TraverseIndexChildren ENVIRONMENT_64 child_
    if b.children_count_ ≠ 0 then
      (List.range 256).foldl
        (fun (st : List IndexCall) i =>
          if child_index_.getD i 0 ≠ CArtNode.EMPTY_MARKER then
            if !(child_.getD (child_index_.getD i 0) Ptr.nullptr).isNull then
              (recurse.getD (child_index_.getD i 0) (fun st => st)) st
            else st
          else st)
        calls
    else calls
  | CArtNode.Fanout256 b child_, calls =>
    let calls := if b.end_of_string_ then
        calls ++ [(⟨b.value_⟩, ⟨LAST_INDEX_IDENTIFIER⟩)]
      else calls
    let recurse := TraverseIndexChildren ENVIRONMENT_64 child_
    if b.children_count_ ≠ 0 then
      (List.range 256).foldl
        (fun (st : List IndexCall) i =>
          if !(child_.getD i Ptr.nullptr).isEmpty then (recurse.getD i (fun st => st)) st
          else st)
        calls
    else calls
/-- For every slot of `child_`, the effect of `TraverseIndexRecursive( child_[j], .. )`
(nothing when the slot holds no node). -/
def TraverseIndexChildren (ENVIRONMENT_64 : Bool) :
    List (Ptr CArtNode) → List (List IndexCall → List IndexCall)
  | [] => []
  | p :: ps =>
    TraverseIndexPtr ENVIRONMENT_64 p :: TraverseIndexChildren ENVIRONMENT_64 ps
/-- Effect of `TraverseIndexRecursive( p, .. )` for a pointer `p`. -/
def TraverseIndexPtr (ENVIRONMENT_64 : Bool) : Ptr CArtNode → List IndexCall → List IndexCall
  | Ptr.to n => TraverseIndexRecursive ENVIRONMENT_64 n
  | _ => fun st => st
end

/-- `CAdaptiveRadixTree::TraverseIndexes( action )`: the calls received by `action`. -/
def TraverseIndexes (ENVIRONMENT_64 : Bool) (t : CAdaptiveRadixTree) : List IndexCall :=
  match t.root_ with
  | Ptr.to root => TraverseIndexRecursive ENVIRONMENT_64 root []
  | _ => []

/-- The enumeration `CArtNode::Type`. -/
inductive NodeType where
  | Fanout4 : NodeType
  | Fanout16 : NodeType
  | Fanout48 : NodeType
  | Fanout256 : NodeType
deriving DecidableEq, Repr

/-- The member `node_type_`. -/
def CArtNode.node_type_ : CArtNode → NodeType
  | CArtNode.Fanout4 _ _ _ => NodeType.Fanout4
  | CArtNode.Fanout16 _ _ _ => NodeType.Fanout16
  | CArtNode.Fanout48 _ _ _ => NodeType.Fanout48
  | CArtNode.Fanout256 _ _ => NodeType.Fanout256

/-- `CIndexIterator::operator*`. -/
def CIndexIterator.deref (it : CIndexIterator) : Nat := it.index_

/-! ## Specification-level view of one node

The definitions from here to the theorems are not translations of source functions: they
name the notions the properties are stated with (the children a node holds, well-formed
nodes and trees, the keys a subtree stores, the reference map of a sequence of calls). -/

/-- The key byte that a `CArtNode16` key cell stands for (`FlipSign` is undone when the
keys are stored flipped). -/
def storedByte (ENVIRONMENT_64 : Bool) (x : Nat) : Nat := if ENVIRONMENT_64 then FlipSign x else x

/-- The children of a node as pairs of key byte and index of the slot in `child_`, in the
order in which the child loops of the source reach them (the loops of `Fanout16`
additionally skip the pairs whose byte is `0`, see `tslots`). -/
def CArtNode.slots (ENVIRONMENT_64 : Bool) : CArtNode → List (Nat × Nat)
  | CArtNode.Fanout4 b key_ _ => (List.range b.children_count_).map (fun i => (key_.getD i 0, i))
  | CArtNode.Fanout16 b key_ _ =>
    (List.range b.children_count_).map (fun i => (storedByte ENVIRONMENT_64 (key_.getD i 0), i))
  | CArtNode.Fanout48 _ child_index_ _ =>
    ((List.range 256).filter (fun i => child_index_.getD i 0 ≠ CArtNode.EMPTY_MARKER)).map
      (fun i => (i, child_index_.getD i 0))
  | CArtNode.Fanout256 _ child_ =>
    ((List.range 256).filter (fun i => !(child_.getD i Ptr.nullptr).isEmpty)).map (fun i => (i, i))

/-- The children of a node as pairs of key byte and pointer. -/
def CArtNode.kids (ENVIRONMENT_64 : Bool) (n : CArtNode) : List (Nat × Ptr CArtNode) :=
  (n.slots ENVIRONMENT_64).map (fun p => (p.1, n.child_.getD p.2 Ptr.nullptr))

/-- The pairs of `slots` that the child loops of `TraverseRecursive` visit: on a
`CArtNode16` the loop skips a child whose key byte is `0`. -/
def CArtNode.tslots (ENVIRONMENT_64 : Bool) : CArtNode → List (Nat × Nat)
  | CArtNode.Fanout16 b key_ child_ =>
    ((CArtNode.Fanout16 b key_ child_).slots ENVIRONMENT_64).filter (fun p => p.1 ≠ 0)
  | n => n.slots ENVIRONMENT_64

/-- Well-formedness of the arrays of one node. -/
def NodeOK (ENVIRONMENT_64 : Bool) : CArtNode → Prop
  | CArtNode.Fanout4 b key_ child_ =>
    key_.length = 4 ∧ child_.length = 4 ∧ b.children_count_ ≤ 4 ∧
    (∀ i j, i < j → j < b.children_count_ → key_.getD i 0 < key_.getD j 0) ∧
    (∀ i, i < b.children_count_ → key_.getD i 0 < 256) ∧
    (∀ i, i < b.children_count_ → ∃ ch, child_.getD i Ptr.nullptr = Ptr.to ch)
  | CArtNode.Fanout16 b key_ child_ =>
    key_.length = 16 ∧ child_.length = 16 ∧ b.children_count_ ≤ 16 ∧
    (∀ i j, i < j → j < b.children_count_ →
      storedByte ENVIRONMENT_64 (key_.getD i 0) < storedByte ENVIRONMENT_64 (key_.getD j 0)) ∧
    (∀ i, i < b.children_count_ → key_.getD i 0 < 256) ∧
    (∀ i, i < b.children_count_ → ∃ ch, child_.getD i Ptr.nullptr = Ptr.to ch)
  | CArtNode.Fanout48 b child_index_ child_ =>
    child_index_.length = 256 ∧ child_.length = 48 ∧ b.children_count_ ≤ 48 ∧
    (∀ i, i < 256 → child_index_.getD i 0 ≠ 48 →
      child_index_.getD i 0 < b.children_count_ ∧
      ∃ ch, child_.getD (child_index_.getD i 0) Ptr.nullptr = Ptr.to ch) ∧
    (∀ i j, i < 256 → j < 256 → child_index_.getD i 0 ≠ 48 →
      child_index_.getD i 0 = child_index_.getD j 0 → i = j) ∧
    (∀ s, b.children_count_ ≤ s → child_.getD s Ptr.nullptr = Ptr.nullptr)
  | CArtNode.Fanout256 b child_ =>
    child_.length = 256 ∧
    (∀ i, i < 256 → child_.getD i Ptr.nullptr = Ptr.EMPTY_NODE ∨
      ∃ ch, child_.getD i Ptr.nullptr = Ptr.to ch) ∧
    (b.children_count_ = 0 → ∀ i, i < 256 → child_.getD i Ptr.nullptr = Ptr.EMPTY_NODE)

/-- What `InsertInNode( slot, c, p )` has to achieve on the node `n` held by the slot, for
the result `r` (new node of the slot, index of the returned child slot). -/
def InsertSpec (ENVIRONMENT_64 : Bool) (n : CArtNode) (c : Nat) (p : Ptr CArtNode)
    (r : CArtNode × Nat) : Prop :=
  NodeOK ENVIRONMENT_64 r.1 ∧ (c, r.2) ∈ r.1.slots ENVIRONMENT_64 ∧
  r.1.child_.getD r.2 Ptr.nullptr = p ∧
  (∀ c' q, (c', q) ∈ r.1.kids ENVIRONMENT_64 ↔ (c' = c ∧ q = p) ∨ (c', q) ∈ n.kids ENVIRONMENT_64) ∧
  r.1.base = { n.base with children_count_ := n.base.children_count_ + 1 }

/-! ## Specification-level view of a subtree -/

/-- The compressed prefix of a node: the bytes
`suffix_table_[prefix_position_ .. prefix_position_ + prefix_length_)`. -/
def CArtNode.pfx (suffix_table_ : List Nat) (n : CArtNode) : List Nat :=
  (suffix_table_.drop n.base.prefix_position_).take n.base.prefix_length_

/-- Well-formed subtree over the suffix table `S`: every node is well-formed, its prefix
lies inside `S`, a node that is not an end of string carries `LAST_INDEX_IDENTIFIER`, and
all prefix bytes and key bytes of children satisfy `P`. -/
inductive TreeOK (ENVIRONMENT_64 : Bool) (P : Nat → Prop) (S : List Nat) : CArtNode → Prop where
  | mk (n : CArtNode) (hnode : NodeOK ENVIRONMENT_64 n)
      (hbound : n.base.prefix_position_ + n.base.prefix_length_ ≤ S.length)
      (hval : n.base.end_of_string_ = false → n.base.value_ = LAST_INDEX_IDENTIFIER)
      (hpfx : ∀ x, x ∈ n.pfx S → P x)
      (hbyte : ∀ c p, (c, p) ∈ n.kids ENVIRONMENT_64 → P c)
      (hkids : ∀ c ch, (c, Ptr.to ch) ∈ n.kids ENVIRONMENT_64 → TreeOK ENVIRONMENT_64 P S ch) :
      TreeOK ENVIRONMENT_64 P S n

/-- `Holds e S n k v`: the subtree `n` stores the key whose bytes below the slot of `n` are
`k` (the prefix of `n`, then alternately a child byte and the prefix of that child), at a
node that is an end of string and whose `value_` is `v`. -/
inductive Holds (ENVIRONMENT_64 : Bool) (S : List Nat) : CArtNode → List Nat → Nat → Prop where
  | here (n : CArtNode) (heos : n.base.end_of_string_ = true) :
      Holds ENVIRONMENT_64 S n (n.pfx S) n.base.value_
  | under (n : CArtNode) (c : Nat) (ch : CArtNode) (k : List Nat) (v : Nat)
      (hkid : (c, Ptr.to ch) ∈ n.kids ENVIRONMENT_64) (hch : Holds ENVIRONMENT_64 S ch k v) :
      Holds ENVIRONMENT_64 S n (n.pfx S ++ c :: k) v

/-- What one run of the loop of `AddEntry` from a slot holding `n`, at offset `depth` of
`key`, has to achieve for its result `r` (node of the slot, tree members, row-id vector):
the bytes `ext` appended to the suffix table are a suffix of the key, the subtree stores the
rest of the key with head `value` next to what it stored before, the cell `value` of the
row-id vector receives the previous head `old` of that key (`LAST_INDEX_IDENTIFIER` for a
new key), and `unique_string_count_` grows by `u = 1` exactly for a new key. -/
def AddSpec (ENVIRONMENT_64 : Bool) (P : Nat → Prop) (key : List Nat) (value depth : Nat)
    (n : CArtNode) (t : CAdaptiveRadixTree) (indexes : List Nat)
    (r : CArtNode × CAdaptiveRadixTree × List Nat) : Prop :=
  ∃ ext old u,
    r.2.1 = { t with suffix_table_ := t.suffix_table_ ++ ext,
                     unique_string_count_ := t.unique_string_count_ + u } ∧
    r.2.2 = indexes.set value old ∧
    TreeOK ENVIRONMENT_64 P (t.suffix_table_ ++ ext) r.1 ∧
    (∀ k v, Holds ENVIRONMENT_64 (t.suffix_table_ ++ ext) r.1 k v ↔
      (k = key.drop depth ∧ v = value) ∨
      (k ≠ key.drop depth ∧ Holds ENVIRONMENT_64 t.suffix_table_ n k v)) ∧
    ((Holds ENVIRONMENT_64 t.suffix_table_ n (key.drop depth) old ∧ u = 0 ∧ ext = []) ∨
     ((∀ v, ¬ Holds ENVIRONMENT_64 t.suffix_table_ n (key.drop depth) v) ∧
       old = LAST_INDEX_IDENTIFIER ∧ u = 1)) ∧
    (∃ j, depth < j ∧ ext = key.drop j) ∧
    (n.pfx t.suffix_table_ = key.drop depth → ext = [])

/-- The value of `mismatch_position` that the loop of `AddEntry` computes at the node `n`
for the key offset `depth`. -/
def mismatchAt (key S : List Nat) (depth : Nat) (n : CArtNode) : Nat :=
  mismatchLoop key S depth n.base.prefix_position_ n.base.prefix_length_ n.base.prefix_length_ 0

/-- The new `CArtNode4` of a prefix split at `mismatch_position = m`, before the two
children are inserted: it has taken over the first `m` bytes of the prefix of `n`. -/
def splitParent (n : CArtNode) (m : Nat) : CArtNode :=
  if m ≠ 0 then
    CArtNode.new4.setBase { CArtNodeBase.init with
      prefix_position_ := n.base.prefix_position_, prefix_length_ := m }
  else CArtNode.new4

/-- The old node of a prefix split at `mismatch_position = m`: its prefix has lost the
first `m` bytes and the byte under which it becomes a child. -/
def splitChild (n : CArtNode) (m : Nat) : CArtNode :=
  n.setBase { n.base with
    prefix_length_ := n.base.prefix_length_ - m - 1,
    prefix_position_ := n.base.prefix_position_ + m + 1 }

/-- The new `CArtNode4` that `AddEntry` creates for the rest `key[key_offset ..]` of a key,
for a suffix table `S` (before the append) that is shorter than `2^32`. -/
def newLeaf (key S : List Nat) (key_offset : Nat) : CArtNode :=
  CArtNode.new4.setBase { CArtNodeBase.init with
    prefix_length_ := key.length - key_offset,
    prefix_position_ := if key.length - key_offset ≠ 0 then S.length else 0 }

/-- The part of the loop of `AddEntry` that two of its branches share: create the leaf
for `key[key_offset ..]`, insert it into `N` under the byte `y`, and run the next
iteration on the slot returned by `InsertInNode`. -/
def attachLeaf (ENVIRONMENT_64 : Bool) (key : List Nat) (value fuel key_offset : Nat)
    (N : CArtNode) (y : Nat) (t : CAdaptiveRadixTree) (indexes : List Nat) :
    CArtNode × CAdaptiveRadixTree × List Nat :=
  let t1 := { t with suffix_table_ := t.suffix_table_ ++ key.drop key_offset }
  let r := InsertInNode ENVIRONMENT_64 N y (Ptr.to (newLeaf key t.suffix_table_ key_offset))
  match r.1.child_.getD r.2 Ptr.nullptr with
  | Ptr.to child =>
    let r' := AddEntryLoop ENVIRONMENT_64 key value fuel key_offset child t1 indexes
    (r.1.setChild r.2 (Ptr.to r'.1), r'.2.1, r'.2.2)
  | _ => (r.1, t1, indexes)

/-! ## Specification-level view of the traversal and of the row-id chains -/

/-- Unsigned byte-wise lexicographic order on keys, strict: a key comes before every key
that extends it. -/
def keyLt : List Nat → List Nat → Prop
  | _, [] => False
  | [], _ :: _ => True
  | a :: as, b :: bs => a < b ∨ (a = b ∧ keyLt as bs)

/-- The body of the child loops of `TraverseRecursive` for the child under key byte `p.1`
in slot `p.2`: `key.push_back`, the recursive call, `key.resize( level )`. -/
def travStep (recurse : List (Nat → TraverseState → TraverseState)) (level : Nat)
    (st : TraverseState) (p : Nat × Nat) : TraverseState :=
  ((recurse.getD p.2 (fun _ st => st) (level + 1) (st.1, st.2 ++ [p.1])).1,
   resize (recurse.getD p.2 (fun _ st => st) (level + 1) (st.1, st.2 ++ [p.1])).2 level)

/-- The state of `TraverseRecursive` when it reaches the `switch`: `HandleNode` has been
called, the prefix appended, and `HandleTuple` called on an end of string. -/
def travHead (S : List Nat) (n : CArtNode) (level : Nat) (st : TraverseState) : TraverseState :=
  let calls := st.1 ++ [Call.HandleNode n st.2 level]
  let key := if n.base.prefix_length_ ≠ 0 then
      appendSub st.2 S n.base.prefix_position_ n.base.prefix_length_ else st.2
  (if n.base.end_of_string_ then
      calls ++ [Call.HandleTuple key ⟨n.base.value_⟩ ⟨LAST_INDEX_IDENTIFIER⟩]
    else calls, key)

/-- The value of `level` when `TraverseRecursive` reaches the `switch`. -/
def travLevel (n : CArtNode) (level : Nat) : Nat :=
  if n.base.prefix_length_ ≠ 0 then level + n.base.prefix_length_ else level
/-! ## Sequences of calls, row-id chains and the reference map -/

/-- A caller that makes the calls `AddEntry( key, key_length, value )` for the pairs of `es`,
in order, on the tree and row-id vector `st`. -/
def AddEntries (ENVIRONMENT_64 : Bool) (st : CAdaptiveRadixTree × List Nat)
    (es : List (List Nat × Nat)) : CAdaptiveRadixTree × List Nat :=
  es.foldl (fun st p => AddEntry ENVIRONMENT_64 st.1 st.2 p.1 p.2) st

/-- One call of a caller that fills a tree. -/
inductive Op where
  | AddEntry (key : List Nat) (value : Nat) : Op
  | AddNullString (value : Nat) : Op
deriving DecidableEq, Repr

/-- The row id passed by a call. -/
def Op.value : Op → Nat
  | Op.AddEntry _ value => value
  | Op.AddNullString value => value

/-- The effect of one call on the tree and the row-id vector. -/
def applyOp (ENVIRONMENT_64 : Bool) (st : CAdaptiveRadixTree × List Nat) :
    Op → CAdaptiveRadixTree × List Nat
  | Op.AddEntry key value => AddEntry ENVIRONMENT_64 st.1 st.2 key value
  | Op.AddNullString value => AddNullString st.1 st.2 value

/-- A caller that makes the calls of `ops`, in order. -/
def run (ENVIRONMENT_64 : Bool) (st : CAdaptiveRadixTree × List Nat) (ops : List Op) :
    CAdaptiveRadixTree × List Nat :=
  ops.foldl (applyOp ENVIRONMENT_64) st

/-- The `(key, row id)` pairs of the `AddEntry` calls of `ops`, in order. -/
def entriesOf : List Op → List (List Nat × Nat)
  | [] => []
  | Op.AddEntry key value :: ops => (key, value) :: entriesOf ops
  | Op.AddNullString _ :: ops => entriesOf ops

/-- The row ids of the `AddNullString` calls of `ops`, in order. -/
def nullsOf : List Op → List Nat
  | [] => []
  | Op.AddEntry _ _ :: ops => nullsOf ops
  | Op.AddNullString value :: ops => value :: nullsOf ops

/-- The row ids inserted with the key `k`, in insertion order. -/
def idsOf (es : List (List Nat × Nat)) (k : List Nat) : List Nat :=
  (es.filter (fun p => p.1 = k)).map Prod.snd

/-- The keys of the entries `es`. -/
def keysOf (es : List (List Nat × Nat)) : List (List Nat) := es.map Prod.fst

/-- The sum of the key lengths of the entries `es`. -/
def totalLength (es : List (List Nat × Nat)) : Nat := (es.map (fun p => p.1.length)).sum

/-- The largest key length of the entries `es` (`0` when there are none). -/
def maxLength (es : List (List Nat × Nat)) : Nat := (es.map (fun p => p.1.length)).foldr max 0

/-- `Chain I h l`: following the links of the row-id vector `I` from the head `h` visits
exactly the row ids `l`, in this order, and then reaches `LAST_INDEX_IDENTIFIER`. -/
def Chain (I : List Nat) : Nat → List Nat → Prop
  | h, [] => h = LAST_INDEX_IDENTIFIER
  | h, x :: xs => h = x ∧ x ≠ LAST_INDEX_IDENTIFIER ∧ Chain I (I.getD x 0) xs

/-- The row ids that a consumer reads from the chain that starts at `head`, iterating
`CIndexIterator( indexes, head )` up to `CIndexIterator( indexes, LAST_INDEX_IDENTIFIER )`
with at most `fuel` comparisons. -/
def chainFrom (indexes : List Nat) (fuel head : Nat) : Option (List Nat) :=
  CIndexIterator.collect indexes fuel ⟨head⟩ ⟨LAST_INDEX_IDENTIFIER⟩

/-- The head row id of the terminal node for the key `k` in the subtree `n`, found by the
descent that `AddEntry` makes (compare the prefix, then `FindChild` on the next byte);
`none` when the key is not stored. The first argument bounds the number of nodes visited. -/
def findTerminal (ENVIRONMENT_64 : Bool) (S : List Nat) : Nat → CArtNode → List Nat → Option Nat
  | 0, _, _ => none
  | fuel + 1, n, k =>
    if k.take n.base.prefix_length_ = n.pfx S then
      match k.drop n.base.prefix_length_ with
      | [] => if n.base.end_of_string_ then some n.base.value_ else none
      | c :: r =>
        match FindChild ENVIRONMENT_64 n c with
        | some slot =>
          match n.child_.getD slot Ptr.nullptr with
          | Ptr.to ch => findTerminal ENVIRONMENT_64 S fuel ch r
          | _ => none
        | none => none
    else none

/-- The head row id of the terminal node for the key `k` in the tree `t`. -/
def terminalOf (ENVIRONMENT_64 : Bool) (t : CAdaptiveRadixTree) (k : List Nat) : Option Nat :=
  match t.root_ with
  | Ptr.to root => findTerminal ENVIRONMENT_64 t.suffix_table_ (k.length + 1) root k
  | _ => none

/-- What a sequence of calls on a fresh tree establishes, for the tree members `t` and the
row-id vector `I`: the tree is well-formed, it stores exactly the keys of the `AddEntry`
calls, the chain of every key lists the row ids of the key, most recent first, the null
chain lists the row ids of the `AddNullString` calls, most recent first, and the counters
have the values of the reference. -/
def Built (ENVIRONMENT_64 : Bool) (P : Nat → Prop) (ops : List Op) (t : CAdaptiveRadixTree)
    (I : List Nat) : Prop :=
  ∃ root, t.root_ = Ptr.to root ∧ TreeOK ENVIRONMENT_64 P t.suffix_table_ root ∧
    (∀ k v, Holds ENVIRONMENT_64 t.suffix_table_ root k v →
      idsOf (entriesOf ops) k ≠ [] ∧ Chain I v (idsOf (entriesOf ops) k).reverse) ∧
    (∀ k, idsOf (entriesOf ops) k ≠ [] → ∃ v, Holds ENVIRONMENT_64 t.suffix_table_ root k v) ∧
    Chain I t.null_string_ (nullsOf ops).reverse ∧
    t.null_string_count_ = (nullsOf ops).length ∧
    t.unique_string_count_ = (keysOf (entriesOf ops)).dedup.length ∧
    t.total_string_length_ = totalLength (entriesOf ops) ∧
    t.max_string_length_ = maxLength (entriesOf ops) ∧
    t.suffix_table_.length ≤ t.total_string_length_

/-! ## The visitor of the test `TraverseCheck` -/

/-- The counters of the class `CTraverser` of the test `TraverseCheck`. -/
structure CTraverser where
  total_char_count : Nat
  unique_string_count : Nat
  index_count : Nat
deriving DecidableEq, Repr

/-- `CTraverser::HandleTuple( str, begin, end )` on the row-id vector `indexes`;
`std::distance( begin, end )` counts the increments from `begin` to `end`, and the result is
`none` when `end` is not reached within `fuel` comparisons. -/
def CTraverser.HandleTuple (indexes : List Nat) (fuel : Nat) (tr : CTraverser) (str : List Nat)
    (begin_ end_ : CIndexIterator) : Option CTraverser :=
  (CIndexIterator.collect indexes fuel begin_ end_).map (fun chain =>
    { unique_string_count := tr.unique_string_count + 1,
      index_count := tr.index_count + chain.length,
      total_char_count := tr.total_char_count + str.length * chain.length })

/-- The visitor `CTraverser` after it has received the calls `calls` (`HandleNode` does
nothing). -/
def CTraverser.visit (indexes : List Nat) (fuel : Nat) : List Call → CTraverser → Option CTraverser
  | [], tr => some tr
  | Call.HandleNode _ _ _ :: cs, tr => CTraverser.visit indexes fuel cs tr
  | Call.HandleTuple str begin_ end_ :: cs, tr =>
    (CTraverser.HandleTuple indexes fuel tr str begin_ end_).bind
      (CTraverser.visit indexes fuel cs)

/-- `values_[str].push_back( i )` of the test fixture; the `std::map` is kept as a list of
pairs with distinct keys (the order of the pairs plays no part in the test). -/
def mapPush : List (List Nat × List Nat) → List Nat → Nat → List (List Nat × List Nat)
  | [], str, i => [(str, [i])]
  | (k, vs) :: m, str, i =>
    if k = str then (k, vs ++ [i]) :: m else (k, vs) :: mapPush m str i

/-- The reference map `values_` of the test fixture after the strings `strs` have been
generated and inserted with the row ids `0, 1, 2, ..` (the loop variable `i`). -/
def values_ (strs : List (List Nat)) : List (List Nat × List Nat) :=
  (strs.zip (List.range strs.length)).foldl (fun m p => mapPush m p.1 p.2) []

/-- The fixture of the test: the tree constructed with `string_count` row ids and filled
with the strings `strs`, the `i`-th with row id `i`. -/
def fixture (ENVIRONMENT_64 : Bool) (strs : List (List Nat)) : CAdaptiveRadixTree × List Nat :=
  AddEntries ENVIRONMENT_64 (CAdaptiveRadixTree.new strs.length) (strs.zip (List.range strs.length))

/-- The member `alphabet_` of the test fixture, as byte values. -/
def alphabet_ : List Nat :=
  (List.range 26).map (fun i => 97 + i) ++ (List.range 26).map (fun i => 65 + i) ++
    (List.range 10).map (fun i => 48 + i)
/-- Two trees on one row-id vector of `n` cells (each made by the constructor that takes
the shared vector): the first filled by the calls `opsA`, then the second by the calls
`opsB`. The result is the first tree, the second tree and the vector. -/
def buildPair (ENVIRONMENT_64 : Bool) (n : Nat) (opsA opsB : List Op) :
    CAdaptiveRadixTree × CAdaptiveRadixTree × List Nat :=
  let a := run ENVIRONMENT_64 (CAdaptiveRadixTree.newShared, List.replicate n 0) opsA
  let b := run ENVIRONMENT_64 (CAdaptiveRadixTree.newShared, a.2) opsB
  (a.1, b.1, b.2)

/-- The trees of `buildPair` after `A.Join( B )`. -/
def joinPair (ENVIRONMENT_64 : Bool) (fuel n : Nat) (opsA opsB : List Op) :
    Option (CAdaptiveRadixTree × CAdaptiveRadixTree × List Nat) :=
  Join ENVIRONMENT_64 fuel (buildPair ENVIRONMENT_64 n opsA opsB).1
    (buildPair ENVIRONMENT_64 n opsA opsB).2.1 (buildPair ENVIRONMENT_64 n opsA opsB).2.2

/-- The first tree of `buildPair` after the entries of the second have instead been
inserted into it one by one with `AddEntry`. -/
def insertPair (ENVIRONMENT_64 : Bool) (n : Nat) (opsA opsB : List Op) :
    CAdaptiveRadixTree × List Nat :=
  AddEntries ENVIRONMENT_64
    (run ENVIRONMENT_64 (CAdaptiveRadixTree.newShared, List.replicate n 0) opsA)
    (entriesOf opsB)

/-- The keys passed to `HandleTuple` by `Traverse`, each with the row ids of its chain
(`none` for a chain that does not end within `fuel` steps). -/
def traversalOf (ENVIRONMENT_64 : Bool) (fuel : Nat) (t : CAdaptiveRadixTree) (indexes : List Nat) :
    List (List Nat × Option (List Nat)) :=
  (tuplesOf (Traverse ENVIRONMENT_64 t)).map (fun p => (p.1, chainFrom indexes fuel p.2))

/-- The entries with the keys `[97, lo], [97, lo + 1], ..` and the row ids `id, id + 1, ..`. -/
def entriesA (lo id count : Nat) : List Op :=
  (List.range count).map (fun i => Op.AddEntry [97, lo + i] (id + i))

/-- Every `HandleTuple` call of `calls` carries the end iterator
`CIndexIterator( indexes, LAST_INDEX_IDENTIFIER )`. -/
def EndsOK (calls : List Call) : Prop :=
  ∀ k b e, Call.HandleTuple k b e ∈ calls → e = ⟨LAST_INDEX_IDENTIFIER⟩
/-! ## Specification-level view of `Join` -/

/-- The tree members `t'` differ from `t` at most by bytes appended to the suffix table
and by a larger `unique_string_count_`. -/
def TreeExt (t t' : CAdaptiveRadixTree) : Prop :=
  ∃ ext u, t' = { t with suffix_table_ := t.suffix_table_ ++ ext,
                         unique_string_count_ := t.unique_string_count_ + u }

/-- The state of `MergeChildNodes` when it reaches the `switch`: the chain of `right` has
been moved to `left`. -/
def mergeHead (fuel : Nat) (left right : CArtNode) (t : CAdaptiveRadixTree) (indexes : List Nat) :
    Option MergeState :=
  if right.base.end_of_string_ then mergeChainLoop (fuel + 1) ⟨right.base.value_⟩ left t indexes
  else some (left, t, indexes)

/-- The body of the child loops of `MergeChildNodes` for the child `child` of `right` under
the key byte `key`: merge it with the child of `left` under that byte, or move it there. -/
def mergeChild (ENVIRONMENT_64 : Bool) (right_suffix_table_ : List Nat) (fuel : Nat)
    (right_child_ : List (Ptr CArtNode)) (st : Option MergeState) (p : Nat × Nat) :
    Option MergeState :=
  st.bind (fun (st : MergeState) =>
    match FindChild ENVIRONMENT_64 st.1 p.1 with
    | some slot =>
      match st.1.child_.getD slot Ptr.nullptr, right_child_.getD p.2 Ptr.nullptr with
      | Ptr.to left_child, Ptr.to right_child =>
        (Merge ENVIRONMENT_64 right_suffix_table_ fuel left_child right_child st.2.1
            st.2.2).map
          (fun r => (st.1.setChild slot (Ptr.to r.1), r.2.2.1, r.2.2.2))
      | _, _ => some st
    | none =>
      let r := MovePrefixPtr ENVIRONMENT_64 right_suffix_table_
        (right_child_.getD p.2 Ptr.nullptr) st.2.1
      some ((InsertInNode ENVIRONMENT_64 st.1 p.1 r.1).1, r.2, st.2.2))

mutual
/-- A bound on the depth of the recursion of `Merge` on the donor subtree `n`: every level
of the subtree counts its prefix length and two calls. -/
def CArtNode.height : CArtNode → Nat
  | CArtNode.Fanout4 b _ child_ => b.prefix_length_ + 2 + heightList child_
  | CArtNode.Fanout16 b _ child_ => b.prefix_length_ + 2 + heightList child_
  | CArtNode.Fanout48 b _ child_ => b.prefix_length_ + 2 + heightList child_
  | CArtNode.Fanout256 b child_ => b.prefix_length_ + 2 + heightList child_
/-- The largest `height` of a node in the slots. -/
def heightList : List (Ptr CArtNode) → Nat
  | [] => 0
  | p :: ps => max (heightPtr p) (heightList ps)
/-- The `height` of the node behind a pointer. -/
def heightPtr : Ptr CArtNode → Nat
  | Ptr.to n => n.height
  | Ptr.nullptr => 0
  | Ptr.EMPTY_NODE => 0
end

/-- The head of `MovePrefix`: the base of the node with its prefix moved to the suffix table
of `this`, and the tree members after the prefix has been appended and a terminal node
counted. -/
def moveHead (other_suffix_table : List Nat) (b : CArtNodeBase) (t : CAdaptiveRadixTree) :
    CArtNodeBase × CAdaptiveRadixTree :=
  let p : CArtNodeBase × CAdaptiveRadixTree := if b.prefix_length_ ≠ 0 then
      ({ b with prefix_position_ := u32 t.suffix_table_.length },
       { t with suffix_table_ :=
           appendSub t.suffix_table_ other_suffix_table b.prefix_position_ b.prefix_length_ })
    else (b, t)
  (p.1, if p.1.end_of_string_ then
      { p.2 with unique_string_count_ := p.2.unique_string_count_ + 1 } else p.2)

/-- The body of the child loops of `MovePrefix` for the child slot `i`. -/
def moveStep (ENVIRONMENT_64 : Bool) (other_suffix_table : List Nat)
    (child_ : List (Ptr CArtNode)) (st : MoveState) (i : Nat) : MoveState :=
  (st.1.set i ((MovePrefixPtr ENVIRONMENT_64 other_suffix_table (child_.getD i Ptr.nullptr)) st.2).1,
   ((MovePrefixPtr ENVIRONMENT_64 other_suffix_table (child_.getD i Ptr.nullptr)) st.2).2)

/-- `Below e S r rest v`: the subtree `r` has a terminal node with head row id `v` whose key
continues the prefix of `r` by the bytes `rest`. -/
def Below (ENVIRONMENT_64 : Bool) (S : List Nat) (r : CArtNode) (rest : List Nat) (v : Nat) :
    Prop :=
  Holds ENVIRONMENT_64 S r (r.pfx S ++ rest) v

/-- The chains of the donor subtree `r` in the row-id vector `I`: the chain of every
terminal node, from its head `v`, is the non-empty duplicate-free list `c v` of at most `N`
row ids, and the chains of different terminal nodes are disjoint. -/
def RightOK (ENVIRONMENT_64 : Bool) (S : List Nat) (c : Nat → List Nat) (N : Nat)
    (I : List Nat) (r : CArtNode) : Prop :=
  (∀ rest v, Below ENVIRONMENT_64 S r rest v →
    Chain I v (c v) ∧ (c v).Nodup ∧ (c v).length ≤ N ∧ c v ≠ []) ∧
  (∀ rest rest' v v', Below ENVIRONMENT_64 S r rest v → Below ENVIRONMENT_64 S r rest' v' →
    rest ≠ rest' → ∀ x, x ∈ c v → x ∉ c v')

/-- The row id `x` lies in the chain of a terminal node of the donor subtree `r`. -/
def Owned (ENVIRONMENT_64 : Bool) (S : List Nat) (c : Nat → List Nat) (r : CArtNode)
    (x : Nat) : Prop :=
  ∃ rest v, Below ENVIRONMENT_64 S r rest v ∧ x ∈ c v

/-- The effect of a merge step on the tree members and the row-id vector: the vector keeps
its length and changes only in cells that satisfy `W`, and the tree members change by
`TreeExt`. -/
def Framed (W : Nat → Prop) (t : CAdaptiveRadixTree) (I : List Nat) (t' : CAdaptiveRadixTree)
    (I' : List Nat) : Prop :=
  I'.length = I.length ∧ (∀ x, ¬ W x → I'.getD x 0 = I.getD x 0) ∧ TreeExt t t'

/-- Well-formedness of a donor node up to its prefix: the node is well-formed, its key
bytes satisfy `P` and its children are well-formed subtrees. -/
def KidsOK (ENVIRONMENT_64 : Bool) (P : Nat → Prop) (S : List Nat) (r : CArtNode) : Prop :=
  NodeOK ENVIRONMENT_64 r ∧ (∀ c p, (c, p) ∈ r.kids ENVIRONMENT_64 → P c) ∧
  ∀ c ch, (c, Ptr.to ch) ∈ r.kids ENVIRONMENT_64 → TreeOK ENVIRONMENT_64 P S ch

/-- The value of `mismatch_position` that `Merge` computes for the nodes `l` and `r`. -/
def mergeMismatch (S Sr : List Nat) (l r : CArtNode) : Nat :=
  mergeMismatchLoop S Sr l.base.prefix_position_ l.base.prefix_length_
    r.base.prefix_position_ r.base.prefix_length_ l.base.prefix_length_ 0

/-- The donor node of `Merge` after it has lost the first `m` bytes of its prefix. -/
def rightCut (r : CArtNode) (m : Nat) : CArtNode :=
  r.setBase { r.base with
    prefix_length_ := r.base.prefix_length_ - m,
    prefix_position_ := r.base.prefix_position_ + m }

/-- The donor node of `Merge` after it has lost the first `m` bytes of its prefix and the
byte under which it is addressed. -/
def rightStep (r : CArtNode) (m : Nat) : CArtNode :=
  r.setBase { r.base with
    prefix_length_ := r.base.prefix_length_ - m - 1,
    prefix_position_ := r.base.prefix_position_ + m + 1 }

/-- The new `CArtNode4` of a prefix split of `l` in `Merge`, holding the rest of `l` as its
only child. -/
def mergeSplit (ENVIRONMENT_64 : Bool) (S : List Nat) (l : CArtNode) (m : Nat) : CArtNode :=
  (InsertInNode ENVIRONMENT_64 (splitParent l m) (S.getD (l.base.prefix_position_ + m) 0)
    (Ptr.to (splitChild l m))).1

/-- The chain of the key that the row id `v` was inserted with: the row ids of that key,
most recent first. -/
def chainOfId (es : List (List Nat × Nat)) (v : Nat) : List Nat :=
  ((es.filter (fun p => v ∈ idsOf es p.1)).map Prod.snd).reverse

/-- `Reach e S n rest v`: the descent of `findTerminal` from the node `n`, after the prefix
of `n` has been matched, follows the bytes `rest` through well-formed nodes to a terminal
node with head row id `v`. -/
inductive Reach (ENVIRONMENT_64 : Bool) (S : List Nat) : CArtNode → List Nat → Nat → Prop where
  | here (n : CArtNode) (hn : NodeOK ENVIRONMENT_64 n) (heos : n.base.end_of_string_ = true) :
      Reach ENVIRONMENT_64 S n [] n.base.value_
  | under (n : CArtNode) (c : Nat) (ch : CArtNode) (rest : List Nat) (v : Nat)
      (hn : NodeOK ENVIRONMENT_64 n) (hc : c < 256)
      (hkid : (c, Ptr.to ch) ∈ n.kids ENVIRONMENT_64)
      (hb : ch.base.prefix_position_ + ch.base.prefix_length_ ≤ S.length)
      (h : Reach ENVIRONMENT_64 S ch rest v) :
      Reach ENVIRONMENT_64 S n (c :: (ch.pfx S ++ rest)) v

/-- `Finds e S n k v`: the descent of `findTerminal` from the node `n` with the key `k`
arrives at a terminal node with head row id `v`. -/
def Finds (ENVIRONMENT_64 : Bool) (S : List Nat) (n : CArtNode) (k : List Nat) (v : Nat) : Prop :=
  n.base.prefix_position_ + n.base.prefix_length_ ≤ S.length ∧
  ∃ rest, k = n.pfx S ++ rest ∧ Reach ENVIRONMENT_64 S n rest v
/-! ## Notions used to state the properties of `Reset`, `FindChild` and the child order -/

/-- The iterator pairs of the `HandleTuple` calls of a call list of `Traverse`. -/
def chainsOf : List Call → List IndexCall
  | [] => []
  | Call.HandleTuple _ begin_ end_ :: cs => (begin_, end_) :: chainsOf cs
  | Call.HandleNode _ _ _ :: cs => chainsOf cs

/-- The tree members `t` with other values of `total_string_length_` and
`max_string_length_`. -/
def withTotals (total max_ : Nat) (t : CAdaptiveRadixTree) : CAdaptiveRadixTree :=
  { t with total_string_length_ := total, max_string_length_ := max_ }

/-- The number of children at which `InsertInNode` replaces the node by the next larger
variant (`none` for a `CArtNode256`, which is never replaced). -/
def CArtNode.capacity : CArtNode → Option Nat
  | CArtNode.Fanout4 _ _ _ => some 4
  | CArtNode.Fanout16 _ _ _ => some 16
  | CArtNode.Fanout48 _ _ _ => some 48
  | CArtNode.Fanout256 _ _ => none

/-- The variant that `InsertInNode` grows a full node into. -/
def NodeType.next : NodeType → NodeType
  | NodeType.Fanout4 => NodeType.Fanout16
  | NodeType.Fanout16 => NodeType.Fanout48
  | _ => NodeType.Fanout256

/-- The child that the slot returned by `FindChild( node, c )` holds (`none` when
`FindChild` returns `nullptr`). -/
def findChildNode (ENVIRONMENT_64 : Bool) (node : CArtNode) (c : Nat) : Option (Ptr CArtNode) :=
  (FindChild ENVIRONMENT_64 node c).map (fun slot => node.child_.getD slot Ptr.nullptr)

/-- `InTree e root m`: the node `m` is `root` or is reached from `root` through child
slots. -/
inductive InTree (ENVIRONMENT_64 : Bool) : CArtNode → CArtNode → Prop where
  | root (n : CArtNode) : InTree ENVIRONMENT_64 n n
  | child (n : CArtNode) (c : Nat) (ch m : CArtNode)
      (hkid : (c, Ptr.to ch) ∈ n.kids ENVIRONMENT_64) (hm : InTree ENVIRONMENT_64 ch m) :
      InTree ENVIRONMENT_64 n m

/-- The node that a slot holds after a new `CArtNode4` has been stored in it and the
children `bs` (pairs of key byte and child node) have been inserted with `InsertInNode`, in
order. -/
def grown (ENVIRONMENT_64 : Bool) (bs : List (Nat × CArtNode)) : CArtNode :=
  bs.foldl (fun n p => (InsertInNode ENVIRONMENT_64 n p.1 (Ptr.to p.2)).1) CArtNode.new4

/-- The root node of a tree. -/
def rootNode (t : CAdaptiveRadixTree) : Option CArtNode :=
  match t.root_ with
  | Ptr.to root => some root
  | _ => none

/-- The child node that `FindChild( node, c )` leads to. -/
def childOf (ENVIRONMENT_64 : Bool) (node : CArtNode) (c : Nat) : Option CArtNode :=
  match findChildNode ENVIRONMENT_64 node c with
  | some (Ptr.to ch) => some ch
  | _ => none

/-! ## Notions used to state the invariants of the tree and the calls of a traversal -/

/-- The index vector `[ 2 | 4 | x | 1 | x ]` of the comment on `CIndexIterator`, where `x` is
a cell that holds `LAST_INDEX_IDENTIFIER`. -/
def docVector : List Nat := [2, 4, LAST_INDEX_IDENTIFIER, 1, LAST_INDEX_IDENTIFIER]

/-- A node that can be the root of a tree: a `CArtNode256` with an empty prefix. -/
def IsRoot (n : CArtNode) : Prop :=
  n.node_type_ = NodeType.Fanout256 ∧ n.base.prefix_length_ = 0

/-- The tree has a root node, and it is a `CArtNode256` with an empty prefix. -/
def RootOK (t : CAdaptiveRadixTree) : Prop :=
  ∃ root, t.root_ = Ptr.to root ∧ IsRoot root

/-- `PathBefore e S root m k`: the node `m` is reached from `root` through child slots, and
`k` is the concatenation of the stored prefixes and edge bytes on the path from `root` down
to `m`, without the stored prefix of `m` itself. -/
inductive PathBefore (ENVIRONMENT_64 : Bool) (S : List Nat) : CArtNode → CArtNode → List Nat → Prop
    where
  | root (n : CArtNode) : PathBefore ENVIRONMENT_64 S n n []
  | child (n : CArtNode) (c : Nat) (ch m : CArtNode) (k : List Nat)
      (hkid : (c, Ptr.to ch) ∈ n.kids ENVIRONMENT_64) (hm : PathBefore ENVIRONMENT_64 S ch m k) :
      PathBefore ENVIRONMENT_64 S n m (n.pfx S ++ c :: k)

/-- The calls of a traversal come in the shape `HandleNode( m, prefix, level )`, followed by
`HandleTuple( prefix + stored prefix of m, chain of m )` exactly when `m` is an end of
string; the first argument is the `HandleTuple` call that has to come next, if any. -/
def CallsShapeAux (S : List Nat) : Option (List Nat × Nat) → List Call → Prop
  | none, [] => True
  | some _, [] => False
  | none, Call.HandleNode m pre lvl :: rest =>
    lvl = pre.length ∧
      CallsShapeAux S
        (if m.base.end_of_string_ then some (pre ++ m.pfx S, m.base.value_) else none) rest
  | none, Call.HandleTuple _ _ _ :: _ => False
  | some p, Call.HandleTuple k b en :: rest =>
    k = p.1 ∧ b = ⟨p.2⟩ ∧ en = ⟨LAST_INDEX_IDENTIFIER⟩ ∧ CallsShapeAux S none rest
  | some _, Call.HandleNode _ _ _ :: _ => False

/-- The shape of the calls of a whole traversal: no `HandleTuple` call is pending at the
start. -/
structure CallsShape (S : List Nat) (calls : List Call) : Prop where
  shape : CallsShapeAux S none calls

/-- `TreeAll e Q n`: every node of the subtree `n` satisfies `Q`. -/
inductive TreeAll (ENVIRONMENT_64 : Bool) (Q : CArtNode → Prop) : CArtNode → Prop where
  | mk (n : CArtNode) (hq : Q n)
      (hkids : ∀ c ch, (c, Ptr.to ch) ∈ n.kids ENVIRONMENT_64 → TreeAll ENVIRONMENT_64 Q ch) :
      TreeAll ENVIRONMENT_64 Q n

/-- The property `Q` of nodes holds for a new `CArtNode4` and is kept by the operations
that `AddEntry` applies to a well-formed node: assignments to the header that keep
`children_count_`, a store through the slot of a child, and `InsertInNode` of a byte that the
node does not hold yet. -/
def NodeInv (ENVIRONMENT_64 : Bool) (Q : CArtNode → Prop) : Prop :=
  (∀ b : CArtNodeBase, b.children_count_ = 0 → Q (CArtNode.new4.setBase b)) ∧
  (∀ (n : CArtNode) (b : CArtNodeBase), NodeOK ENVIRONMENT_64 n → Q n →
    b.children_count_ = n.base.children_count_ → Q (n.setBase b)) ∧
  (∀ (n : CArtNode) (c s : Nat) (x : CArtNode), NodeOK ENVIRONMENT_64 n → Q n →
    (c, s) ∈ n.slots ENVIRONMENT_64 → Q (n.setChild s (Ptr.to x))) ∧
  (∀ (n : CArtNode) (c : Nat) (x : CArtNode), NodeOK ENVIRONMENT_64 n → Q n → c < 256 →
    (∀ s, (c, s) ∉ n.slots ENVIRONMENT_64) → Q (InsertInNode ENVIRONMENT_64 n c (Ptr.to x)).1)

/-- The number of live child slots of a node: the cells of `child_` that hold a child (on a
`CArtNode256` the cells that are not `EMPTY_NODE`). -/
def CArtNode.liveSlots : CArtNode → Nat
  | CArtNode.Fanout256 _ child_ => child_.countP (fun p => !p.isEmpty)
  | n => n.child_.countP (fun p => !p.isNull)

/-- What the counters of a node say beyond `NodeOK`: the cells of `child_` from
`children_count_` on are empty in a `CArtNode4` and a `CArtNode16`, the cells below
`children_count_` are all in use in a `CArtNode48`, and `children_count_` is the number of
key bytes present in a `CArtNode48` and a `CArtNode256`. -/
def Counted (ENVIRONMENT_64 : Bool) : CArtNode → Prop
  | CArtNode.Fanout4 b _ child_ =>
    ∀ i, b.children_count_ ≤ i → child_.getD i Ptr.nullptr = Ptr.nullptr
  | CArtNode.Fanout16 b _ child_ =>
    ∀ i, b.children_count_ ≤ i → child_.getD i Ptr.nullptr = Ptr.nullptr
  | CArtNode.Fanout48 b child_index_ child_ =>
    ((CArtNode.Fanout48 b child_index_ child_).slots ENVIRONMENT_64).length = b.children_count_ ∧
    ∀ s, s < b.children_count_ → ∃ x, child_.getD s Ptr.nullptr = Ptr.to x
  | CArtNode.Fanout256 b child_ =>
    ((CArtNode.Fanout256 b child_).slots ENVIRONMENT_64).length = b.children_count_

/-- The tree has a root node, and the subtree of the root is well-formed over the suffix
table of the tree. -/
def TreeWF (ENVIRONMENT_64 : Bool) (t : CAdaptiveRadixTree) : Prop :=
  ∃ root, t.root_ = Ptr.to root ∧
    TreeOK ENVIRONMENT_64 (fun c => c < 256) t.suffix_table_ root

/-- The tree stores the key `k`: a terminal node is reached from the root along `k`. -/
def Stores (ENVIRONMENT_64 : Bool) (t : CAdaptiveRadixTree) (k : List Nat) : Prop :=
  ∃ root v, t.root_ = Ptr.to root ∧ Holds ENVIRONMENT_64 t.suffix_table_ root k v

/-- The calls that the visitor has received when `Traverse` was left by the exception of
`append`; `none` when `Traverse` returned. -/
def thrownAfter : Except (List Call) (List Call) → Option (List Call)
  | Except.error calls => some calls
  | Except.ok _ => none

/-! # Theorems: lists and arrays -/

theorem pairwise_range_map {α : Type} (f : Nat → α) (n : Nat) (R : α → α → Prop)
    (h : ∀ i j, i < j → j < n → R (f i) (f j)) : ((List.range n).map f).Pairwise R := by
  rw [List.pairwise_map]
  exact (List.pairwise_lt_range n).imp_of_mem (fun {a b} ha hb hab => h a b hab (List.mem_range.1 hb))

theorem getD_memmove_set {α : Type} (a : List α) (pos count : Nat) (x d : α)
    (hpos : pos ≤ count) (hcount : count < a.length) (i : Nat) :
    ((memmove a (pos + 1) pos (count - pos)).set pos x).getD i d =
      if i < pos then a.getD i d else if i = pos then x
      else if i ≤ count then a.getD (i - 1) d else a.getD i d := by
  unfold memmove
  simp only [List.getD_eq_getElem?_getD, List.getElem?_set, List.length_append, List.length_take,
    List.length_drop, List.getElem?_append, List.getElem?_take, List.getElem?_drop]
  have e1 : min (pos + 1) a.length = pos + 1 := by omega
  have e2 : min (count - pos) (a.length - pos) = count - pos := by omega
  simp only [e1, e2]
  by_cases h1 : i < pos
  · have h2 : ¬ pos = i := by omega
    have h3 : i < pos + 1 := by omega
    simp only [h1, h2, h3, if_true, if_false]
  · by_cases h2 : i = pos
    · subst h2
      have : i < i + 1 + (count - i + (a.length - (i + 1 + (count - i)))) := by omega
      simp [this]
    · have h3 : ¬ pos = i := fun h => h2 h.symm
      simp only [h1, h2, h3, if_false]
      by_cases h4 : i ≤ count
      · have : ¬ i < pos + 1 := by omega
        have h5 : i - (pos + 1) < count - pos := by omega
        simp only [this, h5, h4, if_true, if_false]
        congr 2; omega
      · have : ¬ i < pos + 1 := by omega
        have h5 : ¬ i - (pos + 1) < count - pos := by omega
        simp only [this, h5, h4, if_true, if_false]
        congr 2; omega

theorem length_memmove_set {α : Type} (a : List α) (pos count : Nat) (x : α)
    (hpos : pos ≤ count) (hcount : count < a.length) :
    ((memmove a (pos + 1) pos (count - pos)).set pos x).length = a.length := by
  unfold memmove
  simp only [List.length_set, List.length_append, List.length_take, List.length_drop]
  omega

theorem find_range_some (p : Nat → Bool) (n i : Nat)
    (h : (List.range n).find? p = some i) : i < n ∧ p i = true ∧ ∀ j, j < i → p j = false := by
  induction n with
  | zero => simp at h
  | succ n ih =>
    rw [List.range_succ, List.find?_append] at h
    cases hf : (List.range n).find? p with
    | none =>
      rw [hf] at h
      simp only [Option.or, List.find?_cons, List.find?_nil] at h
      by_cases hp : p n = true
      · rw [hp] at h
        simp only [Option.some.injEq] at h
        subst h
        refine ⟨Nat.lt_succ_self _, hp, fun j hj => ?_⟩
        have := List.find?_eq_none.1 hf j (List.mem_range.2 hj)
        simpa using this
      · simp [hp] at h
    | some k =>
      rw [hf] at h
      simp only [Option.or, Option.some.injEq] at h
      subst h
      obtain ⟨h1, h2, h3⟩ := ih hf
      exact ⟨Nat.lt_succ_of_lt h1, h2, h3⟩

theorem find_range_none (p : Nat → Bool) (n : Nat)
    (h : (List.range n).find? p = none) : ∀ j, j < n → p j = false := by
  intro j hj
  have := List.find?_eq_none.1 h j (List.mem_range.2 hj)
  simpa using this

theorem findKeyLoop_some (key_ : List Nat) (count c s : Nat)
    (h : findKeyLoop key_ count c = some s) :
    s < count ∧ key_.getD s 0 = c ∧ ∀ j, j < s → key_.getD j 0 ≠ c := by
  obtain ⟨h1, h2, h3⟩ := find_range_some _ _ _ h
  refine ⟨h1, by simpa using h2, fun j hj => ?_⟩
  have := h3 j hj
  simpa using this

theorem findKeyLoop_none (key_ : List Nat) (count c : Nat)
    (h : findKeyLoop key_ count c = none) : ∀ j, j < count → key_.getD j 0 ≠ c := by
  intro j hj
  have := find_range_none _ _ h j hj
  simpa using this

theorem insertPosLoop_spec (key_ : List Nat) (count c : Nat) :
    insertPosLoop key_ count c ≤ count ∧
    (∀ i, i < insertPosLoop key_ count c → key_.getD i 0 < c) ∧
    (insertPosLoop key_ count c < count → ¬ key_.getD (insertPosLoop key_ count c) 0 < c) := by
  unfold insertPosLoop
  cases hf : (List.range count).find? (fun pos => !(decide (key_.getD pos 0 < c))) with
  | none =>
    simp only [Option.getD_none]
    refine ⟨le_refl _, fun i hi => ?_, fun h => absurd h (lt_irrefl _)⟩
    have := find_range_none _ _ hf i hi
    simpa using this
  | some k =>
    simp only [Option.getD_some]
    obtain ⟨h1, h2, h3⟩ := find_range_some _ _ _ hf
    refine ⟨le_of_lt h1, fun i hi => ?_, fun _ => by simpa using h2⟩
    have := h3 i hi
    simpa using this

/-! ## One node: `slots`, `FindChild`, `InsertInNode` -/

theorem mem_slots4 (e : Bool) (b : CArtNodeBase) (k : List Nat) (ch : List (Ptr CArtNode))
    (c s : Nat) :
    (c, s) ∈ (CArtNode.Fanout4 b k ch).slots e ↔ s < b.children_count_ ∧ k.getD s 0 = c := by
  simp only [CArtNode.slots, List.mem_map, List.mem_range, Prod.mk.injEq]
  constructor
  · rintro ⟨i, hi, h1, h2⟩; subst h2; exact ⟨hi, h1⟩
  · rintro ⟨h1, h2⟩; exact ⟨s, h1, h2, rfl⟩

theorem mem_slots16 (e : Bool) (b : CArtNodeBase) (k : List Nat) (ch : List (Ptr CArtNode))
    (c s : Nat) :
    (c, s) ∈ (CArtNode.Fanout16 b k ch).slots e ↔
      s < b.children_count_ ∧ storedByte e (k.getD s 0) = c := by
  simp only [CArtNode.slots, List.mem_map, List.mem_range, Prod.mk.injEq]
  constructor
  · rintro ⟨i, hi, h1, h2⟩; subst h2; exact ⟨hi, h1⟩
  · rintro ⟨h1, h2⟩; exact ⟨s, h1, h2, rfl⟩

theorem mem_slots48 (e : Bool) (b : CArtNodeBase) (idx : List Nat) (ch : List (Ptr CArtNode))
    (c s : Nat) :
    (c, s) ∈ (CArtNode.Fanout48 b idx ch).slots e ↔
      c < 256 ∧ idx.getD c 0 ≠ 48 ∧ s = idx.getD c 0 := by
  simp only [CArtNode.slots, List.mem_map, List.mem_filter, List.mem_range, Prod.mk.injEq,
    CArtNode.EMPTY_MARKER, decide_eq_true_eq]
  constructor
  · rintro ⟨i, ⟨hi, h0⟩, h1, h2⟩; subst h1; exact ⟨hi, h0, h2.symm⟩
  · rintro ⟨h1, h2, h3⟩; exact ⟨c, ⟨h1, h2⟩, rfl, h3.symm⟩

theorem mem_slots256 (e : Bool) (b : CArtNodeBase) (ch : List (Ptr CArtNode)) (c s : Nat) :
    (c, s) ∈ (CArtNode.Fanout256 b ch).slots e ↔
      c < 256 ∧ (ch.getD c Ptr.nullptr).isEmpty = false ∧ s = c := by
  simp only [CArtNode.slots, List.mem_map, List.mem_filter, List.mem_range, Prod.mk.injEq,
    Bool.not_eq_true']
  constructor
  · rintro ⟨i, ⟨hi, h0⟩, h1, h2⟩; subst h1; exact ⟨hi, h0, h2.symm⟩
  · rintro ⟨h1, h2, h3⟩; exact ⟨c, ⟨h1, h2⟩, rfl, h3.symm⟩

theorem mem_kids (e : Bool) (n : CArtNode) (c : Nat) (q : Ptr CArtNode) :
    (c, q) ∈ n.kids e ↔ ∃ s, (c, s) ∈ n.slots e ∧ n.child_.getD s Ptr.nullptr = q := by
  simp only [CArtNode.kids, List.mem_map, Prod.mk.injEq, Prod.exists]
  constructor
  · rintro ⟨a, s, h, h1, h2⟩; subst h1; exact ⟨s, h, h2⟩
  · rintro ⟨s, h, h2⟩; exact ⟨c, s, h, rfl, h2⟩

/-- The key bytes of the children are strictly ascending along `slots`. -/
theorem slots_sorted (e : Bool) (n : CArtNode) (h : NodeOK e n) :
    (n.slots e).Pairwise (fun p q => p.1 < q.1) := by
  cases n with
  | Fanout4 b k ch =>
    obtain ⟨_, _, _, hs, _⟩ := h
    exact pairwise_range_map _ _ _ (fun i j hij hj => hs i j hij hj)
  | Fanout16 b k ch =>
    obtain ⟨_, _, _, hs, _⟩ := h
    exact pairwise_range_map _ _ _ (fun i j hij hj => hs i j hij hj)
  | Fanout48 b idx ch =>
    simp only [CArtNode.slots]
    rw [List.pairwise_map]
    exact ((List.pairwise_lt_range 256).sublist (List.filter_sublist _)).imp (fun h => h)
  | Fanout256 b ch =>
    simp only [CArtNode.slots]
    rw [List.pairwise_map]
    exact ((List.pairwise_lt_range 256).sublist (List.filter_sublist _)).imp (fun h => h)

/-- Different children live in different slots. -/
theorem slots_inj (e : Bool) (n : CArtNode) (h : NodeOK e n) (c c' s : Nat)
    (h1 : (c, s) ∈ n.slots e) (h2 : (c', s) ∈ n.slots e) : c = c' := by
  cases n with
  | Fanout4 b k ch =>
    rw [mem_slots4] at h1 h2
    rw [← h1.2, ← h2.2]
  | Fanout16 b k ch =>
    rw [mem_slots16] at h1 h2
    rw [← h1.2, ← h2.2]
  | Fanout48 b idx ch =>
    rw [mem_slots48] at h1 h2
    obtain ⟨_, _, _, _, hinj, _⟩ := h
    exact hinj c c' h1.1 h2.1 h1.2.1 (by rw [← h1.2.2, ← h2.2.2])
  | Fanout256 b ch =>
    rw [mem_slots256] at h1 h2
    rw [← h1.2.2, ← h2.2.2]

/-- A key byte has at most one slot. -/
theorem slots_fun (e : Bool) (n : CArtNode) (h : NodeOK e n) (c s s' : Nat)
    (h1 : (c, s) ∈ n.slots e) (h2 : (c, s') ∈ n.slots e) : s = s' := by
  cases n with
  | Fanout4 b k ch =>
    rw [mem_slots4] at h1 h2
    obtain ⟨_, _, _, hs, _⟩ := h
    rcases Nat.lt_trichotomy s s' with hl | he | hg
    · have := hs s s' hl h2.1; omega
    · exact he
    · have := hs s' s hg h1.1; omega
  | Fanout16 b k ch =>
    rw [mem_slots16] at h1 h2
    obtain ⟨_, _, _, hs, _⟩ := h
    rcases Nat.lt_trichotomy s s' with hl | he | hg
    · have := hs s s' hl h2.1; omega
    · exact he
    · have := hs s' s hg h1.1; omega
  | Fanout48 b idx ch =>
    rw [mem_slots48] at h1 h2
    rw [h1.2.2, h2.2.2]
  | Fanout256 b ch =>
    rw [mem_slots256] at h1 h2
    rw [h1.2.2, h2.2.2]

/-- Every slot listed by `slots` holds a node, and its key byte is a byte. -/
theorem slots_node (e : Bool) (n : CArtNode) (h : NodeOK e n) (c s : Nat)
    (h1 : (c, s) ∈ n.slots e) :
    s < n.child_.length ∧ ∃ ch, n.child_.getD s Ptr.nullptr = Ptr.to ch := by
  cases n with
  | Fanout4 b k ch =>
    rw [mem_slots4] at h1
    obtain ⟨_, hl, hc, _, _, hn⟩ := h
    exact ⟨by simp only [CArtNode.child_]; omega, hn s h1.1⟩
  | Fanout16 b k ch =>
    rw [mem_slots16] at h1
    obtain ⟨_, hl, hc, _, _, hn⟩ := h
    exact ⟨by simp only [CArtNode.child_]; omega, hn s h1.1⟩
  | Fanout48 b idx ch =>
    rw [mem_slots48] at h1
    obtain ⟨_, hl, hc, hn, _, _⟩ := h
    have := hn c h1.1 h1.2.1
    rw [h1.2.2]
    exact ⟨by simp only [CArtNode.child_]; omega, this.2⟩
  | Fanout256 b ch =>
    rw [mem_slots256] at h1
    obtain ⟨hl, hn, _⟩ := h
    rw [h1.2.2]
    refine ⟨by simp only [CArtNode.child_]; omega, ?_⟩
    rcases hn c h1.1 with h0 | h0
    · have h2 := h1.2.1
      rw [h0] at h2
      simp [Ptr.isEmpty] at h2
    · exact h0

/-! ### The sign flip and the bit fields of `CArtNode16` -/

theorem FlipSign_eq (x : Nat) (h : x < 256) :
    FlipSign x = if x < 128 then x + 128 else x - 128 := by
  unfold FlipSign
  revert x
  decide!

theorem FlipSign_lt (x : Nat) (h : x < 256) : FlipSign x < 256 := by
  rw [FlipSign_eq x h]; split <;> omega

theorem FlipSign_FlipSign (x : Nat) : FlipSign (FlipSign x) = x := by
  unfold FlipSign
  rw [Nat.xor_assoc, Nat.xor_self, Nat.xor_zero]

theorem toInt8_FlipSign_lt (a b : Nat) (ha : a < 256) (hb : b < 256) :
    toInt8 (FlipSign a) < toInt8 (FlipSign b) ↔ a < b := by
  rw [FlipSign_eq a ha, FlipSign_eq b hb]
  unfold toInt8
  split <;> split <;> split <;> split <;> omega

/-- The number whose binary digits are the list, lowest first. -/
theorem movemask_map (bs : List Bool) :
    mm_movemask_epi8 (bs.map (fun b => if b then 255 else 0)) =
      bs.foldr (fun b acc => b.toNat + 2 * acc) 0 := by
  unfold mm_movemask_epi8
  induction bs with
  | nil => rfl
  | cons b bs ih =>
    simp only [List.map_cons, List.foldr_cons, ih]
    cases b <;> simp

theorem bits_mod (bs : List Bool) (n : Nat) :
    (bs.foldr (fun b acc => b.toNat + 2 * acc) 0) % 2 ^ n =
      (bs.take n).foldr (fun b acc => b.toNat + 2 * acc) 0 := by
  induction bs generalizing n with
  | nil => simp
  | cons b bs ih =>
    cases n with
    | zero => simp [Nat.mod_one]
    | succ n =>
      simp only [List.foldr_cons, List.take_succ_cons]
      rw [← ih n]
      have hb : b.toNat < 2 := by cases b <;> simp
      rw [pow_succ]
      generalize List.foldr (fun b acc => b.toNat + 2 * acc) 0 bs = r
      have h2 : 0 < 2 ^ n := Nat.two_pow_pos n
      have := Nat.div_add_mod r (2 ^ n)
      have h3 : r % 2 ^ n < 2 ^ n := Nat.mod_lt _ h2
      have e : b.toNat + 2 * r = (b.toNat + 2 * (r % 2 ^ n)) + (2 ^ n * 2) * (r / 2 ^ n) := by
        nlinarith
      rw [e, Nat.add_mul_mod_self_left]
      apply Nat.mod_eq_of_lt
      omega

theorem bits_eq_zero (bs : List Bool) :
    bs.foldr (fun b acc => b.toNat + 2 * acc) 0 = 0 ↔ ∀ i, i < bs.length → bs.getD i false = false := by
  induction bs with
  | nil => simp
  | cons b bs ih =>
    simp only [List.foldr_cons, List.length_cons]
    constructor
    · intro h i hi
      have hb : b.toNat = 0 := by omega
      have hr : List.foldr (fun b acc => b.toNat + 2 * acc) 0 bs = 0 := by omega
      cases i with
      | zero => cases b <;> simp_all
      | succ i => simpa using ih.1 hr i (by omega)
    · intro h
      have h0 := h 0 (by omega)
      simp at h0
      subst h0
      have : List.foldr (fun b acc => b.toNat + 2 * acc) 0 bs = 0 :=
        ih.2 (fun i hi => by simpa using h (i + 1) (by omega))
      simp [this]

theorem ctzAux_bits (bs : List Bool) (i fuel : Nat) (hi : i < bs.length) (hf : i < fuel)
    (ht : bs.getD i false = true) (hlt : ∀ j, j < i → bs.getD j false = false) :
    ctzAux fuel (bs.foldr (fun b acc => b.toNat + 2 * acc) 0) = i := by
  induction bs generalizing i fuel with
  | nil => simp at hi
  | cons b bs ih =>
    cases fuel with
    | zero => omega
    | succ fuel =>
      simp only [List.foldr_cons, ctzAux]
      cases i with
      | zero =>
        simp at ht
        subst ht
        simp
      | succ i =>
        have h0 := hlt 0 (by omega)
        simp at h0
        subst h0
        have e : (false.toNat + 2 * List.foldr (fun b acc => b.toNat + 2 * acc) 0 bs) % 2 ≠ 1 := by
          simp
        rw [if_neg e]
        have e2 : (false.toNat + 2 * List.foldr (fun b acc => b.toNat + 2 * acc) 0 bs) / 2 =
            List.foldr (fun b acc => b.toNat + 2 * acc) 0 bs := by
          simp
        rw [e2, ih i fuel (by simpa using hi) (by omega) (by simpa using ht)
          (fun j hj => by simpa using hlt (j + 1) (by omega))]

/-- The masked bit field of `FindChild` / `InsertInNode` on a `CArtNode16` and its lowest
set bit, for lane-wise tests `bs` and `count ≤ 16` used lanes. -/
theorem masked_bits (bs : List Bool) (count : Nat) (hl : bs.length = 16) (hc : count ≤ 16) :
    let field := mm_movemask_epi8 (bs.map (fun b => if b then 255 else 0)) &&& (2 ^ count - 1)
    (field = 0 ↔ ∀ i, i < count → bs.getD i false = false) ∧
    (∀ i, i < count → bs.getD i false = true → (∀ j, j < i → bs.getD j false = false) →
      ctz field = i) := by
  intro field
  have hf : field = (bs.take count).foldr (fun b acc => b.toNat + 2 * acc) 0 := by
    simp only [field]
    rw [movemask_map, Nat.and_pow_two_sub_one_eq_mod, bits_mod]
  have hget : ∀ i, i < count → (bs.take count).getD i false = bs.getD i false := by
    intro i hi
    simp [List.getD_eq_getElem?_getD, List.getElem?_take, hi]
  have hlen : (bs.take count).length = count := by simp [hl, hc]
  constructor
  · rw [hf, bits_eq_zero, hlen]
    constructor
    · intro h i hi; rw [← hget i hi]; exact h i hi
    · intro h i hi; rw [hget i hi]; exact h i hi
  · intro i hi ht hlt
    rw [hf]
    unfold ctz
    apply ctzAux_bits _ i 32 (by omega) (by omega)
    · rw [hget i hi]; exact ht
    · intro j hj; rw [hget j (by omega)]; exact hlt j hj
theorem zipWith_replicate_left {α β γ : Type} (f : α → β → γ) (a : α) (l : List β) (n : Nat)
    (h : l.length ≤ n) : List.zipWith f (List.replicate n a) l = l.map (f a) := by
  induction l generalizing n with
  | nil => simp
  | cons x xs ih =>
    cases n with
    | zero => simp at h
    | succ n =>
      simp only [List.replicate_succ, List.zipWith_cons_cons, List.map_cons]
      rw [ih n (by simpa using h)]

theorem slots_byte (e : Bool) (n : CArtNode) (h : NodeOK e n) (c s : Nat)
    (h1 : (c, s) ∈ n.slots e) : c < 256 := by
  cases n with
  | Fanout4 b k ch =>
    rw [mem_slots4] at h1
    obtain ⟨_, _, _, _, hb, _⟩ := h
    rw [← h1.2]; exact hb s h1.1
  | Fanout16 b k ch =>
    rw [mem_slots16] at h1
    obtain ⟨_, _, _, _, hb, _⟩ := h
    rw [← h1.2]
    unfold storedByte
    split
    · exact FlipSign_lt _ (hb s h1.1)
    · exact hb s h1.1
  | Fanout48 b idx ch =>
    rw [mem_slots48] at h1; exact h1.1
  | Fanout256 b ch =>
    rw [mem_slots256] at h1; exact h1.1

/-- The SIMD search of `FindChild` on a `CArtNode16`: the lowest lane below
`children_count_` whose stored byte is the flipped `c`. -/
theorem find16_simd (key_ : List Nat) (count c : Nat) (hl : key_.length = 16)
    (hc : count ≤ 16) :
    let field := mm_movemask_epi8 (mm_cmpeq_epi8 (mm_set1_epi8 (FlipSign c)) key_) &&&
      ((1 <<< count) - 1)
    (field = 0 ↔ ∀ i, i < count → FlipSign (key_.getD i 0) ≠ c) ∧
    (∀ i, i < count → FlipSign (key_.getD i 0) = c →
      (∀ j, j < i → FlipSign (key_.getD j 0) ≠ c) → ctz field = i) := by
  intro field
  have hcmp : mm_cmpeq_epi8 (mm_set1_epi8 (FlipSign c)) key_ =
      (key_.map (fun y => decide (FlipSign c = y))).map (fun b => if b then 255 else 0) := by
    unfold mm_cmpeq_epi8 mm_set1_epi8
    rw [zipWith_replicate_left _ _ _ _ (by omega), List.map_map]
    apply List.map_congr_left
    intro y _
    by_cases h : FlipSign c = y <;> simp [h]
  have hget : ∀ i, i < count →
      ((key_.map (fun y => decide (FlipSign c = y))).getD i false = true ↔
        FlipSign (key_.getD i 0) = c) := by
    intro i hi
    have hi' : i < key_.length := by omega
    simp only [List.getD_eq_getElem?_getD, List.getElem?_map, List.getElem?_eq_getElem hi',
      Option.map_some', Option.getD_some, decide_eq_true_eq]
    constructor
    · intro h; rw [← h, FlipSign_FlipSign]
    · intro h; rw [← h, FlipSign_FlipSign]
  have hm := masked_bits (key_.map (fun y => decide (FlipSign c = y))) count (by simp [hl]) hc
  have hfield : field = mm_movemask_epi8
      ((key_.map (fun y => decide (FlipSign c = y))).map (fun b => if b then 255 else 0)) &&&
      (2 ^ count - 1) := by
    simp only [field, hcmp, Nat.one_shiftLeft]
  rw [hfield]
  refine ⟨?_, ?_⟩
  · rw [hm.1]
    constructor
    · intro h i hi hk
      have := h i hi
      rw [(hget i hi).2 hk] at this
      exact Bool.noConfusion this
    · intro h i hi
      cases hb : (key_.map (fun y => decide (FlipSign c = y))).getD i false with
      | false => rfl
      | true => exact absurd ((hget i hi).1 hb) (h i hi)
  · intro i hi hk hlt
    apply hm.2 i hi ((hget i hi).2 hk)
    intro j hj
    cases hb : (key_.map (fun y => decide (FlipSign c = y))).getD j false with
    | false => rfl
    | true => exact absurd ((hget j (by omega)).1 hb) (hlt j hj)

theorem FindChild_some (e : Bool) (n : CArtNode) (c s : Nat) (h : NodeOK e n)
    (hf : FindChild e n c = some s) (hc : c < 256) : (c, s) ∈ n.slots e := by
  cases n with
  | Fanout4 b k ch =>
    rw [mem_slots4]
    obtain ⟨h1, h2, _⟩ := findKeyLoop_some _ _ _ _ hf
    exact ⟨h1, h2⟩
  | Fanout16 b k ch =>
    rw [mem_slots16]
    obtain ⟨hl, _, hcount, hs, _⟩ := h
    cases e with
    | false =>
      simp only [FindChild, Bool.false_eq_true, if_false] at hf
      obtain ⟨h1, h2, _⟩ := findKeyLoop_some _ _ _ _ hf
      exact ⟨h1, by simpa [storedByte] using h2⟩
    | true =>
      simp only [FindChild, if_true] at hf
      have hsimd := find16_simd k b.children_count_ c hl hcount
      simp only at hsimd
      split at hf
      · rename_i hne
        simp only [Option.some.injEq] at hf
        -- some lane matches: take the least one
        have hex : ∃ i, i < b.children_count_ ∧ FlipSign (k.getD i 0) = c := by
          by_contra hcon
          push_neg at hcon
          exact hne (hsimd.1.2 hcon)
        classical
        obtain ⟨i, hi, hmin'⟩ : ∃ i, (i < b.children_count_ ∧ FlipSign (k.getD i 0) = c) ∧
            ∀ j, j < i → ¬ (j < b.children_count_ ∧ FlipSign (k.getD j 0) = c) :=
          ⟨Nat.find hex, Nat.find_spec hex, fun j hj => Nat.find_min hex hj⟩
        have hmin : ∀ j, j < i → FlipSign (k.getD j 0) ≠ c := by
          intro j hj hk
          exact hmin' j hj ⟨by omega, hk⟩
        have := hsimd.2 i hi.1 hi.2 hmin
        rw [this] at hf
        subst hf
        exact ⟨hi.1, by simpa [storedByte] using hi.2⟩
      · exact Option.noConfusion hf
  | Fanout48 b idx ch =>
    rw [mem_slots48]
    simp only [FindChild, CArtNode.EMPTY_MARKER] at hf
    split at hf
    · rename_i hne
      simp only [Option.some.injEq] at hf
      exact ⟨hc, hne, hf.symm⟩
    · exact Option.noConfusion hf
  | Fanout256 b ch =>
    rw [mem_slots256]
    simp only [FindChild] at hf
    split at hf
    · exact Option.noConfusion hf
    · rename_i hne
      simp only [Option.some.injEq] at hf
      exact ⟨hc, by simpa using hne, hf.symm⟩

theorem FindChild_none (e : Bool) (n : CArtNode) (c : Nat) (h : NodeOK e n)
    (hf : FindChild e n c = none) (s : Nat) : (c, s) ∉ n.slots e := by
  cases n with
  | Fanout4 b k ch =>
    rw [mem_slots4]
    rintro ⟨h1, h2⟩
    exact findKeyLoop_none _ _ _ hf s h1 h2
  | Fanout16 b k ch =>
    rw [mem_slots16]
    obtain ⟨hl, _, hcount, hs, _⟩ := h
    rintro ⟨h1, h2⟩
    cases e with
    | false =>
      simp only [FindChild, Bool.false_eq_true, if_false] at hf
      exact findKeyLoop_none _ _ _ hf s h1 (by simpa [storedByte] using h2)
    | true =>
      simp only [FindChild, if_true] at hf
      have hsimd := find16_simd k b.children_count_ c hl hcount
      simp only at hsimd
      split at hf
      · exact Option.noConfusion hf
      · rename_i hz
        have hz' := not_not.1 hz
        exact hsimd.1.1 hz' s h1 (by simpa [storedByte] using h2)
  | Fanout48 b idx ch =>
    rw [mem_slots48]
    simp only [FindChild, CArtNode.EMPTY_MARKER] at hf
    rintro ⟨_, h2, _⟩
    split at hf
    · exact Option.noConfusion hf
    · rename_i hz; exact hz h2
  | Fanout256 b ch =>
    rw [mem_slots256]
    simp only [FindChild] at hf
    rintro ⟨_, h2, _⟩
    split at hf
    · rename_i hz; rw [h2] at hz; exact Bool.noConfusion hz
    · exact Option.noConfusion hf
theorem getD_set_ptr {α : Type} (l : List α) (s i : Nat) (x d : α) (hs : s < l.length) :
    (l.set s x).getD i d = if i = s then x else l.getD i d := by
  simp only [List.getD_eq_getElem?_getD, List.getElem?_set]
  by_cases h : i = s
  · subst h; simp [hs]
  · have : ¬ s = i := fun h' => h h'.symm
    simp [h, this]

theorem getD_set_ne {α : Type} (l : List α) (s i : Nat) (x d : α) (hs : i ≠ s) :
    (l.set s x).getD i d = l.getD i d := by
  simp only [List.getD_eq_getElem?_getD, List.getElem?_set]
  have : ¬ s = i := fun h' => hs h'.symm
  simp [this]

/-- Storing a node through the slot pointer of an existing child keeps the node well-formed
and keeps its list of children slots. -/
theorem setChild_spec (e : Bool) (n : CArtNode) (c s : Nat) (x : CArtNode) (h : NodeOK e n)
    (hs : (c, s) ∈ n.slots e) :
    NodeOK e (n.setChild s (Ptr.to x)) ∧ (n.setChild s (Ptr.to x)).slots e = n.slots e ∧
    (n.setChild s (Ptr.to x)).base = n.base ∧
    (n.setChild s (Ptr.to x)).child_ = n.child_.set s (Ptr.to x) := by
  have hnode := slots_node e n h c s hs
  cases n with
  | Fanout4 b k ch =>
    obtain ⟨h1, h2, h3, h4, h5, h6⟩ := h
    simp only [CArtNode.child_] at hnode
    refine ⟨⟨h1, by simpa using h2, h3, h4, h5, fun i hi => ?_⟩, rfl, rfl, rfl⟩
    rw [getD_set_ptr _ _ _ _ _ hnode.1]
    split
    · exact ⟨x, rfl⟩
    · exact h6 i hi
  | Fanout16 b k ch =>
    obtain ⟨h1, h2, h3, h4, h5, h6⟩ := h
    simp only [CArtNode.child_] at hnode
    refine ⟨⟨h1, by simpa using h2, h3, h4, h5, fun i hi => ?_⟩, rfl, rfl, rfl⟩
    rw [getD_set_ptr _ _ _ _ _ hnode.1]
    split
    · exact ⟨x, rfl⟩
    · exact h6 i hi
  | Fanout48 b idx ch =>
    obtain ⟨h1, h2, h3, h4, h5, h6⟩ := h
    rw [mem_slots48] at hs
    simp only [CArtNode.child_] at hnode
    have hlt := (h4 c hs.1 hs.2.1).1
    refine ⟨⟨h1, by simpa using h2, h3, fun i hi hne => ⟨(h4 i hi hne).1, ?_⟩, h5,
      fun s' hs' => ?_⟩, rfl, rfl, rfl⟩
    · rw [getD_set_ptr _ _ _ _ _ hnode.1]
      split
      · exact ⟨x, rfl⟩
      · exact (h4 i hi hne).2
    · rw [getD_set_ne _ _ _ _ _ (by omega)]
      exact h6 s' hs'
  | Fanout256 b ch =>
    obtain ⟨h1, h2, h3⟩ := h
    rw [mem_slots256] at hs
    obtain ⟨hc, hne, hsc⟩ := hs
    subst hsc
    have hcl : s < ch.length := by omega
    refine ⟨⟨by simpa using h1, fun i hi => ?_, fun h0 i hi => ?_⟩, ?_, rfl, rfl⟩
    · rw [getD_set_ptr _ _ _ _ _ hcl]
      split
      · exact Or.inr ⟨x, rfl⟩
      · exact h2 i hi
    · have := h3 h0 s hc
      rw [this] at hne
      exact Bool.noConfusion hne
    · simp only [CArtNode.slots, CArtNode.setChild]
      congr 1
      apply List.filter_congr
      intro i hi
      rw [getD_set_ptr _ _ _ _ _ hcl]
      split
      · rename_i his; subst his; rw [hne]; rfl
      · rfl

theorem kids_setChild (e : Bool) (n : CArtNode) (c s : Nat) (x : CArtNode) (h : NodeOK e n)
    (hs : (c, s) ∈ n.slots e) (c' : Nat) (q : Ptr CArtNode) :
    (c', q) ∈ (n.setChild s (Ptr.to x)).kids e ↔
      (c' = c ∧ q = Ptr.to x) ∨ (c' ≠ c ∧ (c', q) ∈ n.kids e) := by
  obtain ⟨_, h2, _, h4⟩ := setChild_spec e n c s x h hs
  have hnode := slots_node e n h c s hs
  rw [mem_kids, mem_kids, h2, h4]
  constructor
  · rintro ⟨s', hs', hq⟩
    rw [getD_set_ptr _ _ _ _ _ hnode.1] at hq
    split at hq
    · rename_i he; subst he
      exact Or.inl ⟨slots_inj e n h _ _ _ hs' hs, hq.symm⟩
    · rename_i hne
      refine Or.inr ⟨fun hc => ?_, s', hs', hq⟩
      subst hc
      exact hne (slots_fun e n h _ _ _ hs' hs)
  · rintro (⟨hc, hq⟩ | ⟨hc, s', hs', hq⟩)
    · subst hc; subst hq
      exact ⟨s, hs, by rw [getD_set_ptr _ _ _ _ _ hnode.1, if_pos rfl]⟩
    · refine ⟨s', hs', ?_⟩
      rw [getD_set_ptr _ _ _ _ _ hnode.1, if_neg, hq]
      intro he; subst he
      exact hc (slots_inj e n h _ _ _ hs' hs)

theorem InsertSpec.transfer (e : Bool) (n n' : CArtNode) (c : Nat) (p : Ptr CArtNode)
    (r : CArtNode × Nat) (h : InsertSpec e n' c p r)
    (hk : ∀ c' q, (c', q) ∈ n'.kids e ↔ (c', q) ∈ n.kids e) (hb : n'.base = n.base) :
    InsertSpec e n c p r := by
  obtain ⟨h1, h2, h3, h4, h5⟩ := h
  refine ⟨h1, h2, h3, fun c' q => ?_, ?_⟩
  · rw [h4, hk]
  · rw [h5, hb]

theorem insert256_spec (e : Bool) (b : CArtNodeBase) (ch : List (Ptr CArtNode)) (c : Nat)
    (x : CArtNode) (h : NodeOK e (CArtNode.Fanout256 b ch)) (hc : c < 256)
    (hnew : ∀ s, (c, s) ∉ (CArtNode.Fanout256 b ch).slots e) :
    InsertSpec e (CArtNode.Fanout256 b ch) c (Ptr.to x) (InsertInNode256 b ch c (Ptr.to x)) := by
  obtain ⟨h1, h2, h3⟩ := h
  have hcl : c < ch.length := by omega
  have hempty : ch.getD c Ptr.nullptr = Ptr.EMPTY_NODE := by
    rcases h2 c hc with h0 | ⟨y, h0⟩
    · exact h0
    · exfalso
      apply hnew c
      rw [mem_slots256]
      exact ⟨hc, by rw [h0]; rfl, rfl⟩
  unfold InsertInNode256
  refine ⟨⟨by simpa using h1, fun i hi => ?_, fun h0 => by simp at h0⟩, ?_, ?_, ?_, rfl⟩
  · rw [getD_set_ptr _ _ _ _ _ hcl]
    split
    · exact Or.inr ⟨x, rfl⟩
    · exact h2 i hi
  · rw [mem_slots256]
    refine ⟨hc, ?_, rfl⟩
    rw [getD_set_ptr _ _ _ _ _ hcl, if_pos rfl]; rfl
  · simp only [CArtNode.child_]
    rw [getD_set_ptr _ _ _ _ _ hcl, if_pos rfl]
  · intro c' q
    simp only [mem_kids, mem_slots256, CArtNode.child_]
    constructor
    · rintro ⟨s, ⟨h1', h2', h3'⟩, hq⟩
      rw [h3'] at hq
      rw [getD_set_ptr _ _ _ _ _ hcl] at h2' hq
      by_cases hcc : c' = c
      · left; rw [if_pos hcc] at hq; exact ⟨hcc, hq.symm⟩
      · right; rw [if_neg hcc] at hq h2'; exact ⟨c', ⟨h1', h2', rfl⟩, hq⟩
    · rintro (⟨hcc, hq⟩ | ⟨s, ⟨h1', h2', h3'⟩, hq⟩)
      · rw [hcc, hq]
        refine ⟨c, ⟨hc, ?_, rfl⟩, ?_⟩ <;> rw [getD_set_ptr _ _ _ _ _ hcl, if_pos rfl]
        rfl
      · rw [h3'] at hq
        have hcc : c' ≠ c := by
          intro hcc; rw [hcc, hempty] at h2'; exact Bool.noConfusion h2'
        refine ⟨c', ⟨h1', ?_, rfl⟩, ?_⟩ <;> rw [getD_set_ptr _ _ _ _ _ hcl, if_neg hcc]
        · exact h2'
        · exact hq
theorem getD_range_map {α : Type} (f : Nat → α) (n i : Nat) (d : α) (h : i < n) :
    ((List.range n).map f).getD i d = f i := by
  simp [List.getD_eq_getElem?_getD, List.getElem?_map, List.getElem?_range h]

theorem insert48_spec (e : Bool) (b : CArtNodeBase) (idx : List Nat) (ch : List (Ptr CArtNode))
    (c : Nat) (x : CArtNode) (h : NodeOK e (CArtNode.Fanout48 b idx ch)) (hc : c < 256)
    (hnew : ∀ s, (c, s) ∉ (CArtNode.Fanout48 b idx ch).slots e) :
    InsertSpec e (CArtNode.Fanout48 b idx ch) c (Ptr.to x)
      (InsertInNode48 b idx ch c (Ptr.to x)) := by
  have hOK := h
  obtain ⟨h1, h2, h3, h4, h5, h6⟩ := h
  have hidx : idx.getD c 0 = 48 := by
    by_contra hne
    exact hnew _ ((mem_slots48 e b idx ch c _).2 ⟨hc, hne, rfl⟩)
  unfold InsertInNode48
  by_cases hfull : b.children_count_ < 48
  · rw [if_pos hfull]
    have hnull : (ch.getD b.children_count_ Ptr.nullptr).isNull = true := by
      rw [h6 _ (le_refl _)]; rfl
    simp only [hnull, Bool.not_true, Bool.false_eq_true, if_false]
    have hcl : c < idx.length := by omega
    have hpl : b.children_count_ < ch.length := by omega
    refine ⟨⟨by simpa using h1, by simpa using h2, Nat.succ_le_of_lt hfull, fun i hi hne => ?_,
      fun i j hi hj hne heq => ?_, fun s hs => ?_⟩, ?_, ?_, ?_, rfl⟩
    · rw [getD_set_ptr _ _ _ _ _ hcl] at hne ⊢
      by_cases hic : i = c
      · rw [if_pos hic]
        exact ⟨Nat.lt_succ_self _, ⟨x, by rw [getD_set_ptr _ _ _ _ _ hpl, if_pos rfl]⟩⟩
      · rw [if_neg hic] at hne ⊢
        have := h4 i hi hne
        refine ⟨Nat.lt_succ_of_lt this.1, ?_⟩
        rw [getD_set_ne _ _ _ _ _ (by omega)]
        exact this.2
    · rw [getD_set_ptr _ _ _ _ _ hcl] at hne heq
      rw [getD_set_ptr _ _ _ _ _ hcl] at heq
      by_cases hic : i = c
      · by_cases hjc : j = c
        · rw [hic, hjc]
        · rw [if_pos hic, if_neg hjc] at heq
          by_cases hj48 : idx.getD j 0 = 48
          · omega
          · have := (h4 j hj hj48).1; omega
      · rw [if_neg hic] at hne heq
        by_cases hjc : j = c
        · rw [if_pos hjc] at heq
          have := (h4 i hi hne).1; omega
        · rw [if_neg hjc] at heq
          exact h5 i j hi hj hne heq
    · simp only at hs
      rw [getD_set_ne _ _ _ _ _ (by omega)]
      exact h6 s (by omega)
    · rw [mem_slots48]
      refine ⟨hc, ?_, ?_⟩ <;> rw [getD_set_ptr _ _ _ _ _ hcl, if_pos rfl]
      omega
    · simp only [CArtNode.child_]
      rw [getD_set_ptr _ _ _ _ _ hpl, if_pos rfl]
    · intro c' q
      simp only [mem_kids, mem_slots48, CArtNode.child_]
      constructor
      · rintro ⟨s, ⟨h1', h2', h3'⟩, hq⟩
        rw [h3'] at hq
        rw [getD_set_ptr _ _ _ _ _ hcl] at h2' hq
        by_cases hcc : c' = c
        · left
          rw [if_pos hcc, getD_set_ptr _ _ _ _ _ hpl, if_pos rfl] at hq
          exact ⟨hcc, hq.symm⟩
        · right
          rw [if_neg hcc] at hq h2'
          have := (h4 c' h1' h2').1
          rw [getD_set_ne _ _ _ _ _ (by omega)] at hq
          exact ⟨_, ⟨h1', h2', rfl⟩, hq⟩
      · rintro (⟨hcc, hq⟩ | ⟨s, ⟨h1', h2', h3'⟩, hq⟩)
        · rw [hcc, hq]
          refine ⟨b.children_count_, ⟨hc, ?_, ?_⟩, ?_⟩
          · rw [getD_set_ptr _ _ _ _ _ hcl, if_pos rfl]; omega
          · rw [getD_set_ptr _ _ _ _ _ hcl, if_pos rfl]
          · rw [getD_set_ptr _ _ _ _ _ hpl, if_pos rfl]
        · rw [h3'] at hq
          have hcc : c' ≠ c := by
            intro hcc; rw [hcc] at h2'; exact h2' hidx
          have := (h4 c' h1' h2').1
          refine ⟨idx.getD c' 0, ⟨h1', ?_, ?_⟩, ?_⟩
          · rw [getD_set_ptr _ _ _ _ _ hcl, if_neg hcc]; exact h2'
          · rw [getD_set_ptr _ _ _ _ _ hcl, if_neg hcc]
          · rw [getD_set_ne _ _ _ _ _ (by omega)]; exact hq
  · rw [if_neg hfull]
    have h48 : b.children_count_ = 48 := by omega
    -- the node after the grow
    have hgetD : ∀ i, i < 256 →
        ((List.range 256).map (fun i =>
          if idx.getD i 0 ≠ 48 then ch.getD (idx.getD i 0) Ptr.nullptr
          else Ptr.EMPTY_NODE)).getD i Ptr.nullptr =
        if idx.getD i 0 ≠ 48 then ch.getD (idx.getD i 0) Ptr.nullptr else Ptr.EMPTY_NODE :=
      fun i hi => getD_range_map _ _ _ _ hi
    generalize hnc : (List.range 256).map (fun i =>
          if idx.getD i 0 ≠ 48 then ch.getD (idx.getD i 0) Ptr.nullptr
          else Ptr.EMPTY_NODE) = newChild at hgetD
    have hlen : newChild.length = 256 := by rw [← hnc]; simp
    have hOK' : NodeOK e (CArtNode.Fanout256 b newChild) := by
      refine ⟨hlen, fun i hi => ?_, fun h0 => by omega⟩
      rw [hgetD i hi]
      by_cases hne : idx.getD i 0 ≠ 48
      · rw [if_pos hne]; exact Or.inr (h4 i hi hne).2
      · rw [if_neg hne]; exact Or.inl rfl
    have hkids : ∀ c' q, (c', q) ∈ (CArtNode.Fanout256 b newChild).kids e ↔
        (c', q) ∈ (CArtNode.Fanout48 b idx ch).kids e := by
      intro c' q
      simp only [mem_kids, mem_slots256, mem_slots48, CArtNode.child_]
      constructor
      · rintro ⟨s, ⟨h1', h2', h3'⟩, hq⟩
        rw [h3'] at hq
        rw [hgetD c' h1'] at h2' hq
        by_cases hne : idx.getD c' 0 ≠ 48
        · rw [if_pos hne] at hq
          exact ⟨_, ⟨h1', hne, rfl⟩, hq⟩
        · rw [if_neg hne] at h2'
          exact Bool.noConfusion h2'
      · rintro ⟨s, ⟨h1', h2', h3'⟩, hq⟩
        rw [h3'] at hq
        obtain ⟨y, hy⟩ := (h4 c' h1' h2').2
        refine ⟨c', ⟨h1', ?_, rfl⟩, ?_⟩
        · rw [hgetD c' h1', if_pos h2', hy]; rfl
        · rw [hgetD c' h1', if_pos h2']; exact hq
    apply InsertSpec.transfer e _ (CArtNode.Fanout256 b newChild) c _ _ _ hkids rfl
    apply insert256_spec e b newChild c x hOK' hc
    intro s hs
    rw [mem_slots256] at hs
    rw [hgetD c hc, if_neg (by simpa using hidx)] at hs
    exact Bool.noConfusion hs.2.1
/-- Insertion into the sorted parallel arrays of a `CArtNode4` / `CArtNode16` by the two
`memmove` calls and the two stores of `InsertInNode`. `sb` reads a stored key cell. -/
theorem sorted_insert (sb : Nat → Nat) (k : List Nat) (ch : List (Ptr CArtNode))
    (count pos c kb : Nat) (p : Ptr CArtNode)
    (hk : count < k.length) (hch : count < ch.length) (hpos : pos ≤ count)
    (hsorted : ∀ i j, i < j → j < count → sb (k.getD i 0) < sb (k.getD j 0))
    (hlo : ∀ i, i < pos → sb (k.getD i 0) < c)
    (hhi : ∀ i, pos ≤ i → i < count → c < sb (k.getD i 0))
    (hkb : sb kb = c) :
    (∀ i j, i < j → j < count + 1 →
      sb (((memmove k (pos + 1) pos (count - pos)).set pos kb).getD i 0) <
      sb (((memmove k (pos + 1) pos (count - pos)).set pos kb).getD j 0)) ∧
    (∀ c' q, (∃ i, i < count + 1 ∧
        sb (((memmove k (pos + 1) pos (count - pos)).set pos kb).getD i 0) = c' ∧
        ((memmove ch (pos + 1) pos (count - pos)).set pos p).getD i Ptr.nullptr = q) ↔
      (c' = c ∧ q = p) ∨ (∃ i, i < count ∧ sb (k.getD i 0) = c' ∧ ch.getD i Ptr.nullptr = q)) ∧
    (∀ i, i < count + 1 → i ≠ pos →
      ∃ j, j < count ∧ ((memmove k (pos + 1) pos (count - pos)).set pos kb).getD i 0 = k.getD j 0 ∧
        ((memmove ch (pos + 1) pos (count - pos)).set pos p).getD i Ptr.nullptr =
          ch.getD j Ptr.nullptr) := by
  have gk := getD_memmove_set k pos count kb 0 hpos hk
  have gc := getD_memmove_set ch pos count p Ptr.nullptr hpos hch
  refine ⟨fun i j hij hj => ?_, fun c' q => ⟨?_, ?_⟩, fun i hi hne => ?_⟩
  · rw [gk i, gk j]
    by_cases h1 : i < pos
    · rw [if_pos h1]
      by_cases h2 : j < pos
      · rw [if_pos h2]; exact hsorted i j hij (by omega)
      · rw [if_neg h2]
        by_cases h3 : j = pos
        · rw [if_pos h3, hkb]; exact hlo i h1
        · rw [if_neg h3, if_pos (by omega)]
          exact hsorted i (j - 1) (by omega) (by omega)
    · rw [if_neg h1, if_neg (by omega : ¬ j < pos), if_neg (by omega : ¬ j = pos),
        if_pos (by omega : j ≤ count)]
      by_cases h3 : i = pos
      · rw [if_pos h3, hkb]; exact hhi (j - 1) (by omega) (by omega)
      · rw [if_neg h3, if_pos (by omega)]
        exact hsorted (i - 1) (j - 1) (by omega) (by omega)
  · rintro ⟨i, hi, h1, h2⟩
    rw [gk i] at h1
    rw [gc i] at h2
    by_cases h3 : i < pos
    · rw [if_pos h3] at h1 h2
      exact Or.inr ⟨i, by omega, h1, h2⟩
    · rw [if_neg h3] at h1 h2
      by_cases h4 : i = pos
      · rw [if_pos h4] at h1 h2
        exact Or.inl ⟨by rw [← h1, hkb], h2.symm⟩
      · rw [if_neg h4, if_pos (by omega)] at h1 h2
        exact Or.inr ⟨i - 1, by omega, h1, h2⟩
  · rintro (⟨h1, h2⟩ | ⟨i, hi, h1, h2⟩)
    · refine ⟨pos, by omega, ?_, ?_⟩
      · rw [gk pos, if_neg (lt_irrefl _), if_pos rfl, hkb, h1]
      · rw [gc pos, if_neg (lt_irrefl _), if_pos rfl, h2]
    · by_cases h3 : i < pos
      · refine ⟨i, by omega, ?_, ?_⟩
        · rw [gk i, if_pos h3, h1]
        · rw [gc i, if_pos h3, h2]
      · refine ⟨i + 1, by omega, ?_, ?_⟩
        · rw [gk (i + 1), if_neg (by omega), if_neg (by omega), if_pos (by omega)]
          simpa using h1
        · rw [gc (i + 1), if_neg (by omega), if_neg (by omega), if_pos (by omega)]
          simpa using h2
  · rw [gk i, gc i]
    by_cases h3 : i < pos
    · rw [if_pos h3, if_pos h3]; exact ⟨i, by omega, rfl, rfl⟩
    · rw [if_neg h3, if_neg h3, if_neg hne, if_neg hne, if_pos (by omega), if_pos (by omega)]
      exact ⟨i - 1, by omega, rfl, rfl⟩

/-- The scalar position loop finds the place of a new key byte in the sorted keys. -/
theorem insertPos_scalar (k : List Nat) (count c : Nat)
    (hsorted : ∀ i j, i < j → j < count → k.getD i 0 < k.getD j 0)
    (hnew : ∀ i, i < count → k.getD i 0 ≠ c) :
    insertPosLoop k count c ≤ count ∧
    (∀ i, i < insertPosLoop k count c → k.getD i 0 < c) ∧
    (∀ i, insertPosLoop k count c ≤ i → i < count → c < k.getD i 0) := by
  obtain ⟨h1, h2, h3⟩ := insertPosLoop_spec k count c
  refine ⟨h1, h2, fun i hi hic => ?_⟩
  have hp : insertPosLoop k count c < count := by omega
  have h4 := h3 hp
  have h5 := hnew _ hp
  rcases Nat.eq_or_lt_of_le hi with he | hl
  · rw [← he]; omega
  · have := hsorted _ i hl hic; omega

/-- The SIMD position computation of `InsertInNode` on a `CArtNode16`. -/
theorem insertPos_simd (k : List Nat) (count c : Nat) (hl : k.length = 16) (hcnt : count ≤ 16)
    (hc : c < 256) (hb : ∀ i, i < count → k.getD i 0 < 256)
    (hsorted : ∀ i j, i < j → j < count → FlipSign (k.getD i 0) < FlipSign (k.getD j 0))
    (hnew : ∀ i, i < count → FlipSign (k.getD i 0) ≠ c) :
    let field := mm_movemask_epi8 (mm_cmplt_epi8 (mm_set1_epi8 (FlipSign c)) k) &&&
      (0xFFFF >>> (16 - count))
    let pos := if field ≠ 0 then ctz field else count
    pos ≤ count ∧ (∀ i, i < pos → FlipSign (k.getD i 0) < c) ∧
    (∀ i, pos ≤ i → i < count → c < FlipSign (k.getD i 0)) := by
  intro field pos
  have hcmp : mm_cmplt_epi8 (mm_set1_epi8 (FlipSign c)) k =
      (k.map (fun y => decide (toInt8 (FlipSign c) < toInt8 y))).map
        (fun b => if b then 255 else 0) := by
    unfold mm_cmplt_epi8 mm_set1_epi8
    rw [zipWith_replicate_left _ _ _ _ (by omega), List.map_map]
    apply List.map_congr_left
    intro y _
    by_cases h : toInt8 (FlipSign c) < toInt8 y <;> simp [h]
  have hget : ∀ i, i < count →
      ((k.map (fun y => decide (toInt8 (FlipSign c) < toInt8 y))).getD i false = true ↔
        c < FlipSign (k.getD i 0)) := by
    intro i hi
    have hi' : i < k.length := by omega
    have hki := hb i hi
    simp only [List.getD_eq_getElem?_getD, List.getElem?_map, List.getElem?_eq_getElem hi',
      Option.map_some', Option.getD_some, decide_eq_true_eq] at hki ⊢
    rw [← toInt8_FlipSign_lt c (FlipSign k[i]) hc (FlipSign_lt _ hki), FlipSign_FlipSign]
  have hmask : (0xFFFF >>> (16 - count)) = 2 ^ count - 1 := by
    have : count < 17 := by omega
    interval_cases count <;> rfl
  have hm := masked_bits (k.map (fun y => decide (toInt8 (FlipSign c) < toInt8 y))) count
    (by simp [hl]) hcnt
  have hfield : field = mm_movemask_epi8
      ((k.map (fun y => decide (toInt8 (FlipSign c) < toInt8 y))).map
        (fun b => if b then 255 else 0)) &&& (2 ^ count - 1) := by
    simp only [field, hcmp, hmask]
  by_cases hz : field = 0
  · have hpos : pos = count := by simp only [pos, hz, ne_eq, not_true, if_false]
    rw [hpos]
    refine ⟨le_refl _, fun i hi => ?_, fun i h1 h2 => by omega⟩
    rw [hfield] at hz
    have := hm.1.1 hz i hi
    have hn : ¬ c < FlipSign (k.getD i 0) := by
      intro hlt
      rw [(hget i hi).2 hlt] at this
      exact Bool.noConfusion this
    have := hnew i hi
    omega
  · have hex : ∃ i, i < count ∧ c < FlipSign (k.getD i 0) := by
      by_contra hcon
      push_neg at hcon
      apply hz
      rw [hfield]
      apply hm.1.2
      intro i hi
      cases hbv : (k.map (fun y => decide (toInt8 (FlipSign c) < toInt8 y))).getD i false with
      | false => rfl
      | true => exact absurd ((hget i hi).1 hbv) (not_lt.2 (hcon i hi))
    classical
    obtain ⟨i, hi, hmin⟩ : ∃ i, (i < count ∧ c < FlipSign (k.getD i 0)) ∧
        ∀ j, j < i → ¬ (j < count ∧ c < FlipSign (k.getD j 0)) :=
      ⟨Nat.find hex, Nat.find_spec hex, fun j hj => Nat.find_min hex hj⟩
    have hctz : ctz field = i := by
      rw [hfield]
      apply hm.2 i hi.1 ((hget i hi.1).2 hi.2)
      intro j hj
      cases hbv : (k.map (fun y => decide (toInt8 (FlipSign c) < toInt8 y))).getD j false with
      | false => rfl
      | true => exact absurd ⟨by omega, (hget j (by omega)).1 hbv⟩ (hmin j hj)
    have hpos : pos = i := by simp only [pos, hz, ne_eq, not_false_eq_true, if_true, hctz]
    rw [hpos]
    refine ⟨le_of_lt hi.1, fun j hj => ?_, fun j h1 h2 => ?_⟩
    · have h3 := hmin j hj
      have h4 := hnew j (by omega)
      have : ¬ c < FlipSign (k.getD j 0) := fun h => h3 ⟨by omega, h⟩
      omega
    · rcases Nat.eq_or_lt_of_le h1 with he | hl'
      · rw [← he]; exact hi.2
      · have := hsorted i j hl' h2; omega
theorem storedByte_stored (e : Bool) (c : Nat) :
    storedByte e (if e then FlipSign c else c) = c := by
  cases e
  · simp [storedByte]
  · simp [storedByte, FlipSign_FlipSign]

theorem storedByte_lt (e : Bool) (x : Nat) (h : x < 256) : storedByte e x < 256 := by
  unfold storedByte; split
  · exact FlipSign_lt x h
  · exact h

theorem stored_lt (e : Bool) (c : Nat) (h : c < 256) : (if e then FlipSign c else c) < 256 := by
  split
  · exact FlipSign_lt c h
  · exact h

/-- The index array built by the grow of a `CArtNode16` into a `CArtNode48`. -/
theorem grow_index (sb : Nat → Nat) (k : List Nat) (n : Nat)
    (hb : ∀ i, i < n → sb (k.getD i 0) < 256)
    (hinj : ∀ i j, i < j → j < n → sb (k.getD i 0) ≠ sb (k.getD j 0)) :
    ((List.range n).foldl (fun idx i => idx.set (sb (k.getD i 0)) i)
        (List.replicate 256 CArtNode.EMPTY_MARKER)).length = 256 ∧
    (∀ i, i < n → ((List.range n).foldl (fun idx i => idx.set (sb (k.getD i 0)) i)
        (List.replicate 256 CArtNode.EMPTY_MARKER)).getD (sb (k.getD i 0)) 0 = i) ∧
    (∀ x, (∀ i, i < n → sb (k.getD i 0) ≠ x) →
      ((List.range n).foldl (fun idx i => idx.set (sb (k.getD i 0)) i)
        (List.replicate 256 CArtNode.EMPTY_MARKER)).getD x 0 =
      (List.replicate 256 CArtNode.EMPTY_MARKER).getD x 0) := by
  induction n with
  | zero =>
    exact ⟨by rw [List.range_zero]; exact List.length_replicate _ _,
      fun i hi => absurd hi (Nat.not_lt_zero _), fun x _ => rfl⟩
  | succ n ih =>
    obtain ⟨ih1, ih2, ih3⟩ := ih (fun i hi => hb i (by omega))
      (fun i j hij hj => hinj i j hij (by omega))
    rw [List.range_succ, List.foldl_append]
    simp only [List.foldl_cons, List.foldl_nil]
    have hlt : sb (k.getD n 0) <
        ((List.range n).foldl (fun idx i => idx.set (sb (k.getD i 0)) i)
          (List.replicate 256 CArtNode.EMPTY_MARKER)).length := by
      rw [ih1]; exact hb n (by omega)
    refine ⟨by rw [List.length_set]; exact ih1, fun i hi => ?_, fun x hx => ?_⟩
    · rw [getD_set_ptr _ _ _ _ _ hlt]
      by_cases hin : i = n
      · rw [hin, if_pos rfl]
      · rw [if_neg (hinj i n (by omega) (by omega))]
        exact ih2 i (by omega)
    · rw [getD_set_ne _ _ _ _ _ (fun h => hx n (by omega) h.symm)]
      exact ih3 x (fun i hi => hx i (by omega))

theorem getD_replicate_lt {α : Type} (n i : Nat) (a d : α) (h : i < n) :
    (List.replicate n a).getD i d = a := by
  simp [List.getD_eq_getElem?_getD, List.getElem?_replicate, h]

theorem getD_replicate_self {α : Type} (n i : Nat) (a : α) :
    (List.replicate n a).getD i a = a := by
  rw [List.getD_eq_getElem?_getD, List.getElem?_replicate]
  split <;> rfl

theorem getD_memcpy {α : Type} (dst src : List α) (n : Nat) (d : α) (hn : n ≤ src.length)
    (i : Nat) : (memcpy dst src n).getD i d = if i < n then src.getD i d else dst.getD i d := by
  unfold memcpy
  simp only [List.getD_eq_getElem?_getD, List.getElem?_append, List.length_take,
    List.getElem?_take, List.getElem?_drop]
  have e1 : min n src.length = n := by omega
  rw [e1]
  by_cases h : i < n
  · simp [h]
  · simp only [h, if_false]
    congr 2; omega

theorem length_memcpy {α : Type} (dst src : List α) (n : Nat) (hn : n ≤ src.length)
    (hd : n ≤ dst.length) : (memcpy dst src n).length = dst.length := by
  unfold memcpy
  simp only [List.length_append, List.length_take, List.length_drop]
  omega

theorem insert16_spec (e : Bool) (b : CArtNodeBase) (k : List Nat) (ch : List (Ptr CArtNode))
    (c : Nat) (x : CArtNode) (h : NodeOK e (CArtNode.Fanout16 b k ch)) (hc : c < 256)
    (hnew : ∀ s, (c, s) ∉ (CArtNode.Fanout16 b k ch).slots e) :
    InsertSpec e (CArtNode.Fanout16 b k ch) c (Ptr.to x)
      (InsertInNode16 e b k ch c (Ptr.to x)) := by
  obtain ⟨h1, h2, h3, h4, h5, h6⟩ := h
  have hnew' : ∀ i, i < b.children_count_ → storedByte e (k.getD i 0) ≠ c :=
    fun i hi he => hnew i ((mem_slots16 e b k ch c i).2 ⟨hi, he⟩)
  unfold InsertInNode16
  by_cases hfull : b.children_count_ < 16
  · rw [if_pos hfull]
    -- the insert position
    have hpos : ∃ pos, (if e = true then
          if mm_movemask_epi8 (mm_cmplt_epi8 (mm_set1_epi8 (if e = true then FlipSign c else c)) k) &&&
              (0xFFFF >>> (16 - b.children_count_)) ≠ 0 then
            ctz (mm_movemask_epi8 (mm_cmplt_epi8 (mm_set1_epi8 (if e = true then FlipSign c else c)) k) &&&
              (0xFFFF >>> (16 - b.children_count_)))
          else b.children_count_
        else insertPosLoop k b.children_count_ c) = pos ∧ pos ≤ b.children_count_ ∧
        (∀ i, i < pos → storedByte e (k.getD i 0) < c) ∧
        (∀ i, pos ≤ i → i < b.children_count_ → c < storedByte e (k.getD i 0)) := by
      cases e with
      | false =>
        simp only [Bool.false_eq_true, if_false, storedByte] at h4 hnew' ⊢
        exact ⟨_, rfl, insertPos_scalar k _ c h4 hnew'⟩
      | true =>
        simp only [if_true, storedByte] at h4 hnew' ⊢
        exact ⟨_, rfl, insertPos_simd k _ c h1 h3 hc h5 h4 hnew'⟩
    obtain ⟨pos, hposeq, hp1, hp2, hp3⟩ := hpos
    simp only [hposeq]
    have hkl : b.children_count_ < k.length := by omega
    have hcl : b.children_count_ < ch.length := by omega
    obtain ⟨s1, s2, s3⟩ := sorted_insert (storedByte e) k ch b.children_count_ pos c
      (if e = true then FlipSign c else c) (Ptr.to x) hkl hcl hp1 h4 hp2 hp3
      (storedByte_stored e c)
    have gk := getD_memmove_set k pos b.children_count_ (if e = true then FlipSign c else c) 0
      hp1 hkl
    have gc := getD_memmove_set ch pos b.children_count_ (Ptr.to x) Ptr.nullptr hp1 hcl
    refine ⟨⟨?_, ?_, Nat.succ_le_of_lt hfull, s1, fun i hi => ?_, fun i hi => ?_⟩, ?_, ?_, ?_, rfl⟩
    · rw [length_memmove_set _ _ _ _ hp1 hkl]; exact h1
    · rw [length_memmove_set _ _ _ _ hp1 hcl]; exact h2
    · by_cases hip : i = pos
      · rw [hip, gk pos, if_neg (lt_irrefl _), if_pos rfl]
        exact stored_lt e c hc
      · obtain ⟨j, hj, hjk, _⟩ := s3 i hi hip
        rw [hjk]; exact h5 j hj
    · by_cases hip : i = pos
      · rw [hip, gc pos, if_neg (lt_irrefl _), if_pos rfl]
        exact ⟨x, rfl⟩
      · obtain ⟨j, hj, _, hjc⟩ := s3 i hi hip
        rw [hjc]; exact h6 j hj
    · rw [mem_slots16]
      refine ⟨by show pos < b.children_count_ + 1; omega, ?_⟩
      rw [gk pos, if_neg (lt_irrefl _), if_pos rfl]
      exact storedByte_stored e c
    · simp only [CArtNode.child_]
      rw [gc pos, if_neg (lt_irrefl _), if_pos rfl]
    · intro c' q
      simp only [mem_kids, mem_slots16, CArtNode.child_]
      have := s2 c' q
      constructor
      · rintro ⟨s, ⟨hs1, hs2⟩, hq⟩
        rcases this.1 ⟨s, hs1, hs2, hq⟩ with hl | ⟨i, hi1, hi2, hi3⟩
        · exact Or.inl hl
        · exact Or.inr ⟨i, ⟨hi1, hi2⟩, hi3⟩
      · rintro (hl | ⟨i, ⟨hi1, hi2⟩, hi3⟩)
        · obtain ⟨s, hs1, hs2, hq⟩ := this.2 (Or.inl hl)
          exact ⟨s, ⟨hs1, hs2⟩, hq⟩
        · obtain ⟨s, hs1, hs2, hq⟩ := this.2 (Or.inr ⟨i, hi1, hi2, hi3⟩)
          exact ⟨s, ⟨hs1, hs2⟩, hq⟩
  · rw [if_neg hfull]
    have h16 : b.children_count_ = 16 := by omega
    have hsb : ∀ i, i < b.children_count_ → storedByte e (k.getD i 0) < 256 :=
      fun i hi => storedByte_lt e _ (h5 i hi)
    have hinj : ∀ i j, i < j → j < b.children_count_ →
        storedByte e (k.getD i 0) ≠ storedByte e (k.getD j 0) :=
      fun i j hij hj => Nat.ne_of_lt (h4 i j hij hj)
    obtain ⟨g1, g2, g3⟩ := grow_index (storedByte e) k b.children_count_ hsb hinj
    have hfold : (List.range b.children_count_).foldl
        (fun idx i => idx.set (if e = true then FlipSign (k.getD i 0) else k.getD i 0) i)
        (List.replicate 256 CArtNode.EMPTY_MARKER) =
        (List.range b.children_count_).foldl (fun idx i => idx.set (storedByte e (k.getD i 0)) i)
        (List.replicate 256 CArtNode.EMPTY_MARKER) := rfl
    rw [hfold]
    generalize (List.range b.children_count_).foldl
        (fun idx i => idx.set (storedByte e (k.getD i 0)) i)
        (List.replicate 256 CArtNode.EMPTY_MARKER) = newIndex at g1 g2 g3
    have hmc := getD_memcpy (List.replicate 48 Ptr.nullptr) ch b.children_count_ Ptr.nullptr
      (by omega)
    have hml := length_memcpy (List.replicate 48 (Ptr.nullptr : Ptr CArtNode)) ch
      b.children_count_ (by omega) (by rw [List.length_replicate]; omega)
    generalize memcpy (List.replicate 48 Ptr.nullptr) ch b.children_count_ = newChild at hmc hml
    have hempty : ∀ y, y < 256 → (∀ i, i < b.children_count_ → storedByte e (k.getD i 0) ≠ y) →
        newIndex.getD y 0 = 48 := by
      intro y hy hne
      rw [g3 y hne, getD_replicate_lt _ _ _ _ hy]; rfl
    have hcases : ∀ y, y < 256 → newIndex.getD y 0 ≠ 48 →
        ∃ i, i < b.children_count_ ∧ storedByte e (k.getD i 0) = y ∧ newIndex.getD y 0 = i := by
      intro y hy hne
      by_contra hcon
      push_neg at hcon
      apply hne
      apply hempty y hy
      intro i hi he
      exact hcon i hi he (by rw [← he]; exact g2 i hi)
    have hOK' : NodeOK e (CArtNode.Fanout48 b newIndex newChild) := by
      refine ⟨g1, by rw [hml]; exact List.length_replicate _ _, by omega, fun y hy hne => ?_, fun y z hy hz hne heq => ?_,
        fun s hs => ?_⟩
      · obtain ⟨i, hi, _, hi3⟩ := hcases y hy hne
        rw [hi3]
        refine ⟨hi, ?_⟩
        rw [hmc i, if_pos hi]
        exact h6 i hi
      · obtain ⟨i, hi, hi2, hi3⟩ := hcases y hy hne
        obtain ⟨j, hj, hj2, hj3⟩ := hcases z hz (by rw [← heq]; exact hne)
        have : i = j := by rw [← hi3, ← hj3, heq]
        rw [← hi2, ← hj2, this]
      · rw [hmc s, if_neg (by omega)]
        exact getD_replicate_self _ _ _
    have hkids : ∀ c' q, (c', q) ∈ (CArtNode.Fanout48 b newIndex newChild).kids e ↔
        (c', q) ∈ (CArtNode.Fanout16 b k ch).kids e := by
      intro c' q
      simp only [mem_kids, mem_slots16, mem_slots48, CArtNode.child_]
      constructor
      · rintro ⟨s, ⟨hs1, hs2, hs3⟩, hq⟩
        obtain ⟨i, hi, hi2, hi3⟩ := hcases c' hs1 hs2
        refine ⟨i, ⟨hi, hi2⟩, ?_⟩
        rw [← hq, hs3, hi3, hmc i, if_pos hi]
      · rintro ⟨i, ⟨hi1, hi2⟩, hq⟩
        have hg := g2 i hi1
        rw [hi2] at hg
        refine ⟨i, ⟨by rw [← hi2]; exact hsb i hi1, by rw [hg]; omega, hg.symm⟩, ?_⟩
        rw [hmc i, if_pos hi1]; exact hq
    apply InsertSpec.transfer e _ (CArtNode.Fanout48 b newIndex newChild) c _ _ _ hkids rfl
    apply insert48_spec e b newIndex newChild c x hOK' hc
    intro s hs
    rw [mem_slots48] at hs
    exact hs.2.1 (hempty c hc hnew')
/-- The key array built by the grow of a `CArtNode4` into a `CArtNode16`. -/
theorem grow_keys (f : Nat → Nat) (k : List Nat) (n : Nat) (hn : n ≤ 16) :
    ((List.range n).foldl (fun a i => a.set i (f (k.getD i 0))) (List.replicate 16 0)).length = 16 ∧
    (∀ i, i < n →
      ((List.range n).foldl (fun a i => a.set i (f (k.getD i 0))) (List.replicate 16 0)).getD i 0 =
        f (k.getD i 0)) := by
  induction n with
  | zero =>
    exact ⟨by rw [List.range_zero]; exact List.length_replicate _ _,
      fun i hi => absurd hi (Nat.not_lt_zero _)⟩
  | succ n ih =>
    obtain ⟨ih1, ih2⟩ := ih (by omega)
    rw [List.range_succ, List.foldl_append]
    simp only [List.foldl_cons, List.foldl_nil]
    refine ⟨by rw [List.length_set]; exact ih1, fun i hi => ?_⟩
    rw [getD_set_ptr _ _ _ _ _ (by rw [ih1]; omega)]
    by_cases hin : i = n
    · rw [if_pos hin, hin]
    · rw [if_neg hin]; exact ih2 i (by omega)

theorem insert4_spec (e : Bool) (b : CArtNodeBase) (k : List Nat) (ch : List (Ptr CArtNode))
    (c : Nat) (x : CArtNode) (h : NodeOK e (CArtNode.Fanout4 b k ch)) (hc : c < 256)
    (hnew : ∀ s, (c, s) ∉ (CArtNode.Fanout4 b k ch).slots e) :
    InsertSpec e (CArtNode.Fanout4 b k ch) c (Ptr.to x)
      (InsertInNode4 e b k ch c (Ptr.to x)) := by
  obtain ⟨h1, h2, h3, h4, h5, h6⟩ := h
  have hnew' : ∀ i, i < b.children_count_ → k.getD i 0 ≠ c :=
    fun i hi he => hnew i ((mem_slots4 e b k ch c i).2 ⟨hi, he⟩)
  unfold InsertInNode4
  by_cases hfull : b.children_count_ < 4
  · rw [if_pos hfull]
    obtain ⟨hp1, hp2, hp3⟩ := insertPos_scalar k _ c h4 hnew'
    generalize insertPosLoop k b.children_count_ c = pos at hp1 hp2 hp3
    have hkl : b.children_count_ < k.length := by omega
    have hcl : b.children_count_ < ch.length := by omega
    obtain ⟨s1, s2, s3⟩ := sorted_insert id k ch b.children_count_ pos c c (Ptr.to x) hkl hcl
      hp1 h4 hp2 hp3 rfl
    have gk := getD_memmove_set k pos b.children_count_ c 0 hp1 hkl
    have gc := getD_memmove_set ch pos b.children_count_ (Ptr.to x) Ptr.nullptr hp1 hcl
    refine ⟨⟨?_, ?_, Nat.succ_le_of_lt hfull, s1, fun i hi => ?_, fun i hi => ?_⟩, ?_, ?_, ?_, rfl⟩
    · rw [length_memmove_set _ _ _ _ hp1 hkl]; exact h1
    · rw [length_memmove_set _ _ _ _ hp1 hcl]; exact h2
    · by_cases hip : i = pos
      · rw [hip, gk pos, if_neg (lt_irrefl _), if_pos rfl]
        exact hc
      · obtain ⟨j, hj, hjk, _⟩ := s3 i hi hip
        rw [hjk]; exact h5 j hj
    · by_cases hip : i = pos
      · rw [hip, gc pos, if_neg (lt_irrefl _), if_pos rfl]
        exact ⟨x, rfl⟩
      · obtain ⟨j, hj, _, hjc⟩ := s3 i hi hip
        rw [hjc]; exact h6 j hj
    · rw [mem_slots4]
      refine ⟨by show pos < b.children_count_ + 1; omega, ?_⟩
      rw [gk pos, if_neg (lt_irrefl _), if_pos rfl]
    · simp only [CArtNode.child_]
      rw [gc pos, if_neg (lt_irrefl _), if_pos rfl]
    · intro c' q
      simp only [mem_kids, mem_slots4, CArtNode.child_]
      have := s2 c' q
      simp only [id] at this
      constructor
      · rintro ⟨s, ⟨hs1, hs2⟩, hq⟩
        rcases this.1 ⟨s, hs1, hs2, hq⟩ with hl | ⟨i, hi1, hi2, hi3⟩
        · exact Or.inl hl
        · exact Or.inr ⟨i, ⟨hi1, hi2⟩, hi3⟩
      · rintro (hl | ⟨i, ⟨hi1, hi2⟩, hi3⟩)
        · obtain ⟨s, hs1, hs2, hq⟩ := this.2 (Or.inl hl)
          exact ⟨s, ⟨hs1, hs2⟩, hq⟩
        · obtain ⟨s, hs1, hs2, hq⟩ := this.2 (Or.inr ⟨i, hi1, hi2, hi3⟩)
          exact ⟨s, ⟨hs1, hs2⟩, hq⟩
  · rw [if_neg hfull]
    have h44 : b.children_count_ = 4 := by omega
    obtain ⟨g1, g2⟩ := grow_keys (fun y => if e = true then FlipSign y else y) k 4 (by omega)
    generalize (List.range 4).foldl
        (fun a i => a.set i (if e = true then FlipSign (k.getD i 0) else k.getD i 0))
        (List.replicate 16 0) = newKey at g1 g2
    have hmc := getD_memcpy (List.replicate 16 Ptr.nullptr) ch b.children_count_ Ptr.nullptr
      (by omega)
    have hml := length_memcpy (List.replicate 16 (Ptr.nullptr : Ptr CArtNode)) ch
      b.children_count_ (by omega) (by rw [List.length_replicate]; omega)
    generalize memcpy (List.replicate 16 Ptr.nullptr) ch b.children_count_ = newChild at hmc hml
    have hsb : ∀ i, i < b.children_count_ → storedByte e (newKey.getD i 0) = k.getD i 0 := by
      intro i hi
      rw [g2 i (by omega)]
      exact storedByte_stored e _
    have hOK' : NodeOK e (CArtNode.Fanout16 b newKey newChild) := by
      refine ⟨g1, by rw [hml]; exact List.length_replicate _ _, by omega, fun i j hij hj => ?_,
        fun i hi => ?_, fun i hi => ?_⟩
      · rw [hsb i (by omega), hsb j hj]; exact h4 i j hij hj
      · rw [g2 i (by omega)]; exact stored_lt e _ (h5 i hi)
      · rw [hmc i, if_pos hi]; exact h6 i hi
    have hkids : ∀ c' q, (c', q) ∈ (CArtNode.Fanout16 b newKey newChild).kids e ↔
        (c', q) ∈ (CArtNode.Fanout4 b k ch).kids e := by
      intro c' q
      simp only [mem_kids, mem_slots16, mem_slots4, CArtNode.child_]
      constructor
      · rintro ⟨s, ⟨hs1, hs2⟩, hq⟩
        rw [hsb s hs1] at hs2
        rw [hmc s, if_pos hs1] at hq
        exact ⟨s, ⟨hs1, hs2⟩, hq⟩
      · rintro ⟨s, ⟨hs1, hs2⟩, hq⟩
        refine ⟨s, ⟨hs1, by rw [hsb s hs1]; exact hs2⟩, ?_⟩
        rw [hmc s, if_pos hs1]; exact hq
    apply InsertSpec.transfer e _ (CArtNode.Fanout16 b newKey newChild) c _ _ _ hkids rfl
    apply insert16_spec e b newKey newChild c x hOK' hc
    intro s hs
    rw [mem_slots16] at hs
    rw [hsb s hs.1] at hs
    exact hnew' s hs.1 hs.2

/-- `InsertInNode` of a new key byte: the node stays well-formed, the new child is the only
change to the children, and the returned slot holds it. -/
theorem InsertInNode_spec (e : Bool) (n : CArtNode) (c : Nat) (x : CArtNode) (h : NodeOK e n)
    (hc : c < 256) (hnew : ∀ s, (c, s) ∉ n.slots e) :
    InsertSpec e n c (Ptr.to x) (InsertInNode e n c (Ptr.to x)) := by
  cases n with
  | Fanout4 b k ch => exact insert4_spec e b k ch c x h hc hnew
  | Fanout16 b k ch => exact insert16_spec e b k ch c x h hc hnew
  | Fanout48 b idx ch => exact insert48_spec e b idx ch c x h hc hnew
  | Fanout256 b ch => exact insert256_spec e b ch c x h hc hnew

theorem NodeOK_new4 (e : Bool) (b : CArtNodeBase) (h : b.children_count_ = 0) :
    NodeOK e (CArtNode.new4.setBase b) ∧ (CArtNode.new4.setBase b).slots e = [] := by
  refine ⟨⟨rfl, rfl, by omega, fun i j _ hj => by omega, fun i hi => by omega,
    fun i hi => by omega⟩, ?_⟩
  simp only [CArtNode.slots, CArtNode.new4, CArtNode.setBase, h, List.range_zero, List.map_nil]

theorem NodeOK_setBase (e : Bool) (n : CArtNode) (b : CArtNodeBase)
    (h : b.children_count_ = n.base.children_count_) :
    (NodeOK e (n.setBase b) ↔ NodeOK e n) ∧ (n.setBase b).slots e = n.slots e ∧
    (n.setBase b).child_ = n.child_ ∧ (n.setBase b).kids e = n.kids e ∧
    (n.setBase b).base = b := by
  cases n with
  | Fanout4 b' k ch =>
    simp only [CArtNode.base] at h
    simp only [CArtNode.setBase, NodeOK, CArtNode.slots, CArtNode.kids, CArtNode.child_,
      CArtNode.base, h, and_self]
  | Fanout16 b' k ch =>
    simp only [CArtNode.base] at h
    simp only [CArtNode.setBase, NodeOK, CArtNode.slots, CArtNode.kids, CArtNode.child_,
      CArtNode.base, h, and_self]
  | Fanout48 b' k ch =>
    simp only [CArtNode.base] at h
    simp only [CArtNode.setBase, NodeOK, CArtNode.slots, CArtNode.kids, CArtNode.child_,
      CArtNode.base, h, and_self]
  | Fanout256 b' ch =>
    simp only [CArtNode.base] at h
    simp only [CArtNode.setBase, NodeOK, CArtNode.slots, CArtNode.kids, CArtNode.child_,
      CArtNode.base, h, and_self]

theorem NodeOK_new256 (e : Bool) :
    NodeOK e CArtNode.new256 ∧ CArtNode.new256.slots e = [] := by
  have hg : ∀ i, i < 256 →
      (List.replicate 256 (Ptr.EMPTY_NODE : Ptr CArtNode)).getD i Ptr.nullptr = Ptr.EMPTY_NODE :=
    fun i hi => getD_replicate_lt _ _ _ _ hi
  refine ⟨⟨List.length_replicate _ _, fun i hi => Or.inl (hg i hi), fun _ i hi => hg i hi⟩, ?_⟩
  simp only [CArtNode.slots, CArtNode.new256, List.map_eq_nil_iff, List.filter_eq_nil_iff,
    List.mem_range]
  intro i hi
  rw [hg i hi]
  simp [Ptr.isEmpty]

/-! ## Subtrees: `TreeOK`, `Holds` and the loop of `AddEntry` -/

theorem Holds_iff (e : Bool) (S : List Nat) (n : CArtNode) (k : List Nat) (v : Nat) :
    Holds e S n k v ↔ ∃ r, k = n.pfx S ++ r ∧
      ((r = [] ∧ n.base.end_of_string_ = true ∧ v = n.base.value_) ∨
        ∃ c ch r', r = c :: r' ∧ (c, Ptr.to ch) ∈ n.kids e ∧ Holds e S ch r' v) := by
  constructor
  · intro h
    cases h
    · rename_i heos
      exact ⟨[], by simp, Or.inl ⟨rfl, heos, rfl⟩⟩
    · rename_i c ch k' hkid hch
      exact ⟨c :: k', rfl, Or.inr ⟨c, ch, k', rfl, hkid, hch⟩⟩
  · rintro ⟨r, hk, (⟨hr, heos, hv⟩ | ⟨c, ch, r', hr, hkid, hch⟩)⟩
    · subst hr; subst hv
      rw [hk, List.append_nil]
      exact Holds.here n heos
    · subst hr
      rw [hk]
      exact Holds.under n c ch r' v hkid hch

theorem pfx_length (S : List Nat) (n : CArtNode)
    (h : n.base.prefix_position_ + n.base.prefix_length_ ≤ S.length) :
    (n.pfx S).length = n.base.prefix_length_ := by
  unfold CArtNode.pfx
  rw [List.length_take, List.length_drop]
  omega

theorem pfx_getD (S : List Nat) (n : CArtNode) (i : Nat) (hi : i < n.base.prefix_length_) :
    (n.pfx S).getD i 0 = S.getD (n.base.prefix_position_ + i) 0 := by
  unfold CArtNode.pfx
  simp only [List.getD_eq_getElem?_getD, List.getElem?_take, List.getElem?_drop, hi, if_true]

theorem pfx_append (S ext : List Nat) (n : CArtNode)
    (h : n.base.prefix_position_ + n.base.prefix_length_ ≤ S.length) :
    n.pfx (S ++ ext) = n.pfx S := by
  unfold CArtNode.pfx
  rw [List.drop_append_of_le_length (by omega), List.take_append_of_le_length]
  rw [List.length_drop]; omega

theorem TreeOK_mono (e : Bool) (P : Nat → Prop) (S ext : List Nat) (n : CArtNode)
    (h : TreeOK e P S n) : TreeOK e P (S ++ ext) n := by
  induction h with
  | mk n hnode hbound hval hpfx hbyte hkids ih =>
    refine TreeOK.mk n hnode ?_ hval ?_ hbyte ih
    · rw [List.length_append]; omega
    · rw [pfx_append S ext n hbound]; exact hpfx

theorem Holds_mono (e : Bool) (P : Nat → Prop) (S ext : List Nat) (n : CArtNode)
    (h : TreeOK e P S n) (k : List Nat) (v : Nat) :
    Holds e (S ++ ext) n k v ↔ Holds e S n k v := by
  induction h generalizing k with
  | mk n hnode hbound hval hpfx hbyte hkids ih =>
    rw [Holds_iff, Holds_iff, pfx_append S ext n hbound]
    constructor
    · rintro ⟨r, hk, (h1 | ⟨c, ch, r', hr, hkid, hch⟩)⟩
      · exact ⟨r, hk, Or.inl h1⟩
      · exact ⟨r, hk, Or.inr ⟨c, ch, r', hr, hkid, (ih c ch hkid r').1 hch⟩⟩
    · rintro ⟨r, hk, (h1 | ⟨c, ch, r', hr, hkid, hch⟩)⟩
      · exact ⟨r, hk, Or.inl h1⟩
      · exact ⟨r, hk, Or.inr ⟨c, ch, r', hr, hkid, (ih c ch hkid r').2 hch⟩⟩

/-- A key byte leads to at most one child. -/
theorem kids_fun (e : Bool) (n : CArtNode) (h : NodeOK e n) (c : Nat) (p q : Ptr CArtNode)
    (h1 : (c, p) ∈ n.kids e) (h2 : (c, q) ∈ n.kids e) : p = q := by
  rw [mem_kids] at h1 h2
  obtain ⟨s, hs, hp⟩ := h1
  obtain ⟨s', hs', hq⟩ := h2
  rw [← hp, ← hq, slots_fun e n h c s s' hs hs']

/-- A subtree stores a key at most once. -/
theorem Holds_unique (e : Bool) (P : Nat → Prop) (S : List Nat) (n : CArtNode)
    (h : TreeOK e P S n) (k : List Nat) (v v' : Nat) (h1 : Holds e S n k v)
    (h2 : Holds e S n k v') : v = v' := by
  induction h generalizing k with
  | mk n hnode hbound hval hpfx hbyte hkids ih =>
    rw [Holds_iff] at h1 h2
    obtain ⟨r, hk, h1⟩ := h1
    obtain ⟨r2, hk2, h2⟩ := h2
    have hr : r = r2 := List.append_cancel_left (hk.symm.trans hk2)
    subst hr
    rcases h1 with ⟨hr, _, hv⟩ | ⟨c, ch, r', hr, hkid, hch⟩
    · rcases h2 with ⟨_, _, hv'⟩ | ⟨c', ch', r'', hr', _, _⟩
      · rw [hv, hv']
      · rw [hr] at hr'; exact List.noConfusion hr'
    · rcases h2 with ⟨hr', _, _⟩ | ⟨c', ch', r'', hr', hkid', hch'⟩
      · rw [hr] at hr'; exact List.noConfusion hr'
      · rw [hr] at hr'
        injection hr' with hc hr''
        subst hc; subst hr''
        have := kids_fun e n hnode c _ _ hkid hkid'
        injection this with this
        subst this
        exact ih c ch hkid r' hch hch'

/-- Every key stored in a subtree starts with the prefix of its root. -/
theorem Holds.pfx_le (e : Bool) (S : List Nat) (n : CArtNode) (k : List Nat) (v : Nat)
    (h : Holds e S n k v) : ∃ r, k = n.pfx S ++ r :=
  let ⟨r, hk, _⟩ := (Holds_iff e S n k v).1 h
  ⟨r, hk⟩

/-- Nodes that differ only in their prefix store the same keys below the prefix. -/
theorem Holds.reprefix (e : Bool) (S S' : List Nat) (n n' : CArtNode)
    (hk : n'.kids e = n.kids e) (he : n'.base.end_of_string_ = n.base.end_of_string_)
    (hv : n'.base.value_ = n.base.value_)
    (hch : ∀ c ch r v, (c, Ptr.to ch) ∈ n.kids e → (Holds e S' ch r v ↔ Holds e S ch r v))
    (r : List Nat) (v : Nat) :
    Holds e S' n' (n'.pfx S' ++ r) v ↔ Holds e S n (n.pfx S ++ r) v := by
  rw [Holds_iff, Holds_iff]
  constructor
  · rintro ⟨r1, hr1, h⟩
    have := List.append_cancel_left hr1
    subst this
    refine ⟨r, rfl, ?_⟩
    rcases h with ⟨h1, h2, h3⟩ | ⟨c, ch, r', h1, h2, h3⟩
    · exact Or.inl ⟨h1, by rw [← he]; exact h2, by rw [← hv]; exact h3⟩
    · rw [hk] at h2
      exact Or.inr ⟨c, ch, r', h1, h2, (hch c ch r' v h2).1 h3⟩
  · rintro ⟨r1, hr1, h⟩
    have := List.append_cancel_left hr1
    subst this
    refine ⟨r, rfl, ?_⟩
    rcases h with ⟨h1, h2, h3⟩ | ⟨c, ch, r', h1, h2, h3⟩
    · exact Or.inl ⟨h1, by rw [he]; exact h2, by rw [hv]; exact h3⟩
    · exact Or.inr ⟨c, ch, r', h1, by rw [hk]; exact h2, (hch c ch r' v h2).2 h3⟩

/-- The comparison loop of `AddEntry` stops at the first position where the key and the
stored prefix differ, or at the end of either. -/
theorem mismatchLoop_spec (key S : List Nat) (depth pos len : Nat) (fuel m : Nat)
    (hf : len ≤ m + fuel) (hm : m ≤ len) (hd : depth + m ≤ key.length)
    (heq : ∀ i, i < m → key.getD (depth + i) 0 = S.getD (pos + i) 0) :
    mismatchLoop key S depth pos len fuel m ≤ len ∧
    depth + mismatchLoop key S depth pos len fuel m ≤ key.length ∧
    (∀ i, i < mismatchLoop key S depth pos len fuel m →
      key.getD (depth + i) 0 = S.getD (pos + i) 0) ∧
    (mismatchLoop key S depth pos len fuel m < len →
      depth + mismatchLoop key S depth pos len fuel m < key.length →
      key.getD (depth + mismatchLoop key S depth pos len fuel m) 0 ≠
        S.getD (pos + mismatchLoop key S depth pos len fuel m) 0) := by
  induction fuel generalizing m with
  | zero =>
    simp only [mismatchLoop]
    exact ⟨hm, hd, heq, fun h _ => by omega⟩
  | succ fuel ih =>
    simp only [mismatchLoop]
    by_cases hc : depth + m < key.length ∧ m < len
    · rw [if_pos hc]
      by_cases hne : key.getD (depth + m) 0 ≠ S.getD (pos + m) 0
      · rw [if_pos hne]
        exact ⟨hm, hd, heq, fun _ _ => hne⟩
      · rw [if_neg hne]
        apply ih (m + 1) (by omega) (by omega) (by omega)
        intro i hi
        rcases Nat.lt_succ_iff_lt_or_eq.1 hi with h | h
        · exact heq i h
        · rw [h]; exact not_not.1 hne
    · rw [if_neg hc]
      exact ⟨hm, hd, heq, fun h1 h2 => absurd ⟨h2, h1⟩ hc⟩
theorem base_setBase (n : CArtNode) (b : CArtNodeBase) : (n.setBase b).base = b := by
  cases n <;> rfl

theorem setBase_setBase (n : CArtNode) (b b' : CArtNodeBase) :
    (n.setBase b).setBase b' = n.setBase b' := by
  cases n <;> rfl

theorem child_setBase (n : CArtNode) (b : CArtNodeBase) : (n.setBase b).child_ = n.child_ := by
  cases n <;> rfl

theorem base_new4 : CArtNode.new4.base = CArtNodeBase.init := rfl

theorem AddEntryLoop_full (e : Bool) (key : List Nat) (value fuel depth : Nat) (n : CArtNode)
    (t : CAdaptiveRadixTree) (I : List Nat)
    (h : depth + mismatchAt key t.suffix_table_ depth n = key.length ∧
      mismatchAt key t.suffix_table_ depth n = n.base.prefix_length_) :
    AddEntryLoop e key value (fuel + 1) depth n t I = InsertValue t I n value := by
  rw [AddEntryLoop]
  exact if_pos h

theorem AddEntryLoop_found (e : Bool) (key : List Nat) (value fuel depth : Nat) (n : CArtNode)
    (t : CAdaptiveRadixTree) (I : List Nat) (slot : Nat) (child : CArtNode)
    (h1 : ¬ (depth + mismatchAt key t.suffix_table_ depth n = key.length ∧
      mismatchAt key t.suffix_table_ depth n = n.base.prefix_length_))
    (h2 : ¬ mismatchAt key t.suffix_table_ depth n < n.base.prefix_length_)
    (h3 : depth + mismatchAt key t.suffix_table_ depth n < key.length)
    (hfind : FindChild e n (key.getD (depth + mismatchAt key t.suffix_table_ depth n) 0) =
      some slot)
    (hch : n.child_.getD slot Ptr.nullptr = Ptr.to child) :
    AddEntryLoop e key value (fuel + 1) depth n t I =
      ((n.setChild slot (Ptr.to (AddEntryLoop e key value fuel
          (depth + mismatchAt key t.suffix_table_ depth n + 1) child t I).1)),
        (AddEntryLoop e key value fuel
          (depth + mismatchAt key t.suffix_table_ depth n + 1) child t I).2.1,
        (AddEntryLoop e key value fuel
          (depth + mismatchAt key t.suffix_table_ depth n + 1) child t I).2.2) := by
  rw [AddEntryLoop]
  unfold mismatchAt at h1 h2 h3 hfind ⊢
  simp only [if_neg h1, if_neg h2, if_pos h3, hfind, hch]

theorem AddEntryLoop_split_end (e : Bool) (key : List Nat) (value fuel depth : Nat)
    (n : CArtNode) (t : CAdaptiveRadixTree) (I : List Nat)
    (h1 : ¬ (depth + mismatchAt key t.suffix_table_ depth n = key.length ∧
      mismatchAt key t.suffix_table_ depth n = n.base.prefix_length_))
    (h2 : mismatchAt key t.suffix_table_ depth n < n.base.prefix_length_)
    (h3 : ¬ depth + mismatchAt key t.suffix_table_ depth n < key.length) :
    AddEntryLoop e key value (fuel + 1) depth n t I =
      InsertValue t I
        (InsertInNode e (splitParent n (mismatchAt key t.suffix_table_ depth n))
          (t.suffix_table_.getD
            (n.base.prefix_position_ + mismatchAt key t.suffix_table_ depth n) 0)
          (Ptr.to (splitChild n (mismatchAt key t.suffix_table_ depth n)))).1 value := by
  rw [AddEntryLoop]
  unfold mismatchAt at h1 h2 h3 ⊢
  simp only [if_neg h1, if_pos h2, if_neg h3]
  unfold splitParent splitChild
  by_cases hm : mismatchLoop key t.suffix_table_ depth n.base.prefix_position_
      n.base.prefix_length_ n.base.prefix_length_ 0 = 0
  · simp only [hm, ne_eq, not_true_eq_false, if_false, Nat.add_zero, Nat.sub_zero]
  · simp only [hm, ne_eq, not_false_eq_true, if_true, base_setBase, setBase_setBase, base_new4,
      Nat.sub_sub, Nat.add_assoc]

theorem u32_of_lt (x : Nat) (h : x < 4294967296) : u32 x = x := Nat.mod_eq_of_lt h

theorem AddEntryLoop_new (e : Bool) (key : List Nat) (value fuel depth : Nat) (n : CArtNode)
    (t : CAdaptiveRadixTree) (I : List Nat)
    (h1 : ¬ (depth + mismatchAt key t.suffix_table_ depth n = key.length ∧
      mismatchAt key t.suffix_table_ depth n = n.base.prefix_length_))
    (h2 : ¬ mismatchAt key t.suffix_table_ depth n < n.base.prefix_length_)
    (h3 : depth + mismatchAt key t.suffix_table_ depth n < key.length)
    (hfind : FindChild e n (key.getD (depth + mismatchAt key t.suffix_table_ depth n) 0) = none)
    (hS : t.suffix_table_.length + (key.length - depth) < 4294967296) :
    AddEntryLoop e key value (fuel + 1) depth n t I =
      attachLeaf e key value fuel (depth + mismatchAt key t.suffix_table_ depth n + 1) n
        (key.getD (depth + mismatchAt key t.suffix_table_ depth n) 0) t I := by
  obtain ⟨root_, ns, nsc, msl, usc, tsl, st⟩ := t
  rw [AddEntryLoop]
  unfold mismatchAt at h1 h2 h3 hfind ⊢
  simp only [if_neg h1, if_neg h2, if_pos h3, hfind]
  unfold attachLeaf newLeaf
  simp only [] at *
  generalize mismatchLoop key st depth n.base.prefix_position_
      n.base.prefix_length_ n.base.prefix_length_ 0 = m at *
  have hu1 : u32 (key.length - (depth + m + 1)) = key.length - (depth + m + 1) :=
    u32_of_lt _ (by omega)
  have hu2 : u32 st.length = st.length := u32_of_lt _ (by omega)
  simp only [base_setBase, setBase_setBase, base_new4, CArtNodeBase.init, hu1, hu2]
  by_cases hr : key.length - (depth + m + 1) = 0
  · have hdrop : List.drop (depth + m + 1) key = [] := List.drop_eq_nil_of_le (by omega)
    simp only [hr, ne_eq, not_true_eq_false, if_false, hdrop, List.append_nil, CArtNodeBase.init]
    all_goals rfl
  · have htake : List.take (key.length - (depth + m + 1)) (List.drop (depth + m + 1) key) =
        List.drop (depth + m + 1) key := List.take_of_length_le (by simp)
    simp only [hr, ne_eq, not_false_eq_true, if_true, htake]
    all_goals rfl

theorem AddEntryLoop_split_more (e : Bool) (key : List Nat) (value fuel depth : Nat)
    (n : CArtNode) (t : CAdaptiveRadixTree) (I : List Nat)
    (h1 : ¬ (depth + mismatchAt key t.suffix_table_ depth n = key.length ∧
      mismatchAt key t.suffix_table_ depth n = n.base.prefix_length_))
    (h2 : mismatchAt key t.suffix_table_ depth n < n.base.prefix_length_)
    (h3 : depth + mismatchAt key t.suffix_table_ depth n < key.length)
    (hS : t.suffix_table_.length + (key.length - depth) < 4294967296) :
    AddEntryLoop e key value (fuel + 1) depth n t I =
      attachLeaf e key value fuel (depth + mismatchAt key t.suffix_table_ depth n + 1)
        (InsertInNode e (splitParent n (mismatchAt key t.suffix_table_ depth n))
          (t.suffix_table_.getD
            (n.base.prefix_position_ + mismatchAt key t.suffix_table_ depth n) 0)
          (Ptr.to (splitChild n (mismatchAt key t.suffix_table_ depth n)))).1
        (key.getD (depth + mismatchAt key t.suffix_table_ depth n) 0) t I := by
  obtain ⟨root_, ns, nsc, msl, usc, tsl, st⟩ := t
  rw [AddEntryLoop]
  unfold mismatchAt at h1 h2 h3 ⊢
  simp only [if_neg h1, if_pos h2, if_pos h3]
  unfold attachLeaf newLeaf splitParent splitChild
  simp only [] at *
  generalize mismatchLoop key st depth n.base.prefix_position_
      n.base.prefix_length_ n.base.prefix_length_ 0 = m at *
  have hu1 : u32 (key.length - (depth + m + 1)) = key.length - (depth + m + 1) :=
    u32_of_lt _ (by omega)
  have hu2 : u32 st.length = st.length := u32_of_lt _ (by omega)
  simp only [base_setBase, setBase_setBase, base_new4, CArtNodeBase.init, hu1, hu2]
  by_cases hm : m = 0
  · subst hm
    simp only [Nat.add_zero, Nat.sub_zero, ne_eq, not_true_eq_false, if_false] at *
    by_cases hr : key.length - (depth + 1) = 0
    · have hdrop : List.drop (depth + 1) key = [] := List.drop_eq_nil_of_le (by omega)
      simp only [hr, not_true_eq_false, if_false, hdrop, List.append_nil, base_setBase,
        setBase_setBase, base_new4, CArtNodeBase.init]
      all_goals rfl
    · have htake : List.take (key.length - (depth + 1)) (List.drop (depth + 1) key) =
          List.drop (depth + 1) key := List.take_of_length_le (by simp)
      simp only [hr, not_false_eq_true, if_true, htake, base_setBase, setBase_setBase,
        base_new4, CArtNodeBase.init]
      all_goals rfl
  · by_cases hr : key.length - (depth + m + 1) = 0
    · have hdrop : List.drop (depth + m + 1) key = [] := List.drop_eq_nil_of_le (by omega)
      simp only [hr, hm, ne_eq, not_true_eq_false, not_false_eq_true, if_true, if_false, hdrop,
        List.append_nil, base_setBase, setBase_setBase, base_new4, CArtNodeBase.init]
      all_goals rfl
    · have htake : List.take (key.length - (depth + m + 1)) (List.drop (depth + m + 1) key) =
          List.drop (depth + m + 1) key := List.take_of_length_le (by simp)
      simp only [hr, hm, ne_eq, not_false_eq_true, if_true, htake, base_setBase,
        setBase_setBase, base_new4, CArtNodeBase.init]
      all_goals rfl
theorem drop_eq_getD_cons (l : List Nat) (i : Nat) (h : i < l.length) :
    l.drop i = l.getD i 0 :: l.drop (i + 1) := by
  rw [List.getD_eq_getElem?_getD, List.getElem?_eq_getElem h, Option.getD_some]
  exact List.drop_eq_getElem_cons h

theorem ext_getD (l1 l2 : List Nat) (hl : l1.length = l2.length)
    (h : ∀ i, i < l1.length → l1.getD i 0 = l2.getD i 0) : l1 = l2 := by
  apply List.ext_getElem hl
  intro i h1 h2
  have := h i h1
  rw [List.getD_eq_getElem?_getD, List.getD_eq_getElem?_getD, List.getElem?_eq_getElem h1,
    List.getElem?_eq_getElem h2] at this
  simpa using this

theorem getD_drop' (l : List Nat) (i j : Nat) : (l.drop i).getD j 0 = l.getD (i + j) 0 := by
  simp only [List.getD_eq_getElem?_getD, List.getElem?_drop]

/-- The bytes on which the key (from `depth`) and the prefix of `n` agree. -/
theorem mismatchAt_spec (key S : List Nat) (depth : Nat) (n : CArtNode)
    (hd : depth ≤ key.length)
    (hb : n.base.prefix_position_ + n.base.prefix_length_ ≤ S.length) :
    mismatchAt key S depth n ≤ n.base.prefix_length_ ∧
    depth + mismatchAt key S depth n ≤ key.length ∧
    (key.drop depth).take (mismatchAt key S depth n) =
      (n.pfx S).take (mismatchAt key S depth n) ∧
    (mismatchAt key S depth n < n.base.prefix_length_ →
      depth + mismatchAt key S depth n < key.length →
      key.getD (depth + mismatchAt key S depth n) 0 ≠
        (n.pfx S).getD (mismatchAt key S depth n) 0) := by
  obtain ⟨h1, h2, h3, h4⟩ := mismatchLoop_spec key S depth n.base.prefix_position_
    n.base.prefix_length_ n.base.prefix_length_ 0 (by omega) (by omega) (by omega)
    (fun i hi => absurd hi (Nat.not_lt_zero _))
  unfold mismatchAt
  generalize mismatchLoop key S depth n.base.prefix_position_ n.base.prefix_length_
    n.base.prefix_length_ 0 = m at h1 h2 h3 h4
  have hpl := pfx_length S n hb
  refine ⟨h1, h2, ?_, fun ha hb' => ?_⟩
  · apply ext_getD
    · rw [List.length_take, List.length_take, List.length_drop, hpl]; omega
    · intro i hi
      rw [List.length_take, List.length_drop] at hi
      have him : i < m := by omega
      simp only [List.getD_eq_getElem?_getD, List.getElem?_take, him, if_true]
      rw [← List.getD_eq_getElem?_getD, ← List.getD_eq_getElem?_getD, getD_drop',
        pfx_getD S n i (by omega)]
      exact h3 i him
  · rw [pfx_getD S n m ha]
    exact h4 ha hb'

theorem tree_eta (t : CAdaptiveRadixTree) :
    { t with suffix_table_ := t.suffix_table_ ++ [],
             unique_string_count_ := t.unique_string_count_ + 0 } = t := by
  cases t; simp

/-- `InsertValue` on a well-formed node. -/
theorem InsertValue_spec (e : Bool) (P : Nat → Prop) (t : CAdaptiveRadixTree) (I : List Nat)
    (N : CArtNode) (value : Nat) (h : TreeOK e P t.suffix_table_ N) :
    ∃ u, InsertValue t I N value =
        (N.setBase { N.base with end_of_string_ := true, value_ := value },
         { t with unique_string_count_ := t.unique_string_count_ + u },
         I.set value N.base.value_) ∧
      TreeOK e P t.suffix_table_ (N.setBase { N.base with end_of_string_ := true, value_ := value }) ∧
      (∀ k v, Holds e t.suffix_table_
          (N.setBase { N.base with end_of_string_ := true, value_ := value }) k v ↔
        (k = N.pfx t.suffix_table_ ∧ v = value) ∨
        (k ≠ N.pfx t.suffix_table_ ∧ Holds e t.suffix_table_ N k v)) ∧
      ((Holds e t.suffix_table_ N (N.pfx t.suffix_table_) N.base.value_ ∧ u = 0) ∨
       ((∀ v, ¬ Holds e t.suffix_table_ N (N.pfx t.suffix_table_) v) ∧
         N.base.value_ = LAST_INDEX_IDENTIFIER ∧ u = 1)) := by
  cases h with
  | mk _ hnode hbound hval hpfx hbyte hkids =>
    obtain ⟨hn1, hn2, hn3, hn4, hn5⟩ := NodeOK_setBase e N
      { N.base with end_of_string_ := true, value_ := value } rfl
    have hpfx' : (N.setBase { N.base with end_of_string_ := true, value_ := value }).pfx
        t.suffix_table_ = N.pfx t.suffix_table_ := by
      unfold CArtNode.pfx; rw [hn5]
    have hOK' : TreeOK e P t.suffix_table_
        (N.setBase { N.base with end_of_string_ := true, value_ := value }) := by
      refine TreeOK.mk _ (hn1.2 hnode) (by rw [hn5]; exact hbound)
        (by rw [hn5]; intro h; exact Bool.noConfusion h) (by rw [hpfx']; exact hpfx)
        (by rw [hn4]; exact hbyte) (by rw [hn4]; exact hkids)
    have hholds : ∀ k v, Holds e t.suffix_table_
          (N.setBase { N.base with end_of_string_ := true, value_ := value }) k v ↔
        (k = N.pfx t.suffix_table_ ∧ v = value) ∨
        (k ≠ N.pfx t.suffix_table_ ∧ Holds e t.suffix_table_ N k v) := by
      intro k v
      rw [Holds_iff, Holds_iff, hpfx', hn4, hn5]
      constructor
      · rintro ⟨r, hk, (⟨hr, _, hv⟩ | ⟨c, ch, r', hr, hkid, hch⟩)⟩
        · left; rw [hk, hr, List.append_nil]; exact ⟨rfl, hv⟩
        · right
          refine ⟨?_, r, hk, Or.inr ⟨c, ch, r', hr, hkid, hch⟩⟩
          rw [hk, hr]
          intro h
          have := congrArg List.length h
          simp at this
      · rintro (⟨hk, hv⟩ | ⟨hne, r, hk, (⟨hr, _, _⟩ | ⟨c, ch, r', hr, hkid, hch⟩)⟩)
        · exact ⟨[], by rw [hk, List.append_nil], Or.inl ⟨rfl, rfl, hv⟩⟩
        · exfalso; apply hne; rw [hk, hr, List.append_nil]
        · exact ⟨r, hk, Or.inr ⟨c, ch, r', hr, hkid, hch⟩⟩
    cases heos : N.base.end_of_string_ with
    | true =>
      refine ⟨0, ?_, hOK', hholds, Or.inl ⟨?_, rfl⟩⟩
      · unfold InsertValue
        simp only [heos, Bool.not_true, Bool.false_eq_true, if_false, Nat.add_zero]
      · exact Holds.here N heos
    | false =>
      refine ⟨1, ?_, hOK', hholds, Or.inr ⟨?_, hval heos, rfl⟩⟩
      · unfold InsertValue
        simp only [heos, Bool.not_false, if_true]
      · intro v hv
        rw [Holds_iff] at hv
        obtain ⟨r, hk, (⟨_, h2, _⟩ | ⟨c, ch, r', hr, _, _⟩)⟩ := hv
        · rw [heos] at h2; exact Bool.noConfusion h2
        · rw [hr] at hk
          have := congrArg List.length hk
          simp at this
theorem splitParent_eq (n : CArtNode) (m : Nat) :
    splitParent n m = CArtNode.new4.setBase { CArtNodeBase.init with
      prefix_position_ := if m ≠ 0 then n.base.prefix_position_ else 0, prefix_length_ := m } := by
  unfold splitParent
  by_cases hm : m = 0
  · subst hm; rfl
  · simp only [ne_eq, hm, not_false_eq_true, if_true]

theorem mem_pfx_of_take (l : List Nat) (m x : Nat) (h : x ∈ l.take m) : x ∈ l :=
  List.mem_of_mem_take h

/-- The prefix split of `AddEntry`: the new parent with the old node as its only child
stores what the old node stored. -/
theorem split_spec (e : Bool) (P : Nat → Prop) (hP : ∀ c, P c → c < 256) (S : List Nat)
    (n : CArtNode) (m : Nat) (h : TreeOK e P S n) (hm : m < n.base.prefix_length_) :
    TreeOK e P S (InsertInNode e (splitParent n m) (S.getD (n.base.prefix_position_ + m) 0)
      (Ptr.to (splitChild n m))).1 ∧
    (InsertInNode e (splitParent n m) (S.getD (n.base.prefix_position_ + m) 0)
      (Ptr.to (splitChild n m))).1.pfx S = (n.pfx S).take m ∧
    (InsertInNode e (splitParent n m) (S.getD (n.base.prefix_position_ + m) 0)
      (Ptr.to (splitChild n m))).1.base.end_of_string_ = false ∧
    (∀ c q, (c, q) ∈ (InsertInNode e (splitParent n m) (S.getD (n.base.prefix_position_ + m) 0)
      (Ptr.to (splitChild n m))).1.kids e ↔
        c = S.getD (n.base.prefix_position_ + m) 0 ∧ q = Ptr.to (splitChild n m)) ∧
    n.pfx S = (n.pfx S).take m ++
      S.getD (n.base.prefix_position_ + m) 0 :: (splitChild n m).pfx S ∧
    (∀ k v, Holds e S (InsertInNode e (splitParent n m) (S.getD (n.base.prefix_position_ + m) 0)
      (Ptr.to (splitChild n m))).1 k v ↔ Holds e S n k v) := by
  cases h with
  | mk _ hnode hbound hval hpfx hbyte hkids =>
    have hpl := pfx_length S n hbound
    -- the old node with its shortened prefix
    obtain ⟨hc1, hc2, hc3, hc4, hc5⟩ := NodeOK_setBase e n
      { n.base with prefix_length_ := n.base.prefix_length_ - m - 1,
                    prefix_position_ := n.base.prefix_position_ + m + 1 } rfl
    have hscp : (splitChild n m).pfx S = (n.pfx S).drop (m + 1) := by
      unfold CArtNode.pfx splitChild
      rw [hc5]
      simp only []
      rw [List.drop_take, List.drop_drop, Nat.sub_sub, Nat.add_assoc]
    have hx : (n.pfx S).getD m 0 = S.getD (n.base.prefix_position_ + m) 0 := pfx_getD S n m hm
    have hsplit : n.pfx S = (n.pfx S).take m ++
        S.getD (n.base.prefix_position_ + m) 0 :: (splitChild n m).pfx S := by
      rw [hscp, ← hx, ← drop_eq_getD_cons _ _ (by omega), List.take_append_drop]
    have hxP : P (S.getD (n.base.prefix_position_ + m) 0) := by
      apply hpfx
      rw [← hx, List.getD_eq_getElem?_getD, List.getElem?_eq_getElem (by omega : m < (n.pfx S).length)]
      exact List.getElem_mem _
    have hscOK : TreeOK e P S (splitChild n m) := by
      refine TreeOK.mk _ (hc1.2 hnode) ?_ ?_ ?_ ?_ ?_
      · unfold splitChild; rw [hc5]; simp only []; omega
      · unfold splitChild; rw [hc5]; exact hval
      · intro y hy
        rw [hscp] at hy
        exact hpfx y (List.mem_of_mem_drop hy)
      · unfold splitChild; rw [hc4]; exact hbyte
      · unfold splitChild; rw [hc4]; exact hkids
    -- the new parent
    rw [splitParent_eq]
    obtain ⟨hp1, hp2⟩ := NodeOK_new4 e { CArtNodeBase.init with
      prefix_position_ := if m ≠ 0 then n.base.prefix_position_ else 0, prefix_length_ := m } rfl
    obtain ⟨hi1, hi2, hi3, hi4, hi5⟩ := InsertInNode_spec e _
      (S.getD (n.base.prefix_position_ + m) 0) (splitChild n m) hp1 (hP _ hxP)
      (fun s hs => by rw [hp2] at hs; exact List.not_mem_nil _ hs)
    rw [base_setBase] at hi5
    generalize (InsertInNode e (CArtNode.new4.setBase { CArtNodeBase.init with
      prefix_position_ := if m ≠ 0 then n.base.prefix_position_ else 0, prefix_length_ := m })
      (S.getD (n.base.prefix_position_ + m) 0) (Ptr.to (splitChild n m))).1 = node1 at *
    have hkids1 : ∀ c q, (c, q) ∈ node1.kids e ↔
        c = S.getD (n.base.prefix_position_ + m) 0 ∧ q = Ptr.to (splitChild n m) := by
      intro c q
      rw [hi4]
      constructor
      · rintro (h | h)
        · exact h
        · rw [CArtNode.kids, hp2] at h; exact absurd h (List.not_mem_nil _)
      · intro h; exact Or.inl h
    have hpfx1 : node1.pfx S = (n.pfx S).take m := by
      unfold CArtNode.pfx
      rw [hi5]
      simp only []
      by_cases hm0 : m = 0
      · subst hm0; simp
      · simp only [ne_eq, hm0, not_false_eq_true, if_true]
        rw [List.take_take, min_eq_left (by omega)]
    have heos1 : node1.base.end_of_string_ = false := by rw [hi5]; rfl
    have hOK1 : TreeOK e P S node1 := by
      refine TreeOK.mk _ hi1 ?_ ?_ ?_ ?_ ?_
      · rw [hi5]; simp only []; split <;> omega
      · intro _; rw [hi5]; rfl
      · intro y hy
        rw [hpfx1] at hy
        exact hpfx y (List.mem_of_mem_take hy)
      · intro c p hcp
        rw [((hkids1 c p).1 hcp).1]; exact hxP
      · intro c ch hcp
        have := ((hkids1 c _).1 hcp).2
        injection this with this
        rw [this]; exact hscOK
    refine ⟨hOK1, hpfx1, heos1, hkids1, hsplit, fun k v => ?_⟩
    have hrep : ∀ r, Holds e S (splitChild n m) ((splitChild n m).pfx S ++ r) v ↔
        Holds e S n (n.pfx S ++ r) v :=
      fun r => Holds.reprefix e S S n (splitChild n m) hc4 (by unfold splitChild; rw [hc5])
        (by unfold splitChild; rw [hc5]) (fun _ _ _ _ _ => Iff.rfl) r v
    constructor
    · intro hh
      rw [Holds_iff] at hh
      obtain ⟨r, hk, (⟨_, h2, _⟩ | ⟨c, ch, r', hr, hkid, hch⟩)⟩ := hh
      · rw [heos1] at h2; exact Bool.noConfusion h2
      · obtain ⟨hcx, hq⟩ := (hkids1 c _).1 hkid
        injection hq with hq
        subst hq
        obtain ⟨r'', hr''⟩ := Holds.pfx_le e S _ _ _ hch
        rw [hr''] at hch
        have := (hrep r'').1 hch
        rw [hk, hr, hpfx1, hcx, hr'']
        rw [hsplit, List.append_assoc, List.cons_append] at this
        exact this
    · intro hh
      obtain ⟨r'', hr''⟩ := Holds.pfx_le e S _ _ _ hh
      rw [hr''] at hh
      have := (hrep r'').2 hh
      rw [hr'', hsplit, List.append_assoc, List.cons_append, ← hpfx1]
      exact Holds.under node1 _ (splitChild n m) _ v ((hkids1 _ _).2 ⟨rfl, rfl⟩) this
/-- The new leaf for the rest of a key is a well-formed subtree that stores nothing yet and
whose prefix is that rest. -/
theorem newLeaf_spec (e : Bool) (P : Nat → Prop) (key S : List Nat) (offset : Nat)
    (hkey : ∀ x, x ∈ key → P x) :
    TreeOK e P (S ++ key.drop offset) (newLeaf key S offset) ∧
    (newLeaf key S offset).pfx (S ++ key.drop offset) = key.drop offset ∧
    (∀ k v, ¬ Holds e (S ++ key.drop offset) (newLeaf key S offset) k v) := by
  obtain ⟨h1, h2⟩ := NodeOK_new4 e { CArtNodeBase.init with
    prefix_length_ := key.length - offset,
    prefix_position_ := if key.length - offset ≠ 0 then S.length else 0 } rfl
  have hk : (newLeaf key S offset).kids e = [] := by
    unfold newLeaf CArtNode.kids; rw [h2]; rfl
  have hb : (newLeaf key S offset).base = { CArtNodeBase.init with
    prefix_length_ := key.length - offset,
    prefix_position_ := if key.length - offset ≠ 0 then S.length else 0 } := by
    unfold newLeaf; rw [base_setBase]
  have hp : (newLeaf key S offset).pfx (S ++ key.drop offset) = key.drop offset := by
    unfold CArtNode.pfx
    rw [hb]
    simp only []
    by_cases hl : key.length - offset = 0
    · rw [hl, List.take_zero, List.drop_eq_nil_of_le (by omega)]
    · simp only [ne_eq, hl, not_false_eq_true, if_true]
      rw [List.drop_left, List.take_of_length_le (by simp)]
  refine ⟨TreeOK.mk _ h1 ?_ (fun _ => by rw [hb]; rfl) ?_ ?_ ?_, hp, fun k v hh => ?_⟩
  · rw [hb, List.length_append, List.length_drop]
    simp only []
    split <;> omega
  · intro x hx
    rw [hp] at hx
    exact hkey x (List.mem_of_mem_drop hx)
  · intro c p hcp; rw [hk] at hcp; exact absurd hcp (List.not_mem_nil _)
  · intro c p hcp; rw [hk] at hcp; exact absurd hcp (List.not_mem_nil _)
  · rw [Holds_iff] at hh
    obtain ⟨r, _, (⟨_, h2', _⟩ | ⟨c, ch, r', _, hkid, _⟩)⟩ := hh
    · rw [hb] at h2'; exact Bool.noConfusion h2'
    · rw [hk] at hkid; exact absurd hkid (List.not_mem_nil _)

/-- The iteration of the loop of `AddEntry` that runs on a new leaf. -/
theorem leaf_step (e : Bool) (P : Nat → Prop) (key : List Nat) (value : Nat)
    (hkey : ∀ x, x ∈ key → P x) (fuel offset : Nat) (t : CAdaptiveRadixTree) (I : List Nat)
    (ho : offset ≤ key.length) (hf : key.length < offset + fuel) :
    (AddEntryLoop e key value fuel offset (newLeaf key t.suffix_table_ offset)
      { t with suffix_table_ := t.suffix_table_ ++ key.drop offset } I).2.1 =
      { t with suffix_table_ := t.suffix_table_ ++ key.drop offset,
               unique_string_count_ := t.unique_string_count_ + 1 } ∧
    (AddEntryLoop e key value fuel offset (newLeaf key t.suffix_table_ offset)
      { t with suffix_table_ := t.suffix_table_ ++ key.drop offset } I).2.2 =
      I.set value LAST_INDEX_IDENTIFIER ∧
    TreeOK e P (t.suffix_table_ ++ key.drop offset)
      (AddEntryLoop e key value fuel offset (newLeaf key t.suffix_table_ offset)
        { t with suffix_table_ := t.suffix_table_ ++ key.drop offset } I).1 ∧
    (∀ k v, Holds e (t.suffix_table_ ++ key.drop offset)
      (AddEntryLoop e key value fuel offset (newLeaf key t.suffix_table_ offset)
        { t with suffix_table_ := t.suffix_table_ ++ key.drop offset } I).1 k v ↔
      (k = key.drop offset ∧ v = value) ∨
      (k ≠ key.drop offset ∧
        Holds e (t.suffix_table_ ++ key.drop offset) (newLeaf key t.suffix_table_ offset) k v)) := by
  obtain ⟨hl1, hl2, hl3⟩ := newLeaf_spec e P key t.suffix_table_ offset hkey
  obtain ⟨fuel', hfuel⟩ : ∃ f, fuel = f + 1 := ⟨fuel - 1, by omega⟩
  subst hfuel
  have hb : (newLeaf key t.suffix_table_ offset).base.prefix_length_ = key.length - offset := by
    unfold newLeaf; rw [base_setBase]
  have hbound : (newLeaf key t.suffix_table_ offset).base.prefix_position_ +
      (newLeaf key t.suffix_table_ offset).base.prefix_length_ ≤
      (t.suffix_table_ ++ key.drop offset).length := by
    cases hl1 with
    | mk _ _ hbound _ _ _ _ => exact hbound
  obtain ⟨m1, m2, m3, m4⟩ := mismatchAt_spec key (t.suffix_table_ ++ key.drop offset) offset
    (newLeaf key t.suffix_table_ offset) ho hbound
  have hm : mismatchAt key (t.suffix_table_ ++ key.drop offset) offset
      (newLeaf key t.suffix_table_ offset) = key.length - offset := by
    by_contra hne
    have hlt : mismatchAt key (t.suffix_table_ ++ key.drop offset) offset
        (newLeaf key t.suffix_table_ offset) < key.length - offset := by
      rw [hb] at m1; omega
    apply m4 (by rw [hb]; exact hlt) (by omega)
    rw [hl2, getD_drop']
  have hfull := AddEntryLoop_full e key value fuel' offset (newLeaf key t.suffix_table_ offset)
    { t with suffix_table_ := t.suffix_table_ ++ key.drop offset } I
    ⟨by simp only []; rw [hm]; omega, by simp only []; rw [hm, hb]⟩
  rw [hfull]
  obtain ⟨u, i1, i2, i3, i4⟩ := InsertValue_spec e P
    { t with suffix_table_ := t.suffix_table_ ++ key.drop offset } I
    (newLeaf key t.suffix_table_ offset) value hl1
  simp only [] at i1 i2 i3 i4
  rw [hl2] at i3 i4
  have hu : u = 1 := by
    rcases i4 with ⟨h, _⟩ | ⟨_, _, h⟩
    · exact absurd h (hl3 _ _)
    · exact h
  have hv : (newLeaf key t.suffix_table_ offset).base.value_ = LAST_INDEX_IDENTIFIER := by
    unfold newLeaf; rw [base_setBase]; rfl
  subst hu
  rw [i1]
  exact ⟨rfl, by simp only []; rw [hv], i2, i3⟩

theorem attachLeaf_spec (e : Bool) (P : Nat → Prop) (hP : ∀ c, P c → c < 256)
    (key : List Nat) (value : Nat) (hkey : ∀ x, x ∈ key → P x) (fuel offset : Nat)
    (N : CArtNode) (y : Nat) (t : CAdaptiveRadixTree) (I : List Nat)
    (hN : TreeOK e P t.suffix_table_ N) (hy : P y) (hnew : ∀ s, (y, s) ∉ N.slots e)
    (ho : offset ≤ key.length) (hf : key.length < offset + fuel) :
    (attachLeaf e key value fuel offset N y t I).2.1 =
      { t with suffix_table_ := t.suffix_table_ ++ key.drop offset,
               unique_string_count_ := t.unique_string_count_ + 1 } ∧
    (attachLeaf e key value fuel offset N y t I).2.2 = I.set value LAST_INDEX_IDENTIFIER ∧
    TreeOK e P (t.suffix_table_ ++ key.drop offset) (attachLeaf e key value fuel offset N y t I).1 ∧
    (∀ k v, Holds e (t.suffix_table_ ++ key.drop offset)
        (attachLeaf e key value fuel offset N y t I).1 k v ↔
      (k = N.pfx t.suffix_table_ ++ y :: key.drop offset ∧ v = value) ∨
      Holds e t.suffix_table_ N k v) := by
  obtain ⟨hl1, hl2, hl3⟩ := newLeaf_spec e P key t.suffix_table_ offset hkey
  cases hN with
  | mk _ hnode hbound hval hpfx hbyte hkids =>
    obtain ⟨hi1, hi2, hi3, hi4, hi5⟩ := InsertInNode_spec e N y (newLeaf key t.suffix_table_ offset)
      hnode (hP y hy) hnew
    unfold attachLeaf
    simp only []
    generalize InsertInNode e N y (Ptr.to (newLeaf key t.suffix_table_ offset)) = r2 at *
    rw [hi3]
    simp only []
    -- the next iteration runs on the leaf and ends in `InsertValue`
    have hih := leaf_step e P key value hkey fuel offset t I ho hf
    generalize AddEntryLoop e key value fuel offset (newLeaf key t.suffix_table_ offset)
      { t with suffix_table_ := t.suffix_table_ ++ key.drop offset } I = r' at hih ⊢
    obtain ⟨a1, a2, a3, a4⟩ := hih
    obtain ⟨hs1, hs2, hs3, hs4⟩ := setChild_spec e r2.1 y r2.2 r'.1 hi1 hi2
    have hk := kids_setChild e r2.1 y r2.2 r'.1 hi1 hi2
    have hkN : ∀ c q, (c, q) ∈ N.kids e → c ≠ y := by
      intro c q hcq hc
      rw [mem_kids] at hcq
      obtain ⟨s, hs, _⟩ := hcq
      rw [hc] at hs
      exact hnew s hs
    have hkfinal : ∀ c q, (c, q) ∈ (r2.1.setChild r2.2 (Ptr.to r'.1)).kids e ↔
        (c = y ∧ q = Ptr.to r'.1) ∨ (c, q) ∈ N.kids e := by
      intro c q
      rw [hk, hi4]
      constructor
      · rintro (h | ⟨hne, (⟨h, _⟩ | h)⟩)
        · exact Or.inl h
        · exact absurd h hne
        · exact Or.inr h
      · rintro (h | h)
        · exact Or.inl h
        · exact Or.inr ⟨hkN c q h, Or.inr h⟩
    have hbase : (r2.1.setChild r2.2 (Ptr.to r'.1)).base =
        { N.base with children_count_ := N.base.children_count_ + 1 } := by rw [hs3, hi5]
    have hpf : (r2.1.setChild r2.2 (Ptr.to r'.1)).pfx (t.suffix_table_ ++ key.drop offset) =
        N.pfx t.suffix_table_ := by
      rw [← pfx_append t.suffix_table_ (key.drop offset) N hbound]
      unfold CArtNode.pfx
      rw [hbase]
    have hmono : ∀ c ch r v, (c, Ptr.to ch) ∈ N.kids e →
        (Holds e (t.suffix_table_ ++ key.drop offset) ch r v ↔ Holds e t.suffix_table_ ch r v) :=
      fun c ch r v hc => Holds_mono e P _ _ ch (hkids c ch hc) r v
    refine ⟨?_, a2, TreeOK.mk _ hs1 ?_ ?_ ?_ ?_ ?_, fun k v => ?_⟩
    · rw [a1]
    · rw [hbase, List.length_append]; simp only []; omega
    · rw [hbase]; exact hval
    · rw [hpf]; exact hpfx
    · intro c p hcp
      rcases (hkfinal c p).1 hcp with ⟨h, _⟩ | h
      · rw [h]; exact hy
      · exact hbyte c p h
    · intro c ch hcp
      rcases (hkfinal c _).1 hcp with ⟨_, h⟩ | h
      · injection h with h; rw [h]; exact a3
      · exact TreeOK_mono e P _ _ ch (hkids c ch h)
    · rw [Holds_iff, hpf, hbase]
      constructor
      · rintro ⟨r, hk', (⟨hr, h2, h3⟩ | ⟨c, ch, r', hr, hkid, hch⟩)⟩
        · right
          rw [hk', hr, h3]
          simp only [List.append_nil]
          exact Holds.here N h2
        · rcases (hkfinal c _).1 hkid with ⟨hc, hq⟩ | h
          · injection hq with hq
            rw [hq] at hch
            rcases (a4 r' v).1 hch with ⟨hr', hv⟩ | ⟨_, h⟩
            · left; rw [hk', hr, hc, hr']; exact ⟨rfl, hv⟩
            · exact absurd h (hl3 _ _)
          · right
            rw [hk', hr]
            exact Holds.under N c ch r' v h ((hmono c ch r' v h).1 hch)
      · rintro (⟨hk', hv⟩ | hh)
        · refine ⟨y :: key.drop offset, hk', Or.inr ⟨y, r'.1, key.drop offset, rfl,
            (hkfinal _ _).2 (Or.inl ⟨rfl, rfl⟩), (a4 _ _).2 (Or.inl ⟨rfl, hv⟩)⟩⟩
        · rw [Holds_iff] at hh
          obtain ⟨r, hk', (h1 | ⟨c, ch, r', hr, hkid, hch⟩)⟩ := hh
          · exact ⟨r, hk', Or.inl h1⟩
          · exact ⟨r, hk', Or.inr ⟨c, ch, r', hr, (hkfinal _ _).2 (Or.inr hkid),
              (hmono c ch r' v hkid).2 hch⟩⟩
theorem getD_mem_of_lt (l : List Nat) (i : Nat) (h : i < l.length) : l.getD i 0 ∈ l := by
  rw [List.getD_eq_getElem?_getD, List.getElem?_eq_getElem h, Option.getD_some]
  exact List.getElem_mem _

theorem drop_beyond (l : List Nat) : l.drop (l.length + 1) = [] :=
  List.drop_eq_nil_of_le (by omega)

theorem tree_eta' (t : CAdaptiveRadixTree) (u : Nat) :
    { t with unique_string_count_ := t.unique_string_count_ + u } =
    { t with suffix_table_ := t.suffix_table_ ++ [],
             unique_string_count_ := t.unique_string_count_ + u } := by
  simp

/-- One run of the loop of `AddEntry` on a well-formed subtree adds the rest of the key
with head `value` and changes nothing else. -/
theorem AddEntryLoop_spec (e : Bool) (P : Nat → Prop) (hP : ∀ c, P c → c < 256)
    (key : List Nat) (value : Nat) (hkey : ∀ x, x ∈ key → P x) :
    ∀ (fuel depth : Nat) (n : CArtNode) (t : CAdaptiveRadixTree) (I : List Nat),
      TreeOK e P t.suffix_table_ n → depth ≤ key.length → key.length < depth + fuel →
      t.suffix_table_.length + (key.length - depth) < 4294967296 →
      AddSpec e P key value depth n t I (AddEntryLoop e key value fuel depth n t I) := by
  intro fuel
  induction fuel with
  | zero => intro depth n t I _ h1 h2; omega
  | succ fuel ih =>
    intro depth n t I hOK hd hf hS
    have hOK0 := hOK
    cases hOK with
    | mk _ hnode hbound hval hpfx hbyte hkids =>
    obtain ⟨m1, m2, m3, m4⟩ := mismatchAt_spec key t.suffix_table_ depth n hd hbound
    have hpl := pfx_length t.suffix_table_ n hbound
    have hkl : (key.drop depth).length = key.length - depth := List.length_drop _ _
    by_cases hA : depth + mismatchAt key t.suffix_table_ depth n = key.length ∧
        mismatchAt key t.suffix_table_ depth n = n.base.prefix_length_
    · -- the key ends at this node
      rw [AddEntryLoop_full e key value fuel depth n t I hA]
      have hkd : n.pfx t.suffix_table_ = key.drop depth := by
        rw [List.take_of_length_le (by omega), List.take_of_length_le (by omega)] at m3
        exact m3.symm
      obtain ⟨u, i1, i2, i3, i4⟩ := InsertValue_spec e P t I n value hOK0
      rw [i1]
      refine ⟨[], n.base.value_, u, tree_eta' t u, rfl, ?_, ?_, ?_,
        ⟨key.length + 1, by omega, (drop_beyond key).symm⟩, fun _ => rfl⟩
      · rw [List.append_nil]; exact i2
      · rw [List.append_nil, ← hkd]; exact i3
      · rw [← hkd]
        rcases i4 with ⟨h1, h2⟩ | ⟨h1, h2, h3⟩
        · exact Or.inl ⟨h1, h2, rfl⟩
        · exact Or.inr ⟨h1, h2, h3⟩
    · by_cases hB : mismatchAt key t.suffix_table_ depth n < n.base.prefix_length_
      · -- prefix split
        obtain ⟨s1, s2, s3, s4, s5, s6⟩ := split_spec e P hP t.suffix_table_ n
          (mismatchAt key t.suffix_table_ depth n) hOK0 hB
        have hne : n.pfx t.suffix_table_ ≠ key.drop depth := by
          intro h
          have := congrArg List.length h
          rw [hpl, hkl] at this
          by_cases hlt : depth + mismatchAt key t.suffix_table_ depth n < key.length
          · apply m4 hB hlt
            rw [h, getD_drop']
          · omega
        by_cases hC : depth + mismatchAt key t.suffix_table_ depth n < key.length
        · -- the key goes on: a leaf for the rest of the key
          rw [AddEntryLoop_split_more e key value fuel depth n t I hA hB hC hS]
          have hxy := m4 hB hC
          rw [pfx_getD t.suffix_table_ n _ hB] at hxy
          generalize hm : mismatchAt key t.suffix_table_ depth n = m at *
          generalize hnode1 : (InsertInNode e (splitParent n m)
            (t.suffix_table_.getD (n.base.prefix_position_ + m) 0)
            (Ptr.to (splitChild n m))).1 = node1 at *
          have hnew : ∀ s, (key.getD (depth + m) 0, s) ∉ node1.slots e := by
            intro s hs
            have hs1 := s1
            cases hs1 with
            | mk _ hn1 _ _ _ _ _ =>
              obtain ⟨_, ch, hch⟩ := slots_node e node1 hn1 _ s hs
              have := (s4 _ _).1 ((mem_kids e node1 _ _).2 ⟨s, hs, hch⟩)
              exact hxy this.1
          obtain ⟨a1, a2, a3, a4⟩ := attachLeaf_spec e P hP key value hkey fuel (depth + m + 1)
            node1 (key.getD (depth + m) 0) t I s1 (hkey _ (getD_mem_of_lt _ _ hC)) hnew
            (by omega) (by omega)
          have hkd : key.drop depth = node1.pfx t.suffix_table_ ++
              key.getD (depth + m) 0 :: key.drop (depth + m + 1) := by
            rw [s2, ← m3, ← drop_eq_getD_cons key (depth + m) hC, ← List.drop_drop,
              List.take_append_drop]
          have hnk : ∀ k v, Holds e t.suffix_table_ n k v → k ≠ key.drop depth := by
            intro k v hh hk
            obtain ⟨r, hr⟩ := Holds.pfx_le e _ _ _ _ hh
            rw [hk, hkd, s5, s2, List.append_assoc] at hr
            have := List.append_cancel_left hr
            simp only [List.cons_append, List.cons.injEq] at this
            exact hxy this.1
          refine ⟨key.drop (depth + m + 1), LAST_INDEX_IDENTIFIER, 1, a1, a2, a3, fun k v => ?_,
            Or.inr ⟨fun v hv => hnk _ v hv rfl, rfl, rfl⟩, ⟨depth + m + 1, by omega, rfl⟩,
            fun h => absurd h hne⟩
          rw [a4, s6, ← hkd]
          constructor
          · rintro (h | h)
            · exact Or.inl h
            · exact Or.inr ⟨hnk k v h, h⟩
          · rintro (h | ⟨_, h⟩)
            · exact Or.inl h
            · exact Or.inr h
        · -- the key ends at the split point
          rw [AddEntryLoop_split_end e key value fuel depth n t I hA hB hC]
          generalize hm : mismatchAt key t.suffix_table_ depth n = m at *
          generalize hnode1 : (InsertInNode e (splitParent n m)
            (t.suffix_table_.getD (n.base.prefix_position_ + m) 0)
            (Ptr.to (splitChild n m))).1 = node1 at *
          have hkd : node1.pfx t.suffix_table_ = key.drop depth := by
            rw [s2, ← m3, List.take_of_length_le (by omega)]
          obtain ⟨u, i1, i2, i3, i4⟩ := InsertValue_spec e P t I node1 value s1
          rw [i1]
          have hu : (∀ v, ¬ Holds e t.suffix_table_ n (key.drop depth) v) ∧
              node1.base.value_ = LAST_INDEX_IDENTIFIER ∧ u = 1 := by
            rcases i4 with ⟨h1, _⟩ | ⟨h1, h2, h3⟩
            · rw [Holds_iff] at h1
              obtain ⟨r, hr, (⟨_, h2, _⟩ | ⟨c, ch, r', hr', _, _⟩)⟩ := h1
              · rw [s3] at h2; exact Bool.noConfusion h2
              · rw [hr'] at hr
                have := congrArg List.length hr
                simp at this
            · rw [hkd] at h1
              exact ⟨fun v hv => h1 v ((s6 _ _).2 hv), h2, h3⟩
          refine ⟨[], node1.base.value_, u, tree_eta' t u, rfl, ?_, fun k v => ?_,
            Or.inr hu, ⟨key.length + 1, by omega, (drop_beyond key).symm⟩, fun _ => rfl⟩
          · rw [List.append_nil]; exact i2
          · rw [List.append_nil, i3, hkd, s6]
      · -- the whole prefix matches and the key goes on
        have hm : mismatchAt key t.suffix_table_ depth n = n.base.prefix_length_ := by omega
        have hC : depth + mismatchAt key t.suffix_table_ depth n < key.length := by
          by_contra h
          exact hA ⟨by omega, hm⟩
        have hkd : key.drop depth = n.pfx t.suffix_table_ ++
            key.getD (depth + n.base.prefix_length_) 0 ::
              key.drop (depth + n.base.prefix_length_ + 1) := by
          rw [hm] at m3 hC
          rw [List.take_of_length_le (by omega : (n.pfx t.suffix_table_).length ≤ _)] at m3
          rw [← m3, ← drop_eq_getD_cons key _ hC, ← List.drop_drop, List.take_append_drop]
        have hne : n.pfx t.suffix_table_ ≠ key.drop depth := by
          intro h
          have := congrArg List.length h
          rw [hpl, hkl] at this
          omega
        have hyP : P (key.getD (depth + n.base.prefix_length_) 0) :=
          hkey _ (getD_mem_of_lt _ _ (by omega))
        cases hfind : FindChild e n
            (key.getD (depth + mismatchAt key t.suffix_table_ depth n) 0) with
        | some slot =>
          have hslot := FindChild_some e n _ slot hnode hfind (by rw [hm]; exact hP _ hyP)
          obtain ⟨_, ch, hch⟩ := slots_node e n hnode _ slot hslot
          rw [AddEntryLoop_found e key value fuel depth n t I slot ch hA hB hC hfind hch]
          rw [hm] at hslot ⊢
          have hkid : (key.getD (depth + n.base.prefix_length_) 0, Ptr.to ch) ∈ n.kids e :=
            (mem_kids e n _ _).2 ⟨slot, hslot, hch⟩
          have hih := ih (depth + n.base.prefix_length_ + 1) ch t I (hkids _ ch hkid) (by omega)
            (by omega) (by omega)
          generalize AddEntryLoop e key value fuel (depth + n.base.prefix_length_ + 1) ch t I = r'
            at hih ⊢
          obtain ⟨ext, old, u, a1, a2, a3, a4, a5, ⟨j, hj1, hj2⟩, a7⟩ := hih
          obtain ⟨hs1, hs2, hs3, hs4⟩ := setChild_spec e n _ slot r'.1 hnode hslot
          have hk := kids_setChild e n _ slot r'.1 hnode hslot
          have hpf : (n.setChild slot (Ptr.to r'.1)).pfx (t.suffix_table_ ++ ext) =
              n.pfx t.suffix_table_ := by
            rw [← pfx_append t.suffix_table_ ext n hbound]
            unfold CArtNode.pfx
            rw [hs3]
          have hmono : ∀ c ch' r v, (c, Ptr.to ch') ∈ n.kids e →
              (Holds e (t.suffix_table_ ++ ext) ch' r v ↔ Holds e t.suffix_table_ ch' r v) :=
            fun c ch' r v hc => Holds_mono e P _ _ ch' (hkids c ch' hc) r v
          refine ⟨ext, old, u, a1, a2, TreeOK.mk _ hs1 ?_ ?_ ?_ ?_ ?_, fun k v => ?_, ?_,
            ⟨j, by omega, hj2⟩, fun h => absurd h hne⟩
          · rw [hs3, List.length_append]; omega
          · rw [hs3]; exact hval
          · rw [hpf]; exact hpfx
          · intro c p hcp
            rcases (hk c p).1 hcp with ⟨h, _⟩ | ⟨_, h⟩
            · rw [h]; exact hyP
            · exact hbyte c p h
          · intro c ch' hcp
            rcases (hk c _).1 hcp with ⟨_, h⟩ | ⟨_, h⟩
            · injection h with h; rw [h]; exact a3
            · exact TreeOK_mono e P _ _ ch' (hkids c ch' h)
          · rw [Holds_iff, hpf, hs3, hkd]
            constructor
            · rintro ⟨r, hk', (⟨hr, h2, h3⟩ | ⟨c, ch', r', hr, hkid', hch'⟩)⟩
              · right
                rw [hk', hr, h3, List.append_nil]
                refine ⟨?_, Holds.here n h2⟩
                intro h
                have := congrArg List.length h
                simp at this
              · rcases (hk c _).1 hkid' with ⟨hc, hq⟩ | ⟨hc, h⟩
                · injection hq with hq
                  rw [hq] at hch'
                  rcases (a4 r' v).1 hch' with ⟨hr', hv⟩ | ⟨hr', h⟩
                  · left; rw [hk', hr, hc, hr']; exact ⟨rfl, hv⟩
                  · right
                    rw [hk', hr, hc]
                    refine ⟨?_, Holds.under n _ ch r' v hkid h⟩
                    intro h'
                    have := List.append_cancel_left h'
                    simp only [List.cons.injEq, true_and] at this
                    exact hr' this
                · right
                  rw [hk', hr]
                  refine ⟨?_, Holds.under n c ch' r' v h ((hmono c ch' r' v h).1 hch')⟩
                  intro h'
                  have := List.append_cancel_left h'
                  simp only [List.cons.injEq] at this
                  exact hc this.1
            · rintro (⟨hk', hv⟩ | ⟨hne', hh⟩)
              · exact ⟨_, hk', Or.inr ⟨_, r'.1, _, rfl, (hk _ _).2 (Or.inl ⟨rfl, rfl⟩),
                  (a4 _ _).2 (Or.inl ⟨rfl, hv⟩)⟩⟩
              · rw [Holds_iff] at hh
                obtain ⟨r, hk', (h1 | ⟨c, ch', rr, hr, hkid', hch'⟩)⟩ := hh
                · exact ⟨r, hk', Or.inl h1⟩
                · by_cases hc : c = key.getD (depth + n.base.prefix_length_) 0
                  · have hq := kids_fun e n hnode _ _ _ hkid' (by rw [hc]; exact hkid)
                    injection hq with hq
                    rw [hq] at hch'
                    refine ⟨r, hk', Or.inr ⟨c, r'.1, rr, hr, (hk _ _).2 (Or.inl ⟨hc, rfl⟩),
                      (a4 _ _).2 (Or.inr ⟨?_, hch'⟩)⟩⟩
                    intro hr'
                    apply hne'
                    rw [hk', hr, hc, hr']
                  · exact ⟨r, hk', Or.inr ⟨c, ch', rr, hr, (hk _ _).2 (Or.inr ⟨hc, hkid'⟩),
                      (hmono c ch' rr v hkid').2 hch'⟩⟩
          · rw [hkd]
            rcases a5 with ⟨h1, h2, h3⟩ | ⟨h1, h2, h3⟩
            · exact Or.inl ⟨Holds.under n _ ch _ old hkid h1, h2, h3⟩
            · refine Or.inr ⟨fun v hv => ?_, h2, h3⟩
              rw [Holds_iff] at hv
              obtain ⟨r, hr, (⟨hr', _, _⟩ | ⟨c, ch', r', hr', hkid', hch'⟩)⟩ := hv
              · rw [hr'] at hr
                have := congrArg List.length hr
                simp at this
              · rw [hr'] at hr
                have := List.append_cancel_left hr
                simp only [List.cons.injEq] at this
                obtain ⟨hc, hr''⟩ := this
                rw [← hc] at hkid'
                have hq := kids_fun e n hnode _ _ _ hkid' hkid
                injection hq with hq
                rw [hq, ← hr''] at hch'
                exact h1 v hch'
        | none =>
          have hnew := FindChild_none e n _ hnode hfind
          rw [AddEntryLoop_new e key value fuel depth n t I hA hB hC hfind hS]
          rw [hm] at hnew ⊢
          obtain ⟨a1, a2, a3, a4⟩ := attachLeaf_spec e P hP key value hkey fuel
            (depth + n.base.prefix_length_ + 1) n (key.getD (depth + n.base.prefix_length_) 0)
            t I hOK0 hyP hnew (by omega) (by omega)
          have hnk : ∀ k v, Holds e t.suffix_table_ n k v → k ≠ key.drop depth := by
            intro k v hh hk
            rw [Holds_iff] at hh
            obtain ⟨r, hr, (⟨hr', _, _⟩ | ⟨c, ch', r', hr', hkid', hch'⟩)⟩ := hh
            · rw [hk, hkd, hr'] at hr
              have := congrArg List.length hr
              simp at this
            · rw [hk, hkd, hr'] at hr
              have := List.append_cancel_left hr
              simp only [List.cons.injEq] at this
              rw [← this.1, mem_kids] at hkid'
              obtain ⟨s, hs, _⟩ := hkid'
              exact hnew s hs
          refine ⟨key.drop (depth + n.base.prefix_length_ + 1), LAST_INDEX_IDENTIFIER, 1, a1, a2,
            a3, fun k v => ?_, Or.inr ⟨fun v hv => hnk _ v hv rfl, rfl, rfl⟩,
            ⟨depth + n.base.prefix_length_ + 1, by omega, rfl⟩, fun h => absurd h hne⟩
          rw [a4, ← hkd]
          constructor
          · rintro (h | h)
            · exact Or.inl h
            · exact Or.inr ⟨hnk k v h, h⟩
          · rintro (h | ⟨_, h⟩)
            · exact Or.inl h
            · exact Or.inr h

/-! ## The traversal -/

theorem foldl_filter' {α β : Type} (f : β → α → β) (p : α → Bool) (l : List α) (b : β) :
    l.foldl (fun st a => if p a then f st a else st) b = (l.filter p).foldl f b := by
  induction l generalizing b with
  | nil => rfl
  | cons a l ih =>
    simp only [List.foldl_cons, List.filter_cons]
    by_cases h : p a = true
    · simp only [h, if_true, List.foldl_cons]; exact ih _
    · simp only [h, if_false]; exact ih _

theorem foldl_congr_mem {α β : Type} (f g : β → α → β) (l : List α) (b : β)
    (h : ∀ a, a ∈ l → ∀ st, f st a = g st a) : l.foldl f b = l.foldl g b := by
  induction l generalizing b with
  | nil => rfl
  | cons a l ih =>
    simp only [List.foldl_cons]
    rw [h a (List.mem_cons_self _ _)]
    exact ih _ (fun a' ha' => h a' (List.mem_cons_of_mem _ ha'))

theorem TraverseRecursive_eq (e : Bool) (S : List Nat) (n : CArtNode) (level : Nat)
    (st : TraverseState) (h : NodeOK e n) :
    TraverseRecursive e S n level st =
      (n.tslots e).foldl (travStep (TraverseChildren e S n.child_) (travLevel n level))
        (travHead S n level st) := by
  obtain ⟨calls, key⟩ := st
  cases n with
  | Fanout4 b k ch =>
    rw [TraverseRecursive]
    simp only [CArtNode.tslots, CArtNode.slots, List.foldl_map, travStep, travHead, travLevel,
      CArtNode.base, CArtNode.child_]
    by_cases hp : b.prefix_length_ = 0
    · simp only [hp, ne_eq, not_true_eq_false, if_false]
    · simp only [hp, ne_eq, not_false_eq_true, if_true]
  | Fanout16 b k ch =>
    obtain ⟨_, _, _, _, _, hnn⟩ := h
    rw [TraverseRecursive]
    simp only [CArtNode.tslots, CArtNode.slots, travHead, travLevel, CArtNode.base,
      CArtNode.child_]
    rw [← foldl_filter', List.foldl_map]
    have hloop : ∀ (lv : Nat) (init : TraverseState),
        (List.range b.children_count_).foldl
          (fun (st : TraverseState) i =>
            if (if e = true then FlipSign (k.getD i 0) else k.getD i 0) = 0 then st
            else
              (((if !(ch.getD i Ptr.nullptr).isNull then
                  ((TraverseChildren e S ch).getD i (fun _ st => st)) (lv + 1)
                    (st.1, st.2 ++ [if e = true then FlipSign (k.getD i 0) else k.getD i 0])
                else (st.1, st.2 ++ [if e = true then FlipSign (k.getD i 0) else k.getD i 0])).1),
               resize ((if !(ch.getD i Ptr.nullptr).isNull then
                  ((TraverseChildren e S ch).getD i (fun _ st => st)) (lv + 1)
                    (st.1, st.2 ++ [if e = true then FlipSign (k.getD i 0) else k.getD i 0])
                else (st.1, st.2 ++ [if e = true then FlipSign (k.getD i 0) else k.getD i 0])).2)
                lv)) init =
        (List.range b.children_count_).foldl
          (fun (st : TraverseState) i =>
            if decide ((storedByte e (k.getD i 0), i).1 ≠ 0) = true then
              travStep (TraverseChildren e S ch) lv st (storedByte e (k.getD i 0), i)
            else st) init := by
      intro lv init
      apply foldl_congr_mem
      intro i hi st
      rw [List.mem_range] at hi
      obtain ⟨c, hc⟩ := hnn i hi
      simp only [hc, Ptr.isNull, Bool.not_false, if_true, storedByte, travStep, ne_eq,
        decide_not, Bool.not_eq_true', decide_eq_false_iff_not]
      by_cases hz : (if e = true then FlipSign (k.getD i 0) else k.getD i 0) = 0
      · simp only [hz, if_true, not_true_eq_false, if_false]
      · simp only [hz, if_false, not_false_eq_true, if_true]
    by_cases hp : b.prefix_length_ = 0
    · simp only [hp, ne_eq, not_true_eq_false, if_false]
      exact hloop _ _
    · simp only [hp, ne_eq, not_false_eq_true, if_true]
      exact hloop _ _
  | Fanout48 b idx ch =>
    obtain ⟨_, _, _, hnn, _, _⟩ := h
    rw [TraverseRecursive]
    simp only [CArtNode.tslots, CArtNode.slots, travHead, travLevel, CArtNode.base,
      CArtNode.child_]
    rw [List.foldl_map, ← foldl_filter']
    have hloop : ∀ (lv : Nat) (init : TraverseState),
        (if b.children_count_ ≠ 0 then
          (List.range 256).foldl
            (fun (st : TraverseState) i =>
              if idx.getD i 0 ≠ CArtNode.EMPTY_MARKER then
                (((if !(ch.getD (idx.getD i 0) Ptr.nullptr).isNull then
                    ((TraverseChildren e S ch).getD (idx.getD i 0) (fun _ st => st)) (lv + 1)
                      (st.1, st.2 ++ [i])
                  else (st.1, st.2 ++ [i])).1),
                 resize ((if !(ch.getD (idx.getD i 0) Ptr.nullptr).isNull then
                    ((TraverseChildren e S ch).getD (idx.getD i 0) (fun _ st => st)) (lv + 1)
                      (st.1, st.2 ++ [i])
                  else (st.1, st.2 ++ [i])).2) lv)
              else st) init
          else init) =
        (List.range 256).foldl
          (fun (st : TraverseState) i =>
            if decide (idx.getD i 0 ≠ CArtNode.EMPTY_MARKER) = true then
              travStep (TraverseChildren e S ch) lv st (i, idx.getD i 0)
            else st) init := by
      intro lv init
      by_cases hc0 : b.children_count_ = 0
      · simp only [hc0, ne_eq, not_true_eq_false, if_false]
        symm
        have : ∀ i, i ∈ List.range 256 → ∀ st : TraverseState,
            (if decide (idx.getD i 0 ≠ CArtNode.EMPTY_MARKER) = true then
              travStep (TraverseChildren e S ch) lv st (i, idx.getD i 0) else st) = st := by
          intro i hi st
          rw [List.mem_range] at hi
          have : ¬ idx.getD i 0 ≠ CArtNode.EMPTY_MARKER := by
            intro hne
            have := (hnn i hi hne).1
            omega
          simp only [this, decide_False, Bool.false_eq_true, if_false]
        rw [foldl_congr_mem _ (fun st _ => st) _ _ this]
        clear this
        generalize List.range 256 = l
        induction l with
        | nil => rfl
        | cons a l ih => exact ih
      · simp only [hc0, ne_eq, not_false_eq_true, if_true]
        apply foldl_congr_mem
        intro i hi st
        rw [List.mem_range] at hi
        by_cases hne : idx.getD i 0 ≠ CArtNode.EMPTY_MARKER
        · obtain ⟨c, hc⟩ := (hnn i hi hne).2
          simp only [hne, ne_eq, not_false_eq_true, if_true, decide_True, hc, Ptr.isNull,
            Bool.not_false, travStep]
        · simp only [hne, if_false, decide_False, Bool.false_eq_true]
    by_cases hp : b.prefix_length_ = 0
    · simp only [hp, ne_eq, not_true_eq_false, if_false]
      exact hloop _ _
    · simp only [hp, ne_eq, not_false_eq_true, if_true]
      exact hloop _ _
  | Fanout256 b ch =>
    obtain ⟨_, hnn, hzero⟩ := h
    rw [TraverseRecursive]
    simp only [CArtNode.tslots, CArtNode.slots, travHead, travLevel, CArtNode.base,
      CArtNode.child_]
    rw [List.foldl_map, ← foldl_filter']
    have hloop : ∀ (lv : Nat) (init : TraverseState),
        (if b.children_count_ ≠ 0 then
          (List.range 256).foldl
            (fun (st : TraverseState) i =>
              if (!(ch.getD i Ptr.nullptr).isEmpty) = true then
                ((((TraverseChildren e S ch).getD i (fun _ st => st)) (lv + 1)
                      (st.1, st.2 ++ [i])).1,
                 resize (((TraverseChildren e S ch).getD i (fun _ st => st)) (lv + 1)
                      (st.1, st.2 ++ [i])).2 lv)
              else st) init
          else init) =
        (List.range 256).foldl
          (fun (st : TraverseState) i =>
            if (!(ch.getD i Ptr.nullptr).isEmpty) = true then
              travStep (TraverseChildren e S ch) lv st (i, i)
            else st) init := by
      intro lv init
      by_cases hc0 : b.children_count_ = 0
      · simp only [hc0, ne_eq, not_true_eq_false, if_false]
        symm
        have : ∀ i, i ∈ List.range 256 → ∀ st : TraverseState,
            (if (!(ch.getD i Ptr.nullptr).isEmpty) = true then
              travStep (TraverseChildren e S ch) lv st (i, i) else st) = st := by
          intro i hi st
          rw [List.mem_range] at hi
          rw [hzero hc0 i hi]
          rfl
        rw [foldl_congr_mem _ (fun st _ => st) _ _ this]
        clear this
        generalize List.range 256 = l
        induction l with
        | nil => rfl
        | cons a l ih => exact ih
      · simp only [hc0, ne_eq, not_false_eq_true, if_true]
        rfl
    by_cases hp : b.prefix_length_ = 0
    · simp only [hp, ne_eq, not_true_eq_false, if_false]
      exact hloop _ _
    · simp only [hp, ne_eq, not_false_eq_true, if_true]
      exact hloop _ _
theorem TraverseChildren_getD (e : Bool) (S : List Nat) (c : List (Ptr CArtNode)) (s : Nat)
    (ch : CArtNode) (h : c.getD s Ptr.nullptr = Ptr.to ch) :
    (TraverseChildren e S c).getD s (fun _ st => st) = TraverseRecursive e S ch := by
  induction c generalizing s with
  | nil => simp at h
  | cons p ps ih =>
    rw [TraverseChildren]
    cases s with
    | zero =>
      simp only [List.getD_cons_zero] at h ⊢
      rw [h, TraversePtr]
    | succ s =>
      simp only [List.getD_cons_succ] at h ⊢
      exact ih s h

theorem tuplesOf_append (a b : List Call) : tuplesOf (a ++ b) = tuplesOf a ++ tuplesOf b := by
  induction a with
  | nil => rfl
  | cons c a ih =>
    cases c with
    | HandleNode n p l =>
      rw [List.cons_append, tuplesOf, tuplesOf, ih]
    | HandleTuple k b' e' =>
      rw [List.cons_append, tuplesOf, tuplesOf, ih, List.cons_append]

theorem keyLt_append (p a b : List Nat) : keyLt (p ++ a) (p ++ b) ↔ keyLt a b := by
  induction p with
  | nil => rfl
  | cons x p ih =>
    simp only [List.cons_append, keyLt]
    constructor
    · rintro (h | h)
      · exact absurd h (lt_irrefl _)
      · exact ih.1 (by simpa using h)
    · intro h; exact Or.inr (by simpa using ih.2 h)

theorem keyLt_ext (p : List Nat) (c : Nat) (r : List Nat) : keyLt p (p ++ c :: r) := by
  have := (keyLt_append p [] (c :: r)).2 (by simp [keyLt])
  simpa using this

theorem keyLt_branch (p : List Nat) (c c' : Nat) (r r' : List Nat) (h : c < c') :
    keyLt (p ++ c :: r) (p ++ c' :: r') :=
  (keyLt_append p _ _).2 (Or.inl h)

theorem resize_append (K r : List Nat) : resize (K ++ r) K.length = K := by
  unfold resize
  rw [List.take_left']
  · simp
  · rfl

theorem mem_tslots (e : Bool) (n : CArtNode) (p : Nat × Nat) :
    (p ∈ n.tslots e → p ∈ n.slots e) ∧ (p ∈ n.slots e → p.1 ≠ 0 → p ∈ n.tslots e) := by
  cases n with
  | Fanout16 b k ch =>
    simp only [CArtNode.tslots, List.mem_filter, ne_eq, decide_not, Bool.not_eq_true',
      decide_eq_false_iff_not]
    exact ⟨fun h => h.1, fun h1 h2 => ⟨h1, h2⟩⟩
  | Fanout4 b k ch => exact ⟨fun h => h, fun h _ => h⟩
  | Fanout48 b k ch => exact ⟨fun h => h, fun h _ => h⟩
  | Fanout256 b ch => exact ⟨fun h => h, fun h _ => h⟩

theorem tslots_sorted (e : Bool) (n : CArtNode) (h : NodeOK e n) :
    (n.tslots e).Pairwise (fun p q => p.1 < q.1) := by
  have hs := slots_sorted e n h
  cases n with
  | Fanout16 b k ch => exact hs.sublist (List.filter_sublist _)
  | Fanout4 b k ch => exact hs
  | Fanout48 b k ch => exact hs
  | Fanout256 b ch => exact hs

theorem travHead_eq (S : List Nat) (n : CArtNode) (calls : List Call) (key : List Nat)
    (hb : n.base.prefix_position_ + n.base.prefix_length_ ≤ S.length) :
    travHead S n key.length (calls, key) =
      (calls ++ (Call.HandleNode n key key.length ::
        (if n.base.end_of_string_ then
          [Call.HandleTuple (key ++ n.pfx S) ⟨n.base.value_⟩ ⟨LAST_INDEX_IDENTIFIER⟩]
        else [])), key ++ n.pfx S) ∧
    travLevel n key.length = (key ++ n.pfx S).length := by
  have hpl := pfx_length S n hb
  have hk : (if n.base.prefix_length_ ≠ 0 then
      appendSub key S n.base.prefix_position_ n.base.prefix_length_ else key) =
      key ++ n.pfx S := by
    by_cases hp : n.base.prefix_length_ = 0
    · simp only [hp, ne_eq, not_true_eq_false, if_false]
      have : n.pfx S = [] := List.eq_nil_of_length_eq_zero (by rw [hpl, hp])
      rw [this, List.append_nil]
    · simp only [hp, ne_eq, not_false_eq_true, if_true]
      rfl
  constructor
  · unfold travHead
    simp only [hk]
    cases n.base.end_of_string_ with
    | true => simp
    | false => simp
  · unfold travLevel
    rw [List.length_append, hpl]
    split <;> omega

/-- What the traversal of a subtree does, for every state it is started in (`level` being
the size of the key buffer): it appends calls, leaves the key buffer extended by the
prefix of the root of the subtree, reports only keys the subtree stores, in strictly
ascending order, and reports all of them when no child hangs under the byte `0`. -/
theorem Traverse_spec (e : Bool) (P : Nat → Prop) (S : List Nat) (n : CArtNode)
    (h : TreeOK e P S n) :
    ∀ (calls : List Call) (key : List Nat),
      ∃ evs, TraverseRecursive e S n key.length (calls, key) = (calls ++ evs, key ++ n.pfx S) ∧
        (∀ k v, (k, v) ∈ tuplesOf evs → ∃ r, k = key ++ r ∧ Holds e S n r v) ∧
        ((∀ c, P c → c ≠ 0) → ∀ r v, Holds e S n r v → (key ++ r, v) ∈ tuplesOf evs) ∧
        (tuplesOf evs).Pairwise (fun p q => keyLt p.1 q.1) := by
  induction h with
  | mk n hnode hbound hval hpfx hbyte hkids ih =>
    intro calls key
    obtain ⟨hhead, hlevel⟩ := travHead_eq S n calls key hbound
    rw [TraverseRecursive_eq e S n _ _ hnode, hhead, hlevel]
    generalize hK : key ++ n.pfx S = K
    -- the child loop, for any part of the list of children
    have hloop : ∀ (l : List (Nat × Nat)), (∀ p, p ∈ l → p ∈ n.slots e) →
        l.Pairwise (fun p q => p.1 < q.1) → ∀ calls0 : List Call,
        ∃ evs, l.foldl (travStep (TraverseChildren e S n.child_) K.length) (calls0, K) =
            (calls0 ++ evs, K) ∧
          (∀ k v, (k, v) ∈ tuplesOf evs → ∃ c s ch r, (c, s) ∈ l ∧
            n.child_.getD s Ptr.nullptr = Ptr.to ch ∧ k = K ++ c :: r ∧ Holds e S ch r v) ∧
          ((∀ c, P c → c ≠ 0) → ∀ c s ch r v, (c, s) ∈ l →
            n.child_.getD s Ptr.nullptr = Ptr.to ch → Holds e S ch r v →
            (K ++ c :: r, v) ∈ tuplesOf evs) ∧
          (tuplesOf evs).Pairwise (fun p q => keyLt p.1 q.1) := by
      intro l
      induction l with
      | nil =>
        intro _ _ calls0
        refine ⟨[], by simp, ?_, ?_, ?_⟩
        · intro k v hkv; simp [tuplesOf] at hkv
        · intro _ c s ch r v hm; simp at hm
        · simp [tuplesOf]
      | cons p l ihl =>
        intro hsub hsorted calls0
        obtain ⟨c, s⟩ := p
        have hps : (c, s) ∈ n.slots e := hsub _ (List.mem_cons_self _ _)
        obtain ⟨_, ch, hch⟩ := slots_node e n hnode c s hps
        have hkid : (c, Ptr.to ch) ∈ n.kids e := (mem_kids e n c _).2 ⟨s, hps, hch⟩
        obtain ⟨evs1, t1, t2, t3, t4⟩ := ih c ch hkid calls0 (K ++ [c])
        rw [List.pairwise_cons] at hsorted
        obtain ⟨evs2, u1, u2, u3, u4⟩ := ihl (fun p hp => hsub p (List.mem_cons_of_mem _ hp))
          hsorted.2 (calls0 ++ evs1)
        have hstep : travStep (TraverseChildren e S n.child_) K.length (calls0, K) (c, s) =
            (calls0 ++ evs1, K) := by
          unfold travStep
          simp only []
          rw [TraverseChildren_getD e S n.child_ s ch hch]
          have hl : K.length + 1 = (K ++ [c]).length := by simp
          rw [hl, t1]
          simp only []
          rw [List.append_assoc, resize_append]
        refine ⟨evs1 ++ evs2, ?_, ?_, ?_, ?_⟩
        · rw [List.foldl_cons, hstep, u1, List.append_assoc]
        · intro k v hkv
          rw [tuplesOf_append, List.mem_append] at hkv
          rcases hkv with hkv | hkv
          · obtain ⟨r, hr, hh⟩ := t2 k v hkv
            refine ⟨c, s, ch, r, List.mem_cons_self _ _, hch, ?_, hh⟩
            rw [hr, List.append_assoc]; rfl
          · obtain ⟨c', s', ch', r, hm, h1, h2, h3⟩ := u2 k v hkv
            exact ⟨c', s', ch', r, List.mem_cons_of_mem _ hm, h1, h2, h3⟩
        · intro hz c' s' ch' r v hm hch' hh
          rw [tuplesOf_append, List.mem_append]
          rcases List.mem_cons.1 hm with heq | hm'
          · injection heq with h1 h2
            subst h1; subst h2
            rw [hch] at hch'
            injection hch' with hch'
            subst hch'
            left
            have := t3 hz r v hh
            rw [List.append_assoc] at this
            exact this
          · exact Or.inr (u3 hz c' s' ch' r v hm' hch' hh)
        · rw [tuplesOf_append, List.pairwise_append]
          refine ⟨t4, u4, ?_⟩
          intro a ha b hb
          obtain ⟨ka, va⟩ := a
          obtain ⟨kb, vb⟩ := b
          obtain ⟨r, hr, _⟩ := t2 ka va ha
          obtain ⟨c', s', ch', r', hm, _, h2, _⟩ := u2 kb vb hb
          have hlt := hsorted.1 (c', s') hm
          simp only [] at hlt ⊢
          rw [hr, h2, List.append_assoc]
          exact keyLt_branch K c c' _ _ hlt
    obtain ⟨evs, l1, l2, l3, l4⟩ := hloop (n.tslots e) (fun p hp => (mem_tslots e n p).1 hp)
      (tslots_sorted e n hnode)
      (calls ++ (Call.HandleNode n key key.length ::
        (if n.base.end_of_string_ then
          [Call.HandleTuple K ⟨n.base.value_⟩ ⟨LAST_INDEX_IDENTIFIER⟩]
        else [])))
    refine ⟨(Call.HandleNode n key key.length ::
        (if n.base.end_of_string_ then
          [Call.HandleTuple K ⟨n.base.value_⟩ ⟨LAST_INDEX_IDENTIFIER⟩]
        else [])) ++ evs, ?_, ?_, ?_, ?_⟩
    · rw [l1, List.append_assoc]
    · intro k v hkv
      rw [tuplesOf_append, List.mem_append] at hkv
      rcases hkv with hkv | hkv
      · cases heos : n.base.end_of_string_ with
        | true =>
          rw [heos] at hkv
          simp only [if_true, tuplesOf, List.mem_singleton, Prod.mk.injEq] at hkv
          refine ⟨n.pfx S, by rw [hkv.1, hK], ?_⟩
          rw [hkv.2]
          exact Holds.here n heos
        | false =>
          rw [heos] at hkv
          simp only [Bool.false_eq_true, if_false, tuplesOf, List.not_mem_nil] at hkv
      · obtain ⟨c, s, ch, r, hm, hch, hk, hh⟩ := l2 k v hkv
        refine ⟨n.pfx S ++ c :: r, by rw [hk, ← hK, List.append_assoc], ?_⟩
        exact Holds.under n c ch r v
          ((mem_kids e n c _).2 ⟨s, (mem_tslots e n _).1 hm, hch⟩) hh
    · intro hz r v hh
      rw [tuplesOf_append, List.mem_append]
      rw [Holds_iff] at hh
      obtain ⟨r', hr, (⟨h1, h2, h3⟩ | ⟨c, ch, r'', h1, hkid, hch⟩)⟩ := hh
      · left
        rw [h2]
        simp only [if_true, tuplesOf, List.mem_singleton, Prod.mk.injEq]
        rw [hr, h1, List.append_nil, hK, h3]
        exact ⟨rfl, rfl⟩
      · right
        obtain ⟨s, hs, hcs⟩ := (mem_kids e n c _).1 hkid
        have := l3 hz c s ch r'' v ((mem_tslots e n _).2 hs (hz c (hbyte c _ hkid))) hcs hch
        rw [hr, h1, ← List.append_assoc, hK]
        exact this
    · rw [tuplesOf_append, List.pairwise_append]
      refine ⟨?_, l4, ?_⟩
      · cases n.base.end_of_string_ with
        | true => simp [tuplesOf]
        | false => simp [tuplesOf]
      · intro a ha b hb
        obtain ⟨ka, va⟩ := a
        obtain ⟨kb, vb⟩ := b
        obtain ⟨c, s, ch, r, _, _, hk, _⟩ := l2 kb vb hb
        cases heos : n.base.end_of_string_ with
        | true =>
          rw [heos] at ha
          simp only [if_true, tuplesOf, List.mem_singleton, Prod.mk.injEq] at ha
          simp only []
          rw [ha.1, hk]
          exact keyLt_ext K c r
        | false =>
          rw [heos] at ha
          simp only [Bool.false_eq_true, if_false, tuplesOf, List.not_mem_nil] at ha
/-! ## Row-id chains -/

theorem Chain_frame (I I' : List Nat) : ∀ (l : List Nat) (h : Nat),
    (∀ x, x ∈ l → I'.getD x 0 = I.getD x 0) → Chain I h l → Chain I' h l
  | [], h, _, hc => hc
  | x :: xs, h, hf, hc => by
    obtain ⟨h1, h2, h3⟩ := hc
    refine ⟨h1, h2, ?_⟩
    rw [hf x (List.mem_cons_self _ _)]
    exact Chain_frame I I' xs _ (fun y hy => hf y (List.mem_cons_of_mem _ hy)) h3

theorem Chain_set (I : List Nat) (l : List Nat) (h v old : Nat) (hv : v ∉ l)
    (hc : Chain I h l) : Chain (I.set v old) h l :=
  Chain_frame I _ l h (fun x hx => getD_set_ne I v x old 0 (fun hxv => hv (hxv ▸ hx))) hc

theorem Chain_unique (I : List Nat) : ∀ (l l' : List Nat) (h : Nat),
    Chain I h l → Chain I h l' → l = l'
  | [], [], _, _, _ => rfl
  | [], x :: xs, h, h1, h2 => absurd (h2.1 ▸ h1) h2.2.1
  | x :: xs, [], h, h1, h2 => absurd (h1.1 ▸ h2) h1.2.1
  | x :: xs, y :: ys, h, h1, h2 => by
    have hxy : x = y := h1.1.symm.trans h2.1
    subst hxy
    rw [Chain_unique I xs ys _ h1.2.2 h2.2.2]

theorem Chain_ne_last (I : List Nat) : ∀ (l : List Nat) (h : Nat), Chain I h l →
    ∀ x, x ∈ l → x ≠ LAST_INDEX_IDENTIFIER
  | [], _, _, x, hx => by simp at hx
  | y :: ys, h, hc, x, hx => by
    rcases List.mem_cons.1 hx with rfl | hx
    · exact hc.2.1
    · exact Chain_ne_last I ys _ hc.2.2 x hx

/-- A consumer that iterates a chain with enough fuel reads exactly the row ids of the
chain. -/
theorem collect_of_Chain (I : List Nat) : ∀ (l : List Nat) (h fuel : Nat), Chain I h l →
    l.length < fuel → chainFrom I fuel h = some l
  | [], h, fuel, hc, hf => by
    obtain ⟨f, rfl⟩ : ∃ f, fuel = f + 1 := ⟨fuel - 1, by omega⟩
    have : h = LAST_INDEX_IDENTIFIER := hc
    subst this
    simp [chainFrom, CIndexIterator.collect]
  | x :: xs, h, fuel, hc, hf => by
    obtain ⟨f, rfl⟩ : ∃ f, fuel = f + 1 := ⟨fuel - 1, by omega⟩
    obtain ⟨h1, h2, h3⟩ := hc
    subst h1
    have ih := collect_of_Chain I xs _ f h3 (by simpa using hf)
    unfold chainFrom at ih ⊢
    unfold CIndexIterator.collect
    have hne : (⟨h⟩ : CIndexIterator) ≠ ⟨LAST_INDEX_IDENTIFIER⟩ := by
      intro hh; injection hh with hh; exact h2 hh
    rw [if_neg hne]
    unfold CIndexIterator.next
    simp only []
    rw [ih]
    rfl

/-- Distinct row ids below the length of the row-id vector are at most as many as the
vector has cells. -/
theorem length_le_of_nodup (l : List Nat) (n : Nat) (hd : l.Nodup) (hl : ∀ x, x ∈ l → x < n) :
    l.length ≤ n := by
  have h := (List.subperm_of_subset hd (fun x hx => List.mem_range.2 (hl x hx))).length_le
  simpa using h

/-! ## The reference lists -/

theorem entriesOf_append (a b : List Op) : entriesOf (a ++ b) = entriesOf a ++ entriesOf b := by
  induction a with
  | nil => rfl
  | cons x xs ih => cases x <;> simp [entriesOf, ih]

theorem nullsOf_append (a b : List Op) : nullsOf (a ++ b) = nullsOf a ++ nullsOf b := by
  induction a with
  | nil => rfl
  | cons x xs ih => cases x <;> simp [nullsOf, ih]

theorem idsOf_append (a b : List (List Nat × Nat)) (k : List Nat) :
    idsOf (a ++ b) k = idsOf a k ++ idsOf b k := by
  simp [idsOf]

theorem idsOf_single (key k : List Nat) (v : Nat) :
    idsOf [(key, v)] k = if key = k then [v] else [] := by
  by_cases h : key = k <;> simp [idsOf, h]

theorem mem_idsOf (es : List (List Nat × Nat)) (k : List Nat) (v : Nat) :
    v ∈ idsOf es k ↔ (k, v) ∈ es := by
  simp only [idsOf, List.mem_map, List.mem_filter, decide_eq_true_eq, Prod.exists]
  constructor
  · rintro ⟨a, b, ⟨h1, h2⟩, h3⟩
    subst h2; subst h3; exact h1
  · intro h; exact ⟨k, v, ⟨h, rfl⟩, rfl⟩

theorem idsOf_ne_nil (es : List (List Nat × Nat)) (k : List Nat) :
    idsOf es k ≠ [] ↔ k ∈ keysOf es := by
  rw [← List.length_pos, List.length_pos_iff_exists_mem]
  simp only [mem_idsOf, keysOf, List.mem_map, Prod.exists, exists_and_right, exists_eq_right]

theorem mem_entriesOf (ops : List Op) (k : List Nat) (v : Nat) :
    (k, v) ∈ entriesOf ops ↔ Op.AddEntry k v ∈ ops := by
  induction ops with
  | nil => simp [entriesOf]
  | cons x xs ih => cases x <;> simp [entriesOf, ih]

theorem mem_nullsOf (ops : List Op) (v : Nat) :
    v ∈ nullsOf ops ↔ Op.AddNullString v ∈ ops := by
  induction ops with
  | nil => simp [nullsOf]
  | cons x xs ih => cases x <;> simp [nullsOf, ih]

theorem idsOf_sub (ops : List Op) (k : List Nat) (v : Nat) (h : v ∈ idsOf (entriesOf ops) k) :
    v ∈ ops.map Op.value := by
  rw [mem_idsOf, mem_entriesOf] at h
  exact List.mem_map.2 ⟨_, h, rfl⟩

theorem nullsOf_sub (ops : List Op) (v : Nat) (h : v ∈ nullsOf ops) :
    v ∈ ops.map Op.value := by
  rw [mem_nullsOf] at h
  exact List.mem_map.2 ⟨_, h, rfl⟩

theorem nullsOf_nodup (ops : List Op) (h : (ops.map Op.value).Nodup) : (nullsOf ops).Nodup := by
  induction ops with
  | nil => simp [nullsOf]
  | cons x xs ih =>
    rw [List.map_cons, List.nodup_cons] at h
    cases x with
    | AddEntry k v => exact ih h.2
    | AddNullString v =>
      simp only [nullsOf, List.nodup_cons]
      exact ⟨fun hm => h.1 (nullsOf_sub xs v hm), ih h.2⟩

theorem dedup_length_snoc (l : List (List Nat)) (a : List Nat) :
    (l ++ [a]).dedup.length = l.dedup.length + (if a ∈ l then 0 else 1) := by
  rw [← List.card_toFinset, ← List.card_toFinset, List.toFinset_append]
  by_cases h : a ∈ l
  · rw [if_pos h]
    have : l.toFinset ∪ [a].toFinset = l.toFinset := by
      ext x; simp only [Finset.mem_union, List.mem_toFinset, List.mem_singleton]
      constructor
      · rintro (hx | rfl)
        · exact hx
        · exact h
      · exact Or.inl
    rw [this]; rfl
  · rw [if_neg h]
    have : l.toFinset ∪ [a].toFinset = insert a l.toFinset := by
      ext x; simp only [Finset.mem_union, List.mem_toFinset, List.mem_singleton,
        Finset.mem_insert]
      exact or_comm
    rw [this, Finset.card_insert_of_not_mem (by simpa using h)]

theorem maxLength_snoc (es : List (List Nat × Nat)) (p : List Nat × Nat) :
    maxLength (es ++ [p]) = max (maxLength es) p.1.length := by
  induction es with
  | nil => simp [maxLength]
  | cons x xs ih =>
    simp only [maxLength, List.cons_append, List.map_cons, List.foldr_cons] at ih ⊢
    rw [ih]; omega

theorem totalLength_snoc (es : List (List Nat × Nat)) (p : List Nat × Nat) :
    totalLength (es ++ [p]) = totalLength es + p.1.length := by
  simp [totalLength]
/-! ## The invariant of a tree filled by calls -/

theorem sizeT_of_lt (e : Bool) (x : Nat) (h : x < 4294967296) : sizeT e x = x := by
  unfold sizeT
  cases e
  · exact Nat.mod_eq_of_lt h
  · exact Nat.mod_eq_of_lt (by simp only [if_true]; omega)

theorem AddEntry_eq (e : Bool) (t : CAdaptiveRadixTree) (I : List Nat) (key : List Nat)
    (v : Nat) (root : CArtNode) (h : t.root_ = Ptr.to root) :
    AddEntry e t I key v =
      ({ (AddEntryLoop e key v (key.length + 1) 0 root
            { t with total_string_length_ := sizeT e (t.total_string_length_ + key.length),
                     max_string_length_ := max t.max_string_length_ key.length } I).2.1 with
          root_ := Ptr.to (AddEntryLoop e key v (key.length + 1) 0 root
            { t with total_string_length_ := sizeT e (t.total_string_length_ + key.length),
                     max_string_length_ := max t.max_string_length_ key.length } I).1 },
       (AddEntryLoop e key v (key.length + 1) 0 root
            { t with total_string_length_ := sizeT e (t.total_string_length_ + key.length),
                     max_string_length_ := max t.max_string_length_ key.length } I).2.2) := by
  unfold AddEntry
  simp only [h]

theorem Built_init (e : Bool) (P : Nat → Prop) (I : List Nat) :
    Built e P [] CAdaptiveRadixTree.newShared I := by
  have hno : ∀ k v, ¬ Holds e [] CArtNode.new256 k v := by
    intro k v hh
    rw [Holds_iff] at hh
    obtain ⟨r, _, (⟨_, h2, _⟩ | ⟨c, ch, r', _, hk, _⟩)⟩ := hh
    · have h0 : CArtNode.new256.base.end_of_string_ = false := rfl
      rw [h0] at h2
      cases h2
    · rw [CArtNode.kids, (NodeOK_new256 e).2] at hk
      simp at hk
  refine ⟨CArtNode.new256, rfl, ?_, ?_, ?_, rfl, rfl, rfl, rfl, rfl, Nat.le_refl _⟩
  · refine TreeOK.mk _ (NodeOK_new256 e).1 ?_ (fun _ => rfl) ?_ ?_ ?_
    · exact Nat.zero_le _
    · intro x hx
      simp [CArtNode.pfx, CAdaptiveRadixTree.newShared] at hx
    · intro c p hk
      rw [CArtNode.kids, (NodeOK_new256 e).2] at hk
      simp at hk
    · intro c p hk
      rw [CArtNode.kids, (NodeOK_new256 e).2] at hk
      simp at hk
  · intro k v hh
    exact absurd hh (hno k v)
  · intro k hk
    simp [entriesOf, idsOf] at hk

/-- One `AddEntry` call keeps the invariant, writes only the cell of its row id, and keeps
the members of the null chain. -/
theorem Built_AddEntry (e : Bool) (P : Nat → Prop) (hP : ∀ c, P c → c < 256) (ops : List Op)
    (t : CAdaptiveRadixTree) (I : List Nat) (key : List Nat) (v : Nat)
    (hb : Built e P ops t I) (hkey : ∀ x, x ∈ key → P x)
    (hv : v ∉ ops.map Op.value) (hvI : v < I.length) (hI : I.length ≤ 4294967295)
    (htot : t.total_string_length_ + key.length < 4294967296) :
    Built e P (ops ++ [Op.AddEntry key v]) (AddEntry e t I key v).1 (AddEntry e t I key v).2 ∧
      (∃ old, (AddEntry e t I key v).2 = I.set v old) := by
  obtain ⟨root, hroot, htree, hH1, hH2, hnull, hnc, huc, htl, hml, hsl⟩ := hb
  rw [AddEntry_eq e t I key v root hroot]
  have hspec := AddEntryLoop_spec e P hP key v hkey (key.length + 1) 0 root
    { t with total_string_length_ := sizeT e (t.total_string_length_ + key.length),
             max_string_length_ := max t.max_string_length_ key.length } I htree
    (Nat.zero_le _) (by omega) (by simp only []; omega)
  generalize AddEntryLoop e key v (key.length + 1) 0 root
    { t with total_string_length_ := sizeT e (t.total_string_length_ + key.length),
             max_string_length_ := max t.max_string_length_ key.length } I = r at hspec
  obtain ⟨ext, old, u, hr1, hr2, hrt, hrh, hcase, ⟨j, hj, hext⟩, _⟩ := hspec
  simp only [List.drop_zero] at hrh hcase
  simp only [] at hr1 hrt hrh hcase
  have hvne : v ≠ LAST_INDEX_IDENTIFIER := by
    unfold LAST_INDEX_IDENTIFIER; omega
  have hold : Chain I old (idsOf (entriesOf ops) key).reverse ∧
      u = (if key ∈ keysOf (entriesOf ops) then 0 else 1) := by
    rcases hcase with ⟨hh, hu, _⟩ | ⟨hno, ho, hu⟩
    · obtain ⟨h1, h2⟩ := hH1 key old hh
      rw [if_pos ((idsOf_ne_nil _ _).1 h1)]
      exact ⟨h2, hu⟩
    · have hnil : idsOf (entriesOf ops) key = [] := by
        by_contra hne
        obtain ⟨v', hv'⟩ := hH2 key hne
        exact hno v' hv'
      rw [if_neg (fun hm => (idsOf_ne_nil _ _).2 hm hnil), hnil, ho]
      exact ⟨rfl, hu⟩
  refine ⟨⟨r.1, rfl, ?_, ?_, ?_, ?_, ?_, ?_, ?_, ?_, ?_⟩, old, hr2⟩
  · simp only [hr1]; exact hrt
  · intro k v' hh
    simp only [hr1] at hh
    rw [hrh] at hh
    rw [entriesOf_append, idsOf_append]
    simp only [entriesOf, idsOf_single]
    rcases hh with ⟨hk, hv'⟩ | ⟨hk, hh⟩
    · subst hk; subst hv'
      rw [if_pos rfl]
      refine ⟨by simp, ?_⟩
      rw [List.reverse_append, List.reverse_singleton, List.singleton_append, hr2]
      refine ⟨rfl, hvne, ?_⟩
      rw [getD_set_ptr I v' v' old 0 hvI, if_pos rfl]
      exact Chain_set I _ old v' old
        (fun hm => hv (idsOf_sub ops k v' (List.mem_reverse.1 hm))) hold.1
    · obtain ⟨h1, h2⟩ := hH1 k v' hh
      rw [if_neg (fun h => hk h.symm), List.append_nil]
      refine ⟨h1, ?_⟩
      rw [hr2]
      exact Chain_set I _ v' v old
        (fun hm => hv (idsOf_sub ops k v (List.mem_reverse.1 hm))) h2
  · intro k hk
    simp only [hr1]
    by_cases hkk : k = key
    · exact ⟨v, (hrh k v).2 (Or.inl ⟨hkk, rfl⟩)⟩
    · rw [entriesOf_append, idsOf_append] at hk
      simp only [entriesOf, idsOf_single] at hk
      rw [if_neg (fun h => hkk h.symm), List.append_nil] at hk
      obtain ⟨v', hv'⟩ := hH2 k hk
      exact ⟨v', (hrh k v').2 (Or.inr ⟨hkk, hv'⟩)⟩
  · simp only [hr1]
    rw [nullsOf_append]
    simp only [nullsOf, List.append_nil]
    rw [hr2]
    exact Chain_set I _ _ v old
      (fun hm => hv (nullsOf_sub ops v (List.mem_reverse.1 hm))) hnull
  · simp only [hr1]
    rw [nullsOf_append]
    simp only [nullsOf, List.append_nil]
    exact hnc
  · simp only [hr1]
    rw [entriesOf_append]
    simp only [entriesOf, keysOf, List.map_append, List.map_cons, List.map_nil]
    rw [dedup_length_snoc, huc, hold.2]
    rfl
  · simp only [hr1]
    rw [entriesOf_append]
    simp only [entriesOf]
    rw [totalLength_snoc, htl, sizeT_of_lt e _ (by omega)]
  · simp only [hr1]
    rw [entriesOf_append]
    simp only [entriesOf]
    rw [maxLength_snoc, hml]
  · simp only [hr1]
    rw [List.length_append, hext, List.length_drop, sizeT_of_lt e _ htot]
    omega

/-- One `AddNullString` call keeps the invariant and writes only the cell of its row id. -/
theorem Built_AddNullString (e : Bool) (P : Nat → Prop) (ops : List Op)
    (t : CAdaptiveRadixTree) (I : List Nat) (v : Nat)
    (hb : Built e P ops t I) (hd : (ops.map Op.value).Nodup)
    (hlt : ∀ x, x ∈ ops.map Op.value → x < I.length)
    (hv : v ∉ ops.map Op.value) (hvI : v < I.length) (hI : I.length ≤ 4294967295) :
    Built e P (ops ++ [Op.AddNullString v]) (AddNullString t I v).1 (AddNullString t I v).2 := by
  obtain ⟨root, hroot, htree, hH1, hH2, hnull, hnc, huc, htl, hml, hsl⟩ := hb
  have hvne : v ≠ LAST_INDEX_IDENTIFIER := by
    unfold LAST_INDEX_IDENTIFIER; omega
  have hcount : (nullsOf ops).length < I.length := by
    have h1 : (v :: nullsOf ops).Nodup :=
      List.nodup_cons.2 ⟨fun hm => hv (nullsOf_sub ops v hm), nullsOf_nodup ops hd⟩
    have h2 := length_le_of_nodup (v :: nullsOf ops) I.length h1 (by
      intro x hx
      rcases List.mem_cons.1 hx with rfl | hx
      · exact hvI
      · exact hlt x (nullsOf_sub ops x hx))
    simpa using h2
  unfold AddNullString
  refine ⟨root, hroot, htree, ?_, ?_, ?_, ?_, ?_, ?_, ?_, hsl⟩
  · intro k v' hh
    obtain ⟨h1, h2⟩ := hH1 k v' hh
    rw [entriesOf_append]
    simp only [entriesOf, List.append_nil]
    exact ⟨h1, Chain_set I _ v' v _
      (fun hm => hv (idsOf_sub ops k v (List.mem_reverse.1 hm))) h2⟩
  · intro k hk
    rw [entriesOf_append] at hk
    simp only [entriesOf, List.append_nil] at hk
    exact hH2 k hk
  · simp only []
    rw [nullsOf_append]
    simp only [nullsOf]
    rw [List.reverse_append, List.reverse_singleton, List.singleton_append]
    refine ⟨rfl, hvne, ?_⟩
    rw [getD_set_ptr I v v _ 0 hvI, if_pos rfl]
    exact Chain_set I _ _ v _
      (fun hm => hv (nullsOf_sub ops v (List.mem_reverse.1 hm))) hnull
  · simp only []
    rw [nullsOf_append, hnc]
    simp only [nullsOf, List.length_append, List.length_singleton]
    exact u32_of_lt _ (by omega)
  · simp only []
    rw [entriesOf_append]
    simp only [entriesOf, List.append_nil]
    exact huc
  · simp only []
    rw [entriesOf_append]
    simp only [entriesOf, List.append_nil]
    exact htl
  · simp only []
    rw [entriesOf_append]
    simp only [entriesOf, List.append_nil]
    exact hml
theorem run_append (e : Bool) (st : CAdaptiveRadixTree × List Nat) (a b : List Op) :
    run e st (a ++ b) = run e (run e st a) b := by
  simp [run, List.foldl_append]

/-- A sequence of calls with distinct row ids below the length of the row-id vector, on a
fresh tree that shares the vector `I0`, establishes the invariant, keeps the length of the
vector and writes only the cells of its row ids. -/
theorem run_spec (e : Bool) (P : Nat → Prop) (hP : ∀ c, P c → c < 256) (I0 : List Nat)
    (hI : I0.length ≤ 4294967295) (ops : List Op) :
    (ops.map Op.value).Nodup → (∀ x, x ∈ ops.map Op.value → x < I0.length) →
    (∀ k v, Op.AddEntry k v ∈ ops → ∀ c, c ∈ k → P c) →
    totalLength (entriesOf ops) < 4294967296 →
    Built e P ops (run e (CAdaptiveRadixTree.newShared, I0) ops).1
        (run e (CAdaptiveRadixTree.newShared, I0) ops).2 ∧
      (run e (CAdaptiveRadixTree.newShared, I0) ops).2.length = I0.length ∧
      ∀ x, x ∉ ops.map Op.value →
        (run e (CAdaptiveRadixTree.newShared, I0) ops).2.getD x 0 = I0.getD x 0 := by
  induction ops using List.reverseRecOn with
  | nil =>
    intro _ _ _ _
    exact ⟨Built_init e P I0, rfl, fun _ _ => rfl⟩
  | append_singleton ops op ih =>
    intro hd hlt hbytes htot
    rw [List.map_append, List.nodup_append] at hd
    obtain ⟨hd1, _, hdisj⟩ := hd
    have hv : op.value ∉ ops.map Op.value := fun hm =>
      hdisj hm (by simp)
    have hvI : op.value < I0.length := hlt _ (by simp)
    rw [entriesOf_append, totalLength, List.map_append, List.sum_append] at htot
    obtain ⟨ihb, ihl, ihf⟩ := ih hd1
      (fun x hx => hlt x (by rw [List.map_append]; exact List.mem_append_left _ hx))
      (fun k v hm => hbytes k v (List.mem_append_left _ hm))
      (by unfold totalLength; omega)
    rw [run_append]
    generalize run e (CAdaptiveRadixTree.newShared, I0) ops = st at ihb ihl ihf
    obtain ⟨t, I⟩ := st
    simp only [] at ihb ihl ihf
    cases op with
    | AddEntry key v =>
      have htl : t.total_string_length_ = totalLength (entriesOf ops) := by
        obtain ⟨_, _, _, _, _, _, _, _, h, _⟩ := ihb
        exact h
      obtain ⟨hb', old, hold⟩ := Built_AddEntry e P hP ops t I key v ihb
        (hbytes key v (by simp)) hv (by rw [ihl]; exact hvI) (by rw [ihl]; exact hI)
        (by
          rw [htl]
          simp only [entriesOf, List.map_cons, List.map_nil, List.sum_cons, List.sum_nil] at htot
          unfold totalLength; omega)
      refine ⟨hb', ?_, ?_⟩
      · show (AddEntry e t I key v).2.length = _
        rw [hold, List.length_set, ihl]
      · intro x hx
        show (AddEntry e t I key v).2.getD x 0 = _
        rw [hold, getD_set_ne I v x old 0 (fun h => hx (by rw [h]; simp [Op.value])), ihf x
          (fun hm => hx (by rw [List.map_append]; exact List.mem_append_left _ hm))]
    | AddNullString v =>
      refine ⟨Built_AddNullString e P ops t I v ihb hd1
        (fun x hx => by
          rw [ihl]
          exact hlt x (by rw [List.map_append]; exact List.mem_append_left _ hx))
        hv (by rw [ihl]; exact hvI) (by rw [ihl]; exact hI), ?_, ?_⟩
      · show (AddNullString t I v).2.length = _
        unfold AddNullString
        rw [List.length_set, ihl]
      · intro x hx
        show (AddNullString t I v).2.getD x 0 = _
        unfold AddNullString
        simp only []
        rw [getD_set_ne I v x _ 0 (fun h => hx (by rw [h]; simp [Op.value])), ihf x
          (fun hm => hx (by rw [List.map_append]; exact List.mem_append_left _ hm))]

/-- The invariant reads the row-id vector only at the row ids of the calls. -/
theorem Built_frame (e : Bool) (P : Nat → Prop) (ops : List Op) (t : CAdaptiveRadixTree)
    (I I' : List Nat) (hb : Built e P ops t I)
    (hf : ∀ x, x ∈ ops.map Op.value → I'.getD x 0 = I.getD x 0) : Built e P ops t I' := by
  obtain ⟨root, hroot, htree, hH1, hH2, hnull, rest⟩ := hb
  refine ⟨root, hroot, htree, ?_, hH2, ?_, rest⟩
  · intro k v hh
    obtain ⟨h1, h2⟩ := hH1 k v hh
    exact ⟨h1, Chain_frame I I' _ v
      (fun x hx => hf x (idsOf_sub ops k x (List.mem_reverse.1 hx))) h2⟩
  · exact Chain_frame I I' _ _
      (fun x hx => hf x (nullsOf_sub ops x (List.mem_reverse.1 hx))) hnull

/-- `AddEntries` is `run` on `AddEntry` calls. -/
theorem AddEntries_eq_run (e : Bool) (st : CAdaptiveRadixTree × List Nat)
    (es : List (List Nat × Nat)) :
    AddEntries e st es = run e st (es.map (fun p => Op.AddEntry p.1 p.2)) := by
  unfold AddEntries run
  rw [List.foldl_map]
  rfl

theorem entriesOf_map (es : List (List Nat × Nat)) :
    entriesOf (es.map (fun p => Op.AddEntry p.1 p.2)) = es := by
  induction es with
  | nil => rfl
  | cons x xs ih => simp [entriesOf, ih]

theorem nullsOf_map (es : List (List Nat × Nat)) :
    nullsOf (es.map (fun p => Op.AddEntry p.1 p.2)) = [] := by
  induction es with
  | nil => rfl
  | cons x xs ih => simp [nullsOf, ih]

theorem value_map (es : List (List Nat × Nat)) :
    (es.map (fun p => Op.AddEntry p.1 p.2)).map Op.value = es.map Prod.snd := by
  rw [List.map_map]
  rfl

/-- The invariant for a tree filled by `AddEntry` calls only. -/
theorem AddEntries_spec (e : Bool) (P : Nat → Prop) (hP : ∀ c, P c → c < 256) (I0 : List Nat)
    (hI : I0.length ≤ 4294967295) (es : List (List Nat × Nat))
    (hd : (es.map Prod.snd).Nodup) (hlt : ∀ p, p ∈ es → p.2 < I0.length)
    (hbytes : ∀ p, p ∈ es → ∀ c, c ∈ p.1 → P c) (htot : totalLength es < 4294967296) :
    Built e P (es.map (fun p => Op.AddEntry p.1 p.2))
        (AddEntries e (CAdaptiveRadixTree.newShared, I0) es).1
        (AddEntries e (CAdaptiveRadixTree.newShared, I0) es).2 ∧
      (AddEntries e (CAdaptiveRadixTree.newShared, I0) es).2.length = I0.length := by
  rw [AddEntries_eq_run]
  have h := run_spec e P hP I0 hI (es.map (fun p => Op.AddEntry p.1 p.2))
    (by rw [value_map]; exact hd)
    (by
      rw [value_map]
      intro x hx
      obtain ⟨p, hp, rfl⟩ := List.mem_map.1 hx
      exact hlt p hp)
    (by
      intro k v hm c hc
      obtain ⟨p, hp, hpe⟩ := List.mem_map.1 hm
      injection hpe with h1 h2
      subst h1
      exact hbytes p hp c hc)
    (by rw [entriesOf_map]; exact htot)
  exact ⟨h.1, h.2.1⟩
theorem InsertValue_stats (t : CAdaptiveRadixTree) (I : List Nat) (n : CArtNode) (v : Nat) :
    (InsertValue t I n v).2.1.total_string_length_ = t.total_string_length_ ∧
    (InsertValue t I n v).2.1.max_string_length_ = t.max_string_length_ := by
  unfold InsertValue
  dsimp only
  split_ifs <;> exact ⟨rfl, rfl⟩

/-- The loop of `AddEntry` leaves `total_string_length_` and `max_string_length_` as they
are. -/
theorem AddEntryLoop_stats (e : Bool) (key : List Nat) (v : Nat) :
    ∀ (fuel depth : Nat) (n : CArtNode) (t : CAdaptiveRadixTree) (I : List Nat),
      (AddEntryLoop e key v fuel depth n t I).2.1.total_string_length_ = t.total_string_length_ ∧
      (AddEntryLoop e key v fuel depth n t I).2.1.max_string_length_ = t.max_string_length_ := by
  intro fuel
  induction fuel with
  | zero => intro depth n t I; exact ⟨rfl, rfl⟩
  | succ f ih =>
    intro depth n t I
    have ihT := fun d n t I => (ih d n t I).1
    have ihM := fun d n t I => (ih d n t I).2
    have ivT := fun t I n => (InsertValue_stats t I n v).1
    have ivM := fun t I n => (InsertValue_stats t I n v).2
    rw [AddEntryLoop]
    dsimp only
    split_ifs
    all_goals repeat' split
    all_goals simp only [ihT, ihM, ivT, ivM, and_self]

/-- The descent of `findTerminal` finds the head row id of every key that the subtree
stores. -/
theorem findTerminal_of_Holds (e : Bool) (P : Nat → Prop) (hP : ∀ c, P c → c < 256)
    (S : List Nat) (n : CArtNode) (h : TreeOK e P S n) :
    ∀ (k : List Nat) (v fuel : Nat), Holds e S n k v → k.length < fuel →
      findTerminal e S fuel n k = some v := by
  induction h with
  | mk n hnode hbound hval hpfx hbyte hkids ih =>
    intro k v fuel hh hf
    obtain ⟨f, rfl⟩ : ∃ f, fuel = f + 1 := ⟨fuel - 1, by omega⟩
    have hlen : (n.pfx S).length = n.base.prefix_length_ := pfx_length S n hbound
    rw [Holds_iff] at hh
    obtain ⟨r, hk, hcase⟩ := hh
    have htake : k.take n.base.prefix_length_ = n.pfx S := by
      rw [hk, ← hlen, List.take_left']
      rfl
    have hdrop : k.drop n.base.prefix_length_ = r := by
      rw [hk, ← hlen, List.drop_left']
      rfl
    unfold findTerminal
    rw [if_pos htake, hdrop]
    rcases hcase with ⟨hr, heos, hv⟩ | ⟨c, ch, r', hr, hkid, hch⟩
    · subst hr
      simp only [heos, if_true, hv]
    · subst hr
      simp only []
      obtain ⟨s, hs, hcs⟩ := (mem_kids e n c _).1 hkid
      have hc : c < 256 := hP c (hbyte c _ hkid)
      cases hfind : FindChild e n c with
      | none => exact absurd hs (FindChild_none e n c hnode hfind s)
      | some s' =>
        have := slots_fun e n hnode c s s' hs (FindChild_some e n c s' hnode hfind hc)
        subst this
        simp only [hcs]
        refine ih c ch hkid r' v f hch ?_
        rw [hk, List.length_append, List.length_cons] at hf
        omega

/-- What `Traverse` reports for a well-formed tree: only keys the tree stores, with the head
row id of their terminal node, in strictly ascending order; and every stored key when no
key byte is `0`. -/
theorem Traverse_tuples (e : Bool) (P : Nat → Prop) (t : CAdaptiveRadixTree) (root : CArtNode)
    (hroot : t.root_ = Ptr.to root) (h : TreeOK e P t.suffix_table_ root) :
    (∀ k v, (k, v) ∈ tuplesOf (Traverse e t) → Holds e t.suffix_table_ root k v) ∧
    ((∀ c, P c → c ≠ 0) → ∀ k v, Holds e t.suffix_table_ root k v →
      (k, v) ∈ tuplesOf (Traverse e t)) ∧
    (tuplesOf (Traverse e t)).Pairwise (fun p q => keyLt p.1 q.1) := by
  obtain ⟨evs, h1, h2, h3, h4⟩ := Traverse_spec e P t.suffix_table_ root h [] []
  have hT : Traverse e t = evs := by
    unfold Traverse
    simp only [hroot]
    have := congrArg Prod.fst h1
    simpa using this
  rw [hT]
  refine ⟨?_, ?_, h4⟩
  · intro k v hkv
    obtain ⟨r, hr, hh⟩ := h2 k v hkv
    rw [hr]; exact hh
  · intro hz k v hh
    exact h3 hz k v hh

theorem keyLt_irrefl : ∀ (k : List Nat), ¬ keyLt k k
  | [] => fun h => h
  | a :: as => fun h => by
    rcases h with h | ⟨_, h⟩
    · exact Nat.lt_irrefl _ h
    · exact keyLt_irrefl as h

theorem AddEntry_stats (e : Bool) (t : CAdaptiveRadixTree) (I : List Nat) (key : List Nat)
    (v : Nat) :
    (AddEntry e t I key v).1.total_string_length_ =
      sizeT e (t.total_string_length_ + key.length) ∧
    (AddEntry e t I key v).1.max_string_length_ = max t.max_string_length_ key.length := by
  unfold AddEntry
  dsimp only
  split
  · have h := AddEntryLoop_stats e key v (key.length + 1) 0 ‹CArtNode›
      { t with total_string_length_ := sizeT e (t.total_string_length_ + key.length),
               max_string_length_ := max t.max_string_length_ key.length } I
    exact h
  · exact ⟨rfl, rfl⟩

theorem AddEntries_stats (e : Bool) (st : CAdaptiveRadixTree × List Nat)
    (es : List (List Nat × Nat))
    (htot : st.1.total_string_length_ + totalLength es < 4294967296) :
    (AddEntries e st es).1.total_string_length_ = st.1.total_string_length_ + totalLength es ∧
    (AddEntries e st es).1.max_string_length_ = max st.1.max_string_length_ (maxLength es) := by
  induction es using List.reverseRecOn with
  | nil => simp [AddEntries, totalLength, maxLength]
  | append_singleton es p ih =>
    have hs : AddEntries e st (es ++ [p]) =
        AddEntry e (AddEntries e st es).1 (AddEntries e st es).2 p.1 p.2 := by
      simp [AddEntries, List.foldl_append]
    rw [totalLength_snoc] at htot
    have ih := ih (by omega)
    rw [hs, (AddEntry_stats e _ _ _ _).1, (AddEntry_stats e _ _ _ _).2, ih.1, ih.2,
      totalLength_snoc, maxLength_snoc, sizeT_of_lt e _ (by omega)]
    exact ⟨by omega, by omega⟩

theorem length_new (n : Nat) : (CAdaptiveRadixTree.new n).2.length ≤ 4294967295 := by
  unfold CAdaptiveRadixTree.new u32
  rw [List.length_replicate]
  omega

/-- The invariant for calls on a freshly constructed tree. -/
theorem fresh_spec (e : Bool) (n : Nat) (ops : List Op) (hd : (ops.map Op.value).Nodup)
    (hlt : ∀ x, x ∈ ops.map Op.value → x < GetIndexVectorLength (CAdaptiveRadixTree.new n).2)
    (hbytes : ∀ k v, Op.AddEntry k v ∈ ops → ∀ c, c ∈ k → c < 256)
    (htot : totalLength (entriesOf ops) < 4294967296) :
    Built e (fun c => c < 256) ops (run e (CAdaptiveRadixTree.new n) ops).1
        (run e (CAdaptiveRadixTree.new n) ops).2 ∧
      (run e (CAdaptiveRadixTree.new n) ops).2.length = (CAdaptiveRadixTree.new n).2.length := by
  have h := run_spec e (fun c => c < 256) (fun c hc => hc) (CAdaptiveRadixTree.new n).2
    (length_new n) ops hd hlt hbytes htot
  exact ⟨h.1, h.2.1⟩

theorem idsOf_nodup (es : List (List Nat × Nat)) (k : List Nat) (hd : (es.map Prod.snd).Nodup) :
    (idsOf es k).Nodup :=
  hd.sublist ((List.filter_sublist _).map _)

theorem idsOf_sublist (ops : List Op) (k : List Nat) :
    (idsOf (entriesOf ops) k).Sublist (ops.map Op.value) := by
  induction ops with
  | nil => simp [entriesOf, idsOf]
  | cons op ops ih =>
    cases op with
    | AddEntry key v' =>
      unfold idsOf at ih ⊢
      simp only [entriesOf, List.map_cons, Op.value, List.filter_cons]
      by_cases hkk : key = k
      · simp only [hkk, decide_True, if_true, List.map_cons]
        exact List.Sublist.cons₂ _ ih
      · simp only [hkk, decide_False, Bool.false_eq_true, if_false]
        exact List.Sublist.cons _ ih
    | AddNullString v' =>
      simp only [entriesOf, List.map_cons, Op.value]
      exact List.Sublist.cons _ ih

/-- After calls on a freshly constructed tree, the descent for an inserted key finds its
terminal node, and the chain from the head found there lists the row ids of the key, most
recent first. -/
theorem fresh_chain (e : Bool) (n : Nat) (ops : List Op) (hd : (ops.map Op.value).Nodup)
    (hlt : ∀ x, x ∈ ops.map Op.value → x < GetIndexVectorLength (CAdaptiveRadixTree.new n).2)
    (hbytes : ∀ k v, Op.AddEntry k v ∈ ops → ∀ c, c ∈ k → c < 256)
    (htot : totalLength (entriesOf ops) < 4294967296)
    (k : List Nat) (hk : k ∈ keysOf (entriesOf ops)) :
    ∃ head, terminalOf e (run e (CAdaptiveRadixTree.new n) ops).1 k = some head ∧
      chainFrom (run e (CAdaptiveRadixTree.new n) ops).2
        (GetIndexVectorLength (run e (CAdaptiveRadixTree.new n) ops).2 + 1) head =
        some (idsOf (entriesOf ops) k).reverse := by
  obtain ⟨⟨root, hroot, htree, hH1, hH2, _⟩, hlen⟩ := fresh_spec e n ops hd hlt hbytes htot
  obtain ⟨v, hv⟩ := hH2 k ((idsOf_ne_nil _ _).2 hk)
  refine ⟨v, ?_, ?_⟩
  · unfold terminalOf
    simp only [hroot]
    exact findTerminal_of_Holds e _ (fun c hc => hc) _ root htree k v _ hv (Nat.lt_succ_self _)
  · refine collect_of_Chain _ _ _ _ (hH1 k v hv).2 ?_
    rw [List.length_reverse, GetIndexVectorLength, hlen]
    refine Nat.lt_succ_of_le (length_le_of_nodup _ _ ?_ ?_)
    · exact hd.sublist (idsOf_sublist ops k)
    · intro x hx
      exact hlt x (idsOf_sub ops k x hx)
/-! ## The visitor and the reference map of the test -/

theorem foldl_inv {α β : Type} (Q : α → Prop) (f : α → β → α) :
    ∀ (l : List β) (a : α), Q a → (∀ b, b ∈ l → ∀ a, Q a → Q (f a b)) → Q (l.foldl f a)
  | [], a, h, _ => h
  | b :: l, a, h, hs =>
    foldl_inv Q f l (f a b) (hs b (List.mem_cons_self _ _) a h)
      (fun b' hb' => hs b' (List.mem_cons_of_mem _ hb'))

/-- Every `HandleTuple` call of a traversal carries the end iterator of
`LAST_INDEX_IDENTIFIER`. -/
theorem Traverse_ends (e : Bool) (P : Nat → Prop) (S : List Nat) (n : CArtNode)
    (h : TreeOK e P S n) :
    ∀ (level : Nat) (st : TraverseState), EndsOK st.1 →
      EndsOK (TraverseRecursive e S n level st).1 := by
  induction h with
  | mk n hnode hbound hval hpfx hbyte hkids ih =>
    intro level st hst
    rw [TraverseRecursive_eq e S n _ _ hnode]
    refine foldl_inv (fun (s : TraverseState) => EndsOK s.1) _ _ _ ?_ ?_
    · unfold travHead
      dsimp only
      intro k b e' hm
      split at hm
      · rw [List.append_assoc, List.mem_append] at hm
        rcases hm with hm | hm
        · exact hst k b e' hm
        · simp only [List.singleton_append, List.mem_cons, List.mem_singleton, Call.HandleTuple.injEq,
            List.not_mem_nil, or_false, false_or] at hm
          rcases hm with hm | hm
          · cases hm
          · exact hm.2.2
      · rw [List.mem_append] at hm
        rcases hm with hm | hm
        · exact hst k b e' hm
        · simp at hm
    · intro p hp s hs
      obtain ⟨c, sl⟩ := p
      have hps := (mem_tslots e n (c, sl)).1 hp
      obtain ⟨_, ch, hch⟩ := slots_node e n hnode c sl hps
      have hkid : (c, Ptr.to ch) ∈ n.kids e := (mem_kids e n c _).2 ⟨sl, hps, hch⟩
      unfold travStep
      dsimp only
      rw [TraverseChildren_getD e S n.child_ sl ch hch]
      exact ih c ch hkid _ _ hs

/-- The counters of the visitor after a list of calls whose chains are known. -/
theorem visit_spec (I : List Nat) (fuel : Nat) (F : List Nat → List Nat) :
    ∀ (calls : List Call) (tr : CTraverser), EndsOK calls →
      (∀ k h, (k, h) ∈ tuplesOf calls → chainFrom I fuel h = some (F k)) →
      CTraverser.visit I fuel calls tr = some
        { total_char_count := tr.total_char_count +
            ((tuplesOf calls).map (fun p => p.1.length * (F p.1).length)).sum,
          unique_string_count := tr.unique_string_count + (tuplesOf calls).length,
          index_count := tr.index_count + ((tuplesOf calls).map (fun p => (F p.1).length)).sum }
  | [], tr, _, _ => by simp [CTraverser.visit, tuplesOf]
  | Call.HandleNode n p l :: cs, tr, he, hc => by
    have ih := visit_spec I fuel F cs tr (fun k b e' hm => he k b e' (List.mem_cons_of_mem _ hm))
      (fun k h hm => hc k h (by simpa [tuplesOf] using hm))
    simpa [CTraverser.visit, tuplesOf] using ih
  | Call.HandleTuple k b e' :: cs, tr, he, hc => by
    have hend : e' = ⟨LAST_INDEX_IDENTIFIER⟩ := he k b e' (List.mem_cons_self _ _)
    have hch : chainFrom I fuel b.index_ = some (F k) := hc k b.index_ (by simp [tuplesOf])
    subst hend
    unfold chainFrom at hch
    unfold CTraverser.visit CTraverser.HandleTuple
    rw [hch]
    simp only [Option.map_some', Option.some_bind]
    rw [visit_spec I fuel F cs _ (fun k b e' hm => he k b e' (List.mem_cons_of_mem _ hm))
      (fun k h hm => hc k h (by simp [tuplesOf, hm]))]
    simp only [tuplesOf, List.map_cons, List.sum_cons, List.length_cons]
    congr 2 <;> omega

theorem mapPush_sums (m : List (List Nat × List Nat)) (str : List Nat) (i : Nat) :
    ((mapPush m str i).map (fun p => p.2.length)).sum = (m.map (fun p => p.2.length)).sum + 1 ∧
    ((mapPush m str i).map (fun p => p.1.length * p.2.length)).sum =
      (m.map (fun p => p.1.length * p.2.length)).sum + str.length := by
  induction m with
  | nil => simp [mapPush]
  | cons x m ih =>
    obtain ⟨k, vs⟩ := x
    unfold mapPush
    by_cases h : k = str
    · subst h
      simp only [if_true, List.map_cons, List.sum_cons, List.length_append, List.length_singleton,
        Nat.mul_add, Nat.mul_one]
      omega
    · simp only [h, if_false, List.map_cons, List.sum_cons, ih.1, ih.2]
      omega

theorem mapPush_keys (m : List (List Nat × List Nat)) (str : List Nat) (i : Nat) :
    (mapPush m str i).map Prod.fst =
      if str ∈ m.map Prod.fst then m.map Prod.fst else m.map Prod.fst ++ [str] := by
  induction m with
  | nil => simp [mapPush]
  | cons x m ih =>
    obtain ⟨k, vs⟩ := x
    unfold mapPush
    by_cases h : k = str
    · subst h
      simp
    · have h' : ¬ str = k := fun hh => h hh.symm
      simp only [h, if_false, List.map_cons, ih, List.mem_cons, h', false_or]
      split <;> simp

theorem mapPush_mem (m : List (List Nat × List Nat)) (str : List Nat) (i : Nat)
    (k : List Nat) (vs : List Nat) (hd : (m.map Prod.fst).Nodup) :
    (k, vs) ∈ mapPush m str i ↔
      (k ≠ str ∧ (k, vs) ∈ m) ∨
      (k = str ∧ ((∃ vs0, (str, vs0) ∈ m ∧ vs = vs0 ++ [i]) ∨
        (str ∉ m.map Prod.fst ∧ vs = [i]))) := by
  induction m with
  | nil =>
    simp only [mapPush, List.mem_singleton, Prod.mk.injEq, List.not_mem_nil, and_false, false_or,
      List.map_nil, not_false_eq_true, true_and, false_and, exists_false]
  | cons x m ih =>
    obtain ⟨k', vs'⟩ := x
    rw [List.map_cons, List.nodup_cons] at hd
    have ih := ih hd.2
    unfold mapPush
    by_cases h : k' = str
    · subst h
      simp only [if_true, List.mem_cons, Prod.mk.injEq, List.map_cons, true_or, not_true_eq_false,
        false_and, or_false]
      constructor
      · rintro (⟨h1, h2⟩ | h1)
        · exact Or.inr ⟨h1, vs', Or.inl ⟨trivial, rfl⟩, h2⟩
        · have hne : k ≠ k' := fun hh => hd.1 (List.mem_map.2 ⟨(k, vs), h1, hh⟩)
          exact Or.inl ⟨hne, Or.inr h1⟩
      · rintro (⟨h1, (⟨h2, _⟩ | h2)⟩ | ⟨h1, vs0, (⟨_, h2⟩ | h2), h3⟩)
        · exact absurd h2 h1
        · exact Or.inr h2
        · subst h2; exact Or.inl ⟨h1, h3⟩
        · exact absurd (List.mem_map.2 ⟨(k', vs0), h2, rfl⟩) hd.1
    · have h' : ¬ str = k' := fun hh => h hh.symm
      simp only [h, if_false, List.mem_cons, Prod.mk.injEq, ih, List.map_cons, h', false_or,
        false_and]
      constructor
      · rintro (⟨h1, h2⟩ | ⟨h1, h2⟩ | ⟨h1, h2⟩)
        · exact Or.inl ⟨fun hh => h (h1 ▸ hh), Or.inl ⟨h1, h2⟩⟩
        · exact Or.inl ⟨h1, Or.inr h2⟩
        · exact Or.inr ⟨h1, h2⟩
      · rintro (⟨h1, (h2 | h2)⟩ | h1)
        · exact Or.inl h2
        · exact Or.inr (Or.inl ⟨h1, h2⟩)
        · exact Or.inr (Or.inr h1)

/-- The reference map after the entries `es`: its keys are distinct, and it maps every
inserted key to the row ids inserted with it, in insertion order. -/
theorem mapPush_fold (es : List (List Nat × Nat)) :
    ((es.foldl (fun m p => mapPush m p.1 p.2) []).map Prod.fst).Nodup ∧
    (∀ k vs, (k, vs) ∈ es.foldl (fun m p => mapPush m p.1 p.2) [] ↔
      vs = idsOf es k ∧ vs ≠ []) ∧
    ((es.foldl (fun m p => mapPush m p.1 p.2) []).map (fun p => p.2.length)).sum = es.length ∧
    ((es.foldl (fun m p => mapPush m p.1 p.2) []).map (fun p => p.1.length * p.2.length)).sum =
      totalLength es := by
  induction es using List.reverseRecOn with
  | nil => simp [idsOf, totalLength]
  | append_singleton es p ih =>
    obtain ⟨str, i⟩ := p
    rw [List.foldl_append]
    simp only [List.foldl_cons, List.foldl_nil]
    generalize es.foldl (fun m p => mapPush m p.1 p.2) [] = m at ih
    obtain ⟨hd, hm, hs1, hs2⟩ := ih
    have hkeys : ∀ k, k ∈ m.map Prod.fst ↔ idsOf es k ≠ [] := by
      intro k
      constructor
      · intro hk
        obtain ⟨p, hp, rfl⟩ := List.mem_map.1 hk
        have := (hm p.1 p.2).1 hp
        exact this.1 ▸ this.2
      · intro hk
        exact List.mem_map.2 ⟨(k, idsOf es k), (hm k _).2 ⟨rfl, hk⟩, rfl⟩
    refine ⟨?_, ?_, ?_, ?_⟩
    · rw [mapPush_keys]
      split
      · exact hd
      · rename_i hn
        rw [List.nodup_append]
        refine ⟨hd, List.nodup_singleton _, ?_⟩
        intro a ha hb
        rw [List.mem_singleton] at hb
        exact hn (hb ▸ ha)
    · intro k vs
      rw [mapPush_mem m str i k vs hd, idsOf_append, idsOf_single]
      by_cases hk : k = str
      · subst hk
        rw [if_pos rfl]
        constructor
        · rintro (⟨h1, _⟩ | ⟨_, (⟨vs0, h1, h2⟩ | ⟨h1, h2⟩)⟩)
          · exact absurd rfl h1
          · rw [h2, ((hm k vs0).1 h1).1]
            exact ⟨rfl, by simp⟩
          · have : idsOf es k = [] := by
              by_contra hne
              exact h1 ((hkeys k).2 hne)
            rw [h2, this]
            exact ⟨rfl, by simp⟩
        · rintro ⟨h1, _⟩
          refine Or.inr ⟨rfl, ?_⟩
          by_cases hne : idsOf es k = []
          · refine Or.inr ⟨fun hmem => (hkeys k).1 hmem hne, ?_⟩
            rw [h1, hne]; rfl
          · exact Or.inl ⟨idsOf es k, (hm k _).2 ⟨rfl, hne⟩, h1⟩
      · rw [if_neg (fun h => hk h.symm), List.append_nil, hm k vs]
        constructor
        · rintro (⟨_, h⟩ | ⟨h, _⟩)
          · exact h
          · exact absurd h hk
        · intro h; exact Or.inl ⟨hk, h⟩
    · rw [(mapPush_sums m str i).1, hs1, List.length_append, List.length_singleton]
    · rw [(mapPush_sums m str i).2, hs2, totalLength_snoc]

theorem alphabet_bytes : ∀ c, c ∈ alphabet_ → c < 256 ∧ c ≠ 0 := by
  decide
/-! ## `MovePrefix`, `Merge` and `Join` -/

/-- Induction over the nodes of a tree: a property holds for every node if it holds for a
node whenever it holds for all nodes in its child slots. -/
theorem CArtNode.induct (Q : CArtNode → Prop)
    (h : ∀ n : CArtNode, (∀ s ch, n.child_.getD s Ptr.nullptr = Ptr.to ch → Q ch) → Q n) :
    ∀ n, Q n := by
  have key : ∀ (k : Nat) (n : CArtNode), sizeOf n < k → Q n := by
    intro k
    induction k with
    | zero => intro n hn; omega
    | succ k ih =>
      intro n hn
      apply h
      intro s ch hch
      apply ih
      have hmem : Ptr.to ch ∈ n.child_ := by
        rw [List.getD_eq_getElem?_getD] at hch
        cases hg : n.child_[s]? with
        | none => rw [hg] at hch; cases hch
        | some x =>
          rw [hg] at hch
          simp only [Option.getD_some] at hch
          rw [← hch]
          exact List.getElem?_mem hg
      have h1 := List.sizeOf_lt_of_mem hmem
      have h2 : sizeOf (Ptr.to ch) = 1 + sizeOf ch := by simp
      have h3 : sizeOf n.child_ < sizeOf n := by
        cases n <;> simp [CArtNode.child_]
      omega
  intro n
  exact key (sizeOf n + 1) n (Nat.lt_succ_self _)

theorem MovePrefixChildren_getD (e : Bool) (Sr : List Nat) :
    ∀ (c : List (Ptr CArtNode)) (s : Nat),
      (MovePrefixChildren e Sr c).getD s (fun t => (Ptr.nullptr, t)) =
        MovePrefixPtr e Sr (c.getD s Ptr.nullptr)
  | [], s => by
    rw [MovePrefixChildren]
    funext t
    simp [MovePrefixPtr]
  | p :: ps, 0 => by
    rw [MovePrefixChildren]
    rfl
  | p :: ps, s + 1 => by
    rw [MovePrefixChildren]
    simp only [List.getD_cons_succ]
    exact MovePrefixChildren_getD e Sr ps s

theorem TreeExt_refl (t : CAdaptiveRadixTree) : TreeExt t t :=
  ⟨[], 0, by cases t; simp⟩

theorem TreeExt_trans (a b c : CAdaptiveRadixTree) (h1 : TreeExt a b) (h2 : TreeExt b c) :
    TreeExt a c := by
  obtain ⟨e1, u1, rfl⟩ := h1
  obtain ⟨e2, u2, rfl⟩ := h2
  exact ⟨e1 ++ e2, u1 + u2, by simp [List.append_assoc, Nat.add_assoc]⟩

theorem MovePrefix_eq4 (e : Bool) (Sr : List Nat) (b : CArtNodeBase) (k : List Nat)
    (ch : List (Ptr CArtNode)) (t : CAdaptiveRadixTree) :
    MovePrefix e Sr (CArtNode.Fanout4 b k ch) t =
      (CArtNode.Fanout4 (moveHead Sr b t).1 k
        ((List.range (moveHead Sr b t).1.children_count_).foldl (moveStep e Sr ch)
          (ch, (moveHead Sr b t).2)).1,
       ((List.range (moveHead Sr b t).1.children_count_).foldl (moveStep e Sr ch)
          (ch, (moveHead Sr b t).2)).2) := by
  rw [MovePrefix]
  unfold moveHead
  by_cases hp : b.prefix_length_ = 0
  all_goals simp only [hp, MovePrefixChildren_getD, ne_eq, not_true_eq_false,
      not_false_eq_true, if_true, if_false]
  all_goals rfl

theorem MovePrefix_eq16 (e : Bool) (Sr : List Nat) (b : CArtNodeBase) (k : List Nat)
    (ch : List (Ptr CArtNode)) (t : CAdaptiveRadixTree) :
    MovePrefix e Sr (CArtNode.Fanout16 b k ch) t =
      (CArtNode.Fanout16 (moveHead Sr b t).1 k
        ((List.range (moveHead Sr b t).1.children_count_).foldl
          (fun st i =>
            if (if e then FlipSign (k.getD i 0) else k.getD i 0) = 0 then st
            else if !(ch.getD i Ptr.nullptr).isNull then moveStep e Sr ch st i else st)
          (ch, (moveHead Sr b t).2)).1,
       ((List.range (moveHead Sr b t).1.children_count_).foldl
          (fun st i =>
            if (if e then FlipSign (k.getD i 0) else k.getD i 0) = 0 then st
            else if !(ch.getD i Ptr.nullptr).isNull then moveStep e Sr ch st i else st)
          (ch, (moveHead Sr b t).2)).2) := by
  rw [MovePrefix]
  unfold moveHead
  by_cases hp : b.prefix_length_ = 0
  all_goals simp only [hp, MovePrefixChildren_getD, ne_eq, not_true_eq_false,
      not_false_eq_true, if_true, if_false]
  all_goals rfl

theorem MovePrefix_eq48 (e : Bool) (Sr : List Nat) (b : CArtNodeBase) (k : List Nat)
    (ch : List (Ptr CArtNode)) (t : CAdaptiveRadixTree) :
    MovePrefix e Sr (CArtNode.Fanout48 b k ch) t =
      (CArtNode.Fanout48 (moveHead Sr b t).1 k
        (if (moveHead Sr b t).1.children_count_ ≠ 0 then
          (List.range 256).foldl
            (fun st i =>
              if k.getD i 0 ≠ CArtNode.EMPTY_MARKER then
                if !(ch.getD (k.getD i 0) Ptr.nullptr).isNull then
                  moveStep e Sr ch st (k.getD i 0)
                else st
              else st)
            (ch, (moveHead Sr b t).2)
         else (ch, (moveHead Sr b t).2)).1,
       (if (moveHead Sr b t).1.children_count_ ≠ 0 then
          (List.range 256).foldl
            (fun st i =>
              if k.getD i 0 ≠ CArtNode.EMPTY_MARKER then
                if !(ch.getD (k.getD i 0) Ptr.nullptr).isNull then
                  moveStep e Sr ch st (k.getD i 0)
                else st
              else st)
            (ch, (moveHead Sr b t).2)
         else (ch, (moveHead Sr b t).2)).2) := by
  rw [MovePrefix]
  unfold moveHead
  by_cases hp : b.prefix_length_ = 0
  all_goals simp only [hp, MovePrefixChildren_getD, ne_eq, not_true_eq_false,
      not_false_eq_true, if_true, if_false]
  all_goals rfl

theorem MovePrefix_eq256 (e : Bool) (Sr : List Nat) (b : CArtNodeBase)
    (ch : List (Ptr CArtNode)) (t : CAdaptiveRadixTree) :
    MovePrefix e Sr (CArtNode.Fanout256 b ch) t =
      (CArtNode.Fanout256 (moveHead Sr b t).1
        (if (moveHead Sr b t).1.children_count_ ≠ 0 then
          (List.range 256).foldl
            (fun st i =>
              if !(ch.getD i Ptr.nullptr).isEmpty then moveStep e Sr ch st i else st)
            (ch, (moveHead Sr b t).2)
         else (ch, (moveHead Sr b t).2)).1,
       (if (moveHead Sr b t).1.children_count_ ≠ 0 then
          (List.range 256).foldl
            (fun st i =>
              if !(ch.getD i Ptr.nullptr).isEmpty then moveStep e Sr ch st i else st)
            (ch, (moveHead Sr b t).2)
         else (ch, (moveHead Sr b t).2)).2) := by
  rw [MovePrefix]
  unfold moveHead
  by_cases hp : b.prefix_length_ = 0
  all_goals simp only [hp, MovePrefixChildren_getD, ne_eq, not_true_eq_false,
      not_false_eq_true, if_true, if_false]
  all_goals rfl

theorem move_step_ext (e : Bool) (Sr : List Nat) (child_ : List (Ptr CArtNode))
    (t0 : CAdaptiveRadixTree)
    (hIH : ∀ s ch, child_.getD s Ptr.nullptr = Ptr.to ch →
      ∀ t, TreeExt t (MovePrefix e Sr ch t).2)
    (idx : Nat) (st : MoveState) (h : TreeExt t0 st.2) :
    TreeExt t0 (moveStep e Sr child_ st idx).2 := by
  unfold moveStep
  dsimp only
  rcases hc : child_.getD idx Ptr.nullptr with _ | _ | ch
  · rw [MovePrefixPtr]; exact h
  · rw [MovePrefixPtr]; exact h
  · rw [MovePrefixPtr]
    exact TreeExt_trans _ _ _ h (hIH idx ch hc st.2)

theorem moveHead_ext (Sr : List Nat) (b : CArtNodeBase) (t : CAdaptiveRadixTree) :
    TreeExt t (moveHead Sr b t).2 := by
  unfold moveHead
  by_cases hp : b.prefix_length_ = 0 <;> by_cases he : b.end_of_string_ = true
  · simp only [hp, he, ne_eq, not_true_eq_false, if_false, if_true]
    exact ⟨[], 1, by simp⟩
  · simp only [hp, he, ne_eq, not_true_eq_false, if_false]
    exact TreeExt_refl t
  · simp only [hp, he, ne_eq, not_false_eq_true, if_true]
    exact ⟨_, 1, rfl⟩
  · simp only [hp, he, ne_eq, not_false_eq_true, if_true, if_false]
    exact ⟨_, 0, rfl⟩

/-- `MovePrefix` only appends to the suffix table and counts terminal nodes. -/
theorem MovePrefix_ext (e : Bool) (Sr : List Nat) :
    ∀ (n : CArtNode) (t : CAdaptiveRadixTree), TreeExt t (MovePrefix e Sr n t).2 := by
  intro n
  induction n using CArtNode.induct with
  | h n ih =>
    intro t
    have hstep : ∀ (i : Nat) (st : MoveState), TreeExt t st.2 →
        TreeExt t (moveStep e Sr n.child_ st i).2 :=
      fun i st hst => move_step_ext e Sr n.child_ t ih i st hst
    cases n with
    | Fanout4 b k ch =>
      rw [MovePrefix_eq4]
      exact foldl_inv (fun (st : MoveState) => TreeExt t st.2) _ _ _ (moveHead_ext Sr b t)
        (fun i _ st hst => hstep i st hst)
    | Fanout16 b k ch =>
      rw [MovePrefix_eq16]
      refine foldl_inv (fun (st : MoveState) => TreeExt t st.2) _ _ _ (moveHead_ext Sr b t) ?_
      intro i _ st hst
      dsimp only
      split_ifs <;> first | exact hst | exact hstep _ st hst
    | Fanout48 b k ch =>
      rw [MovePrefix_eq48]
      dsimp only
      split_ifs
      · refine foldl_inv (fun (st : MoveState) => TreeExt t st.2) _ _ _ (moveHead_ext Sr b t) ?_
        intro i _ st hst
        dsimp only
        split_ifs <;> first | exact hst | exact hstep _ st hst
      · exact moveHead_ext Sr b t
    | Fanout256 b ch =>
      rw [MovePrefix_eq256]
      dsimp only
      split_ifs
      · refine foldl_inv (fun (st : MoveState) => TreeExt t st.2) _ _ _ (moveHead_ext Sr b t) ?_
        intro i _ st hst
        dsimp only
        split_ifs <;> first | exact hst | exact hstep _ st hst
      · exact moveHead_ext Sr b t
theorem MergeChildNodes_eq4 (e : Bool) (Sr : List Nat) (fuel : Nat) (left : CArtNode)
    (b : CArtNodeBase) (k : List Nat) (ch : List (Ptr CArtNode)) (t : CAdaptiveRadixTree)
    (I : List Nat) :
    MergeChildNodes e Sr (fuel + 1) left (CArtNode.Fanout4 b k ch) t I =
      if b.children_count_ ≠ 0 then
        (List.range b.children_count_).foldl
          (fun st i => mergeChild e Sr fuel ch st (k.getD i 0, i))
          (mergeHead fuel left (CArtNode.Fanout4 b k ch) t I)
      else mergeHead fuel left (CArtNode.Fanout4 b k ch) t I := by
  rw [MergeChildNodes]
  rfl

theorem MergeChildNodes_eq16 (e : Bool) (Sr : List Nat) (fuel : Nat) (left : CArtNode)
    (b : CArtNodeBase) (k : List Nat) (ch : List (Ptr CArtNode)) (t : CAdaptiveRadixTree)
    (I : List Nat) :
    MergeChildNodes e Sr (fuel + 1) left (CArtNode.Fanout16 b k ch) t I =
      if b.children_count_ ≠ 0 then
        (List.range b.children_count_).foldl
          (fun st i =>
            if (if e then FlipSign (k.getD i 0) else k.getD i 0) = 0 then st
            else if !(ch.getD i Ptr.nullptr).isNull then
              mergeChild e Sr fuel ch st (if e then FlipSign (k.getD i 0) else k.getD i 0, i)
            else st)
          (mergeHead fuel left (CArtNode.Fanout16 b k ch) t I)
      else mergeHead fuel left (CArtNode.Fanout16 b k ch) t I := by
  rw [MergeChildNodes]
  rfl

theorem MergeChildNodes_eq48 (e : Bool) (Sr : List Nat) (fuel : Nat) (left : CArtNode)
    (b : CArtNodeBase) (k : List Nat) (ch : List (Ptr CArtNode)) (t : CAdaptiveRadixTree)
    (I : List Nat) :
    MergeChildNodes e Sr (fuel + 1) left (CArtNode.Fanout48 b k ch) t I =
      if b.children_count_ ≠ 0 then
        (List.range 256).foldl
          (fun st i =>
            if k.getD i 0 ≠ CArtNode.EMPTY_MARKER then
              mergeChild e Sr fuel ch st (i, k.getD i 0)
            else st)
          (mergeHead fuel left (CArtNode.Fanout48 b k ch) t I)
      else mergeHead fuel left (CArtNode.Fanout48 b k ch) t I := by
  rw [MergeChildNodes]
  rfl

theorem MergeChildNodes_eq256 (e : Bool) (Sr : List Nat) (fuel : Nat) (left : CArtNode)
    (b : CArtNodeBase) (ch : List (Ptr CArtNode)) (t : CAdaptiveRadixTree)
    (I : List Nat) :
    MergeChildNodes e Sr (fuel + 1) left (CArtNode.Fanout256 b ch) t I =
      if b.children_count_ ≠ 0 then
        (List.range 256).foldl
          (fun st i =>
            if !(ch.getD i Ptr.nullptr).isEmpty then mergeChild e Sr fuel ch st (i, i)
            else st)
          (mergeHead fuel left (CArtNode.Fanout256 b ch) t I)
      else mergeHead fuel left (CArtNode.Fanout256 b ch) t I := by
  rw [MergeChildNodes]
  rfl

theorem foldl_id {α β : Type} (l : List α) (b : β) : l.foldl (fun st _ => st) b = b := by
  induction l with
  | nil => rfl
  | cons a l ih => exact ih

/-- The child loops of `MergeChildNodes` on a well-formed node `right` run the body
`mergeChild` over the children that the traversal visits, in the same order. -/
theorem MergeChildNodes_eq (e : Bool) (Sr : List Nat) (fuel : Nat) (left right : CArtNode)
    (t : CAdaptiveRadixTree) (I : List Nat) (h : NodeOK e right) :
    MergeChildNodes e Sr (fuel + 1) left right t I =
      (right.tslots e).foldl (mergeChild e Sr fuel right.child_)
        (mergeHead fuel left right t I) := by
  cases right with
  | Fanout4 b k ch =>
    rw [MergeChildNodes_eq4]
    simp only [CArtNode.tslots, CArtNode.slots, List.foldl_map, CArtNode.child_]
    by_cases hc : b.children_count_ = 0
    · simp only [hc, ne_eq, not_true_eq_false, if_false, List.range_zero, List.foldl_nil]
    · simp only [hc, ne_eq, not_false_eq_true, if_true]
  | Fanout16 b k ch =>
    obtain ⟨_, _, _, _, _, hnn⟩ := h
    rw [MergeChildNodes_eq16]
    simp only [CArtNode.tslots, CArtNode.slots, CArtNode.child_]
    rw [← foldl_filter', List.foldl_map]
    by_cases hc : b.children_count_ = 0
    · simp only [hc, ne_eq, not_true_eq_false, if_false, List.range_zero, List.foldl_nil]
    · simp only [hc, ne_eq, not_false_eq_true, if_true]
      apply foldl_congr_mem
      intro i hi st
      rw [List.mem_range] at hi
      obtain ⟨c, hc⟩ := hnn i hi
      simp only [hc, Ptr.isNull, Bool.not_false, if_true, storedByte, ne_eq,
        decide_not, Bool.not_eq_true', decide_eq_false_iff_not]
      by_cases hz : (if e = true then FlipSign (k.getD i 0) else k.getD i 0) = 0
      · simp only [hz, if_true, not_true_eq_false, if_false]
      · simp only [hz, if_false, not_false_eq_true, if_true]
  | Fanout48 b idx ch =>
    obtain ⟨_, _, _, hnn, _, _⟩ := h
    rw [MergeChildNodes_eq48]
    simp only [CArtNode.tslots, CArtNode.slots, CArtNode.child_]
    rw [List.foldl_map, ← foldl_filter']
    by_cases hc0 : b.children_count_ = 0
    · simp only [hc0, ne_eq, not_true_eq_false, if_false]
      symm
      have : ∀ i, i ∈ List.range 256 → ∀ st : Option MergeState,
          (if decide (idx.getD i 0 ≠ CArtNode.EMPTY_MARKER) = true then
            mergeChild e Sr fuel ch st (i, idx.getD i 0) else st) = st := by
        intro i hi st
        rw [List.mem_range] at hi
        have : ¬ idx.getD i 0 ≠ CArtNode.EMPTY_MARKER := by
          intro hne
          have := (hnn i hi hne).1
          omega
        simp only [this, decide_False, Bool.false_eq_true, if_false]
      rw [foldl_congr_mem _ (fun st _ => st) _ _ this]
      exact foldl_id _ _
    · simp only [hc0, ne_eq, not_false_eq_true, if_true]
      apply foldl_congr_mem
      intro i hi st
      by_cases hne : idx.getD i 0 ≠ CArtNode.EMPTY_MARKER
      · simp only [hne, ne_eq, not_false_eq_true, if_true, decide_True]
      · simp only [hne, if_false, decide_False, Bool.false_eq_true]
  | Fanout256 b ch =>
    obtain ⟨_, hnn, hzero⟩ := h
    rw [MergeChildNodes_eq256]
    simp only [CArtNode.tslots, CArtNode.slots, CArtNode.child_]
    rw [List.foldl_map, ← foldl_filter']
    by_cases hc0 : b.children_count_ = 0
    · simp only [hc0, ne_eq, not_true_eq_false, if_false]
      symm
      have : ∀ i, i ∈ List.range 256 → ∀ st : Option MergeState,
          (if (!(ch.getD i Ptr.nullptr).isEmpty) = true then
            mergeChild e Sr fuel ch st (i, i) else st) = st := by
        intro i hi st
        rw [List.mem_range] at hi
        rw [hzero hc0 i hi]
        rfl
      rw [foldl_congr_mem _ (fun st _ => st) _ _ this]
      exact foldl_id _ _
    · simp only [hc0, ne_eq, not_false_eq_true, if_true]

theorem setBase_base (n : CArtNode) : n.setBase n.base = n := by
  cases n <;> rfl

theorem InsertValue_eq (t : CAdaptiveRadixTree) (I : List Nat) (n : CArtNode) (v : Nat) :
    ∃ t', InsertValue t I n v =
        (n.setBase { n.base with end_of_string_ := true, value_ := v }, t',
          I.set v n.base.value_) ∧ TreeExt t t' := by
  unfold InsertValue
  by_cases he : n.base.end_of_string_ = true
  · refine ⟨t, ?_, TreeExt_refl t⟩
    simp only [he, Bool.not_true, Bool.false_eq_true, if_false]
  · refine ⟨{ t with unique_string_count_ := t.unique_string_count_ + 1 }, ?_, [], 1, by simp⟩
    simp only [Bool.not_eq_true] at he
    simp only [he, Bool.not_false, if_true]

/-- The chain loop of `MergeChildNodes` on a chain `c` moves the row ids of `c` one by one
to the head of the chain of `left`: it writes only the cells of `c`, and the chain of
`left` becomes the reverse of `c` followed by the former chain of `left`. -/
theorem mergeChainLoop_spec : ∀ (c : List Nat) (h fuel : Nat) (left : CArtNode)
    (t : CAdaptiveRadixTree) (I : List Nat),
    Chain I h c → c.Nodup → c.length < fuel →
    ∃ b' t' I', mergeChainLoop fuel ⟨h⟩ left t I = some (left.setBase b', t', I') ∧
      I'.length = I.length ∧ (∀ x, x ∉ c → I'.getD x 0 = I.getD x 0) ∧ TreeExt t t' ∧
      b'.prefix_length_ = left.base.prefix_length_ ∧
      b'.prefix_position_ = left.base.prefix_position_ ∧
      b'.children_count_ = left.base.children_count_ ∧
      (c = [] → b' = left.base) ∧ (c ≠ [] → b'.end_of_string_ = true) ∧
      (∀ a, Chain I left.base.value_ a → (∀ x, x ∈ c → x ∉ a) →
        (∀ x, x ∈ c → x < I.length) → Chain I' b'.value_ (c.reverse ++ a))
  | [], h, fuel, left, t, I, hc, _, hf => by
    obtain ⟨f, rfl⟩ : ∃ f, fuel = f + 1 := ⟨fuel - 1, by omega⟩
    have : h = LAST_INDEX_IDENTIFIER := hc
    subst this
    refine ⟨left.base, t, I, ?_, rfl, fun _ _ => rfl, TreeExt_refl t, rfl, rfl, rfl,
      fun _ => rfl, fun hne => absurd rfl hne, fun a ha _ _ => ha⟩
    rw [mergeChainLoop, if_pos rfl, setBase_base]
  | x :: xs, h, fuel, left, t, I, hc, hd, hf => by
    obtain ⟨f, rfl⟩ : ∃ f, fuel = f + 1 := ⟨fuel - 1, by omega⟩
    obtain ⟨h1, h2, h3⟩ := hc
    subst h1
    rw [List.nodup_cons] at hd
    obtain ⟨t1, hiv, ht1⟩ := InsertValue_eq t I left h
    have hc1 : Chain (I.set h left.base.value_) (I.getD h 0) xs :=
      Chain_set I xs _ h _ hd.1 h3
    obtain ⟨b', t', I', hl, hlen, hfr, hext, hb1, hb2, hb3, hbnil, hbne, hch⟩ :=
      mergeChainLoop_spec xs (I.getD h 0) f
        (left.setBase { left.base with end_of_string_ := true, value_ := h }) t1
        (I.set h left.base.value_) hc1 hd.2 (by simpa using hf)
    rw [setBase_setBase] at hl
    rw [base_setBase] at hb1 hb2 hb3 hch
    simp only [] at hb1 hb2 hb3 hch
    refine ⟨b', t', I', ?_, ?_, ?_, TreeExt_trans _ _ _ ht1 hext, hb1, hb2, hb3, ?_, ?_, ?_⟩
    · rw [mergeChainLoop]
      have hne : (⟨h⟩ : CIndexIterator) ≠ ⟨LAST_INDEX_IDENTIFIER⟩ := by
        intro hh; injection hh with hh; exact h2 hh
      rw [if_neg hne]
      simp only [CIndexIterator.next, hiv]
      exact hl
    · rw [hlen, List.length_set]
    · intro y hy
      rw [List.mem_cons, not_or] at hy
      rw [hfr y hy.2, getD_set_ne I h y _ 0 hy.1]
    · intro hnil; cases hnil
    · intro _
      by_cases hxs : xs = []
      · rw [hbnil hxs, base_setBase]
      · exact hbne hxs
    · intro a ha hdisj hlt
      have hhI : h < I.length := hlt h (List.mem_cons_self _ _)
      have := hch (h :: a)
        ⟨rfl, h2, by
          rw [getD_set_ptr I h h _ 0 hhI, if_pos rfl]
          exact Chain_set I a _ h _ (hdisj h (List.mem_cons_self _ _)) ha⟩
        (by
          intro y hy hmem
          rcases List.mem_cons.1 hmem with rfl | hmem
          · exact hd.1 hy
          · exact hdisj y (List.mem_cons_of_mem _ hy) hmem)
        (by
          intro y hy
          rw [List.length_set]
          exact hlt y (List.mem_cons_of_mem _ hy))
      rw [List.reverse_cons, List.append_assoc]
      exact this
theorem height_eq (n : CArtNode) :
    n.height = n.base.prefix_length_ + 2 + heightList n.child_ := by
  cases n <;> rw [CArtNode.height] <;> rfl

theorem heightList_getD : ∀ (c : List (Ptr CArtNode)) (s : Nat) (ch : CArtNode),
    c.getD s Ptr.nullptr = Ptr.to ch → ch.height ≤ heightList c
  | [], s, ch, h => by simp at h
  | p :: ps, 0, ch, h => by
    simp only [List.getD_cons_zero] at h
    subst h
    rw [heightList, heightPtr]
    exact Nat.le_max_left _ _
  | p :: ps, s + 1, ch, h => by
    simp only [List.getD_cons_succ] at h
    rw [heightList]
    exact Nat.le_trans (heightList_getD ps s ch h) (Nat.le_max_right _ _)

theorem height_setBase (n : CArtNode) (b : CArtNodeBase) :
    (n.setBase b).height = b.prefix_length_ + 2 + heightList n.child_ := by
  rw [height_eq, base_setBase, child_setBase]

theorem KidsOK_of_TreeOK (e : Bool) (P : Nat → Prop) (S : List Nat) (r : CArtNode)
    (h : TreeOK e P S r) : KidsOK e P S r := by
  cases h with
  | mk _ hnode hbound hval hpfx hbyte hkids => exact ⟨hnode, hbyte, hkids⟩

theorem Below_setBase (e : Bool) (S : List Nat) (r : CArtNode) (b : CArtNodeBase)
    (hc : b.children_count_ = r.base.children_count_)
    (he : b.end_of_string_ = r.base.end_of_string_) (hv : b.value_ = r.base.value_)
    (rest : List Nat) (v : Nat) : Below e S (r.setBase b) rest v ↔ Below e S r rest v := by
  unfold Below
  obtain ⟨_, _, _, hk, hb⟩ := NodeOK_setBase e r b hc
  exact Holds.reprefix e S S r (r.setBase b) hk (by rw [hb, he]) (by rw [hb, hv])
    (fun _ _ _ _ _ => Iff.rfl) rest v

theorem RightOK_setBase (e : Bool) (S : List Nat) (c : Nat → List Nat) (N : Nat) (I : List Nat)
    (r : CArtNode) (b : CArtNodeBase)
    (hc : b.children_count_ = r.base.children_count_)
    (he : b.end_of_string_ = r.base.end_of_string_) (hv : b.value_ = r.base.value_)
    (h : RightOK e S c N I r) : RightOK e S c N I (r.setBase b) := by
  refine ⟨fun rest v hb => h.1 rest v ((Below_setBase e S r b hc he hv rest v).1 hb), ?_⟩
  intro rest rest' v v' h1 h2
  exact h.2 rest rest' v v' ((Below_setBase e S r b hc he hv rest v).1 h1)
    ((Below_setBase e S r b hc he hv rest' v').1 h2)

theorem Owned_setBase (e : Bool) (S : List Nat) (c : Nat → List Nat)
    (r : CArtNode) (b : CArtNodeBase)
    (hc : b.children_count_ = r.base.children_count_)
    (he : b.end_of_string_ = r.base.end_of_string_) (hv : b.value_ = r.base.value_)
    (x : Nat) : Owned e S c (r.setBase b) x ↔ Owned e S c r x := by
  unfold Owned
  constructor
  · rintro ⟨rest, v, h1, h2⟩
    exact ⟨rest, v, (Below_setBase e S r b hc he hv rest v).1 h1, h2⟩
  · rintro ⟨rest, v, h1, h2⟩
    exact ⟨rest, v, (Below_setBase e S r b hc he hv rest v).2 h1, h2⟩

theorem KidsOK_setBase (e : Bool) (P : Nat → Prop) (S : List Nat) (r : CArtNode)
    (b : CArtNodeBase) (hc : b.children_count_ = r.base.children_count_)
    (h : KidsOK e P S r) : KidsOK e P S (r.setBase b) := by
  obtain ⟨h1, _, _, hk, _⟩ := NodeOK_setBase e r b hc
  refine ⟨h1.2 h.1, ?_, ?_⟩
  · intro c p hm; rw [hk] at hm; exact h.2.1 c p hm
  · intro c ch hm; rw [hk] at hm; exact h.2.2 c ch hm

theorem Below_child (e : Bool) (S : List Nat) (r : CArtNode) (b : Nat) (ch : CArtNode)
    (hk : (b, Ptr.to ch) ∈ r.kids e) (rest : List Nat) (v : Nat) (h : Below e S ch rest v) :
    Below e S r (b :: (ch.pfx S ++ rest)) v :=
  Holds.under r b ch _ v hk h

theorem Below_here (e : Bool) (S : List Nat) (r : CArtNode) (h : r.base.end_of_string_ = true) :
    Below e S r [] r.base.value_ := by
  unfold Below
  rw [List.append_nil]
  exact Holds.here r h

theorem Framed_refl (W : Nat → Prop) (t : CAdaptiveRadixTree) (I : List Nat) :
    Framed W t I t I :=
  ⟨rfl, fun _ _ => rfl, TreeExt_refl t⟩

theorem Framed_trans (W : Nat → Prop) (t t1 t2 : CAdaptiveRadixTree) (I I1 I2 : List Nat)
    (h1 : Framed W t I t1 I1) (h2 : Framed W t1 I1 t2 I2) : Framed W t I t2 I2 :=
  ⟨h2.1.trans h1.1, fun x hx => (h2.2.1 x hx).trans (h1.2.1 x hx),
    TreeExt_trans _ _ _ h1.2.2 h2.2.2⟩

theorem Framed_mono (W W' : Nat → Prop) (t t1 : CAdaptiveRadixTree) (I I1 : List Nat)
    (h : Framed W t I t1 I1) (hw : ∀ x, W x → W' x) : Framed W' t I t1 I1 :=
  ⟨h.1, fun x hx => h.2.1 x (fun hwx => hx (hw x hwx)), h.2.2⟩

/-- The chains of a child of the donor stay valid when the row-id vector changes only in
cells that are owned by other parts of the donor. -/
theorem RightOK_child (e : Bool) (S : List Nat) (c : Nat → List Nat) (N : Nat)
    (I I' : List Nat) (r : CArtNode) (b : Nat) (ch : CArtNode)
    (hk : (b, Ptr.to ch) ∈ r.kids e) (h : RightOK e S c N I r)
    (hI : ∀ x, Owned e S c ch x → I'.getD x 0 = I.getD x 0) : RightOK e S c N I' ch := by
  refine ⟨?_, ?_⟩
  · intro rest v hb
    obtain ⟨h1, h2, h3, h4⟩ := h.1 _ v (Below_child e S r b ch hk rest v hb)
    exact ⟨Chain_frame I I' _ v (fun x hx => hI x ⟨rest, v, hb, hx⟩) h1, h2, h3, h4⟩
  · intro rest rest' v v' h1 h2 hne
    exact h.2 _ _ v v' (Below_child e S r b ch hk rest v h1)
      (Below_child e S r b ch hk rest' v' h2)
      (fun heq => hne (List.append_cancel_left (List.cons.inj heq).2))

theorem Owned_child (e : Bool) (S : List Nat) (c : Nat → List Nat) (r : CArtNode) (b : Nat)
    (ch : CArtNode) (hk : (b, Ptr.to ch) ∈ r.kids e) (x : Nat) (h : Owned e S c ch x) :
    Owned e S c r x := by
  obtain ⟨rest, v, h1, h2⟩ := h
  exact ⟨_, v, Below_child e S r b ch hk rest v h1, h2⟩
theorem setBase_eta (r : CArtNode) :
    r.setBase { prefix_length_ := r.base.prefix_length_,
                prefix_position_ := r.base.prefix_position_, value_ := r.base.value_,
                children_count_ := r.base.children_count_,
                end_of_string_ := r.base.end_of_string_ } = r := by
  cases r <;> rfl

theorem Merge_both (e : Bool) (Sr : List Nat) (F : Nat) (l r : CArtNode)
    (t : CAdaptiveRadixTree) (I : List Nat)
    (h : mergeMismatch t.suffix_table_ Sr l r = l.base.prefix_length_ ∧
      mergeMismatch t.suffix_table_ Sr l r = r.base.prefix_length_) :
    Merge e Sr (F + 1) l r t I =
      (MergeChildNodes e Sr F l r t I).map
        (fun (st : MergeState) => (st.1, Ptr.nullptr, st.2.1, st.2.2)) := by
  rw [Merge]
  exact if_pos h

theorem Merge_else (e : Bool) (Sr : List Nat) (F : Nat) (l r : CArtNode)
    (t : CAdaptiveRadixTree) (I : List Nat)
    (h1 : ¬ (mergeMismatch t.suffix_table_ Sr l r = l.base.prefix_length_ ∧
      mergeMismatch t.suffix_table_ Sr l r = r.base.prefix_length_))
    (h2 : ¬ mergeMismatch t.suffix_table_ Sr l r < l.base.prefix_length_)
    (h3 : ¬ mergeMismatch t.suffix_table_ Sr l r < r.base.prefix_length_) :
    Merge e Sr (F + 1) l r t I = some (l, Ptr.to r, t, I) := by
  rw [Merge]
  unfold mergeMismatch at h1 h2 h3
  simp only [if_neg h1, if_neg h2, if_neg h3]

theorem Merge_descend (e : Bool) (Sr : List Nat) (F : Nat) (l r : CArtNode)
    (t : CAdaptiveRadixTree) (I : List Nat)
    (h1 : ¬ (mergeMismatch t.suffix_table_ Sr l r = l.base.prefix_length_ ∧
      mergeMismatch t.suffix_table_ Sr l r = r.base.prefix_length_))
    (h2 : ¬ mergeMismatch t.suffix_table_ Sr l r < l.base.prefix_length_)
    (h3 : mergeMismatch t.suffix_table_ Sr l r < r.base.prefix_length_) :
    Merge e Sr (F + 1) l r t I =
      match FindChild e l
        (Sr.getD (r.base.prefix_position_ + mergeMismatch t.suffix_table_ Sr l r) 0) with
      | some slot =>
        match l.child_.getD slot Ptr.nullptr with
        | Ptr.to left_child =>
          (Merge e Sr F left_child (rightStep r (mergeMismatch t.suffix_table_ Sr l r)) t I).map
            (fun res => (l.setChild slot (Ptr.to res.1), res.2.1, res.2.2.1, res.2.2.2))
        | _ => some (l, Ptr.to (rightStep r (mergeMismatch t.suffix_table_ Sr l r)), t, I)
      | none =>
        some ((InsertInNode e l
            (Sr.getD (r.base.prefix_position_ + mergeMismatch t.suffix_table_ Sr l r) 0)
            (Ptr.to (MovePrefix e Sr
              (rightStep r (mergeMismatch t.suffix_table_ Sr l r)) t).1)).1,
          Ptr.to (MovePrefix e Sr (rightStep r (mergeMismatch t.suffix_table_ Sr l r)) t).1,
          (MovePrefix e Sr (rightStep r (mergeMismatch t.suffix_table_ Sr l r)) t).2, I) := by
  rw [Merge]
  unfold mergeMismatch at h1 h2 h3 ⊢
  simp only [if_neg h1, if_neg h2, if_pos h3]
  unfold rightStep
  simp only [base_setBase, setBase_setBase, Nat.add_assoc, Nat.sub_sub]
  all_goals rfl

theorem Merge_split_move (e : Bool) (Sr : List Nat) (F : Nat) (l r : CArtNode)
    (t : CAdaptiveRadixTree) (I : List Nat)
    (h1 : ¬ (mergeMismatch t.suffix_table_ Sr l r = l.base.prefix_length_ ∧
      mergeMismatch t.suffix_table_ Sr l r = r.base.prefix_length_))
    (h2 : mergeMismatch t.suffix_table_ Sr l r < l.base.prefix_length_)
    (h3 : mergeMismatch t.suffix_table_ Sr l r < r.base.prefix_length_) :
    Merge e Sr (F + 1) l r t I =
      some ((InsertInNode e (mergeSplit e t.suffix_table_ l (mergeMismatch t.suffix_table_ Sr l r))
            (Sr.getD (r.base.prefix_position_ + mergeMismatch t.suffix_table_ Sr l r) 0)
            (Ptr.to (MovePrefix e Sr
              (rightStep r (mergeMismatch t.suffix_table_ Sr l r)) t).1)).1,
          Ptr.to (MovePrefix e Sr (rightStep r (mergeMismatch t.suffix_table_ Sr l r)) t).1,
          (MovePrefix e Sr (rightStep r (mergeMismatch t.suffix_table_ Sr l r)) t).2, I) := by
  rw [Merge]
  unfold mergeMismatch at h1 h2 h3 ⊢
  simp only [if_neg h1, if_pos h2]
  unfold rightStep mergeSplit splitParent splitChild
  by_cases hm : mergeMismatchLoop t.suffix_table_ Sr l.base.prefix_position_
      l.base.prefix_length_ r.base.prefix_position_ r.base.prefix_length_
      l.base.prefix_length_ 0 = 0
  · simp only [hm, ne_eq, not_true_eq_false, if_false, Nat.add_zero, Nat.sub_zero] at h3 ⊢
    simp only [gt_iff_lt, h3, if_true]
  · have h3' : r.base.prefix_length_ - mergeMismatchLoop t.suffix_table_ Sr
        l.base.prefix_position_ l.base.prefix_length_ r.base.prefix_position_
        r.base.prefix_length_ l.base.prefix_length_ 0 > 0 := by omega
    simp only [hm, ne_eq, not_false_eq_true, if_true, base_setBase, setBase_setBase, base_new4,
      h3', Nat.sub_sub, Nat.add_assoc]

theorem Merge_split_merge (e : Bool) (Sr : List Nat) (F : Nat) (l r : CArtNode)
    (t : CAdaptiveRadixTree) (I : List Nat)
    (h1 : ¬ (mergeMismatch t.suffix_table_ Sr l r = l.base.prefix_length_ ∧
      mergeMismatch t.suffix_table_ Sr l r = r.base.prefix_length_))
    (h2 : mergeMismatch t.suffix_table_ Sr l r < l.base.prefix_length_)
    (h3 : ¬ mergeMismatch t.suffix_table_ Sr l r < r.base.prefix_length_) :
    Merge e Sr (F + 1) l r t I =
      (MergeChildNodes e Sr F
          (mergeSplit e t.suffix_table_ l (mergeMismatch t.suffix_table_ Sr l r))
          (rightCut r (mergeMismatch t.suffix_table_ Sr l r)) t I).map
        (fun (st : MergeState) => (st.1, Ptr.nullptr, st.2.1, st.2.2)) := by
  rw [Merge]
  unfold mergeMismatch at h1 h2 h3 ⊢
  simp only [if_neg h1, if_pos h2]
  unfold rightCut mergeSplit splitParent splitChild
  by_cases hm : mergeMismatchLoop t.suffix_table_ Sr l.base.prefix_position_
      l.base.prefix_length_ r.base.prefix_position_ r.base.prefix_length_
      l.base.prefix_length_ 0 = 0
  · simp only [hm, ne_eq, not_true_eq_false, if_false, Nat.add_zero, Nat.sub_zero] at h3 ⊢
    simp only [gt_iff_lt, h3, if_false, setBase_eta]
  · have h3' : ¬ r.base.prefix_length_ - mergeMismatchLoop t.suffix_table_ Sr
        l.base.prefix_position_ l.base.prefix_length_ r.base.prefix_position_
        r.base.prefix_length_ l.base.prefix_length_ 0 > 0 := by omega
    simp only [hm, ne_eq, not_false_eq_true, if_true, base_setBase, setBase_setBase, base_new4,
      h3', Nat.sub_sub, Nat.add_assoc, if_false]
theorem RightOK_frame (e : Bool) (S : List Nat) (c : Nat → List Nat) (N : Nat)
    (I I' : List Nat) (r : CArtNode) (h : RightOK e S c N I r)
    (hI : ∀ x, Owned e S c r x → I'.getD x 0 = I.getD x 0) : RightOK e S c N I' r := by
  refine ⟨?_, h.2⟩
  intro rest v hb
  obtain ⟨h1, h2, h3, h4⟩ := h.1 rest v hb
  exact ⟨Chain_frame I I' _ v (fun x hx => hI x ⟨rest, v, hb, hx⟩) h1, h2, h3, h4⟩

/-- The chains of two children of the donor under different key bytes are disjoint. -/
theorem Owned_disjoint (e : Bool) (S : List Nat) (c : Nat → List Nat) (N : Nat) (I : List Nat)
    (r : CArtNode) (h : RightOK e S c N I r) (b b' : Nat) (ch ch' : CArtNode)
    (hk : (b, Ptr.to ch) ∈ r.kids e) (hk' : (b', Ptr.to ch') ∈ r.kids e) (hne : b ≠ b')
    (x : Nat) (h1 : Owned e S c ch x) (h2 : Owned e S c ch' x) : False := by
  obtain ⟨rest, v, hb, hx⟩ := h1
  obtain ⟨rest', v', hb', hx'⟩ := h2
  exact h.2 _ _ v v' (Below_child e S r b ch hk rest v hb)
    (Below_child e S r b' ch' hk' rest' v' hb')
    (fun heq => hne (List.cons.inj heq).1) x hx hx'

theorem Owned_rightCut (e : Bool) (S : List Nat) (c : Nat → List Nat) (r : CArtNode) (m x : Nat)
    (h : Owned e S c (rightCut r m) x) : Owned e S c r x :=
  (Owned_setBase e S c r { r.base with
    prefix_length_ := r.base.prefix_length_ - m,
    prefix_position_ := r.base.prefix_position_ + m } rfl rfl rfl x).1 h

theorem Owned_rightStep (e : Bool) (S : List Nat) (c : Nat → List Nat) (r : CArtNode) (m x : Nat)
    (h : Owned e S c (rightStep r m) x) : Owned e S c r x :=
  (Owned_setBase e S c r { r.base with
    prefix_length_ := r.base.prefix_length_ - m - 1,
    prefix_position_ := r.base.prefix_position_ + m + 1 } rfl rfl rfl x).1 h

/-- Termination and frame of `Merge` and `MergeChildNodes`: for every recipient node, a donor
subtree that is well-formed and whose chains are valid, and fuel above the height of the
donor plus the bound of its chain lengths, the call returns, the row-id vector changes
only in cells of the chains of the donor, and the tree members change only by appended
suffix bytes and counted keys. -/
theorem Merge_safe (e : Bool) (P : Nat → Prop) (Sr : List Nat)
    (c : Nat → List Nat) (N : Nat) :
    ∀ F : Nat,
      (∀ (l r : CArtNode) (t : CAdaptiveRadixTree) (I : List Nat),
        KidsOK e P Sr r → RightOK e Sr c N I r → r.height + N < F →
        ∃ res, Merge e Sr F l r t I = some res ∧
          Framed (Owned e Sr c r) t I res.2.2.1 res.2.2.2) ∧
      (∀ (l r : CArtNode) (t : CAdaptiveRadixTree) (I : List Nat),
        KidsOK e P Sr r → RightOK e Sr c N I r → heightList r.child_ + N + 1 < F →
        ∃ res, MergeChildNodes e Sr F l r t I = some res ∧
          Framed (Owned e Sr c r) t I res.2.1 res.2.2) := by
  intro F
  induction F with
  | zero =>
    exact ⟨fun l r t I _ _ h => absurd h (Nat.not_lt_zero _),
      fun l r t I _ _ h => absurd h (Nat.not_lt_zero _)⟩
  | succ F ih =>
    obtain ⟨ihM, ihC⟩ := ih
    constructor
    · intro l r t I hk hr hF
      rw [height_eq] at hF
      by_cases h1 : mergeMismatch t.suffix_table_ Sr l r = l.base.prefix_length_ ∧
          mergeMismatch t.suffix_table_ Sr l r = r.base.prefix_length_
      · rw [Merge_both e Sr F l r t I h1]
        obtain ⟨res, hres, hfr⟩ := ihC l r t I hk hr (by omega)
        exact ⟨_, by rw [hres]; rfl, hfr⟩
      · by_cases h2 : mergeMismatch t.suffix_table_ Sr l r < l.base.prefix_length_
        · by_cases h3 : mergeMismatch t.suffix_table_ Sr l r < r.base.prefix_length_
          · rw [Merge_split_move e Sr F l r t I h1 h2 h3]
            exact ⟨_, rfl, rfl, fun _ _ => rfl, MovePrefix_ext e Sr _ t⟩
          · rw [Merge_split_merge e Sr F l r t I h1 h2 h3]
            obtain ⟨res, hres, hfr⟩ := ihC
              (mergeSplit e t.suffix_table_ l (mergeMismatch t.suffix_table_ Sr l r))
              (rightCut r (mergeMismatch t.suffix_table_ Sr l r)) t I
              (KidsOK_setBase e P Sr r _ rfl hk)
              (RightOK_setBase e Sr c N I r _ rfl rfl rfl hr)
              (by unfold rightCut; rw [child_setBase]; omega)
            refine ⟨_, by rw [hres]; rfl, ?_⟩
            exact Framed_mono _ _ _ _ _ _ hfr (fun x hx => Owned_rightCut e Sr c r _ x hx)
        · by_cases h3 : mergeMismatch t.suffix_table_ Sr l r < r.base.prefix_length_
          · rw [Merge_descend e Sr F l r t I h1 h2 h3]
            cases hfind : FindChild e l
                (Sr.getD (r.base.prefix_position_ + mergeMismatch t.suffix_table_ Sr l r) 0) with
            | none =>
              exact ⟨_, rfl, rfl, fun _ _ => rfl, MovePrefix_ext e Sr _ t⟩
            | some slot =>
              dsimp only
              rcases hlc : l.child_.getD slot Ptr.nullptr with _ | _ | lc
              · exact ⟨_, rfl, Framed_refl _ t I⟩
              · exact ⟨_, rfl, Framed_refl _ t I⟩
              · dsimp only
                obtain ⟨res, hres, hfr⟩ := ihM lc
                  (rightStep r (mergeMismatch t.suffix_table_ Sr l r)) t I
                  (KidsOK_setBase e P Sr r _ rfl hk)
                  (RightOK_setBase e Sr c N I r _ rfl rfl rfl hr)
                  (by
                    unfold rightStep
                    rw [height_setBase]
                    dsimp only
                    omega)
                refine ⟨_, by rw [hres]; rfl, ?_⟩
                exact Framed_mono _ _ _ _ _ _ hfr
                  (fun x hx => Owned_rightStep e Sr c r _ x hx)
          · rw [Merge_else e Sr F l r t I h1 h2 h3]
            exact ⟨_, rfl, Framed_refl _ t I⟩
    · intro l r t I hk hr hF
      rw [MergeChildNodes_eq e Sr F l r t I hk.1]
      -- the child loop
      have hloop : ∀ (L : List (Nat × Nat)), (∀ p, p ∈ L → p ∈ r.slots e) →
          L.Pairwise (fun p q => p.1 ≠ q.1) →
          ∀ (l0 : CArtNode) (t0 : CAdaptiveRadixTree) (I0 : List Nat),
            (∀ p ch, p ∈ L → r.child_.getD p.2 Ptr.nullptr = Ptr.to ch →
              RightOK e Sr c N I0 ch) →
            ∃ res, L.foldl (mergeChild e Sr F r.child_) (some (l0, t0, I0)) = some res ∧
              Framed (Owned e Sr c r) t0 I0 res.2.1 res.2.2 := by
        intro L
        induction L with
        | nil =>
          intro _ _ l0 t0 I0 _
          exact ⟨_, rfl, Framed_refl _ t0 I0⟩
        | cons p L ihL =>
          intro hsub hpw l0 t0 I0 hch
          obtain ⟨b, s⟩ := p
          have hps : (b, s) ∈ r.slots e := hsub _ (List.mem_cons_self _ _)
          obtain ⟨_, ch, hchs⟩ := slots_node e r hk.1 b s hps
          have hkid : (b, Ptr.to ch) ∈ r.kids e := (mem_kids e r b _).2 ⟨s, hps, hchs⟩
          have hrch : RightOK e Sr c N I0 ch := hch (b, s) ch (List.mem_cons_self _ _) hchs
          rw [List.pairwise_cons] at hpw
          -- the step on this child
          have hstep : ∃ st1, mergeChild e Sr F r.child_ (some (l0, t0, I0)) (b, s) = some st1 ∧
              Framed (Owned e Sr c ch) t0 I0 st1.2.1 st1.2.2 := by
            unfold mergeChild
            simp only [Option.some_bind, hchs]
            cases hfind : FindChild e l0 b with
            | none =>
              dsimp only
              rw [MovePrefixPtr]
              exact ⟨_, rfl, rfl, fun _ _ => rfl, MovePrefix_ext e Sr _ t0⟩
            | some slot =>
              dsimp only
              rcases hlc : l0.child_.getD slot Ptr.nullptr with _ | _ | lc
              · exact ⟨_, rfl, Framed_refl _ t0 I0⟩
              · exact ⟨_, rfl, Framed_refl _ t0 I0⟩
              · dsimp only
                obtain ⟨res, hres, hfr⟩ := ihM lc ch t0 I0
                  (KidsOK_of_TreeOK e P Sr ch (hk.2.2 b ch hkid)) hrch
                  (by
                    have := heightList_getD r.child_ s ch hchs
                    omega)
                exact ⟨_, by rw [hres]; rfl, hfr⟩
          obtain ⟨st1, hst1, hfr1⟩ := hstep
          obtain ⟨l1, t1, I1⟩ := st1
          obtain ⟨res, hres, hfr⟩ := ihL (fun p hp => hsub p (List.mem_cons_of_mem _ hp)) hpw.2
            l1 t1 I1 (by
              intro p' ch' hp' hch'
              have hps' : p' ∈ r.slots e := hsub _ (List.mem_cons_of_mem _ hp')
              have hkid' : (p'.1, Ptr.to ch') ∈ r.kids e :=
                (mem_kids e r p'.1 _).2 ⟨p'.2, hps', hch'⟩
              refine RightOK_frame e Sr c N I0 I1 ch'
                (hch p' ch' (List.mem_cons_of_mem _ hp') hch') ?_
              intro x hx
              exact hfr1.2.1 x (fun hx1 =>
                Owned_disjoint e Sr c N I r hr b p'.1 ch ch' hkid hkid' (hpw.1 p' hp') x hx1 hx))
          refine ⟨res, ?_, ?_⟩
          · rw [List.foldl_cons, hst1]; exact hres
          · exact Framed_trans _ _ _ _ _ _ _
              (Framed_mono _ _ _ _ _ _ hfr1 (fun x hx => Owned_child e Sr c r b ch hkid x hx)) hfr
      have hslots : ∀ p, p ∈ r.tslots e → p ∈ r.slots e := fun p hp => (mem_tslots e r p).1 hp
      have hpw : (r.tslots e).Pairwise (fun p q => p.1 ≠ q.1) :=
        (tslots_sorted e r hk.1).imp (fun h => Nat.ne_of_lt h)
      -- the chain of the donor node itself
      unfold mergeHead
      by_cases heos : r.base.end_of_string_ = true
      · rw [if_pos heos]
        obtain ⟨hc1, hc2, hc3, hc4⟩ := hr.1 [] _ (Below_here e Sr r heos)
        obtain ⟨b', t', I', hl, hlen, hfr, hext, _⟩ :=
          mergeChainLoop_spec (c r.base.value_) r.base.value_ (F + 1) l t I hc1 hc2 (by omega)
        rw [hl]
        obtain ⟨res, hres, hfr2⟩ := hloop (r.tslots e) hslots hpw (l.setBase b') t' I' (by
          intro p ch hp hch
          have hkid : (p.1, Ptr.to ch) ∈ r.kids e :=
            (mem_kids e r p.1 _).2 ⟨p.2, hslots p hp, hch⟩
          refine RightOK_child e Sr c N I I' r p.1 ch hkid hr ?_
          intro x hx
          refine hfr x (fun hxc => ?_)
          obtain ⟨rest, v, hb, hxv⟩ := hx
          exact hr.2 _ _ v _ (Below_child e Sr r p.1 ch hkid rest v hb)
            (Below_here e Sr r heos) (by simp) x hxv hxc)
        refine ⟨res, hres, Framed_trans _ _ _ _ _ _ _ ?_ hfr2⟩
        exact ⟨hlen, fun x hx => hfr x (fun hxc =>
          hx ⟨[], _, Below_here e Sr r heos, hxc⟩), hext⟩
      · rw [if_neg heos]
        exact hloop (r.tslots e) hslots hpw l t I (by
          intro p ch hp hch
          have hkid : (p.1, Ptr.to ch) ∈ r.kids e :=
            (mem_kids e r p.1 _).2 ⟨p.2, hslots p hp, hch⟩
          exact RightOK_child e Sr c N I I r p.1 ch hkid hr (fun _ _ => rfl))
/-- The loop of `Join` over the null chain `c` of the donor prepends the row ids of `c` one
by one to the null chain of `this`: it writes only the cells of `c`, the null chain of
`this` becomes the reverse of `c` followed by its former chain, and the count grows by the
length of `c`. -/
theorem joinNullLoop_spec : ∀ (c : List Nat) (h fuel : Nat) (t : CAdaptiveRadixTree)
    (I : List Nat),
    Chain I h c → c.Nodup → c.length < fuel →
    t.null_string_count_ + c.length < 4294967296 →
    ∃ t' I', joinNullLoop fuel ⟨h⟩ t I = some (t', I') ∧
      I'.length = I.length ∧ (∀ x, x ∉ c → I'.getD x 0 = I.getD x 0) ∧
      t' = { t with null_string_ := t'.null_string_,
                    null_string_count_ := t.null_string_count_ + c.length } ∧
      (∀ a, Chain I t.null_string_ a → (∀ x, x ∈ c → x ∉ a) →
        (∀ x, x ∈ c → x < I.length) → Chain I' t'.null_string_ (c.reverse ++ a))
  | [], h, fuel, t, I, hc, _, hf, _ => by
    obtain ⟨f, rfl⟩ : ∃ f, fuel = f + 1 := ⟨fuel - 1, by omega⟩
    have : h = LAST_INDEX_IDENTIFIER := hc
    subst this
    refine ⟨t, I, ?_, rfl, fun _ _ => rfl, ?_, fun a ha _ _ => ha⟩
    · rw [joinNullLoop, if_pos rfl]
    · cases t; simp
  | x :: xs, h, fuel, t, I, hc, hd, hf, hcount => by
    obtain ⟨f, rfl⟩ : ∃ f, fuel = f + 1 := ⟨fuel - 1, by omega⟩
    obtain ⟨h1, h2, h3⟩ := hc
    subst h1
    rw [List.nodup_cons] at hd
    rw [List.length_cons] at hcount
    have hc1 : Chain (I.set h t.null_string_) (I.getD h 0) xs :=
      Chain_set I xs _ h _ hd.1 h3
    have hu : u32 (t.null_string_count_ + 1) = t.null_string_count_ + 1 :=
      u32_of_lt _ (by omega)
    obtain ⟨t', I', hl, hlen, hfr, ht', hch⟩ :=
      joinNullLoop_spec xs (I.getD h 0) f
        { t with null_string_ := h, null_string_count_ := t.null_string_count_ + 1 }
        (I.set h t.null_string_) hc1 hd.2 (by simpa using hf) (by simp only []; omega)
    simp only [] at ht' hch
    refine ⟨t', I', ?_, ?_, ?_, ?_, ?_⟩
    · rw [joinNullLoop]
      have hne : (⟨h⟩ : CIndexIterator) ≠ ⟨LAST_INDEX_IDENTIFIER⟩ := by
        intro hh; injection hh with hh; exact h2 hh
      rw [if_neg hne]
      simp only [CIndexIterator.next, AddNullString, hu]
      exact hl
    · rw [hlen, List.length_set]
    · intro y hy
      rw [List.mem_cons, not_or] at hy
      rw [hfr y hy.2, getD_set_ne I h y _ 0 hy.1]
    · rw [ht']
      simp only [List.length_cons, Nat.add_assoc, Nat.add_comm 1]
    · intro a ha hdisj hlt
      have hhI : h < I.length := hlt h (List.mem_cons_self _ _)
      have := hch (h :: a)
        ⟨rfl, h2, by
          rw [getD_set_ptr I h h _ 0 hhI, if_pos rfl]
          exact Chain_set I a _ h _ (hdisj h (List.mem_cons_self _ _)) ha⟩
        (by
          intro y hy hmem
          rcases List.mem_cons.1 hmem with rfl | hmem
          · exact hd.1 hy
          · exact hdisj y (List.mem_cons_of_mem _ hy) hmem)
        (by
          intro y hy
          rw [List.length_set]
          exact hlt y (List.mem_cons_of_mem _ hy))
      rw [List.reverse_cons, List.append_assoc]
      exact this
theorem key_of_id (es : List (List Nat × Nat)) (hd : (es.map Prod.snd).Nodup) (a b : List Nat)
    (v : Nat) (h1 : (a, v) ∈ es) (h2 : (b, v) ∈ es) : a = b := by
  have := List.inj_on_of_nodup_map hd h1 h2 rfl
  exact (Prod.mk.inj this).1

theorem chainOfId_eq (es : List (List Nat × Nat)) (hd : (es.map Prod.snd).Nodup) (k : List Nat)
    (v : Nat) (hv : v ∈ idsOf es k) : chainOfId es v = (idsOf es k).reverse := by
  unfold chainOfId idsOf
  congr 2
  apply List.filter_congr
  intro p hp
  have hkv : (k, v) ∈ es := (mem_idsOf es k v).1 hv
  by_cases hpk : p.1 = k
  · simp only [hpk, decide_True, decide_eq_true_eq]
    exact hv
  · simp only [hpk, decide_False, decide_eq_false_iff_not]
    intro hm
    exact hpk (key_of_id es hd p.1 k v ((mem_idsOf es p.1 v).1 hm) hkv)

theorem entries_sublist (ops : List Op) :
    ((entriesOf ops).map Prod.snd).Sublist (ops.map Op.value) := by
  induction ops with
  | nil => simp [entriesOf]
  | cons op ops ih =>
    cases op with
    | AddEntry k v => exact List.Sublist.cons₂ _ ih
    | AddNullString v => exact List.Sublist.cons _ ih

theorem Chain_head_mem (I : List Nat) (v : Nat) (l : List Nat) (h : Chain I v l) (hne : l ≠ []) :
    v ∈ l := by
  cases l with
  | nil => exact absurd rfl hne
  | cons x xs => rw [h.1]; exact List.mem_cons_self _ _

/-- The chains of a tree that was filled by calls are valid chains of a donor. -/
theorem Built_RightOK (e : Bool) (P : Nat → Prop) (ops : List Op) (t : CAdaptiveRadixTree)
    (I : List Nat) (root : CArtNode) (n : Nat) (hb : Built e P ops t I)
    (hroot : t.root_ = Ptr.to root) (hd : (ops.map Op.value).Nodup)
    (hlt : ∀ x, x ∈ ops.map Op.value → x < n) :
    RightOK e t.suffix_table_ (chainOfId (entriesOf ops)) n I root ∧
    (∀ x, Owned e t.suffix_table_ (chainOfId (entriesOf ops)) root x →
      x ∈ (entriesOf ops).map Prod.snd) := by
  obtain ⟨root', hroot', htree, hH1, hH2, _⟩ := hb
  rw [hroot] at hroot'
  injection hroot' with hroot'
  subst hroot'
  have hde : ((entriesOf ops).map Prod.snd).Nodup := hd.sublist (entries_sublist ops)
  have hc : ∀ rest v, Below e t.suffix_table_ root rest v →
      chainOfId (entriesOf ops) v =
        (idsOf (entriesOf ops) (root.pfx t.suffix_table_ ++ rest)).reverse ∧
      idsOf (entriesOf ops) (root.pfx t.suffix_table_ ++ rest) ≠ [] ∧
      Chain I v (idsOf (entriesOf ops) (root.pfx t.suffix_table_ ++ rest)).reverse := by
    intro rest v hb
    obtain ⟨h1, h2⟩ := hH1 _ v hb
    have hv := Chain_head_mem I v _ h2 (by simpa using h1)
    exact ⟨chainOfId_eq _ hde _ v (List.mem_reverse.1 hv), h1, h2⟩
  refine ⟨⟨?_, ?_⟩, ?_⟩
  · intro rest v hb
    obtain ⟨h1, h2, h3⟩ := hc rest v hb
    rw [h1]
    refine ⟨h3, List.nodup_reverse.2 (idsOf_nodup _ _ hde), ?_, by simpa using h2⟩
    rw [List.length_reverse]
    exact length_le_of_nodup _ n (idsOf_nodup _ _ hde)
      (fun x hx => hlt x (idsOf_sub ops _ x hx))
  · intro rest rest' v v' hb hb' hne x hx hx'
    rw [(hc rest v hb).1, List.mem_reverse, mem_idsOf] at hx
    rw [(hc rest' v' hb').1, List.mem_reverse, mem_idsOf] at hx'
    exact hne (List.append_cancel_left (key_of_id _ hde _ _ x hx hx'))
  · rintro x ⟨rest, v, hb, hx⟩
    rw [(hc rest v hb).1, List.mem_reverse, mem_idsOf] at hx
    exact List.mem_map.2 ⟨_, hx, rfl⟩

/-- Two trees filled one after the other on one row-id vector both satisfy the
invariant. -/
theorem buildPair_spec (e : Bool) (P : Nat → Prop) (hP : ∀ c, P c → c < 256) (n : Nat)
    (opsA opsB : List Op) (hd : ((opsA ++ opsB).map Op.value).Nodup)
    (hlt : ∀ x, x ∈ (opsA ++ opsB).map Op.value → x < n) (hn : n ≤ 4294967295)
    (hbytes : ∀ p, p ∈ entriesOf (opsA ++ opsB) → ∀ c, c ∈ p.1 → P c)
    (htot : totalLength (entriesOf opsA) + totalLength (entriesOf opsB) < 4294967296) :
    Built e P opsA (buildPair e n opsA opsB).1 (buildPair e n opsA opsB).2.2 ∧
    Built e P opsB (buildPair e n opsA opsB).2.1 (buildPair e n opsA opsB).2.2 ∧
    (buildPair e n opsA opsB).2.2.length = n := by
  rw [List.map_append, List.nodup_append] at hd
  obtain ⟨hdA, hdB, hdisj⟩ := hd
  have hltA : ∀ x, x ∈ opsA.map Op.value → x < n := fun x hx =>
    hlt x (by rw [List.map_append]; exact List.mem_append_left _ hx)
  have hltB : ∀ x, x ∈ opsB.map Op.value → x < n := fun x hx =>
    hlt x (by rw [List.map_append]; exact List.mem_append_right _ hx)
  have hlen0 : (List.replicate n 0).length = n := List.length_replicate _ _
  obtain ⟨hbA, hlA, hfA⟩ := run_spec e P hP (List.replicate n 0) (by rw [hlen0]; exact hn) opsA
    hdA (by rw [hlen0]; exact hltA)
    (fun k v hm c hc => hbytes (k, v) (by
      rw [entriesOf_append]
      exact List.mem_append_left _ ((mem_entriesOf opsA k v).2 hm)) c hc)
    (by omega)
  obtain ⟨hbB, hlB, hfB⟩ := run_spec e P hP
    (run e (CAdaptiveRadixTree.newShared, List.replicate n 0) opsA).2
    (by rw [hlA, hlen0]; exact hn) opsB
    hdB (by rw [hlA, hlen0]; exact hltB)
    (fun k v hm c hc => hbytes (k, v) (by
      rw [entriesOf_append]
      exact List.mem_append_right _ ((mem_entriesOf opsB k v).2 hm)) c hc)
    (by omega)
  refine ⟨?_, hbB, ?_⟩
  · refine Built_frame e P opsA _ _ _ hbA ?_
    intro x hx
    exact hfB x (fun hxB => hdisj hx hxB)
  · show (run e (CAdaptiveRadixTree.newShared, _) opsB).2.length = n
    rw [hlB, hlA, hlen0]

theorem nulls_entries_disjoint (ops : List Op) (hd : (ops.map Op.value).Nodup) (x : Nat)
    (h1 : x ∈ nullsOf ops) (h2 : x ∈ (entriesOf ops).map Prod.snd) : False := by
  induction ops with
  | nil => simp [nullsOf] at h1
  | cons op ops ih =>
    rw [List.map_cons, List.nodup_cons] at hd
    cases op with
    | AddEntry k v =>
      simp only [nullsOf] at h1
      simp only [entriesOf, List.map_cons, List.mem_cons] at h2
      rcases h2 with rfl | h2
      · exact hd.1 (nullsOf_sub ops _ h1)
      · exact ih hd.2 h1 h2
    | AddNullString v =>
      simp only [nullsOf, List.mem_cons] at h1
      simp only [entriesOf] at h2
      rcases h1 with rfl | h1
      · exact hd.1 ((entries_sublist ops).subset h2)
      · exact ih hd.2 h1 h2

theorem Join_eq (e : Bool) (fuel : Nat) (this other : CAdaptiveRadixTree) (I : List Nat)
    (t1 : CAdaptiveRadixTree) (I1 : List Nat) (l r : CArtNode)
    (res : CArtNode × Ptr CArtNode × CAdaptiveRadixTree × List Nat)
    (h1 : joinNullLoop fuel (GetNullStringBegin other) this I = some (t1, I1))
    (hl : t1.root_ = Ptr.to l) (hr : other.root_ = Ptr.to r)
    (h2 : Merge e other.suffix_table_ fuel l r t1 I1 = some res) :
    Join e fuel this other I = some
      ({ res.2.2.1 with
          root_ := Ptr.to res.1,
          total_string_length_ :=
            sizeT e (res.2.2.1.total_string_length_ + GetTotalStringLength
              { other with root_ := res.2.1 }),
          max_string_length_ := max res.2.2.1.max_string_length_
            (GetMaxStringLength { other with root_ := res.2.1 }) },
        { other with root_ := res.2.1 }, res.2.2.2) := by
  unfold Join
  rw [h1]
  simp only [Option.some_bind, hl, hr, h2, Option.map_some']
/-- A step of the child loop of `MergeChildNodes` for a donor child under the byte `b`
returns, keeps the recipient node well-formed, keeps its base apart from the child count,
and keeps its children under all other bytes. -/
theorem other_step (e : Bool) (P : Nat → Prop) (hP : ∀ c, P c → c < 256) (Sr : List Nat)
    (c : Nat → List Nat) (N F : Nat) (r : CArtNode) (hk : KidsOK e P Sr r) (b s : Nat)
    (ch : CArtNode) (hps : (b, s) ∈ r.slots e) (hchs : r.child_.getD s Ptr.nullptr = Ptr.to ch)
    (l0 : CArtNode) (t0 : CAdaptiveRadixTree) (I0 : List Nat) (hl : NodeOK e l0)
    (hro : RightOK e Sr c N I0 ch) (hF : ch.height + N < F) :
    ∃ st1, mergeChild e Sr F r.child_ (some (l0, t0, I0)) (b, s) = some st1 ∧
      Framed (Owned e Sr c ch) t0 I0 st1.2.1 st1.2.2 ∧ NodeOK e st1.1 ∧
      st1.1.base.prefix_length_ = l0.base.prefix_length_ ∧
      st1.1.base.prefix_position_ = l0.base.prefix_position_ ∧
      st1.1.base.end_of_string_ = l0.base.end_of_string_ ∧
      st1.1.base.value_ = l0.base.value_ ∧
      ∀ c' q, c' ≠ b → ((c', q) ∈ st1.1.kids e ↔ (c', q) ∈ l0.kids e) := by
  have hkid : (b, Ptr.to ch) ∈ r.kids e := (mem_kids e r b _).2 ⟨s, hps, hchs⟩
  have hb : b < 256 := hP b (hk.2.1 b _ hkid)
  unfold mergeChild
  simp only [Option.some_bind, hchs]
  cases hfind : FindChild e l0 b with
  | none =>
    dsimp only
    rw [MovePrefixPtr]
    obtain ⟨h1, h2, h3, h4, h5⟩ := InsertInNode_spec e l0 b (MovePrefix e Sr ch t0).1 hl hb
      (FindChild_none e l0 b hl hfind)
    refine ⟨_, rfl, ⟨rfl, fun _ _ => rfl, MovePrefix_ext e Sr _ t0⟩, h1, ?_, ?_, ?_, ?_, ?_⟩
    · show (InsertInNode e l0 b _).1.base.prefix_length_ = _
      rw [h5]
    · show (InsertInNode e l0 b _).1.base.prefix_position_ = _
      rw [h5]
    · show (InsertInNode e l0 b _).1.base.end_of_string_ = _
      rw [h5]
    · show (InsertInNode e l0 b _).1.base.value_ = _
      rw [h5]
    · intro c' q hne
      show (c', q) ∈ (InsertInNode e l0 b _).1.kids e ↔ _
      rw [h4]
      constructor
      · rintro (⟨h, _⟩ | h)
        · exact absurd h hne
        · exact h
      · exact Or.inr
  | some slot =>
    dsimp only
    have hsl := FindChild_some e l0 b slot hl hfind hb
    obtain ⟨_, lc, hlc⟩ := slots_node e l0 hl b slot hsl
    rw [hlc]
    dsimp only
    obtain ⟨res, hres, hfr⟩ := (Merge_safe e P Sr c N F).1 lc ch t0 I0
      (KidsOK_of_TreeOK e P Sr ch (hk.2.2 b ch hkid)) hro hF
    obtain ⟨h1, _, h3, _⟩ := setChild_spec e l0 b slot res.1 hl hsl
    refine ⟨_, by rw [hres]; rfl, hfr, h1, by rw [h3], by rw [h3], by rw [h3], by rw [h3], ?_⟩
    intro c' q hne
    show (c', q) ∈ (l0.setChild slot (Ptr.to res.1)).kids e ↔ _
    rw [kids_setChild e l0 b slot res.1 hl hsl]
    constructor
    · rintro (⟨h, _⟩ | ⟨_, h⟩)
      · exact absurd h hne
      · exact h
    · exact fun h => Or.inr ⟨hne, h⟩

/-- The child loop of `MergeChildNodes` over donor children under the bytes of `L` returns,
writes only the chains of these children, keeps the recipient node well-formed, keeps its
base apart from the child count, and keeps its children under all other bytes. -/
theorem others_loop (e : Bool) (P : Nat → Prop) (hP : ∀ c, P c → c < 256) (Sr : List Nat)
    (c : Nat → List Nat) (N F : Nat) (I : List Nat) (r : CArtNode) (hk : KidsOK e P Sr r)
    (hr : RightOK e Sr c N I r) (hF : heightList r.child_ + N < F) :
    ∀ (L : List (Nat × Nat)), (∀ p, p ∈ L → p ∈ r.slots e) →
      L.Pairwise (fun p q => p.1 ≠ q.1) →
      ∀ (l0 : CArtNode) (t0 : CAdaptiveRadixTree) (I0 : List Nat), NodeOK e l0 →
        (∀ p ch, p ∈ L → r.child_.getD p.2 Ptr.nullptr = Ptr.to ch → RightOK e Sr c N I0 ch) →
        ∃ res, L.foldl (mergeChild e Sr F r.child_) (some (l0, t0, I0)) = some res ∧
          Framed (fun x => ∃ p ch, p ∈ L ∧ r.child_.getD p.2 Ptr.nullptr = Ptr.to ch ∧
            Owned e Sr c ch x) t0 I0 res.2.1 res.2.2 ∧
          NodeOK e res.1 ∧
          res.1.base.prefix_length_ = l0.base.prefix_length_ ∧
          res.1.base.prefix_position_ = l0.base.prefix_position_ ∧
          res.1.base.end_of_string_ = l0.base.end_of_string_ ∧
          res.1.base.value_ = l0.base.value_ ∧
          ∀ c' q, (∀ p, p ∈ L → p.1 ≠ c') →
            ((c', q) ∈ res.1.kids e ↔ (c', q) ∈ l0.kids e) := by
  intro L
  induction L with
  | nil =>
    intro _ _ l0 t0 I0 hl _
    exact ⟨_, rfl, Framed_refl _ t0 I0, hl, rfl, rfl, rfl, rfl, fun _ _ _ => Iff.rfl⟩
  | cons p L ihL =>
    intro hsub hpw l0 t0 I0 hl hch
    obtain ⟨b, s⟩ := p
    have hps : (b, s) ∈ r.slots e := hsub _ (List.mem_cons_self _ _)
    obtain ⟨_, ch, hchs⟩ := slots_node e r hk.1 b s hps
    have hkid : (b, Ptr.to ch) ∈ r.kids e := (mem_kids e r b _).2 ⟨s, hps, hchs⟩
    rw [List.pairwise_cons] at hpw
    obtain ⟨st1, hst1, hfr1, hn1, hb1, hb2, hb3, hb4, hk1⟩ := other_step e P hP Sr c N F r hk b s
      ch hps hchs l0 t0 I0 hl (hch (b, s) ch (List.mem_cons_self _ _) hchs)
      (by have := heightList_getD r.child_ s ch hchs; omega)
    obtain ⟨l1, t1, I1⟩ := st1
    obtain ⟨res, hres, hfr, hn, hc1, hc2, hc3, hc4, hkk⟩ :=
      ihL (fun p hp => hsub p (List.mem_cons_of_mem _ hp)) hpw.2 l1 t1 I1 hn1 (by
        intro p' ch' hp' hch'
        have hps' : p' ∈ r.slots e := hsub _ (List.mem_cons_of_mem _ hp')
        have hkid' : (p'.1, Ptr.to ch') ∈ r.kids e :=
          (mem_kids e r p'.1 _).2 ⟨p'.2, hps', hch'⟩
        refine RightOK_frame e Sr c N I0 I1 ch'
          (hch p' ch' (List.mem_cons_of_mem _ hp') hch') ?_
        intro x hx
        exact hfr1.2.1 x (fun hx1 =>
          Owned_disjoint e Sr c N I r hr b p'.1 ch ch' hkid hkid' (hpw.1 p' hp') x hx1 hx))
    refine ⟨res, ?_, ?_, hn, hc1.trans hb1, hc2.trans hb2, hc3.trans hb3, hc4.trans hb4, ?_⟩
    · rw [List.foldl_cons, hst1]; exact hres
    · refine Framed_trans _ _ _ _ _ _ _ (Framed_mono _ _ _ _ _ _ hfr1 ?_)
        (Framed_mono _ _ _ _ _ _ hfr ?_)
      · intro x hx
        exact ⟨(b, s), ch, List.mem_cons_self _ _, hchs, hx⟩
      · rintro x ⟨p', ch', hp', hch', hx⟩
        exact ⟨p', ch', List.mem_cons_of_mem _ hp', hch', hx⟩
    · intro c' q hne
      rw [hkk c' q (fun p hp => hne p (List.mem_cons_of_mem _ hp))]
      exact hk1 c' q (fun h => hne (b, s) (List.mem_cons_self _ _) h.symm)
theorem mergeMismatchLoop_min (S Sr : List Nat) (lpos llen rpos rlen : Nat)
    (heq : ∀ i, i < llen → i < rlen → S.getD (lpos + i) 0 = Sr.getD (rpos + i) 0) :
    ∀ (fuel m : Nat), min llen rlen ≤ m + fuel → m ≤ min llen rlen →
      mergeMismatchLoop S Sr lpos llen rpos rlen fuel m = min llen rlen := by
  intro fuel
  induction fuel with
  | zero =>
    intro m h1 h2
    rw [mergeMismatchLoop]
    omega
  | succ f ih =>
    intro m h1 h2
    rw [mergeMismatchLoop]
    by_cases hc : m < llen ∧ m < rlen
    · rw [if_pos hc, if_neg (by rw [not_not]; exact heq m hc.1 hc.2)]
      exact ih (m + 1) (by omega) (by omega)
    · rw [if_neg hc]
      omega

/-- When the prefixes of both nodes are prefixes of one key, the comparison loop of `Merge`
runs to the end of the shorter prefix. -/
theorem mergeMismatch_min (S Sr : List Nat) (l r : CArtNode) (k restL restR : List Nat)
    (hl : l.base.prefix_position_ + l.base.prefix_length_ ≤ S.length)
    (hr : r.base.prefix_position_ + r.base.prefix_length_ ≤ Sr.length)
    (hkl : k = l.pfx S ++ restL) (hkr : k = r.pfx Sr ++ restR) :
    mergeMismatch S Sr l r = min l.base.prefix_length_ r.base.prefix_length_ := by
  unfold mergeMismatch
  refine mergeMismatchLoop_min S Sr _ _ _ _ ?_ _ 0 (by omega) (Nat.zero_le _)
  intro i hi1 hi2
  rw [← pfx_getD S l i hi1, ← pfx_getD Sr r i hi2]
  have h1 : k.getD i 0 = (l.pfx S).getD i 0 := by
    rw [hkl, List.getD_append _ _ _ _ (by rw [pfx_length S l hl]; exact hi1)]
  have h2 : k.getD i 0 = (r.pfx Sr).getD i 0 := by
    rw [hkr, List.getD_append _ _ _ _ (by rw [pfx_length Sr r hr]; exact hi2)]
  rw [← h1, ← h2]

theorem Reach_mono (e : Bool) (S ext : List Nat) (n : CArtNode) (rest : List Nat) (v : Nat)
    (h : Reach e S n rest v) : Reach e (S ++ ext) n rest v := by
  induction h with
  | here n hn heos => exact Reach.here n hn heos
  | under n c ch rest v hn hc hkid hb _ ih =>
    have := Reach.under (S := S ++ ext) n c ch rest v hn hc hkid
      (by rw [List.length_append]; omega) ih
    rw [pfx_append S ext ch hb] at this
    exact this

theorem Finds_mono (e : Bool) (S ext : List Nat) (n : CArtNode) (k : List Nat) (v : Nat)
    (h : Finds e S n k v) : Finds e (S ++ ext) n k v := by
  obtain ⟨hb, rest, hk, hr⟩ := h
  refine ⟨by rw [List.length_append]; omega, rest, ?_, Reach_mono e S ext n rest v hr⟩
  rw [pfx_append S ext n hb]
  exact hk

theorem Reach_congr (e : Bool) (S : List Nat) (n n' : CArtNode) (rest : List Nat) (v : Nat)
    (hn : NodeOK e n') (hk : n'.kids e = n.kids e)
    (he : n'.base.end_of_string_ = n.base.end_of_string_)
    (hv : n'.base.value_ = n.base.value_) (h : Reach e S n rest v) : Reach e S n' rest v := by
  cases h with
  | here _ _ heos =>
    rw [← hv]
    exact Reach.here n' hn (by rw [he]; exact heos)
  | under _ c ch rest v _ hc hkid hb h =>
    exact Reach.under n' c ch rest v hn hc (by rw [hk]; exact hkid) hb h

/-- In a well-formed subtree the descent reaches every stored key. -/
theorem Reach_of_Holds (e : Bool) (P : Nat → Prop) (hP : ∀ c, P c → c < 256) (S : List Nat)
    (n : CArtNode) (h : TreeOK e P S n) :
    ∀ (rest : List Nat) (v : Nat), Holds e S n (n.pfx S ++ rest) v → Reach e S n rest v := by
  induction h with
  | mk n hnode hbound hval hpfx hbyte hkids ih =>
    intro rest v hh
    rw [Holds_iff] at hh
    obtain ⟨r, hk, hcase⟩ := hh
    have := List.append_cancel_left hk
    subst this
    rcases hcase with ⟨hr, heos, hv⟩ | ⟨c, ch, r', hr, hkid, hch⟩
    · subst hr; subst hv
      exact Reach.here n hnode heos
    · subst hr
      obtain ⟨r'', hr''⟩ := Holds.pfx_le e S ch r' v hch
      subst hr''
      have hchOK := hkids c ch hkid
      have hb : ch.base.prefix_position_ + ch.base.prefix_length_ ≤ S.length := by
        cases hchOK with
        | mk _ _ hb _ _ _ _ => exact hb
      exact Reach.under n c ch r'' v hnode (hP c (hbyte c _ hkid)) hkid hb
        (ih c ch hkid r'' v hch)

theorem Finds_of_Holds (e : Bool) (P : Nat → Prop) (hP : ∀ c, P c → c < 256) (S : List Nat)
    (n : CArtNode) (h : TreeOK e P S n) (k : List Nat) (v : Nat) (hh : Holds e S n k v) :
    Finds e S n k v := by
  have hb : n.base.prefix_position_ + n.base.prefix_length_ ≤ S.length := by
    cases h with
    | mk _ _ hb _ _ _ _ => exact hb
  obtain ⟨rest, hk⟩ := Holds.pfx_le e S n k v hh
  subst hk
  exact ⟨hb, rest, rfl, Reach_of_Holds e P hP S n h rest v hh⟩

/-- The descent `findTerminal` arrives where `Finds` says. -/
theorem findTerminal_of_Finds (e : Bool) (S : List Nat) :
    ∀ (fuel : Nat) (n : CArtNode) (k : List Nat) (v : Nat), Finds e S n k v →
      k.length < fuel → findTerminal e S fuel n k = some v := by
  have key : ∀ (n : CArtNode) (rest : List Nat) (v : Nat), Reach e S n rest v →
      ∀ fuel, n.base.prefix_position_ + n.base.prefix_length_ ≤ S.length →
        (n.pfx S ++ rest).length < fuel →
        findTerminal e S fuel n (n.pfx S ++ rest) = some v := by
    intro n rest v h
    induction h with
    | here n hn heos =>
      intro fuel hb hf
      obtain ⟨f, rfl⟩ : ∃ f, fuel = f + 1 := ⟨fuel - 1, by omega⟩
      have hlen := pfx_length S n hb
      unfold findTerminal
      have htake : (n.pfx S ++ []).take n.base.prefix_length_ = n.pfx S := by
        rw [← hlen, List.take_left']; rfl
      have hdrop : (n.pfx S ++ []).drop n.base.prefix_length_ = [] := by
        rw [← hlen, List.drop_left']; rfl
      rw [if_pos htake, hdrop]
      simp only [heos, if_true]
    | under n c ch rest v hn hc hkid hbch _ ih =>
      intro fuel hb hf
      obtain ⟨f, rfl⟩ : ∃ f, fuel = f + 1 := ⟨fuel - 1, by omega⟩
      have hlen := pfx_length S n hb
      unfold findTerminal
      have htake : (n.pfx S ++ c :: (ch.pfx S ++ rest)).take n.base.prefix_length_ = n.pfx S := by
        rw [← hlen, List.take_left']; rfl
      have hdrop : (n.pfx S ++ c :: (ch.pfx S ++ rest)).drop n.base.prefix_length_ =
          c :: (ch.pfx S ++ rest) := by
        rw [← hlen, List.drop_left']; rfl
      rw [if_pos htake, hdrop]
      simp only []
      obtain ⟨s, hs, hcs⟩ := (mem_kids e n c _).1 hkid
      cases hfind : FindChild e n c with
      | none => exact absurd hs (FindChild_none e n c hn hfind s)
      | some s' =>
        have := slots_fun e n hn c s s' hs (FindChild_some e n c s' hn hfind hc)
        subst this
        simp only [hcs]
        refine ih f hbch ?_
        rw [List.length_append, List.length_cons] at hf
        omega
  intro fuel n k v h hf
  obtain ⟨hb, rest, hk, hr⟩ := h
  subst hk
  exact key n rest v hr fuel hb hf
theorem pfx_of_fields (S : List Nat) (n n' : CArtNode)
    (h1 : n'.base.prefix_length_ = n.base.prefix_length_)
    (h2 : n'.base.prefix_position_ = n.base.prefix_position_) : n'.pfx S = n.pfx S := by
  unfold CArtNode.pfx
  rw [h1, h2]

theorem TreeOK_bound (e : Bool) (P : Nat → Prop) (S : List Nat) (n : CArtNode)
    (h : TreeOK e P S n) : n.base.prefix_position_ + n.base.prefix_length_ ≤ S.length := by
  cases h with
  | mk _ _ hb _ _ _ _ => exact hb

theorem TreeExt_suffix (t t' : CAdaptiveRadixTree) (h : TreeExt t t') :
    ∃ ext, t'.suffix_table_ = t.suffix_table_ ++ ext := by
  obtain ⟨ext, u, rfl⟩ := h
  exact ⟨ext, rfl⟩

theorem Below_rightStep (e : Bool) (S : List Nat) (r : CArtNode) (m : Nat) (rest : List Nat)
    (v : Nat) : Below e S (rightStep r m) rest v ↔ Below e S r rest v :=
  Below_setBase e S r { r.base with
    prefix_length_ := r.base.prefix_length_ - m - 1,
    prefix_position_ := r.base.prefix_position_ + m + 1 } rfl rfl rfl rest v

theorem Below_rightCut (e : Bool) (S : List Nat) (r : CArtNode) (m : Nat) (rest : List Nat)
    (v : Nat) : Below e S (rightCut r m) rest v ↔ Below e S r rest v :=
  Below_setBase e S r { r.base with
    prefix_length_ := r.base.prefix_length_ - m,
    prefix_position_ := r.base.prefix_position_ + m } rfl rfl rfl rest v

theorem RightOK_rightStep (e : Bool) (S : List Nat) (c : Nat → List Nat) (N : Nat)
    (I : List Nat) (r : CArtNode) (m : Nat) (h : RightOK e S c N I r) :
    RightOK e S c N I (rightStep r m) :=
  RightOK_setBase e S c N I r { r.base with
    prefix_length_ := r.base.prefix_length_ - m - 1,
    prefix_position_ := r.base.prefix_position_ + m + 1 } rfl rfl rfl h

theorem RightOK_rightCut (e : Bool) (S : List Nat) (c : Nat → List Nat) (N : Nat)
    (I : List Nat) (r : CArtNode) (m : Nat) (h : RightOK e S c N I r) :
    RightOK e S c N I (rightCut r m) :=
  RightOK_setBase e S c N I r { r.base with
    prefix_length_ := r.base.prefix_length_ - m,
    prefix_position_ := r.base.prefix_position_ + m } rfl rfl rfl h

theorem KidsOK_rightCut (e : Bool) (P : Nat → Prop) (S : List Nat) (r : CArtNode) (m : Nat)
    (h : KidsOK e P S r) : KidsOK e P S (rightCut r m) :=
  KidsOK_setBase e P S r { r.base with
    prefix_length_ := r.base.prefix_length_ - m,
    prefix_position_ := r.base.prefix_position_ + m } rfl h

/-- The recursive step of `Merge` for a key that both subtrees store, given the statement
for `MergeChildNodes` and for `Merge` with less fuel. -/
theorem Merge_path_step (e : Bool) (P : Nat → Prop) (hP : ∀ c, P c → c < 256) (Sr : List Nat)
    (c : Nat → List Nat) (N F : Nat)
    (ihM : ∀ (l r : CArtNode) (t : CAdaptiveRadixTree) (I : List Nat) (k : List Nat)
      (vA vB : Nat) (cA : List Nat), (∀ b, b ∈ k → b ≠ 0) →
      TreeOK e P t.suffix_table_ l → Holds e t.suffix_table_ l k vA → Chain I vA cA →
      TreeOK e P Sr r → Holds e Sr r k vB → RightOK e Sr c N I r →
      (∀ x, x ∈ cA → ¬ Owned e Sr c r x) → (∀ x, Owned e Sr c r x → x < I.length) →
      r.height + N < F →
      ∃ res, Merge e Sr F l r t I = some res ∧
        Framed (Owned e Sr c r) t I res.2.2.1 res.2.2.2 ∧
        ∃ v', Finds e res.2.2.1.suffix_table_ res.1 k v' ∧
          Chain res.2.2.2 v' ((c vB).reverse ++ cA))
    (ihC : ∀ (l r : CArtNode) (t : CAdaptiveRadixTree) (I : List Nat) (rest : List Nat)
      (vA vB : Nat) (cA : List Nat), (∀ b, b ∈ rest → b ≠ 0) →
      KidsOK e P t.suffix_table_ l → Below e t.suffix_table_ l rest vA → Chain I vA cA →
      KidsOK e P Sr r → Below e Sr r rest vB → RightOK e Sr c N I r →
      (∀ x, x ∈ cA → ¬ Owned e Sr c r x) → (∀ x, Owned e Sr c r x → x < I.length) →
      heightList r.child_ + N + 1 < F →
      ∃ res, MergeChildNodes e Sr F l r t I = some res ∧
        Framed (Owned e Sr c r) t I res.2.1 res.2.2 ∧
        res.1.base.prefix_length_ = l.base.prefix_length_ ∧
        res.1.base.prefix_position_ = l.base.prefix_position_ ∧
        ∃ v', Reach e res.2.1.suffix_table_ res.1 rest v' ∧
          Chain res.2.2 v' ((c vB).reverse ++ cA))
    (l r : CArtNode) (t : CAdaptiveRadixTree) (I : List Nat) (k : List Nat)
    (vA vB : Nat) (cA : List Nat) (hzk : ∀ b, b ∈ k → b ≠ 0)
    (hl : TreeOK e P t.suffix_table_ l) (hhl : Holds e t.suffix_table_ l k vA)
    (hcA : Chain I vA cA) (hr : TreeOK e P Sr r) (hhr : Holds e Sr r k vB)
    (hro : RightOK e Sr c N I r) (hdis : ∀ x, x ∈ cA → ¬ Owned e Sr c r x)
    (hlt : ∀ x, Owned e Sr c r x → x < I.length) (hF : r.height + N < F + 1) :
    ∃ res, Merge e Sr (F + 1) l r t I = some res ∧
      Framed (Owned e Sr c r) t I res.2.2.1 res.2.2.2 ∧
      ∃ v', Finds e res.2.2.1.suffix_table_ res.1 k v' ∧
        Chain res.2.2.2 v' ((c vB).reverse ++ cA) := by
  have hbl := TreeOK_bound e P _ l hl
  have hbr := TreeOK_bound e P _ r hr
  have hpl := pfx_length t.suffix_table_ l hbl
  have hpr := pfx_length Sr r hbr
  obtain ⟨restL, hkl⟩ := Holds.pfx_le e _ l k vA hhl
  obtain ⟨restR, hkr⟩ := Holds.pfx_le e _ r k vB hhr
  have hm := mergeMismatch_min t.suffix_table_ Sr l r k restL restR hbl hbr hkl hkr
  have hkk : l.pfx t.suffix_table_ ++ restL = r.pfx Sr ++ restR := hkl.symm.trans hkr
  rw [height_eq] at hF
  rcases Nat.lt_trichotomy l.base.prefix_length_ r.base.prefix_length_ with hlt' | heq | hgt
  · -- the donor prefix is longer: descend in the recipient
    have hm' : mergeMismatch t.suffix_table_ Sr l r = l.base.prefix_length_ := by
      rw [hm]; omega
    have h1 : ¬ (mergeMismatch t.suffix_table_ Sr l r = l.base.prefix_length_ ∧
        mergeMismatch t.suffix_table_ Sr l r = r.base.prefix_length_) := by
      rw [hm']; omega
    have h2 : ¬ mergeMismatch t.suffix_table_ Sr l r < l.base.prefix_length_ := by
      rw [hm']; omega
    have h3 : mergeMismatch t.suffix_table_ Sr l r < r.base.prefix_length_ := by
      rw [hm']; omega
    rw [Merge_descend e Sr F l r t I h1 h2 h3, hm']
    obtain ⟨hT, _, _, hkids', hsplit, _⟩ := split_spec e P hP Sr r l.base.prefix_length_ hr hlt'
    have hTs : TreeOK e P Sr (rightStep r l.base.prefix_length_) := by
      cases hT with
      | mk _ _ _ _ _ _ hk => exact hk _ _ ((hkids' _ _).2 ⟨rfl, rfl⟩)
    have hsplit' : r.pfx Sr = (r.pfx Sr).take l.base.prefix_length_ ++
        Sr.getD (r.base.prefix_position_ + l.base.prefix_length_) 0 ::
          (rightStep r l.base.prefix_length_).pfx Sr := hsplit
    -- the key below the prefix of the recipient
    have hrest : restL = Sr.getD (r.base.prefix_position_ + l.base.prefix_length_) 0 ::
        ((rightStep r l.base.prefix_length_).pfx Sr ++ restR) := by
      have h := hkk
      rw [hsplit', List.append_assoc, List.cons_append] at h
      exact (List.append_inj h (by rw [hpl, List.length_take, hpr]; omega)).2
    have hbr' : Below e Sr r restR vB := by
      unfold Below; rw [← hkr]; exact hhr
    have hzk1 : ∀ b, b ∈ (rightStep r l.base.prefix_length_).pfx Sr ++ restR → b ≠ 0 :=
      fun b hb => hzk b (by
        rw [hkl, hrest]; exact List.mem_append_right _ (List.mem_cons_of_mem _ hb))
    rw [hkl, Holds_iff] at hhl
    obtain ⟨r0, hr0, hcase⟩ := hhl
    have := List.append_cancel_left hr0
    subst this
    rcases hcase with ⟨hnil, _, _⟩ | ⟨c0, lc, r', hcons, hkid, hlc⟩
    · rw [hrest] at hnil; cases hnil
    · rw [hrest] at hcons
      injection hcons with hc0 hr'
      subst hc0; subst hr'
      have hnode : NodeOK e l := by
        cases hl with
        | mk _ hn _ _ _ _ _ => exact hn
      have hlcOK : TreeOK e P t.suffix_table_ lc := by
        cases hl with
        | mk _ _ _ _ _ _ hk => exact hk _ _ hkid
      have hc256 : Sr.getD (r.base.prefix_position_ + l.base.prefix_length_) 0 < 256 := by
        cases hl with
        | mk _ _ _ _ _ hb _ => exact hP _ (hb _ _ hkid)
      obtain ⟨s, hs, hcs⟩ := (mem_kids e l _ _).1 hkid
      cases hfind : FindChild e l
          (Sr.getD (r.base.prefix_position_ + l.base.prefix_length_) 0) with
      | none => exact absurd hs (FindChild_none e l _ hnode hfind s)
      | some s' =>
        have := slots_fun e l hnode _ s s' hs (FindChild_some e l _ s' hnode hfind hc256)
        subst this
        simp only [hcs]
        obtain ⟨res, hres, hfr, v', hfind', hch'⟩ := ihM lc (rightStep r l.base.prefix_length_)
          t I _ vA vB cA hzk1 hlcOK hlc hcA hTs
          ((Below_rightStep e Sr r _ restR vB).2 hbr')
          (RightOK_rightStep e Sr c N I r _ hro)
          (fun x hx hx' => hdis x hx (Owned_rightStep e Sr c r _ x hx'))
          (fun x hx => hlt x (Owned_rightStep e Sr c r _ x hx))
          (by
            unfold rightStep
            rw [height_setBase]
            dsimp only
            omega)
        obtain ⟨ext, hext⟩ := TreeExt_suffix _ _ hfr.2.2
        obtain ⟨hsc1, _, hsc3, _⟩ := setChild_spec e l _ s res.1 hnode hs
        refine ⟨(l.setChild s (Ptr.to res.1), res.2.1, res.2.2.1, res.2.2.2), by rw [hres]; rfl,
          Framed_mono _ _ _ _ _ _ hfr (fun x hx => Owned_rightStep e Sr c r _ x hx), v', ?_, hch'⟩
        obtain ⟨hb', rest', hk', hreach⟩ := hfind'
        refine ⟨?_, _, ?_, Reach.under _ _ res.1 rest' v' hsc1 hc256
          ((kids_setChild e l _ s res.1 hnode hs _ _).2 (Or.inl ⟨rfl, rfl⟩)) hb' hreach⟩
        · show (l.setChild s (Ptr.to res.1)).base.prefix_position_ + _ ≤ _
          rw [hsc3, hext, List.length_append]; omega
        · show _ = (l.setChild s (Ptr.to res.1)).pfx _ ++ _
          rw [pfx_of_fields _ l _ (by rw [hsc3]) (by rw [hsc3]), hext,
            pfx_append _ ext l hbl, ← hext, ← hk']
          rw [hkl, hrest]
  · -- both prefixes end together: merge the children
    have hm' : mergeMismatch t.suffix_table_ Sr l r = l.base.prefix_length_ := by
      rw [hm]; omega
    have h1 : mergeMismatch t.suffix_table_ Sr l r = l.base.prefix_length_ ∧
        mergeMismatch t.suffix_table_ Sr l r = r.base.prefix_length_ := by
      rw [hm']; omega
    rw [Merge_both e Sr F l r t I h1]
    have hrests := (List.append_inj hkk (by rw [hpl, hpr, heq])).2
    have hbl' : Below e t.suffix_table_ l restL vA := by
      unfold Below; rw [← hkl]; exact hhl
    have hbr' : Below e Sr r restL vB := by
      unfold Below; rw [hrests, ← hkr]; exact hhr
    obtain ⟨res, hres, hfr, hp1, hp2, v', hreach, hch'⟩ := ihC l r t I restL vA vB cA
      (fun b hb => hzk b (by rw [hkl]; exact List.mem_append_right _ hb))
      (KidsOK_of_TreeOK e P _ l hl) hbl' hcA (KidsOK_of_TreeOK e P _ r hr) hbr' hro hdis hlt
      (by omega)
    obtain ⟨ext, hext⟩ := TreeExt_suffix _ _ hfr.2.2
    refine ⟨(res.1, Ptr.nullptr, res.2.1, res.2.2), by rw [hres]; rfl, hfr, v', ?_, hch'⟩
    refine ⟨?_, restL, ?_, hreach⟩
    · show res.1.base.prefix_position_ + res.1.base.prefix_length_ ≤ res.2.1.suffix_table_.length
      rw [hp1, hp2, hext, List.length_append]; omega
    · show k = res.1.pfx res.2.1.suffix_table_ ++ restL
      rw [pfx_of_fields _ l _ hp1 hp2, hext, pfx_append _ ext l hbl]
      exact hkl
  · -- the recipient prefix is longer: split it, then merge the children
    have hm' : mergeMismatch t.suffix_table_ Sr l r = r.base.prefix_length_ := by
      rw [hm]; omega
    have h1 : ¬ (mergeMismatch t.suffix_table_ Sr l r = l.base.prefix_length_ ∧
        mergeMismatch t.suffix_table_ Sr l r = r.base.prefix_length_) := by
      rw [hm']; omega
    have h2 : mergeMismatch t.suffix_table_ Sr l r < l.base.prefix_length_ := by
      rw [hm']; omega
    have h3 : ¬ mergeMismatch t.suffix_table_ Sr l r < r.base.prefix_length_ := by
      rw [hm']; omega
    rw [Merge_split_merge e Sr F l r t I h1 h2 h3, hm']
    obtain ⟨hT, hpfx, _, _, _, hHolds⟩ :=
      split_spec e P hP t.suffix_table_ l r.base.prefix_length_ hl hgt
    have hT' : TreeOK e P t.suffix_table_ (mergeSplit e t.suffix_table_ l r.base.prefix_length_) :=
      hT
    have hpfx' : (mergeSplit e t.suffix_table_ l r.base.prefix_length_).pfx t.suffix_table_ =
        (l.pfx t.suffix_table_).take r.base.prefix_length_ := hpfx
    have hk2 : k = (mergeSplit e t.suffix_table_ l r.base.prefix_length_).pfx t.suffix_table_ ++
        restR := by
      have hk0 : k = (l.pfx t.suffix_table_).take r.base.prefix_length_ ++
          ((l.pfx t.suffix_table_).drop r.base.prefix_length_ ++ restL) := by
        rw [← List.append_assoc, List.take_append_drop]; exact hkl
      have h := hk0.symm.trans hkr
      have hrests := (List.append_inj h (by rw [List.length_take, hpl, hpr]; omega)).2
      rw [hpfx', ← hrests]; exact hk0
    have hbL : Below e t.suffix_table_ (mergeSplit e t.suffix_table_ l r.base.prefix_length_)
        restR vA := by
      unfold Below
      rw [← hk2]
      exact (hHolds k vA).2 hhl
    have hbr' : Below e Sr r restR vB := by
      unfold Below; rw [← hkr]; exact hhr
    obtain ⟨res, hres, hfr, hp1, hp2, v', hreach, hch'⟩ := ihC
      (mergeSplit e t.suffix_table_ l r.base.prefix_length_) (rightCut r r.base.prefix_length_)
      t I restR vA vB cA
      (fun b hb => hzk b (by rw [hkr]; exact List.mem_append_right _ hb))
      (KidsOK_of_TreeOK e P _ _ hT') hbL hcA
      (KidsOK_rightCut e P Sr r _ (KidsOK_of_TreeOK e P _ r hr))
      ((Below_rightCut e Sr r _ restR vB).2 hbr') (RightOK_rightCut e Sr c N I r _ hro)
      (fun x hx hx' => hdis x hx (Owned_rightCut e Sr c r _ x hx'))
      (fun x hx => hlt x (Owned_rightCut e Sr c r _ x hx))
      (by unfold rightCut; rw [child_setBase]; omega)
    obtain ⟨ext, hext⟩ := TreeExt_suffix _ _ hfr.2.2
    have hbL' := TreeOK_bound e P _ _ hT'
    refine ⟨(res.1, Ptr.nullptr, res.2.1, res.2.2), by rw [hres]; rfl,
      Framed_mono _ _ _ _ _ _ hfr (fun x hx => Owned_rightCut e Sr c r _ x hx), v', ?_, hch'⟩
    refine ⟨?_, restR, ?_, hreach⟩
    · show res.1.base.prefix_position_ + res.1.base.prefix_length_ ≤ res.2.1.suffix_table_.length
      rw [hp1, hp2, hext, List.length_append]; omega
    · show k = res.1.pfx res.2.1.suffix_table_ ++ restR
      rw [pfx_of_fields _ _ _ hp1 hp2, hext, pfx_append _ ext _ hbL']
      exact hk2

theorem Below_nil (e : Bool) (S : List Nat) (n : CArtNode) (v : Nat) (h : Below e S n [] v) :
    n.base.end_of_string_ = true ∧ v = n.base.value_ := by
  unfold Below at h
  rw [Holds_iff] at h
  obtain ⟨r0, hr0, hcase⟩ := h
  have := List.append_cancel_left hr0
  subst this
  rcases hcase with ⟨_, h1, h2⟩ | ⟨_, _, _, h, _⟩
  · exact ⟨h1, h2⟩
  · cases h

theorem Below_cons (e : Bool) (S : List Nat) (n : CArtNode) (b : Nat) (k1 : List Nat) (v : Nat)
    (h : Below e S n (b :: k1) v) : ∃ ch, (b, Ptr.to ch) ∈ n.kids e ∧ Holds e S ch k1 v := by
  unfold Below at h
  rw [Holds_iff] at h
  obtain ⟨r0, hr0, hcase⟩ := h
  have := List.append_cancel_left hr0
  subst this
  rcases hcase with ⟨h, _, _⟩ | ⟨c, ch, r', h, hk, hh⟩
  · cases h
  · injection h with h1 h2
    subst h1; subst h2
    exact ⟨ch, hk, hh⟩

/-- The head of `MergeChildNodes`: the chain of the donor node, if it is a terminal node,
is moved to the recipient node; only the cells of that chain are written. -/
theorem mergeHead_spec (e : Bool) (Sr : List Nat) (c : Nat → List Nat) (N F : Nat)
    (l r : CArtNode) (t : CAdaptiveRadixTree) (I : List Nat) (hro : RightOK e Sr c N I r)
    (hF : N < F + 1) :
    ∃ b' t0 I0, mergeHead F l r t I = some (l.setBase b', t0, I0) ∧
      I0.length = I.length ∧
      (∀ x, ¬ (r.base.end_of_string_ = true ∧ x ∈ c r.base.value_) →
        I0.getD x 0 = I.getD x 0) ∧
      TreeExt t t0 ∧
      b'.prefix_length_ = l.base.prefix_length_ ∧
      b'.prefix_position_ = l.base.prefix_position_ ∧
      b'.children_count_ = l.base.children_count_ ∧
      (r.base.end_of_string_ = true → b'.end_of_string_ = true ∧
        ∀ a, Chain I l.base.value_ a → (∀ x, x ∈ c r.base.value_ → x ∉ a) →
          (∀ x, x ∈ c r.base.value_ → x < I.length) →
          Chain I0 b'.value_ ((c r.base.value_).reverse ++ a)) := by
  unfold mergeHead
  by_cases heos : r.base.end_of_string_ = true
  · rw [if_pos heos]
    obtain ⟨hc1, hc2, hc3, hc4⟩ := hro.1 [] _ (Below_here e Sr r heos)
    obtain ⟨b', t', I', hl, hlen, hfr, hext, hb1, hb2, hb3, _, hbne, hch⟩ :=
      mergeChainLoop_spec (c r.base.value_) r.base.value_ (F + 1) l t I hc1 hc2 (by omega)
    exact ⟨b', t', I', hl, hlen, fun x hx => hfr x (fun hxc => hx ⟨heos, hxc⟩), hext, hb1, hb2,
      hb3, fun _ => ⟨hbne hc4, hch⟩⟩
  · rw [if_neg heos]
    exact ⟨l.base, t, I, by rw [setBase_base], rfl, fun _ _ => rfl, TreeExt_refl t, rfl, rfl, rfl,
      fun h => absurd h heos⟩

/-- The step of `MergeChildNodes` for a key that both subtrees store below the two nodes,
given the statement for `Merge` with less fuel. -/
theorem MergeChildNodes_path_step (e : Bool) (P : Nat → Prop) (hP : ∀ c, P c → c < 256)
    (Sr : List Nat) (c : Nat → List Nat) (N F : Nat)
    (ihM : ∀ (l r : CArtNode) (t : CAdaptiveRadixTree) (I : List Nat) (k : List Nat)
      (vA vB : Nat) (cA : List Nat), (∀ b, b ∈ k → b ≠ 0) →
      TreeOK e P t.suffix_table_ l → Holds e t.suffix_table_ l k vA → Chain I vA cA →
      TreeOK e P Sr r → Holds e Sr r k vB → RightOK e Sr c N I r →
      (∀ x, x ∈ cA → ¬ Owned e Sr c r x) → (∀ x, Owned e Sr c r x → x < I.length) →
      r.height + N < F →
      ∃ res, Merge e Sr F l r t I = some res ∧
        Framed (Owned e Sr c r) t I res.2.2.1 res.2.2.2 ∧
        ∃ v', Finds e res.2.2.1.suffix_table_ res.1 k v' ∧
          Chain res.2.2.2 v' ((c vB).reverse ++ cA))
    (l r : CArtNode) (t : CAdaptiveRadixTree) (I : List Nat) (rest : List Nat)
    (vA vB : Nat) (cA : List Nat) (hzk : ∀ b, b ∈ rest → b ≠ 0)
    (hkl : KidsOK e P t.suffix_table_ l) (hbl : Below e t.suffix_table_ l rest vA)
    (hcA : Chain I vA cA) (hkr : KidsOK e P Sr r) (hbr : Below e Sr r rest vB)
    (hro : RightOK e Sr c N I r) (hdis : ∀ x, x ∈ cA → ¬ Owned e Sr c r x)
    (hlt : ∀ x, Owned e Sr c r x → x < I.length)
    (hF : heightList r.child_ + N + 1 < F + 1) :
    ∃ res, MergeChildNodes e Sr (F + 1) l r t I = some res ∧
      Framed (Owned e Sr c r) t I res.2.1 res.2.2 ∧
      res.1.base.prefix_length_ = l.base.prefix_length_ ∧
      res.1.base.prefix_position_ = l.base.prefix_position_ ∧
      ∃ v', Reach e res.2.1.suffix_table_ res.1 rest v' ∧
        Chain res.2.2 v' ((c vB).reverse ++ cA) := by
  rw [MergeChildNodes_eq e Sr F l r t I hkr.1]
  have hslots : ∀ p, p ∈ r.tslots e → p ∈ r.slots e := fun p hp => (mem_tslots e r p).1 hp
  have hpw : (r.tslots e).Pairwise (fun p q => p.1 ≠ q.1) :=
    (tslots_sorted e r hkr.1).imp (fun h => Nat.ne_of_lt h)
  obtain ⟨b', t0, I0, hhead, hlen0, hfr0, hext0, hb1, hb2, hb3, hheos⟩ :=
    mergeHead_spec e Sr c N F l r t I hro (by omega)
  rw [hhead]
  obtain ⟨hnl0, _, _, hkids0, hbase0⟩ := NodeOK_setBase e l b' hb3
  have hn0 : NodeOK e (l.setBase b') := hnl0.2 hkl.1
  have hkidOf : ∀ p ch, p ∈ r.slots e → r.child_.getD p.2 Ptr.nullptr = Ptr.to ch →
      (p.1, Ptr.to ch) ∈ r.kids e := fun p ch hp hch => (mem_kids e r p.1 _).2 ⟨p.2, hp, hch⟩
  -- the cells of the chain of the donor node do not belong to a child of the donor
  have hnot0 : ∀ p ch x, p ∈ r.slots e → r.child_.getD p.2 Ptr.nullptr = Ptr.to ch →
      Owned e Sr c ch x → ¬ (r.base.end_of_string_ = true ∧ x ∈ c r.base.value_) := by
    rintro p ch x hp hch ⟨rest', v, hb, hxv⟩ ⟨heos, hxc⟩
    exact hro.2 _ _ v _ (Below_child e Sr r p.1 ch (hkidOf p ch hp hch) rest' v hb)
      (Below_here e Sr r heos) (by simp) x hxv hxc
  have hchild0 : ∀ p ch, p ∈ r.slots e → r.child_.getD p.2 Ptr.nullptr = Ptr.to ch →
      RightOK e Sr c N I0 ch := by
    intro p ch hp hch
    exact RightOK_child e Sr c N I I0 r p.1 ch (hkidOf p ch hp hch) hro
      (fun x hx => hfr0 x (hnot0 p ch x hp hch hx))
  have hW0 : Framed (Owned e Sr c r) t I t0 I0 :=
    ⟨hlen0, fun x hx => hfr0 x (fun h => hx ⟨[], _, Below_here e Sr r h.1, h.2⟩), hext0⟩
  have hcA0 : Chain I0 vA cA := Chain_frame I I0 _ _
    (fun x hx => hW0.2.1 x (hdis x hx)) hcA
  cases rest with
  | nil =>
    obtain ⟨heosl, hvA⟩ := Below_nil e _ l vA hbl
    obtain ⟨heosr, hvB⟩ := Below_nil e _ r vB hbr
    subst hvA; subst hvB
    obtain ⟨hbeos, hchain0⟩ := hheos heosr
    have hc0 := hchain0 cA hcA
      (fun x hx hxa => hdis x hxa ⟨[], _, Below_here e Sr r heosr, hx⟩)
      (fun x hx => hlt x ⟨[], _, Below_here e Sr r heosr, hx⟩)
    obtain ⟨res, hres, hfrL, hn, hc1, hc2, hc3, hc4, _⟩ := others_loop e P hP Sr c N F I r hkr
      hro (by omega) (r.tslots e) hslots hpw (l.setBase b') t0 I0 hn0
      (fun p ch hp hch => hchild0 p ch (hslots p hp) hch)
    have hsubW : ∀ x, (∃ p ch, p ∈ r.tslots e ∧ r.child_.getD p.2 Ptr.nullptr = Ptr.to ch ∧
        Owned e Sr c ch x) → Owned e Sr c r x := by
      rintro x ⟨p, ch, hp, hch, hx⟩
      exact Owned_child e Sr c r p.1 ch (hkidOf p ch (hslots p hp) hch) x hx
    refine ⟨res, hres, Framed_trans _ _ _ _ _ _ _ hW0 (Framed_mono _ _ _ _ _ _ hfrL hsubW),
      by rw [hc1, hbase0, hb1], by rw [hc2, hbase0, hb2], res.1.base.value_,
      Reach.here res.1 hn (by rw [hc3, hbase0]; exact hbeos), ?_⟩
    rw [hc4, hbase0]
    refine Chain_frame I0 _ _ _ ?_ hc0
    intro x hx
    refine hfrL.2.1 x ?_
    rintro ⟨p, ch, hp, hch, hxo⟩
    rcases List.mem_append.1 hx with hx | hx
    · exact hnot0 p ch x (hslots p hp) hch hxo ⟨heosr, List.mem_reverse.1 hx⟩
    · exact hdis x hx (hsubW x ⟨p, ch, hp, hch, hxo⟩)
  | cons b0 k1 =>
    obtain ⟨lc, hkidl, hhlc⟩ := Below_cons e _ l b0 k1 vA hbl
    obtain ⟨ch, hkidr, hhch⟩ := Below_cons e _ r b0 k1 vB hbr
    obtain ⟨s0, hs0, hcs0⟩ := (mem_kids e r b0 _).1 hkidr
    have hPb0 : P b0 := hkr.2.1 b0 _ hkidr
    have hb0 : b0 < 256 := hP b0 hPb0
    have hts0 : (b0, s0) ∈ r.tslots e := (mem_tslots e r (b0, s0)).2 hs0 (hzk b0 (List.mem_cons_self _ _))
    obtain ⟨L1, L2, hL⟩ := List.append_of_mem hts0
    rw [hL] at hpw hslots
    rw [hL, List.foldl_append, List.foldl_cons]
    rw [List.pairwise_append, List.pairwise_cons] at hpw
    obtain ⟨hpw1, ⟨hpw0, hpw2⟩, hpw12⟩ := hpw
    have hsl1 : ∀ p, p ∈ L1 → p ∈ r.slots e := fun p hp => hslots p (List.mem_append_left _ hp)
    have hsl2 : ∀ p, p ∈ L2 → p ∈ r.slots e := fun p hp =>
      hslots p (List.mem_append_right _ (List.mem_cons_of_mem _ hp))
    have hne1 : ∀ p, p ∈ L1 → p.1 ≠ b0 := fun p hp =>
      hpw12 p hp (b0, s0) (List.mem_cons_self _ _)
    have hne2 : ∀ p, p ∈ L2 → p.1 ≠ b0 := fun p hp h => hpw0 p hp h.symm
    have hOwnCh : ∀ x, Owned e Sr c ch x → Owned e Sr c r x :=
      fun x hx => Owned_child e Sr c r b0 ch hkidr x hx
    have hsubW : ∀ (L : List (Nat × Nat)), (∀ p, p ∈ L → p ∈ r.slots e) →
        ∀ x, (∃ p ch, p ∈ L ∧ r.child_.getD p.2 Ptr.nullptr = Ptr.to ch ∧
          Owned e Sr c ch x) → Owned e Sr c r x := by
      rintro L hLs x ⟨p, ch', hp, hch', hx⟩
      exact Owned_child e Sr c r p.1 ch' (hkidOf p ch' (hLs p hp) hch') x hx
    have hdisjCh : ∀ (L : List (Nat × Nat)), (∀ p, p ∈ L → p ∈ r.slots e) →
        (∀ p, p ∈ L → p.1 ≠ b0) →
        ∀ x, Owned e Sr c ch x → ¬ (∃ p ch', p ∈ L ∧
          r.child_.getD p.2 Ptr.nullptr = Ptr.to ch' ∧ Owned e Sr c ch' x) := by
      rintro L hLs hLne x hx ⟨p, ch', hp, hch', hx'⟩
      exact Owned_disjoint e Sr c N I r hro p.1 b0 ch' ch (hkidOf p ch' (hLs p hp) hch') hkidr
        (hLne p hp) x hx' hx
    -- the children before the child under `b0`
    obtain ⟨res1, hres1, hfr1, hn1, hp11, hp12, _, _, hk1⟩ := others_loop e P hP Sr c N F I r
      hkr hro (by omega) L1 hsl1 hpw1 (l.setBase b') t0 I0 hn0
      (fun p ch hp hch => hchild0 p ch (hsl1 p hp) hch)
    rw [hres1]
    obtain ⟨l1, t1, I1⟩ := res1
    simp only [] at hfr1 hn1 hp11 hp12 hk1
    have hkid1 : (b0, Ptr.to lc) ∈ l1.kids e :=
      (hk1 b0 _ hne1).2 (by rw [hkids0]; exact hkidl)
    obtain ⟨sl, hsl, hcsl⟩ := (mem_kids e l1 b0 _).1 hkid1
    -- the child under `b0`
    obtain ⟨ext0, hext0'⟩ := TreeExt_suffix _ _ hext0
    obtain ⟨ext1, hext1'⟩ := TreeExt_suffix _ _ hfr1.2.2
    have hlcOK : TreeOK e P t1.suffix_table_ lc := by
      rw [hext1', hext0']
      exact TreeOK_mono e P _ _ lc (TreeOK_mono e P _ _ lc (hkl.2.2 b0 lc hkidl))
    have hhlc1 : Holds e t1.suffix_table_ lc k1 vA := by
      rw [hext1', hext0']
      exact (Holds_mono e P _ ext1 lc (TreeOK_mono e P _ _ lc (hkl.2.2 b0 lc hkidl)) k1 vA).2
        ((Holds_mono e P _ ext0 lc (hkl.2.2 b0 lc hkidl) k1 vA).2 hhlc)
    have hcA1 : Chain I1 vA cA := Chain_frame I0 I1 _ _
      (fun x hx => hfr1.2.1 x (fun hw => hdis x hx (hsubW L1 hsl1 x hw))) hcA0
    have hro1 : RightOK e Sr c N I1 ch :=
      RightOK_frame e Sr c N I0 I1 ch (hchild0 (b0, s0) ch hs0 hcs0)
        (fun x hx => hfr1.2.1 x (hdisjCh L1 hsl1 hne1 x hx))
    obtain ⟨res2, hres2, hfr2, v', hfinds, hch2⟩ := ihM lc ch t1 I1 k1 vA vB cA
      (fun b hb => hzk b (List.mem_cons_of_mem _ hb)) hlcOK hhlc1 hcA1
      (hkr.2.2 b0 ch hkidr) hhch hro1
      (fun x hx hx' => hdis x hx (hOwnCh x hx'))
      (fun x hx => by rw [hfr1.1, hlen0]; exact hlt x (hOwnCh x hx))
      (by have := heightList_getD r.child_ s0 ch hcs0; omega)
    have hstep : mergeChild e Sr F r.child_ (some (l1, t1, I1)) (b0, s0) =
        some (l1.setChild sl (Ptr.to res2.1), res2.2.2.1, res2.2.2.2) := by
      unfold mergeChild
      simp only [Option.some_bind]
      cases hfind : FindChild e l1 b0 with
      | none => exact absurd hsl (FindChild_none e l1 b0 hn1 hfind sl)
      | some s' =>
        have := slots_fun e l1 hn1 b0 sl s' hsl (FindChild_some e l1 b0 s' hn1 hfind hb0)
        subst this
        simp only [hcsl, hcs0, hres2, Option.map_some']
    rw [hstep]
    obtain ⟨hn2, _, hbase2, _⟩ := setChild_spec e l1 b0 sl res2.1 hn1 hsl
    -- the children after the child under `b0`
    obtain ⟨res3, hres3, hfr3, hn3, hp31, hp32, _, _, hk3⟩ := others_loop e P hP Sr c N F I r
      hkr hro (by omega) L2 hsl2 hpw2 (l1.setChild sl (Ptr.to res2.1)) res2.2.2.1 res2.2.2.2 hn2
      (by
        intro p ch' hp hch'
        refine RightOK_frame e Sr c N I0 _ ch' (hchild0 p ch' (hsl2 p hp) hch') ?_
        intro x hx
        have hkid' := hkidOf p ch' (hsl2 p hp) hch'
        rw [hfr2.2.1 x (fun hxc => Owned_disjoint e Sr c N I r hro b0 p.1 ch ch' hkidr hkid'
          (fun h => hne2 p hp h.symm) x hxc hx)]
        refine hfr1.2.1 x ?_
        rintro ⟨p', ch'', hp', hch'', hx'⟩
        exact Owned_disjoint e Sr c N I r hro p'.1 p.1 ch'' ch' (hkidOf p' ch'' (hsl1 p' hp') hch'')
          hkid' (hpw12 p' hp' p (List.mem_cons_of_mem _ hp)) x hx' hx)
    obtain ⟨ext3, hext3'⟩ := TreeExt_suffix _ _ hfr3.2.2
    obtain ⟨hbf, rest', hk1eq, hreach⟩ := Finds_mono e _ ext3 res2.1 k1 v' hfinds
    rw [← hext3'] at hbf hk1eq hreach
    have hkid3 : (b0, Ptr.to res2.1) ∈ res3.1.kids e :=
      (hk3 b0 _ hne2).2 ((kids_setChild e l1 b0 sl res2.1 hn1 hsl _ _).2 (Or.inl ⟨rfl, rfl⟩))
    refine ⟨res3, hres3, ?_, ?_, ?_, v', ?_, ?_⟩
    · exact Framed_trans _ _ _ _ _ _ _ hW0
        (Framed_trans _ _ _ _ _ _ _ (Framed_mono _ _ _ _ _ _ hfr1 (hsubW L1 hsl1))
          (Framed_trans _ _ _ _ _ _ _ (Framed_mono _ _ _ _ _ _ hfr2 hOwnCh)
            (Framed_mono _ _ _ _ _ _ hfr3 (hsubW L2 hsl2))))
    · rw [hp31, hbase2, hp11, hbase0, hb1]
    · rw [hp32, hbase2, hp12, hbase0, hb2]
    · rw [hk1eq]
      exact Reach.under res3.1 b0 res2.1 rest' v' hn3 hb0 hkid3 hbf hreach
    · refine Chain_frame res2.2.2.2 _ _ _ ?_ hch2
      intro x hx
      refine hfr3.2.1 x ?_
      intro hw
      rcases List.mem_append.1 hx with hx | hx
      · obtain ⟨rest'', hk''⟩ := Holds.pfx_le e Sr ch k1 vB hhch
        have hxo : Owned e Sr c ch x :=
          ⟨rest'', vB, by unfold Below; rw [← hk'']; exact hhch, List.mem_reverse.1 hx⟩
        exact hdisjCh L2 hsl2 hne2 x hxo hw
      · exact hdis x hx (hsubW L2 hsl2 x hw)

/-- For a key without a zero byte that both subtrees store, `Merge` returns and leaves the
key in the recipient with the chain of the donor, in reverse order, in front of the chain
of the recipient. -/
theorem Merge_path (e : Bool) (P : Nat → Prop) (hP : ∀ c, P c → c < 256) (Sr : List Nat)
    (c : Nat → List Nat) (N : Nat) :
    ∀ F : Nat,
      (∀ (l r : CArtNode) (t : CAdaptiveRadixTree) (I : List Nat) (k : List Nat)
        (vA vB : Nat) (cA : List Nat), (∀ b, b ∈ k → b ≠ 0) →
        TreeOK e P t.suffix_table_ l → Holds e t.suffix_table_ l k vA → Chain I vA cA →
        TreeOK e P Sr r → Holds e Sr r k vB → RightOK e Sr c N I r →
        (∀ x, x ∈ cA → ¬ Owned e Sr c r x) → (∀ x, Owned e Sr c r x → x < I.length) →
        r.height + N < F →
        ∃ res, Merge e Sr F l r t I = some res ∧
          Framed (Owned e Sr c r) t I res.2.2.1 res.2.2.2 ∧
          ∃ v', Finds e res.2.2.1.suffix_table_ res.1 k v' ∧
            Chain res.2.2.2 v' ((c vB).reverse ++ cA)) ∧
      (∀ (l r : CArtNode) (t : CAdaptiveRadixTree) (I : List Nat) (rest : List Nat)
        (vA vB : Nat) (cA : List Nat), (∀ b, b ∈ rest → b ≠ 0) →
        KidsOK e P t.suffix_table_ l → Below e t.suffix_table_ l rest vA → Chain I vA cA →
        KidsOK e P Sr r → Below e Sr r rest vB → RightOK e Sr c N I r →
        (∀ x, x ∈ cA → ¬ Owned e Sr c r x) → (∀ x, Owned e Sr c r x → x < I.length) →
        heightList r.child_ + N + 1 < F →
        ∃ res, MergeChildNodes e Sr F l r t I = some res ∧
          Framed (Owned e Sr c r) t I res.2.1 res.2.2 ∧
          res.1.base.prefix_length_ = l.base.prefix_length_ ∧
          res.1.base.prefix_position_ = l.base.prefix_position_ ∧
          ∃ v', Reach e res.2.1.suffix_table_ res.1 rest v' ∧
            Chain res.2.2 v' ((c vB).reverse ++ cA)) := by
  intro F
  induction F with
  | zero =>
    exact ⟨fun _ _ _ _ _ _ _ _ _ _ _ _ _ _ _ _ _ h => absurd h (Nat.not_lt_zero _),
      fun _ _ _ _ _ _ _ _ _ _ _ _ _ _ _ _ _ h => absurd h (Nat.not_lt_zero _)⟩
  | succ F ih =>
    exact ⟨Merge_path_step e P hP Sr c N F ih.1 ih.2,
      MergeChildNodes_path_step e P hP Sr c N F ih.1⟩
/-! ## `Reset`, the row-id vector and the independence of `AddEntry` from the totals -/

theorem set_self_getD (I : List Nat) (v : Nat) : I.set v (I.getD v 0) = I := by
  apply List.ext_getElem
  · simp
  · intro i h1 h2
    rw [List.getElem_set]
    split
    · next h => subst h; rw [List.getD_eq_getElem _ _ h2]
    · rfl

/-- `InsertValue` writes the cell `value` of the row-id vector. -/
theorem InsertValue_vector (t : CAdaptiveRadixTree) (I : List Nat) (n : CArtNode) (v : Nat) :
    (InsertValue t I n v).2.2 = I.set v n.base.value_ := rfl

/-- The loop of `AddEntry` changes the row-id vector at most in the cell `value`. -/
theorem AddEntryLoop_vector (e : Bool) (key : List Nat) (v : Nat) :
    ∀ (fuel depth : Nat) (n : CArtNode) (t : CAdaptiveRadixTree) (I : List Nat),
      ∃ h, (AddEntryLoop e key v fuel depth n t I).2.2 = I.set v h := by
  intro fuel
  induction fuel with
  | zero => intro depth n t I; exact ⟨_, (set_self_getD I v).symm⟩
  | succ f ih =>
    intro depth n t I
    rw [AddEntryLoop]
    dsimp only
    split_ifs
    all_goals repeat' split
    all_goals first
      | exact ⟨_, rfl⟩
      | exact ih _ _ _ _
      | exact ⟨_, (set_self_getD I v).symm⟩

theorem InsertValue_withTotals (t : CAdaptiveRadixTree) (I : List Nat) (n : CArtNode) (v a b : Nat) :
    InsertValue (withTotals a b t) I n v =
      ((InsertValue t I n v).1, withTotals a b (InsertValue t I n v).2.1,
        (InsertValue t I n v).2.2) := by
  unfold InsertValue withTotals
  dsimp only
  split_ifs <;> rfl

theorem AddEntryLoop_withTotals_map (e : Bool) (key : List Nat) (v a b : Nat) :
    ∀ (fuel depth : Nat) (n : CArtNode) (t : CAdaptiveRadixTree) (I : List Nat),
      AddEntryLoop e key v fuel depth n (withTotals a b t) I =
        Prod.map id (Prod.map (withTotals a b) id) (AddEntryLoop e key v fuel depth n t I) := by
  intro fuel
  induction fuel with
  | zero => intro depth n t I; rfl
  | succ f ih =>
    intro depth n t I
    have hs : (withTotals a b t).suffix_table_ = t.suffix_table_ := rfl
    have hw : ∀ s, { withTotals a b t with suffix_table_ := s } =
        withTotals a b { t with suffix_table_ := s } := fun s => rfl
    rw [AddEntryLoop, AddEntryLoop]
    simp only [hs, hw]
    split_ifs
    all_goals repeat' split
    all_goals first
      | (simp only [ih, InsertValue_withTotals, Prod.map, id]; done)
      | (rename_i _ c1 h1 _ c2 h2
         rw [h1] at h2
         injection h2 with h2
         subst h2
         simp only [ih, Prod.map, id])
      | (rename_i _ c1 h1 _ h2
         exact (h2 c1 h1).elim)

/-- The loop of `AddEntry` neither reads nor writes `total_string_length_` and
`max_string_length_`. -/
theorem AddEntryLoop_withTotals (e : Bool) (key : List Nat) (v a b : Nat)
    (fuel depth : Nat) (n : CArtNode) (t : CAdaptiveRadixTree) (I : List Nat) :
    AddEntryLoop e key v fuel depth n (withTotals a b t) I =
      ((AddEntryLoop e key v fuel depth n t I).1,
        withTotals a b (AddEntryLoop e key v fuel depth n t I).2.1,
        (AddEntryLoop e key v fuel depth n t I).2.2) :=
  AddEntryLoop_withTotals_map e key v a b fuel depth n t I

/-- The node and the tree members that the loop of `AddEntry` produces do not depend on the
contents of the row-id vector. -/
theorem AddEntryLoop_vector_free (e : Bool) (key : List Nat) (v : Nat) :
    ∀ (fuel depth : Nat) (n : CArtNode) (t : CAdaptiveRadixTree) (I I' : List Nat),
      Prod.map id Prod.fst (AddEntryLoop e key v fuel depth n t I) =
        Prod.map id Prod.fst (AddEntryLoop e key v fuel depth n t I') := by
  intro fuel
  induction fuel with
  | zero => intro depth n t I I'; rfl
  | succ f ih =>
    intro depth n t I I'
    have ih' : ∀ d n t, (AddEntryLoop e key v f d n t I).1 = (AddEntryLoop e key v f d n t I').1 ∧
        (AddEntryLoop e key v f d n t I).2.1 = (AddEntryLoop e key v f d n t I').2.1 := by
      intro d n t
      have h := ih d n t I I'
      simp only [Prod.map, id, Prod.mk.injEq] at h
      exact h
    have ih1 := fun d n t => (ih' d n t).1
    have ih2 := fun d n t => (ih' d n t).2
    rw [AddEntryLoop, AddEntryLoop]
    dsimp only
    split_ifs
    all_goals repeat' split
    all_goals simp only [ih1, ih2, InsertValue, Prod.map, id]

theorem AddEntry_withTotals (e : Bool) (t : CAdaptiveRadixTree) (I : List Nat) (key : List Nat)
    (v a b : Nat) :
    AddEntry e (withTotals a b t) I key v =
      (withTotals (sizeT e (a + key.length)) (max b key.length) (AddEntry e t I key v).1,
        (AddEntry e t I key v).2) := by
  have h1 : ({ withTotals a b t with
      total_string_length_ := sizeT e ((withTotals a b t).total_string_length_ + key.length),
      max_string_length_ := max (withTotals a b t).max_string_length_ key.length } :
        CAdaptiveRadixTree) =
      withTotals (sizeT e (a + key.length)) (max b key.length)
        { t with total_string_length_ := sizeT e (t.total_string_length_ + key.length),
                 max_string_length_ := max t.max_string_length_ key.length } := rfl
  rcases hr : t.root_ with _ | _ | root
  · unfold AddEntry
    simp only [withTotals, hr]
  · unfold AddEntry
    simp only [withTotals, hr]
  · have hr' : (withTotals a b t).root_ = Ptr.to root := hr
    rw [AddEntry_eq e _ I key v root hr', AddEntry_eq e t I key v root hr, h1,
      AddEntryLoop_withTotals]
    rfl

theorem AddEntry_vector_free (e : Bool) (t : CAdaptiveRadixTree) (I I' : List Nat)
    (key : List Nat) (v : Nat) : (AddEntry e t I key v).1 = (AddEntry e t I' key v).1 := by
  rcases hr : t.root_ with _ | _ | root
  · unfold AddEntry
    simp only [hr]
  · unfold AddEntry
    simp only [hr]
  · rw [AddEntry_eq e t I key v root hr, AddEntry_eq e t I' key v root hr]
    have h := AddEntryLoop_vector_free e key v (key.length + 1) 0 root
      { t with total_string_length_ := sizeT e (t.total_string_length_ + key.length),
               max_string_length_ := max t.max_string_length_ key.length } I I'
    simp only [Prod.map, id, Prod.mk.injEq] at h
    simp only [h.1, h.2]

/-- `AddEntry` changes the row-id vector at most in the cell `value`. -/
theorem AddEntry_vector (e : Bool) (t : CAdaptiveRadixTree) (I : List Nat) (key : List Nat)
    (v : Nat) : ∃ h, (AddEntry e t I key v).2 = I.set v h := by
  rcases hr : t.root_ with _ | _ | root
  · refine ⟨I.getD v 0, ?_⟩
    unfold AddEntry
    simp only [hr]
    exact (set_self_getD I v).symm
  · refine ⟨I.getD v 0, ?_⟩
    unfold AddEntry
    simp only [hr]
    exact (set_self_getD I v).symm
  · rw [AddEntry_eq e t I key v root hr]
    exact AddEntryLoop_vector e key v _ _ _ _ _

theorem applyOp_vector (e : Bool) (st : CAdaptiveRadixTree × List Nat) (op : Op) :
    ∃ h, (applyOp e st op).2 = st.2.set op.value h := by
  cases op with
  | AddEntry key v => exact AddEntry_vector e st.1 st.2 key v
  | AddNullString v => exact ⟨_, rfl⟩

/-- The calls keep the length of the row-id vector and change it only in the cells of
their row ids. -/
theorem run_vector (e : Bool) : ∀ (ops : List Op) (st : CAdaptiveRadixTree × List Nat),
    (run e st ops).2.length = st.2.length ∧
    ∀ x, x ∉ ops.map Op.value → (run e st ops).2.getD x 0 = st.2.getD x 0
  | [], st => ⟨rfl, fun _ _ => rfl⟩
  | op :: ops, st => by
    obtain ⟨h, hh⟩ := applyOp_vector e st op
    obtain ⟨ih1, ih2⟩ := run_vector e ops (applyOp e st op)
    have hrun : run e st (op :: ops) = run e (applyOp e st op) ops := rfl
    rw [hrun]
    refine ⟨by rw [ih1, hh, List.length_set], ?_⟩
    intro x hx
    rw [List.map_cons, List.mem_cons, not_or] at hx
    rw [ih2 x hx.2, hh, getD_set_ne _ _ _ _ _ hx.1]

/-- The tree that the calls produce does not depend on the contents of the row-id vector,
and the values of `total_string_length_` and `max_string_length_` before the calls have an
effect on these two members only. -/
theorem run_withTotals (e : Bool) : ∀ (ops : List Op) (t : CAdaptiveRadixTree) (I I' : List Nat)
    (a b : Nat),
    ∃ a' b', (run e (withTotals a b t, I) ops).1 = withTotals a' b' (run e (t, I') ops).1 ∧
      (run e (withTotals a b t, I) ops).2 = (run e (t, I) ops).2
  | [], t, I, I', a, b => ⟨a, b, rfl, rfl⟩
  | Op.AddEntry key v :: ops, t, I, I', a, b => by
    have hrun : ∀ st, run e st (Op.AddEntry key v :: ops) =
        run e (AddEntry e st.1 st.2 key v) ops := fun _ => rfl
    rw [hrun, hrun, hrun]
    simp only []
    rw [AddEntry_withTotals]
    obtain ⟨a', b', h1, h2⟩ := run_withTotals e ops (AddEntry e t I key v).1
      (AddEntry e t I key v).2 (AddEntry e t I' key v).2 (sizeT e (a + key.length))
      (max b key.length)
    refine ⟨a', b', ?_, h2⟩
    rw [h1, AddEntry_vector_free e t I I' key v]
  | Op.AddNullString v :: ops, t, I, I', a, b => by
    have hrun : ∀ st, run e st (Op.AddNullString v :: ops) =
        run e (AddNullString st.1 st.2 v) ops := fun _ => rfl
    rw [hrun, hrun, hrun]
    obtain ⟨a', b', h1, h2⟩ := run_withTotals e ops (AddNullString t I v).1
      (AddNullString t I v).2 (AddNullString t I' v).2 a b
    exact ⟨a', b', h1, h2⟩


theorem run_vector_free (e : Bool) : ∀ (ops : List Op) (t : CAdaptiveRadixTree) (I I' : List Nat),
    (run e (t, I) ops).1 = (run e (t, I') ops).1
  | [], t, I, I' => rfl
  | Op.AddEntry key v :: ops, t, I, I' => by
    have hrun : ∀ st, run e st (Op.AddEntry key v :: ops) =
        run e (AddEntry e st.1 st.2 key v) ops := fun _ => rfl
    rw [hrun, hrun]
    simp only []
    have h := run_vector_free e ops (AddEntry e t I key v).1 (AddEntry e t I key v).2
      (AddEntry e t I' key v).2
    rw [h, AddEntry_vector_free e t I I' key v]
  | Op.AddNullString v :: ops, t, I, I' => by
    have hrun : ∀ st, run e st (Op.AddNullString v :: ops) =
        run e (AddNullString st.1 st.2 v) ops := fun _ => rfl
    rw [hrun, hrun]
    exact run_vector_free e ops (AddNullString t I v).1 (AddNullString t I v).2
      (AddNullString t I' v).2

theorem Reset_eq (t : CAdaptiveRadixTree) :
    Reset t = withTotals t.total_string_length_ t.max_string_length_
      CAdaptiveRadixTree.newShared := rfl

theorem Traverse_withTotals (e : Bool) (a b : Nat) (t : CAdaptiveRadixTree) :
    Traverse e (withTotals a b t) = Traverse e t := rfl


/-! ## `TraverseIndexes` makes the `HandleTuple` calls of `Traverse` -/

theorem TraverseChildren_getD_ptr (e : Bool) (S : List Nat) :
    ∀ (c : List (Ptr CArtNode)) (s : Nat),
      (TraverseChildren e S c).getD s (fun _ st => st) = TraversePtr e S (c.getD s Ptr.nullptr)
  | [], s => by
    rw [TraverseChildren]
    funext level st
    simp [TraversePtr]
  | p :: ps, 0 => by
    rw [TraverseChildren]
    rfl
  | p :: ps, s + 1 => by
    rw [TraverseChildren]
    simp only [List.getD_cons_succ]
    exact TraverseChildren_getD_ptr e S ps s

theorem TraverseIndexChildren_getD (e : Bool) :
    ∀ (c : List (Ptr CArtNode)) (s : Nat),
      (TraverseIndexChildren e c).getD s (fun st => st) = TraverseIndexPtr e (c.getD s Ptr.nullptr)
  | [], s => by
    rw [TraverseIndexChildren]
    funext st
    simp [TraverseIndexPtr]
  | p :: ps, 0 => by
    rw [TraverseIndexChildren]
    rfl
  | p :: ps, s + 1 => by
    rw [TraverseIndexChildren]
    simp only [List.getD_cons_succ]
    exact TraverseIndexChildren_getD e ps s

theorem foldl_rel {α β γ : Type} (R : α → β → Prop) (f : α → γ → α) (g : β → γ → β) :
    ∀ (l : List γ) (a : α) (b : β), R a b → (∀ x a b, R a b → R (f a x) (g b x)) →
      R (l.foldl f a) (l.foldl g b)
  | [], _, _, h, _ => h
  | x :: l, a, b, h, hs => foldl_rel R f g l (f a x) (g b x) (hs x a b h) hs

theorem chainsOf_append (a b : List Call) : chainsOf (a ++ b) = chainsOf a ++ chainsOf b := by
  induction a with
  | nil => rfl
  | cons c a ih =>
    cases c with
    | HandleNode n p l =>
      rw [List.cons_append, chainsOf, chainsOf, ih]
    | HandleTuple k b' e' =>
      rw [List.cons_append, chainsOf, chainsOf, ih, List.cons_append]

/-- The head of `TraverseRecursive` and the head of `TraverseIndexRecursive` make the same
`HandleTuple` call. -/
theorem chainsOf_head (calls : List Call) (n : CArtNode) (key key' : List Nat) (level : Nat)
    (b : CArtNodeBase) (out : List IndexCall) (h : chainsOf calls = out) :
    chainsOf (if b.end_of_string_ = true then
        calls ++ [Call.HandleNode n key level] ++
          [Call.HandleTuple key' ⟨b.value_⟩ ⟨LAST_INDEX_IDENTIFIER⟩]
      else calls ++ [Call.HandleNode n key level]) =
    if b.end_of_string_ = true then out ++ [(⟨b.value_⟩, ⟨LAST_INDEX_IDENTIFIER⟩)] else out := by
  subst h
  split_ifs
  · rw [chainsOf_append, chainsOf_append]; simp [chainsOf]
  · rw [chainsOf_append]; simp [chainsOf]

/-- On every node, the index-only traversal makes the `HandleTuple` calls of the full
traversal, in the same order. -/
theorem TraverseIndexRecursive_eq (e : Bool) (S : List Nat) :
    ∀ (n : CArtNode) (level : Nat) (st : TraverseState) (out : List IndexCall),
      chainsOf st.1 = out →
      chainsOf (TraverseRecursive e S n level st).1 = TraverseIndexRecursive e n out := by
  intro n
  induction n using CArtNode.induct with
  | h n ih =>
    have hptr : ∀ (s level : Nat) (st : TraverseState) (out : List IndexCall),
        chainsOf st.1 = out →
        chainsOf ((TraverseChildren e S n.child_).getD s (fun _ st => st) level st).1 =
          (TraverseIndexChildren e n.child_).getD s (fun st => st) out := by
      intro s level st out h
      rw [TraverseChildren_getD_ptr, TraverseIndexChildren_getD]
      rcases hp : n.child_.getD s Ptr.nullptr with _ | _ | ch
      · exact h
      · exact h
      · rw [TraversePtr, TraverseIndexPtr]
        exact ih s ch hp level st out h
    intro level st out h
    obtain ⟨calls, key⟩ := st
    cases n with
    | Fanout4 b k ch =>
      rw [TraverseRecursive, TraverseIndexRecursive]
      simp only [CArtNode.child_] at hptr
      by_cases hp : b.prefix_length_ = 0
      all_goals simp only [hp, ne_eq, not_true_eq_false, not_false_eq_true, if_false, if_true]
      all_goals
        refine foldl_rel (fun (st : TraverseState) (out : List IndexCall) => chainsOf st.1 = out)
          _ _ _ _ _ (chainsOf_head calls _ key _ level b out h) ?_
        intro i st out h
        exact hptr i _ _ out h
    | Fanout16 b k ch =>
      rw [TraverseRecursive, TraverseIndexRecursive]
      simp only [CArtNode.child_] at hptr
      by_cases hp : b.prefix_length_ = 0
      all_goals simp only [hp, ne_eq, not_true_eq_false, not_false_eq_true, if_false, if_true]
      all_goals
        refine foldl_rel (fun (st : TraverseState) (out : List IndexCall) => chainsOf st.1 = out)
          _ _ _ _ _ (chainsOf_head calls _ key _ level b out h) ?_
        intro i st out h
        split_ifs
        all_goals first | exact h | exact hptr i _ _ out h
    | Fanout48 b idx ch =>
      rw [TraverseRecursive, TraverseIndexRecursive]
      simp only [CArtNode.child_] at hptr
      by_cases hc : b.children_count_ = 0
      all_goals by_cases hp : b.prefix_length_ = 0
      all_goals simp only [hc, hp, ne_eq, not_true_eq_false, not_false_eq_true, if_false,
        if_true]
      all_goals first
        | exact chainsOf_head calls _ key _ level b out h
        | (refine foldl_rel (fun (st : TraverseState) (out : List IndexCall) =>
            chainsOf st.1 = out) _ _ _ _ _ (chainsOf_head calls _ key _ level b out h) ?_
           intro i st out h
           split_ifs
           all_goals first | exact h | exact hptr _ _ _ out h)
    | Fanout256 b ch =>
      rw [TraverseRecursive, TraverseIndexRecursive]
      simp only [CArtNode.child_] at hptr
      by_cases hc : b.children_count_ = 0
      all_goals by_cases hp : b.prefix_length_ = 0
      all_goals simp only [hc, hp, ne_eq, not_true_eq_false, not_false_eq_true, if_false,
        if_true]
      all_goals first
        | exact chainsOf_head calls _ key _ level b out h
        | (refine foldl_rel (fun (st : TraverseState) (out : List IndexCall) =>
            chainsOf st.1 = out) _ _ _ _ _ (chainsOf_head calls _ key _ level b out h) ?_
           intro i st out h
           split_ifs
           all_goals first | exact h | exact hptr _ _ _ out h)

theorem chainsOf_tuplesOf (calls : List Call) :
    (chainsOf calls).map (fun c => c.1.index_) = (tuplesOf calls).map Prod.snd := by
  induction calls with
  | nil => rfl
  | cons c cs ih =>
    cases c with
    | HandleNode n p l => rw [chainsOf, tuplesOf, ih]
    | HandleTuple k b' e' => rw [chainsOf, tuplesOf, List.map_cons, List.map_cons, ih]

/-! ## `FindChild` after `InsertInNode` -/

theorem findChildNode_some (e : Bool) (n : CArtNode) (h : NodeOK e n) (c : Nat) (hc : c < 256)
    (q : Ptr CArtNode) : findChildNode e n c = some q ↔ (c, q) ∈ n.kids e := by
  unfold findChildNode
  rw [mem_kids]
  constructor
  · intro hf
    cases hfc : FindChild e n c with
    | none => rw [hfc] at hf; cases hf
    | some s =>
      rw [hfc] at hf
      simp only [Option.map_some', Option.some.injEq] at hf
      exact ⟨s, FindChild_some e n c s h hfc hc, hf⟩
  · rintro ⟨s, hs, hq⟩
    cases hfc : FindChild e n c with
    | none => exact absurd hs (FindChild_none e n c h hfc s)
    | some s' =>
      have := slots_fun e n h c s s' hs (FindChild_some e n c s' h hfc hc)
      subst this
      simp only [Option.map_some', hq]

theorem findChildNode_none (e : Bool) (n : CArtNode) (h : NodeOK e n) (c : Nat) (hc : c < 256) :
    FindChild e n c = none ↔ ∀ q, (c, q) ∉ n.kids e := by
  constructor
  · intro hf q hq
    obtain ⟨s, hs, _⟩ := (mem_kids e n c q).1 hq
    exact FindChild_none e n c h hf s hs
  · intro hn
    cases hfc : FindChild e n c with
    | none => rfl
    | some s =>
      exact absurd ((mem_kids e n c _).2 ⟨s, FindChild_some e n c s h hfc hc, rfl⟩) (hn _)

theorem NodeOK_new16 (e : Bool) : NodeOK e CArtNode.new16 ∧ CArtNode.new16.slots e = [] := by
  refine ⟨⟨by simp, by simp, Nat.zero_le _, ?_, ?_, ?_⟩, rfl⟩
  · intro i j _ hj; exact absurd hj (Nat.not_lt_zero _)
  · intro i hi; exact absurd hi (Nat.not_lt_zero _)
  · intro i hi; exact absurd hi (Nat.not_lt_zero _)

/-- On a freshly constructed node of each variant `FindChild` finds no child. -/
theorem FindChild_fresh (e : Bool) (b : Nat) (hb : b < 256) :
    FindChild e CArtNode.new4 b = none ∧ FindChild e CArtNode.new16 b = none ∧
    FindChild e CArtNode.new48 b = none ∧ FindChild e CArtNode.new256 b = none := by
  refine ⟨rfl, ?_, ?_, ?_⟩
  · refine (findChildNode_none e _ (NodeOK_new16 e).1 b hb).2 ?_
    intro q hq
    unfold CArtNode.kids at hq
    rw [(NodeOK_new16 e).2] at hq
    cases hq
  · unfold FindChild CArtNode.new48
    simp only [getD_replicate_lt 256 b CArtNode.EMPTY_MARKER 0 hb, ne_eq, not_true_eq_false,
      if_false]
  · unfold FindChild CArtNode.new256
    simp only [getD_replicate_lt 256 b (Ptr.EMPTY_NODE : Ptr CArtNode) Ptr.nullptr hb,
      Ptr.isEmpty, if_true]

/-- What `FindChild` returns after `InsertInNode` has inserted the child `x` under a byte
`c` that the well-formed node `n` did not hold: the slot of the new child for `c`, and for
every other byte a slot that holds the child it held before (or no slot, as before). -/
theorem InsertInNode_find (e : Bool) (n : CArtNode) (c : Nat) (x : CArtNode) (h : NodeOK e n)
    (hc : c < 256) (hnew : ∀ q, (c, q) ∉ n.kids e) :
    NodeOK e (InsertInNode e n c (Ptr.to x)).1 ∧
    FindChild e (InsertInNode e n c (Ptr.to x)).1 c = some (InsertInNode e n c (Ptr.to x)).2 ∧
    (InsertInNode e n c (Ptr.to x)).1.child_.getD (InsertInNode e n c (Ptr.to x)).2 Ptr.nullptr =
      Ptr.to x ∧
    (InsertInNode e n c (Ptr.to x)).1.base =
      { n.base with children_count_ := n.base.children_count_ + 1 } ∧
    ∀ b, b < 256 → b ≠ c →
      findChildNode e (InsertInNode e n c (Ptr.to x)).1 b = findChildNode e n b := by
  have hnew' : ∀ s, (c, s) ∉ n.slots e := fun s hs => hnew _ ((mem_kids e n c _).2 ⟨s, hs, rfl⟩)
  obtain ⟨hok, hslot, hchild, hkids, hbase⟩ := InsertInNode_spec e n c x h hc hnew'
  refine ⟨hok, ?_, hchild, hbase, ?_⟩
  · cases hfc : FindChild e (InsertInNode e n c (Ptr.to x)).1 c with
    | none => exact absurd hslot (FindChild_none e _ c hok hfc _)
    | some s' =>
      rw [slots_fun e _ hok c _ s' hslot (FindChild_some e _ c s' hok hfc hc)]
  · intro b hb hbc
    apply Option.ext
    intro q
    show findChildNode e _ b = some q ↔ findChildNode e n b = some q
    rw [findChildNode_some e _ hok b hb, findChildNode_some e n h b hb, hkids]
    constructor
    · rintro (⟨h1, _⟩ | h1)
      · exact absurd h1 hbc
      · exact h1
    · exact Or.inr

/-- A full node is replaced by a node of the next larger variant. -/
theorem InsertInNode_type_full (e : Bool) (n : CArtNode) (c : Nat) (p : Ptr CArtNode)
    (hfull : n.capacity = some n.base.children_count_) :
    (InsertInNode e n c p).1.node_type_ = n.node_type_.next := by
  cases n with
  | Fanout4 b k ch =>
    have hb : b.children_count_ = 4 := by
      simp only [CArtNode.capacity, CArtNode.base, Option.some.injEq] at hfull
      exact hfull.symm
    simp [InsertInNode, InsertInNode4, InsertInNode16, hb, CArtNode.node_type_, NodeType.next]
  | Fanout16 b k ch =>
    have hb : b.children_count_ = 16 := by
      simp only [CArtNode.capacity, CArtNode.base, Option.some.injEq] at hfull
      exact hfull.symm
    show (InsertInNode16 e b k ch c p).1.node_type_ = _
    unfold InsertInNode16
    rw [if_neg (by omega : ¬ b.children_count_ < 16)]
    unfold InsertInNode48
    rw [if_pos (by omega : b.children_count_ < 48)]
    rfl
  | Fanout48 b k ch =>
    have hb : b.children_count_ = 48 := by
      simp only [CArtNode.capacity, CArtNode.base, Option.some.injEq] at hfull
      exact hfull.symm
    show (InsertInNode48 b k ch c p).1.node_type_ = _
    unfold InsertInNode48
    rw [if_neg (by omega : ¬ b.children_count_ < 48)]
    rfl
  | Fanout256 b ch => simp [CArtNode.capacity] at hfull

/-- A node that is not full keeps its variant. -/
theorem InsertInNode_type_room (e : Bool) (n : CArtNode) (c : Nat) (p : Ptr CArtNode)
    (h : NodeOK e n) (hroom : n.capacity ≠ some n.base.children_count_) :
    (InsertInNode e n c p).1.node_type_ = n.node_type_ := by
  cases n with
  | Fanout4 b k ch =>
    have hb : b.children_count_ < 4 := by
      have h3 := h.2.2.1
      simp only [CArtNode.capacity, CArtNode.base, ne_eq, Option.some.injEq] at hroom
      omega
    simp [InsertInNode, InsertInNode4, hb, CArtNode.node_type_]
  | Fanout16 b k ch =>
    have hb : b.children_count_ < 16 := by
      have h3 := h.2.2.1
      simp only [CArtNode.capacity, CArtNode.base, ne_eq, Option.some.injEq] at hroom
      omega
    simp [InsertInNode, InsertInNode16, hb, CArtNode.node_type_]
  | Fanout48 b k ch =>
    have hb : b.children_count_ < 48 := by
      have h3 := h.2.2.1
      simp only [CArtNode.capacity, CArtNode.base, ne_eq, Option.some.injEq] at hroom
      omega
    simp [InsertInNode, InsertInNode48, hb, CArtNode.node_type_]
  | Fanout256 b ch => simp [InsertInNode, InsertInNode256, CArtNode.node_type_]

theorem insertAll_spec (e : Bool) : ∀ (bs : List (Nat × CArtNode)) (n : CArtNode),
    NodeOK e n → (bs.map Prod.fst).Nodup →
    (∀ p, p ∈ bs → p.1 < 256 ∧ ∀ q, (p.1, q) ∉ n.kids e) →
    NodeOK e (bs.foldl (fun n p => (InsertInNode e n p.1 (Ptr.to p.2)).1) n)
  | [], n, h, _, _ => h
  | p :: bs, n, h, hd, hb => by
    rw [List.map_cons, List.nodup_cons] at hd
    obtain ⟨h256, hnew⟩ := hb p (List.mem_cons_self _ _)
    obtain ⟨hok, _, _, hkids, _⟩ := InsertInNode_spec e n p.1 p.2 h h256
      (fun s hs => hnew _ ((mem_kids e n p.1 _).2 ⟨s, hs, rfl⟩))
    refine insertAll_spec e bs _ hok hd.2 ?_
    intro p' hp'
    obtain ⟨h256', hnew'⟩ := hb p' (List.mem_cons_of_mem _ hp')
    refine ⟨h256', ?_⟩
    intro q hq
    rcases (hkids _ _).1 hq with ⟨h1, _⟩ | h1
    · exact hd.1 (h1 ▸ List.mem_map_of_mem Prod.fst hp')
    · exact hnew' q h1

/-- A node grown from a new `CArtNode4` by insertions under distinct bytes is
well-formed. -/
theorem NodeOK_grown (e : Bool) (bs : List (Nat × CArtNode)) (hd : (bs.map Prod.fst).Nodup)
    (hb : ∀ p, p ∈ bs → p.1 < 256) : NodeOK e (grown e bs) := by
  refine insertAll_spec e bs CArtNode.new4 ?_ hd ?_
  · exact (NodeOK_new4 e CArtNodeBase.init rfl).1
  · intro p hp
    refine ⟨hb p hp, ?_⟩
    intro q hq
    unfold CArtNode.kids at hq
    have h0 : CArtNode.new4.slots e = [] := (NodeOK_new4 e CArtNodeBase.init rfl).2
    rw [h0] at hq
    cases hq

/-! ## Nodes of a tree, the null chain, and `Split` -/

theorem TreeOK_InTree (e : Bool) (P : Nat → Prop) (S : List Nat) (root m : CArtNode)
    (hm : InTree e root m) : TreeOK e P S root → TreeOK e P S m := by
  induction hm with
  | root n => exact fun h => h
  | child n c ch m hkid _ ih =>
    intro h
    cases h with
    | mk _ _ _ _ _ _ hkids => exact ih (hkids c ch hkid)

theorem InsertValue_nulls (t : CAdaptiveRadixTree) (I : List Nat) (n : CArtNode) (v : Nat) :
    (InsertValue t I n v).2.1.null_string_ = t.null_string_ ∧
    (InsertValue t I n v).2.1.null_string_count_ = t.null_string_count_ := by
  unfold InsertValue
  dsimp only
  split_ifs <;> exact ⟨rfl, rfl⟩

/-- The loop of `AddEntry` leaves `null_string_` and `null_string_count_` as they are. -/
theorem AddEntryLoop_nulls (e : Bool) (key : List Nat) (v : Nat) :
    ∀ (fuel depth : Nat) (n : CArtNode) (t : CAdaptiveRadixTree) (I : List Nat),
      (AddEntryLoop e key v fuel depth n t I).2.1.null_string_ = t.null_string_ ∧
      (AddEntryLoop e key v fuel depth n t I).2.1.null_string_count_ = t.null_string_count_ := by
  intro fuel
  induction fuel with
  | zero => intro depth n t I; exact ⟨rfl, rfl⟩
  | succ f ih =>
    intro depth n t I
    have ihT := fun d n t I => (ih d n t I).1
    have ihM := fun d n t I => (ih d n t I).2
    have ivT := fun t I n => (InsertValue_nulls t I n v).1
    have ivM := fun t I n => (InsertValue_nulls t I n v).2
    rw [AddEntryLoop]
    dsimp only
    split_ifs
    all_goals repeat' split
    all_goals simp only [ihT, ihM, ivT, ivM, and_self]

theorem AddEntry_nulls (e : Bool) (t : CAdaptiveRadixTree) (I : List Nat) (key : List Nat)
    (v : Nat) :
    (AddEntry e t I key v).1.null_string_ = t.null_string_ ∧
    (AddEntry e t I key v).1.null_string_count_ = t.null_string_count_ := by
  rcases hr : t.root_ with _ | _ | root
  · unfold AddEntry
    simp only [hr, and_self]
  · unfold AddEntry
    simp only [hr, and_self]
  · rw [AddEntry_eq e t I key v root hr]
    exact AddEntryLoop_nulls e key v _ _ _ _ _

/-- After calls with distinct row ids inside the row-id vector, the null chain lists the
row ids of the `AddNullString` calls, most recent first, and `null_string_count_` is their
number. -/
theorem run_nulls (e : Bool) (I0 : List Nat) (hI : I0.length ≤ 4294967295) (ops : List Op) :
    (ops.map Op.value).Nodup → (∀ x, x ∈ ops.map Op.value → x < I0.length) →
    Chain (run e (CAdaptiveRadixTree.newShared, I0) ops).2
        (run e (CAdaptiveRadixTree.newShared, I0) ops).1.null_string_ (nullsOf ops).reverse ∧
      (run e (CAdaptiveRadixTree.newShared, I0) ops).1.null_string_count_ =
        (nullsOf ops).length := by
  induction ops using List.reverseRecOn with
  | nil =>
    intro _ _
    exact ⟨rfl, rfl⟩
  | append_singleton ops op ih =>
    intro hd hlt
    have hd0 := hd
    rw [List.map_append, List.nodup_append] at hd
    obtain ⟨hd1, _, hdisj⟩ := hd
    have hv : op.value ∉ ops.map Op.value := fun hm => hdisj hm (by simp)
    have hvI : op.value < I0.length := hlt _ (by simp)
    have hlt1 : ∀ x, x ∈ ops.map Op.value → x < I0.length :=
      fun x hx => hlt x (by rw [List.map_append]; exact List.mem_append_left _ hx)
    obtain ⟨ihc, ihn⟩ := ih hd1 hlt1
    have hlen := (run_vector e ops (CAdaptiveRadixTree.newShared, I0)).1
    rw [run_append, nullsOf_append]
    generalize run e (CAdaptiveRadixTree.newShared, I0) ops = st at ihc ihn hlen
    obtain ⟨t, I⟩ := st
    simp only [] at ihc ihn hlen
    cases op with
    | AddEntry key v =>
      obtain ⟨h, hh⟩ := AddEntry_vector e t I key v
      have hn := AddEntry_nulls e t I key v
      show Chain (AddEntry e t I key v).2 (AddEntry e t I key v).1.null_string_ _ ∧
        (AddEntry e t I key v).1.null_string_count_ = _
      rw [hn.1, hn.2, hh]
      simp only [nullsOf, List.append_nil]
      refine ⟨Chain_set I _ _ v h ?_ ihc, ihn⟩
      intro hm
      exact hv (nullsOf_sub ops v (List.mem_reverse.1 hm))
    | AddNullString v =>
      have hvn : v ∉ (nullsOf ops).reverse := fun hm =>
        hv (nullsOf_sub ops v (List.mem_reverse.1 hm))
      have hcount : (nullsOf (ops ++ [Op.AddNullString v])).length ≤ I0.length :=
        length_le_of_nodup _ _ (nullsOf_nodup _ hd0)
          (fun x hx => hlt x (nullsOf_sub _ x hx))
      rw [nullsOf_append] at hcount
      simp only [nullsOf, List.length_append, List.length_singleton] at hcount
      show Chain (I.set v t.null_string_) v _ ∧ u32 (t.null_string_count_ + 1) = _
      simp only [nullsOf, List.reverse_append, List.reverse_cons, List.reverse_nil,
        List.nil_append, List.singleton_append, List.length_append, List.length_singleton]
      refine ⟨⟨rfl, ?_, ?_⟩, ?_⟩
      · unfold LAST_INDEX_IDENTIFIER
        simp only [Op.value] at hvI
        omega
      · rw [getD_set_ptr I v v _ 0 (by rw [hlen]; exact hvI), if_pos rfl]
        exact Chain_set I _ _ v _ hvn ihc
      · rw [ihn]
        exact u32_of_lt _ (by omega)


theorem Traverse_newShared (e : Bool) :
    Traverse e CAdaptiveRadixTree.newShared = [Call.HandleNode CArtNode.new256 [] 0] := by
  unfold Traverse CAdaptiveRadixTree.newShared
  simp only []
  unfold CArtNode.new256
  rw [TraverseRecursive]
  simp only [CArtNodeBase.init, ne_eq, not_true_eq_false, if_false, Bool.false_eq_true,
    List.nil_append]

theorem TraverseIndexes_newShared (e : Bool) :
    TraverseIndexes e CAdaptiveRadixTree.newShared = [] := by
  unfold TraverseIndexes CAdaptiveRadixTree.newShared
  simp only []
  unfold CArtNode.new256
  rw [TraverseIndexRecursive]
  simp only [CArtNodeBase.init, ne_eq, not_true_eq_false, if_false, Bool.false_eq_true]
/-! ## Invariants of the nodes and of the root, the shape of a prefix split, and the calls of a traversal -/

theorem node_type_setBase (n : CArtNode) (b : CArtNodeBase) :
    (n.setBase b).node_type_ = n.node_type_ := by
  cases n <;> rfl

theorem node_type_setChild (n : CArtNode) (s : Nat) (p : Ptr CArtNode) :
    (n.setChild s p).node_type_ = n.node_type_ := by
  cases n <;> rfl

theorem base_setChild (n : CArtNode) (s : Nat) (p : Ptr CArtNode) :
    (n.setChild s p).base = n.base := by
  cases n <;> rfl

/-- The terminal leaf that `AddEntry` leaves for the rest `key[offset ..]` of a key. -/
theorem leaf_result (e : Bool) (key : List Nat) (value fuel offset : Nat)
    (t : CAdaptiveRadixTree) (I : List Nat)
    (ho : offset ≤ key.length) (hf : key.length < offset + fuel) :
    AddEntryLoop e key value fuel offset (newLeaf key t.suffix_table_ offset)
      { t with suffix_table_ := t.suffix_table_ ++ key.drop offset } I =
    ((newLeaf key t.suffix_table_ offset).setBase
        { (newLeaf key t.suffix_table_ offset).base with
          end_of_string_ := true, value_ := value },
      { t with suffix_table_ := t.suffix_table_ ++ key.drop offset,
               unique_string_count_ := t.unique_string_count_ + 1 },
      I.set value LAST_INDEX_IDENTIFIER) := by
  obtain ⟨hl1, hl2, hl3⟩ := newLeaf_spec e (fun _ => True) key t.suffix_table_ offset
    (fun _ _ => trivial)
  obtain ⟨fuel', hfuel⟩ : ∃ f, fuel = f + 1 := ⟨fuel - 1, by omega⟩
  subst hfuel
  have hb : (newLeaf key t.suffix_table_ offset).base.prefix_length_ = key.length - offset := by
    unfold newLeaf; rw [base_setBase]
  have hbound : (newLeaf key t.suffix_table_ offset).base.prefix_position_ +
      (newLeaf key t.suffix_table_ offset).base.prefix_length_ ≤
      (t.suffix_table_ ++ key.drop offset).length := by
    cases hl1 with
    | mk _ _ hbound _ _ _ _ => exact hbound
  obtain ⟨m1, m2, m3, m4⟩ := mismatchAt_spec key (t.suffix_table_ ++ key.drop offset) offset
    (newLeaf key t.suffix_table_ offset) ho hbound
  have hm : mismatchAt key (t.suffix_table_ ++ key.drop offset) offset
      (newLeaf key t.suffix_table_ offset) = key.length - offset := by
    by_contra hne
    have hlt : mismatchAt key (t.suffix_table_ ++ key.drop offset) offset
        (newLeaf key t.suffix_table_ offset) < key.length - offset := by
      rw [hb] at m1; omega
    apply m4 (by rw [hb]; exact hlt) (by omega)
    rw [hl2, getD_drop']
  have hfull := AddEntryLoop_full e key value fuel' offset (newLeaf key t.suffix_table_ offset)
    { t with suffix_table_ := t.suffix_table_ ++ key.drop offset } I
    ⟨by simp only []; rw [hm]; omega, by simp only []; rw [hm, hb]⟩
  rw [hfull]
  rfl

/-- The result of the part of the loop of `AddEntry` that attaches a leaf for the rest of
the key to a well-formed node `N` under a byte `y` that `N` does not hold. -/
theorem attachLeaf_eq (e : Bool) (key : List Nat) (value fuel offset : Nat)
    (N : CArtNode) (y : Nat) (t : CAdaptiveRadixTree) (I : List Nat)
    (hN : NodeOK e N) (hy : y < 256) (hnew : ∀ s, (y, s) ∉ N.slots e)
    (ho : offset ≤ key.length) (hf : key.length < offset + fuel) :
    attachLeaf e key value fuel offset N y t I =
      ((InsertInNode e N y (Ptr.to (newLeaf key t.suffix_table_ offset))).1.setChild
          (InsertInNode e N y (Ptr.to (newLeaf key t.suffix_table_ offset))).2
          (Ptr.to ((newLeaf key t.suffix_table_ offset).setBase
            { (newLeaf key t.suffix_table_ offset).base with
              end_of_string_ := true, value_ := value })),
        { t with suffix_table_ := t.suffix_table_ ++ key.drop offset,
                 unique_string_count_ := t.unique_string_count_ + 1 },
        I.set value LAST_INDEX_IDENTIFIER) := by
  obtain ⟨hi1, hi2, hi3, hi4, hi5⟩ := InsertInNode_spec e N y (newLeaf key t.suffix_table_ offset)
    hN hy hnew
  unfold attachLeaf
  simp only []
  rw [hi3]
  simp only []
  rw [leaf_result e key value fuel offset t I ho hf]

theorem InsertInNode_base (e : Bool) (n : CArtNode) (c : Nat) (p : Ptr CArtNode) :
    (InsertInNode e n c p).1.base =
      { n.base with children_count_ := n.base.children_count_ + 1 } := by
  have h256 : ∀ (b : CArtNodeBase) ch, (InsertInNode256 b ch c p).1.base =
      { b with children_count_ := b.children_count_ + 1 } := fun b ch => rfl
  have h48 : ∀ (b : CArtNodeBase) k ch, (InsertInNode48 b k ch c p).1.base =
      { b with children_count_ := b.children_count_ + 1 } := by
    intro b k ch
    unfold InsertInNode48
    split_ifs
    · rfl
    · exact h256 _ _
  have h16 : ∀ (b : CArtNodeBase) k ch, (InsertInNode16 e b k ch c p).1.base =
      { b with children_count_ := b.children_count_ + 1 } := by
    intro b k ch
    unfold InsertInNode16
    by_cases h : b.children_count_ < 16
    · rw [if_pos h]; rfl
    · rw [if_neg h]; exact h48 _ _ _
  cases n with
  | Fanout4 b k ch =>
    show (InsertInNode4 e b k ch c p).1.base = _
    unfold InsertInNode4
    by_cases h : b.children_count_ < 4
    · rw [if_pos h]; rfl
    · rw [if_neg h]; exact h16 _ _ _
  | Fanout16 b k ch => exact h16 b k ch
  | Fanout48 b k ch => exact h48 b k ch
  | Fanout256 b ch => exact h256 b ch

theorem InsertInNode_type_below (e : Bool) (n : CArtNode) (c : Nat) (p : Ptr CArtNode)
    (cap : Nat) (hcap : n.capacity = some cap) (h : n.base.children_count_ < cap) :
    (InsertInNode e n c p).1.node_type_ = n.node_type_ := by
  cases n with
  | Fanout4 b k ch =>
    simp only [CArtNode.capacity, Option.some.injEq] at hcap
    subst hcap
    show (InsertInNode4 e b k ch c p).1.node_type_ = _
    unfold InsertInNode4
    rw [if_pos (show b.children_count_ < 4 from h)]; rfl
  | Fanout16 b k ch =>
    simp only [CArtNode.capacity, Option.some.injEq] at hcap
    subst hcap
    show (InsertInNode16 e b k ch c p).1.node_type_ = _
    unfold InsertInNode16
    rw [if_pos (show b.children_count_ < 16 from h)]; rfl
  | Fanout48 b k ch =>
    simp only [CArtNode.capacity, Option.some.injEq] at hcap
    subst hcap
    show (InsertInNode48 b k ch c p).1.node_type_ = _
    unfold InsertInNode48
    rw [if_pos (show b.children_count_ < 48 from h)]; rfl
  | Fanout256 b ch => simp [CArtNode.capacity] at hcap

theorem IsRoot_setChild (n : CArtNode) (s : Nat) (p : Ptr CArtNode) (h : IsRoot n) :
    IsRoot (n.setChild s p) := by
  cases n <;> exact h

theorem IsRoot_setBase (n : CArtNode) (b : CArtNodeBase) (h : IsRoot n)
    (hb : b.prefix_length_ = 0) : IsRoot (n.setBase b) := by
  cases n <;> exact ⟨h.1, hb⟩

theorem IsRoot_InsertInNode (e : Bool) (n : CArtNode) (c : Nat) (p : Ptr CArtNode)
    (h : IsRoot n) : IsRoot (InsertInNode e n c p).1 := by
  cases n with
  | Fanout256 b ch => exact h
  | Fanout4 b k ch => cases h.1
  | Fanout16 b k ch => cases h.1
  | Fanout48 b k ch => cases h.1

theorem IsRoot_InsertValue (t : CAdaptiveRadixTree) (I : List Nat) (n : CArtNode) (v : Nat)
    (h : IsRoot n) : IsRoot (InsertValue t I n v).1 :=
  IsRoot_setBase n _ h h.2

theorem mismatchLoop_zero (key S : List Nat) (depth pos len m : Nat) :
    mismatchLoop key S depth pos len 0 m = m := rfl

theorem IsRoot_AddEntryLoop (e : Bool) (key : List Nat) (v : Nat) (fuel depth : Nat)
    (n : CArtNode) (t : CAdaptiveRadixTree) (I : List Nat) (h : IsRoot n) :
    IsRoot (AddEntryLoop e key v fuel depth n t I).1 := by
  cases fuel with
  | zero => exact h
  | succ fuel =>
    rw [AddEntryLoop]
    simp only [h.2, mismatchLoop_zero, Nat.lt_irrefl, if_false]
    split_ifs
    all_goals repeat' split
    all_goals first
      | exact h
      | exact IsRoot_InsertValue t I n v h
      | exact IsRoot_setChild _ _ _ h
      | exact IsRoot_setChild _ _ _ (IsRoot_InsertInNode e n _ _ h)
      | exact IsRoot_InsertInNode e n _ _ h

theorem IsRoot_mergeChainLoop : ∀ (fuel : Nat) (it : CIndexIterator) (left : CArtNode)
    (t : CAdaptiveRadixTree) (I : List Nat) (r : MergeState), IsRoot left →
    mergeChainLoop fuel it left t I = some r → IsRoot r.1
  | 0, _, _, _, _, _, _, h => by simp [mergeChainLoop] at h
  | fuel + 1, it, left, t, I, r, hl, h => by
    rw [mergeChainLoop] at h
    split_ifs at h with hit
    · cases h; exact hl
    · exact IsRoot_mergeChainLoop fuel _ _ _ _ r (IsRoot_InsertValue t I left _ hl) h

/-- The invariant on the states of the child loop of `MergeChildNodes`. -/
theorem IsRoot_mergeChild (e : Bool) (Sr : List Nat) (fuel : Nat) (rc : List (Ptr CArtNode))
    (st : Option MergeState) (p : Nat × Nat) (h : ∀ s, st = some s → IsRoot s.1) :
    ∀ s, mergeChild e Sr fuel rc st p = some s → IsRoot s.1 := by
  intro s hs
  unfold mergeChild at hs
  cases st with
  | none => simp at hs
  | some s0 =>
    have h0 := h s0 rfl
    simp only [Option.some_bind] at hs
    split at hs
    · split at hs
      · cases hm : Merge e Sr fuel _ _ s0.2.1 s0.2.2 with
        | none => rw [hm] at hs; simp at hs
        | some r =>
          rw [hm] at hs
          simp only [Option.map_some', Option.some.injEq] at hs
          subst hs
          exact IsRoot_setChild _ _ _ h0
      · cases hs; exact h0
    · simp only [Option.some.injEq] at hs
      subst hs
      exact IsRoot_InsertInNode e _ _ _ h0

theorem IsRoot_MergeChildNodes (e : Bool) (Sr : List Nat) (fuel : Nat) (left right : CArtNode)
    (t : CAdaptiveRadixTree) (I : List Nat) (r : MergeState) (hl : IsRoot left)
    (h : MergeChildNodes e Sr fuel left right t I = some r) : IsRoot r.1 := by
  cases fuel with
  | zero => simp [MergeChildNodes] at h
  | succ fuel =>
    have hhead : ∀ s, mergeHead fuel left right t I = some s → IsRoot s.1 := by
      intro s hs
      unfold mergeHead at hs
      split_ifs at hs
      · exact IsRoot_mergeChainLoop _ _ _ _ _ s hl hs
      · cases hs; exact hl
    have key : ∀ s, MergeChildNodes e Sr (fuel + 1) left right t I = some s → IsRoot s.1 := by
      cases right with
      | Fanout4 b k ch =>
        rw [MergeChildNodes_eq4]
        by_cases hcc : b.children_count_ ≠ 0
        rw [if_pos hcc]
        swap
        · rw [if_neg hcc]; exact hhead
        · exact foldl_inv (fun (st : Option MergeState) => ∀ s, st = some s → IsRoot s.1) _ _ _ hhead
            (fun i _ st hst => IsRoot_mergeChild e Sr fuel ch st _ hst)
      | Fanout16 b k ch =>
        rw [MergeChildNodes_eq16]
        by_cases hcc : b.children_count_ ≠ 0
        rw [if_pos hcc]
        swap
        · rw [if_neg hcc]; exact hhead
        · refine foldl_inv (fun (st : Option MergeState) => ∀ s, st = some s → IsRoot s.1) _ _ _ hhead ?_
          intro i _ st hst
          dsimp only
          split_ifs <;> first | exact hst | exact IsRoot_mergeChild e Sr fuel ch st _ hst
      | Fanout48 b k ch =>
        rw [MergeChildNodes_eq48]
        by_cases hcc : b.children_count_ ≠ 0
        rw [if_pos hcc]
        swap
        · rw [if_neg hcc]; exact hhead
        · refine foldl_inv (fun (st : Option MergeState) => ∀ s, st = some s → IsRoot s.1) _ _ _ hhead ?_
          intro i _ st hst
          dsimp only
          split_ifs <;> first | exact hst | exact IsRoot_mergeChild e Sr fuel ch st _ hst
      | Fanout256 b ch =>
        rw [MergeChildNodes_eq256]
        by_cases hcc : b.children_count_ ≠ 0
        rw [if_pos hcc]
        swap
        · rw [if_neg hcc]; exact hhead
        · refine foldl_inv (fun (st : Option MergeState) => ∀ s, st = some s → IsRoot s.1) _ _ _ hhead ?_
          intro i _ st hst
          dsimp only
          split_ifs <;> first | exact hst | exact IsRoot_mergeChild e Sr fuel ch st _ hst
    exact key r h

theorem mergeMismatchLoop_zero (S Sr : List Nat) (lpos llen rpos rlen m : Nat) :
    mergeMismatchLoop S Sr lpos llen rpos rlen 0 m = m := rfl

theorem IsRoot_Merge (e : Bool) (Sr : List Nat) (fuel : Nat) (l r : CArtNode)
    (t : CAdaptiveRadixTree) (I : List Nat)
    (res : CArtNode × Ptr CArtNode × CAdaptiveRadixTree × List Nat) (hl : IsRoot l)
    (h : Merge e Sr fuel l r t I = some res) : IsRoot res.1 := by
  cases fuel with
  | zero => simp [Merge] at h
  | succ fuel =>
    rw [Merge] at h
    simp only [hl.2, mergeMismatchLoop_zero, Nat.lt_irrefl, if_false, true_and] at h
    split_ifs at h
    · cases hm : MergeChildNodes e Sr fuel l r t I with
      | none => rw [hm] at h; simp at h
      | some s =>
        rw [hm] at h
        simp only [Option.map_some', Option.some.injEq] at h
        subst h
        exact IsRoot_MergeChildNodes e Sr fuel l r t I s hl hm
    · revert h
      split
      · split
        · intro h
          cases hm : Merge e Sr fuel _ _ t I with
          | none => rw [hm] at h; simp at h
          | some s =>
            rw [hm] at h
            simp only [Option.map_some', Option.some.injEq] at h
            subst h
            exact IsRoot_setChild _ _ _ hl
        · intro h; cases h; exact hl
      · intro h
        simp only [Option.some.injEq] at h
        subst h
        exact IsRoot_InsertInNode e l _ _ hl
    · cases h; exact hl

theorem joinNullLoop_root : ∀ (fuel : Nat) (it : CIndexIterator) (t : CAdaptiveRadixTree)
    (I : List Nat) (r : CAdaptiveRadixTree × List Nat),
    joinNullLoop fuel it t I = some r → r.1.root_ = t.root_
  | 0, _, _, _, _, h => by simp [joinNullLoop] at h
  | fuel + 1, it, t, I, r, h => by
    rw [joinNullLoop] at h
    split_ifs at h
    · cases h; rfl
    · dsimp only at h
      exact (joinNullLoop_root fuel _ _ _ r h).trans rfl

theorem RootOK_Join (e : Bool) (fuel : Nat) (this other : CAdaptiveRadixTree) (I : List Nat)
    (r : CAdaptiveRadixTree × CAdaptiveRadixTree × List Nat) (h : RootOK this)
    (hj : Join e fuel this other I = some r) : RootOK r.1 := by
  obtain ⟨root, hroot, hR⟩ := h
  unfold Join at hj
  cases h1 : joinNullLoop fuel (GetNullStringBegin other) this I with
  | none => rw [h1] at hj; simp at hj
  | some s =>
    have hr1 := joinNullLoop_root _ _ _ _ s h1
    rw [h1] at hj
    simp only [Option.some_bind] at hj
    rw [hr1, hroot] at hj
    rcases ho : other.root_ with _ | _ | ro
    · rw [ho] at hj
      simp only [Option.map_some', Option.some.injEq] at hj
      subst hj
      exact ⟨root, by rw [← hroot, ← hr1], hR⟩
    · rw [ho] at hj
      simp only [Option.map_some', Option.some.injEq] at hj
      subst hj
      exact ⟨root, by rw [← hroot, ← hr1], hR⟩
    · rw [ho] at hj
      dsimp only at hj
      cases hm : Merge e other.suffix_table_ fuel root ro s.1 s.2 with
      | none => rw [hm] at hj; simp at hj
      | some m =>
        rw [hm] at hj
        simp only [Option.map_some', Option.some.injEq] at hj
        subst hj
        exact ⟨m.1, rfl, IsRoot_Merge e _ fuel root ro s.1 s.2 m hR hm⟩

theorem RootOK_AddEntry (e : Bool) (t : CAdaptiveRadixTree) (I : List Nat) (key : List Nat)
    (v : Nat) (h : RootOK t) : RootOK (AddEntry e t I key v).1 := by
  obtain ⟨root, hroot, hR⟩ := h
  rw [AddEntry_eq e t I key v root hroot]
  exact ⟨_, rfl, IsRoot_AddEntryLoop e key v _ 0 root _ I hR⟩

/-- With enough fuel `A.Join( B )` returns for two trees built on one row-id vector. -/
theorem joinPair_returns (e : Bool) (n fuel : Nat) (opsA opsB : List Op)
    (hd : ((opsA ++ opsB).map Op.value).Nodup)
    (hlt : ∀ x, x ∈ (opsA ++ opsB).map Op.value → x < n) (hn : n ≤ 4294967295)
    (hbytes : ∀ p, p ∈ entriesOf (opsA ++ opsB) → ∀ c, c ∈ p.1 → c < 256)
    (htot : totalLength (entriesOf opsA) + totalLength (entriesOf opsB) < 4294967296)
    (hfuel : heightPtr (buildPair e n opsA opsB).2.1.root_ + n + 1 < fuel) :
    ∃ r, joinPair e fuel n opsA opsB = some r := by
  obtain ⟨hbA, hbB, hlen⟩ := buildPair_spec e (fun c => c < 256) (fun c hc => hc) n opsA opsB
    hd hlt hn hbytes htot
  unfold joinPair
  generalize buildPair e n opsA opsB = p at hbA hbB hlen hfuel ⊢
  obtain ⟨tA, tB, I⟩ := p
  simp only [] at hbA hbB hlen hfuel ⊢
  rw [List.map_append, List.nodup_append] at hd
  obtain ⟨hdA, hdB, hdisj⟩ := hd
  have hltA : ∀ x, x ∈ opsA.map Op.value → x < n := fun x hx =>
    hlt x (by rw [List.map_append]; exact List.mem_append_left _ hx)
  have hltB : ∀ x, x ∈ opsB.map Op.value → x < n := fun x hx =>
    hlt x (by rw [List.map_append]; exact List.mem_append_right _ hx)
  have hnB : Chain I tB.null_string_ (nullsOf opsB).reverse := by
    obtain ⟨_, _, _, _, _, h, _⟩ := hbB; exact h
  have hcA : tA.null_string_count_ = (nullsOf opsA).length := by
    obtain ⟨_, _, _, _, _, _, h, _⟩ := hbA; exact h
  have hnodup : (nullsOf opsB ++ (nullsOf opsA).reverse).Nodup := by
    rw [List.nodup_append]
    refine ⟨nullsOf_nodup opsB hdB, List.nodup_reverse.2 (nullsOf_nodup opsA hdA), ?_⟩
    intro x hx hx'
    exact hdisj (nullsOf_sub opsA x (List.mem_reverse.1 hx')) (nullsOf_sub opsB x hx)
  have hlenAB : (nullsOf opsB ++ (nullsOf opsA).reverse).length ≤ n :=
    length_le_of_nodup _ n hnodup (by
      intro x hx
      rcases List.mem_append.1 hx with hx | hx
      · exact hltB x (nullsOf_sub opsB x hx)
      · exact hltA x (nullsOf_sub opsA x (List.mem_reverse.1 hx)))
  rw [List.length_append, List.length_reverse] at hlenAB
  obtain ⟨t1, I1, hloop, hlen1, hfr1, ht1, hch1⟩ := joinNullLoop_spec (nullsOf opsB).reverse
    tB.null_string_ fuel tA I hnB (List.nodup_reverse.2 (nullsOf_nodup opsB hdB))
    (by rw [List.length_reverse]; omega) (by rw [List.length_reverse, hcA]; omega)
  obtain ⟨rootA, hrootA, _⟩ := hbA
  have hbB' := hbB
  obtain ⟨rootB, hrootB, htreeB, _⟩ := hbB'
  obtain ⟨hro, hown⟩ := Built_RightOK e _ opsB tB I rootB n hbB hrootB hdB hltB
  have hro1 : RightOK e tB.suffix_table_ (chainOfId (entriesOf opsB)) n I1 rootB := by
    refine RightOK_frame e _ _ n I I1 rootB hro ?_
    intro x hx
    refine hfr1 x (fun hxn => ?_)
    exact nulls_entries_disjoint opsB hdB x (List.mem_reverse.1 hxn) (hown x hx)
  rw [hrootB, heightPtr] at hfuel
  obtain ⟨res, hres, hfr2⟩ := (Merge_safe e _ tB.suffix_table_ (chainOfId (entriesOf opsB)) n
    fuel).1 rootA rootB t1 I1 (KidsOK_of_TreeOK e _ _ rootB htreeB) hro1 (by omega)
  have hroot1 : t1.root_ = Ptr.to rootA := by rw [ht1]; exact hrootA
  exact ⟨_, Join_eq e fuel tA tB I t1 I1 rootA rootB res hloop hroot1 hrootB hres⟩

theorem getD_map_FlipSign (k : List Nat) (i : Nat) (h : i < k.length) :
    (k.map FlipSign).getD i 0 = FlipSign (k.getD i 0) := by
  rw [List.getD_eq_getElem _ _ (by simpa using h), List.getD_eq_getElem _ _ h, List.getElem_map]

theorem simdPos_eq_scalar (k : List Nat) (count c : Nat) (hl : k.length = 16)
    (hcnt : count ≤ 16) (hc : c < 256) (hb : ∀ i, i < count → k.getD i 0 < 256)
    (hsorted : ∀ i j, i < j → j < count → k.getD i 0 < k.getD j 0)
    (hnew : ∀ i, i < count → k.getD i 0 ≠ c) :
    (if mm_movemask_epi8 (mm_cmplt_epi8 (mm_set1_epi8 (FlipSign c)) (k.map FlipSign)) &&&
          (0xFFFF >>> (16 - count)) ≠ 0
      then ctz (mm_movemask_epi8 (mm_cmplt_epi8 (mm_set1_epi8 (FlipSign c)) (k.map FlipSign)) &&&
          (0xFFFF >>> (16 - count)))
      else count) = insertPosLoop k count c := by
  have hg : ∀ i, i < count → (k.map FlipSign).getD i 0 = FlipSign (k.getD i 0) :=
    fun i hi => getD_map_FlipSign k i (by omega)
  obtain ⟨a1, a2, a3⟩ := insertPos_simd (k.map FlipSign) count c (by simpa using hl) hcnt hc
    (fun i hi => by rw [hg i hi]; exact FlipSign_lt _ (hb i hi))
    (fun i j hij hj => by
      rw [hg i (by omega), hg j hj, FlipSign_FlipSign, FlipSign_FlipSign]
      exact hsorted i j hij hj)
    (fun i hi => by rw [hg i hi, FlipSign_FlipSign]; exact hnew i hi)
  obtain ⟨b1, b2, b3⟩ := insertPos_scalar k count c hsorted hnew
  generalize (if mm_movemask_epi8 (mm_cmplt_epi8 (mm_set1_epi8 (FlipSign c)) (k.map FlipSign)) &&&
          (0xFFFF >>> (16 - count)) ≠ 0
      then ctz (mm_movemask_epi8 (mm_cmplt_epi8 (mm_set1_epi8 (FlipSign c)) (k.map FlipSign)) &&&
          (0xFFFF >>> (16 - count)))
      else count) = p1 at a1 a2 a3 ⊢
  generalize insertPosLoop k count c = p2 at b1 b2 b3
  rcases Nat.lt_trichotomy p1 p2 with h | h | h
  · have h1 := b2 p1 h
    have h2 := a3 p1 (le_refl _) (by omega)
    rw [hg p1 (by omega), FlipSign_FlipSign] at h2
    omega
  · exact h
  · have h1 := a2 p2 h
    have h2 := b3 p2 (le_refl _) (by omega)
    rw [hg p2 (by omega), FlipSign_FlipSign] at h1
    omega

theorem memmove_map {α β : Type} (f : α → β) (a : List α) (dst src n : Nat) :
    memmove (a.map f) dst src n = (memmove a dst src n).map f := by
  simp [memmove, List.map_take, List.map_drop]

theorem set_map {α β : Type} (f : α → β) (a : List α) (i : Nat) (x : α) :
    (a.map f).set i (f x) = (a.set i x).map f := by
  rw [List.map_set]

theorem findSimd_eq_scalar (b : CArtNodeBase) (k : List Nat) (ch : List (Ptr CArtNode))
    (c : Nat) (hl : k.length = 16) (hcnt : b.children_count_ ≤ 16) :
    FindChild true (CArtNode.Fanout16 b (k.map FlipSign) ch) c =
      FindChild false (CArtNode.Fanout16 b k ch) c := by
  have hg : ∀ i, i < b.children_count_ →
      FlipSign ((k.map FlipSign).getD i 0) = k.getD i 0 :=
    fun i hi => by rw [getD_map_FlipSign k i (by omega), FlipSign_FlipSign]
  obtain ⟨a1, a2⟩ := find16_simd (k.map FlipSign) b.children_count_ c (by simpa using hl) hcnt
  simp only [FindChild, if_true, Bool.false_eq_true, if_false]
  cases hf : findKeyLoop k b.children_count_ c with
  | none =>
    have h0 := findKeyLoop_none k _ c hf
    rw [if_neg]
    rw [not_not, a1]
    intro i hi
    rw [hg i hi]
    exact h0 i hi
  | some s =>
    obtain ⟨h1, h2, h3⟩ := findKeyLoop_some k _ c s hf
    have hs := a2 s h1 (by rw [hg s h1]; exact h2)
      (fun j hj => by rw [hg j (by omega)]; exact h3 j hj)
    rw [if_pos, hs]
    rw [ne_eq, a1]
    intro hall
    exact hall s h1 (by rw [hg s h1]; exact h2)

theorem CallsShapeAux_append (S : List Nat) : ∀ (a : List Call) (st : Option (List Nat × Nat))
    (b : List Call), CallsShapeAux S st a → CallsShapeAux S none b → CallsShapeAux S st (a ++ b)
  | [], none, b, _, hb => hb
  | [], some _, b, ha, _ => False.elim ha
  | Call.HandleNode m pre lvl :: rest, none, b, ha, hb =>
    ⟨ha.1, CallsShapeAux_append S rest _ b ha.2 hb⟩
  | Call.HandleTuple _ _ _ :: _, none, b, ha, _ => False.elim ha
  | Call.HandleTuple k bb en :: rest, some p, b, ha, hb =>
    ⟨ha.1, ha.2.1, ha.2.2.1, CallsShapeAux_append S rest none b ha.2.2.2 hb⟩
  | Call.HandleNode _ _ _ :: _, some _, b, ha, _ => False.elim ha

theorem CallsShape_head (S : List Nat) (n : CArtNode) (key : List Nat) :
    CallsShapeAux S none (Call.HandleNode n key key.length ::
      (if n.base.end_of_string_ then
        [Call.HandleTuple (key ++ n.pfx S) ⟨n.base.value_⟩ ⟨LAST_INDEX_IDENTIFIER⟩]
      else [])) := by
  cases h : n.base.end_of_string_ with
  | true =>
    simp only [if_true]
    refine ⟨rfl, ?_⟩
    rw [h]
    exact ⟨rfl, rfl, rfl, trivial⟩
  | false =>
    simp only [Bool.false_eq_true, if_false]
    refine ⟨rfl, ?_⟩
    rw [h]
    exact trivial

/-- The calls of `TraverseRecursive` on a well-formed subtree: their shape, and the prefix
passed with every node. -/
theorem Traverse_calls (e : Bool) (P : Nat → Prop) (S : List Nat) (n : CArtNode)
    (h : TreeOK e P S n) :
    ∀ (calls : List Call) (key : List Nat),
      ∃ evs, TraverseRecursive e S n key.length (calls, key) = (calls ++ evs, key ++ n.pfx S) ∧
        CallsShapeAux S none evs ∧
        (∀ m pre lvl, Call.HandleNode m pre lvl ∈ evs →
          ∃ k, PathBefore e S n m k ∧ pre = key ++ k) := by
  induction h with
  | mk n hnode hbound hval hpfx hbyte hkids ih =>
    intro calls key
    obtain ⟨hhead, hlevel⟩ := travHead_eq S n calls key hbound
    rw [TraverseRecursive_eq e S n _ _ hnode, hhead, hlevel]
    have hsh := CallsShape_head S n key
    generalize hK : key ++ n.pfx S = K at hsh ⊢
    have hloop : ∀ (l : List (Nat × Nat)), (∀ p, p ∈ l → p ∈ n.slots e) →
        ∀ calls0 : List Call,
        ∃ evs, l.foldl (travStep (TraverseChildren e S n.child_) K.length) (calls0, K) =
            (calls0 ++ evs, K) ∧ CallsShapeAux S none evs ∧
          (∀ m pre lvl, Call.HandleNode m pre lvl ∈ evs → ∃ c s ch k, (c, s) ∈ l ∧
            n.child_.getD s Ptr.nullptr = Ptr.to ch ∧ PathBefore e S ch m k ∧
            pre = K ++ c :: k) := by
      intro l
      induction l with
      | nil =>
        intro _ calls0
        exact ⟨[], by simp, trivial, fun m pre lvl hm => by simp at hm⟩
      | cons p l ihl =>
        intro hsub calls0
        obtain ⟨c, s⟩ := p
        have hps : (c, s) ∈ n.slots e := hsub _ (List.mem_cons_self _ _)
        obtain ⟨_, ch, hch⟩ := slots_node e n hnode c s hps
        have hkid : (c, Ptr.to ch) ∈ n.kids e := (mem_kids e n c _).2 ⟨s, hps, hch⟩
        obtain ⟨evs1, t1, t2, t3⟩ := ih c ch hkid calls0 (K ++ [c])
        obtain ⟨evs2, u1, u2, u3⟩ := ihl (fun p hp => hsub p (List.mem_cons_of_mem _ hp))
          (calls0 ++ evs1)
        have hstep : travStep (TraverseChildren e S n.child_) K.length (calls0, K) (c, s) =
            (calls0 ++ evs1, K) := by
          unfold travStep
          simp only []
          rw [TraverseChildren_getD e S n.child_ s ch hch]
          have hl : K.length + 1 = (K ++ [c]).length := by simp
          rw [hl, t1]
          simp only []
          rw [List.append_assoc, resize_append]
        refine ⟨evs1 ++ evs2, ?_, CallsShapeAux_append S evs1 none evs2 t2 u2, ?_⟩
        · rw [List.foldl_cons, hstep, u1, List.append_assoc]
        · intro m pre lvl hm
          rcases List.mem_append.1 hm with hm | hm
          · obtain ⟨k, hk1, hk2⟩ := t3 m pre lvl hm
            refine ⟨c, s, ch, k, List.mem_cons_self _ _, hch, hk1, ?_⟩
            rw [hk2, List.append_assoc]; rfl
          · obtain ⟨c', s', ch', k, h1, h2, h3, h4⟩ := u3 m pre lvl hm
            exact ⟨c', s', ch', k, List.mem_cons_of_mem _ h1, h2, h3, h4⟩
    obtain ⟨evs, l1, l2, l3⟩ := hloop (n.tslots e) (fun p hp => (mem_tslots e n p).1 hp)
      (calls ++ (Call.HandleNode n key key.length ::
        (if n.base.end_of_string_ then
          [Call.HandleTuple K ⟨n.base.value_⟩ ⟨LAST_INDEX_IDENTIFIER⟩]
        else [])))
    refine ⟨(Call.HandleNode n key key.length ::
        (if n.base.end_of_string_ then
          [Call.HandleTuple K ⟨n.base.value_⟩ ⟨LAST_INDEX_IDENTIFIER⟩]
        else [])) ++ evs, ?_, CallsShapeAux_append S _ none evs hsh l2, ?_⟩
    · rw [l1, List.append_assoc]
    · intro m pre lvl hm
      rcases List.mem_append.1 hm with hm | hm
      · have hm' : Call.HandleNode m pre lvl = Call.HandleNode n key key.length := by
          cases n.base.end_of_string_ with
          | true => simpa using hm
          | false => simpa using hm
        injection hm' with h1 h2 h3
        subst h1; subst h2
        exact ⟨[], PathBefore.root _, by simp⟩
      · obtain ⟨c, s, ch, k, h1, h2, h3, h4⟩ := l3 m pre lvl hm
        refine ⟨n.pfx S ++ c :: k, PathBefore.child n c ch m k
          ((mem_kids e n c _).2 ⟨s, (mem_tslots e n _).1 h1, h2⟩) h3, ?_⟩
        rw [h4, ← hK, List.append_assoc]

/-- After every child of the loop of `TraverseRecursive` the buffer `key` is what it was when
the loop was entered: the buffer at the call, followed by the stored prefix of the node. -/
theorem travLoop_buffer (e : Bool) (P : Nat → Prop) (S : List Nat) (n : CArtNode)
    (h : TreeOK e P S n) (key : List Nat) :
    ∀ (l : List (Nat × Nat)), (∀ p, p ∈ l → p ∈ n.slots e) → ∀ calls0 : List Call,
      (l.foldl (travStep (TraverseChildren e S n.child_) (travLevel n key.length))
        (calls0, key ++ n.pfx S)).2 = key ++ n.pfx S := by
  cases h with
  | mk _ hnode hbound hval hpfx hbyte hkids =>
    obtain ⟨_, hlevel⟩ := travHead_eq S n [] key hbound
    rw [hlevel]
    generalize key ++ n.pfx S = K
    intro l
    induction l with
    | nil => intro _ _; rfl
    | cons p l ihl =>
      intro hsub calls0
      obtain ⟨c, s⟩ := p
      have hps : (c, s) ∈ n.slots e := hsub _ (List.mem_cons_self _ _)
      obtain ⟨_, ch, hch⟩ := slots_node e n hnode c s hps
      have hkid : (c, Ptr.to ch) ∈ n.kids e := (mem_kids e n c _).2 ⟨s, hps, hch⟩
      obtain ⟨evs1, t1, _⟩ := Traverse_calls e P S ch (hkids c ch hkid) calls0 (K ++ [c])
      have hstep : travStep (TraverseChildren e S n.child_) K.length (calls0, K) (c, s) =
          (calls0 ++ evs1, K) := by
        unfold travStep
        simp only []
        rw [TraverseChildren_getD e S n.child_ s ch hch]
        have hl : K.length + 1 = (K ++ [c]).length := by simp
        rw [hl, t1]
        simp only []
        rw [List.append_assoc, resize_append]
      rw [List.foldl_cons, hstep]
      exact ihl (fun p hp => hsub p (List.mem_cons_of_mem _ hp)) _

theorem CallsShapeAux_node (S : List Nat) : ∀ (calls : List Call) (st : Option (List Nat × Nat)),
    CallsShapeAux S st calls → ∀ m pre lvl, Call.HandleNode m pre lvl ∈ calls → lvl = pre.length
  | [], _, _, m, pre, lvl, hm => by simp at hm
  | Call.HandleNode m' pre' lvl' :: rest, none, h, m, pre, lvl, hm => by
    rcases List.mem_cons.1 hm with heq | hm
    · injection heq with h1 h2 h3
      subst h2; subst h3
      exact h.1
    · exact CallsShapeAux_node S rest _ h.2 m pre lvl hm
  | Call.HandleTuple _ _ _ :: _, none, h, _, _, _, _ => False.elim h
  | Call.HandleTuple k b en :: rest, some p, h, m, pre, lvl, hm => by
    rcases List.mem_cons.1 hm with heq | hm
    · cases heq
    · exact CallsShapeAux_node S rest none h.2.2.2 m pre lvl hm
  | Call.HandleNode _ _ _ :: _, some _, h, _, _, _, _ => False.elim h

theorem CallsShapeAux_tuple (S : List Nat) : ∀ (calls : List Call)
    (st : Option (List Nat × Nat)),
    CallsShapeAux S st calls → ∀ k b en, Call.HandleTuple k b en ∈ calls →
      (∃ p, st = some p ∧ k = p.1 ∧ b = ⟨p.2⟩ ∧ en = ⟨LAST_INDEX_IDENTIFIER⟩) ∨
      (∃ m pre, Call.HandleNode m pre pre.length ∈ calls ∧ m.base.end_of_string_ = true ∧
        k = pre ++ m.pfx S ∧ b = ⟨m.base.value_⟩ ∧ en = ⟨LAST_INDEX_IDENTIFIER⟩)
  | [], _, _, k, b, en, hm => by simp at hm
  | Call.HandleNode m' pre' lvl' :: rest, none, h, k, b, en, hm => by
    rcases List.mem_cons.1 hm with heq | hm'
    · cases heq
    · right
      have hl : lvl' = pre'.length := h.1
      subst hl
      rcases CallsShapeAux_tuple S rest _ h.2 k b en hm' with ⟨p, hp, h1, h2, h3⟩ | ⟨m, pre, h1, h2⟩
      · cases heos : m'.base.end_of_string_ with
        | true =>
          rw [heos] at hp
          simp only [if_true, Option.some.injEq] at hp
          subst hp
          exact ⟨m', pre', List.mem_cons_self _ _, heos, h1, h2, h3⟩
        | false =>
          rw [heos] at hp
          simp at hp
      · exact ⟨m, pre, List.mem_cons_of_mem _ h1, h2⟩
  | Call.HandleTuple _ _ _ :: _, none, h, _, _, _, _ => False.elim h
  | Call.HandleTuple k' b' en' :: rest, some p, h, k, b, en, hm => by
    rcases List.mem_cons.1 hm with heq | hm
    · injection heq with h1 h2 h3
      subst h1; subst h2; subst h3
      exact Or.inl ⟨p, rfl, h.1, h.2.1, h.2.2.1⟩
    · right
      rcases CallsShapeAux_tuple S rest none h.2.2.2 k b en hm with ⟨p', hp, _⟩ | ⟨m, pre, h1, h2⟩
      · cases hp
      · exact ⟨m, pre, List.mem_cons_of_mem _ h1, h2⟩
  | Call.HandleNode _ _ _ :: _, some _, h, _, _, _, _ => False.elim h

theorem Holds_of_PathBefore (e : Bool) (S : List Nat) (root m : CArtNode) (k : List Nat)
    (h : PathBefore e S root m k) (heos : m.base.end_of_string_ = true) :
    Holds e S root (k ++ m.pfx S) m.base.value_ := by
  induction h with
  | root n => exact Holds.here n heos
  | child n c ch m k hkid _ ih =>
    have := Holds.under n c ch _ _ hkid (ih heos)
    rw [List.append_assoc]
    exact this

theorem InTree_of_PathBefore (e : Bool) (S : List Nat) (root m : CArtNode) (k : List Nat)
    (h : PathBefore e S root m k) : InTree e root m := by
  induction h with
  | root n => exact InTree.root n
  | child n c ch m k hkid _ ih => exact InTree.child n c ch m hkid ih

theorem PathBefore_of_InTree (e : Bool) (S : List Nat) (root m : CArtNode)
    (h : InTree e root m) : ∃ k, PathBefore e S root m k := by
  induction h with
  | root n => exact ⟨[], PathBefore.root n⟩
  | child n c ch m hkid _ ih =>
    obtain ⟨k, hk⟩ := ih
    exact ⟨_, PathBefore.child n c ch m k hkid hk⟩

theorem TreeWF_AddEntries (e : Bool) (n : Nat) (es : List (List Nat × Nat))
    (hd : (es.map Prod.snd).Nodup)
    (hlt : ∀ p, p ∈ es → p.2 < GetIndexVectorLength (CAdaptiveRadixTree.new n).2)
    (hbytes : ∀ p, p ∈ es → ∀ c, c ∈ p.1 → c < 256)
    (htot : totalLength es < 4294967296) :
    TreeWF e (AddEntries e (CAdaptiveRadixTree.new n) es).1 ∧
    (AddEntries e (CAdaptiveRadixTree.new n) es).1.suffix_table_.length ≤ totalLength es := by
  obtain ⟨⟨root, hroot, htree, _, _, _, _, _, h8, _, h10⟩, _⟩ :=
    AddEntries_spec e (fun c => c < 256) (fun c hc => hc)
      (CAdaptiveRadixTree.new n).2 (length_new n) es hd hlt hbytes htot
  refine ⟨⟨root, hroot, htree⟩, ?_⟩
  rw [entriesOf_map] at h8
  rw [← h8]
  exact h10

theorem chain_facts (I : List Nat) (v : Nat) (L : List Nat) (N : Nat) (hne : L ≠ [])
    (hchain : Chain I v L.reverse) (hlen : L.length ≤ N) :
    v ≠ LAST_INDEX_IDENTIFIER ∧ chainFrom I (N + 1) v = some L.reverse ∧ L.reverse ≠ [] := by
  have hne' : L.reverse ≠ [] := fun h => hne (List.reverse_eq_nil_iff.1 h)
  refine ⟨?_, collect_of_Chain _ _ _ _ hchain (by rw [List.length_reverse]; omega), hne'⟩
  cases hl : L.reverse with
  | nil => exact absurd hl hne'
  | cons x xs =>
    rw [hl] at hchain
    obtain ⟨h1, h2, _⟩ := hchain
    rw [h1]; exact h2

theorem pfx_congr (S : List Nat) (a b : CArtNode)
    (h1 : a.base.prefix_position_ = b.base.prefix_position_)
    (h2 : a.base.prefix_length_ = b.base.prefix_length_) : a.pfx S = b.pfx S := by
  unfold CArtNode.pfx
  rw [h1, h2]

theorem TreeAll_setBase (e : Bool) (Q : CArtNode → Prop) (hQ : NodeInv e Q) (n : CArtNode)
    (b : CArtNodeBase) (hn : NodeOK e n) (h : TreeAll e Q n)
    (hb : b.children_count_ = n.base.children_count_) : TreeAll e Q (n.setBase b) := by
  cases h with
  | mk _ hq hkids =>
    refine TreeAll.mk _ (hQ.2.1 n b hn hq hb) ?_
    intro c ch hc
    rw [(NodeOK_setBase e n b hb).2.2.2.1] at hc
    exact hkids c ch hc

theorem TreeAll_leaf (e : Bool) (Q : CArtNode → Prop) (hQ : NodeInv e Q) (b : CArtNodeBase)
    (hb : b.children_count_ = 0) : TreeAll e Q (CArtNode.new4.setBase b) := by
  refine TreeAll.mk _ (hQ.1 b hb) ?_
  intro c ch hc
  rw [CArtNode.kids, (NodeOK_new4 e b hb).2] at hc
  simp at hc

theorem TreeAll_setChild (e : Bool) (Q : CArtNode → Prop) (hQ : NodeInv e Q) (n : CArtNode)
    (c s : Nat) (x : CArtNode) (hn : NodeOK e n) (h : TreeAll e Q n)
    (hs : (c, s) ∈ n.slots e) (hx : TreeAll e Q x) : TreeAll e Q (n.setChild s (Ptr.to x)) := by
  cases h with
  | mk _ hq hkids =>
    refine TreeAll.mk _ (hQ.2.2.1 n c s x hn hq hs) ?_
    intro c' ch hc
    rcases (kids_setChild e n c s x hn hs c' _).1 hc with ⟨_, h⟩ | ⟨_, h⟩
    · injection h with h; rw [h]; exact hx
    · exact hkids c' ch h

theorem TreeAll_insert (e : Bool) (Q : CArtNode → Prop) (hQ : NodeInv e Q) (n : CArtNode)
    (c : Nat) (x : CArtNode) (hn : NodeOK e n) (h : TreeAll e Q n) (hc : c < 256)
    (hnew : ∀ s, (c, s) ∉ n.slots e) (hx : TreeAll e Q x) :
    TreeAll e Q (InsertInNode e n c (Ptr.to x)).1 := by
  obtain ⟨_, _, _, hi4, _⟩ := InsertInNode_spec e n c x hn hc hnew
  cases h with
  | mk _ hq hkids =>
    refine TreeAll.mk _ (hQ.2.2.2 n c x hn hq hc hnew) ?_
    intro c' ch hcc
    rcases (hi4 c' _).1 hcc with ⟨_, h⟩ | h
    · injection h with h; rw [h]; exact hx
    · exact hkids c' ch h

theorem TreeAll_attachLeaf (e : Bool) (Q : CArtNode → Prop) (hQ : NodeInv e Q)
    (key : List Nat) (value fuel offset : Nat)
    (N : CArtNode) (y : Nat) (t : CAdaptiveRadixTree) (I : List Nat)
    (hN : NodeOK e N) (hall : TreeAll e Q N) (hy : y < 256) (hnew : ∀ s, (y, s) ∉ N.slots e)
    (ho : offset ≤ key.length) (hf : key.length < offset + fuel) :
    TreeAll e Q (attachLeaf e key value fuel offset N y t I).1 := by
  rw [attachLeaf_eq e key value fuel offset N y t I hN hy hnew ho hf]
  obtain ⟨hi1, hi2, _⟩ := InsertInNode_spec e N y (newLeaf key t.suffix_table_ offset) hN hy hnew
  have hleaf : ∀ b : CArtNodeBase, b.children_count_ = 0 →
      TreeAll e Q ((newLeaf key t.suffix_table_ offset).setBase b) := by
    intro b hb
    unfold newLeaf
    rw [setBase_setBase]
    exact TreeAll_leaf e Q hQ b hb
  refine TreeAll_setChild e Q hQ _ y _ _ hi1 ?_ hi2 (hleaf _ rfl)
  refine TreeAll_insert e Q hQ N y _ hN hall hy hnew ?_
  have := hleaf (newLeaf key t.suffix_table_ offset).base rfl
  unfold newLeaf at this ⊢
  rw [setBase_setBase, base_setBase] at this
  exact this

theorem TreeAll_split (e : Bool) (Q : CArtNode → Prop) (hQ : NodeInv e Q) (n : CArtNode)
    (m c : Nat) (hc : c < 256) (hn : NodeOK e n) (h : TreeAll e Q n) :
    TreeAll e Q (InsertInNode e (splitParent n m) c (Ptr.to (splitChild n m))).1 := by
  rw [splitParent_eq]
  obtain ⟨h1, h2⟩ := NodeOK_new4 e { CArtNodeBase.init with
      prefix_position_ := if m ≠ 0 then n.base.prefix_position_ else 0, prefix_length_ := m } rfl
  refine TreeAll_insert e Q hQ _ c _ h1 (TreeAll_leaf e Q hQ _ rfl) hc ?_ ?_
  · intro s hs
    rw [h2] at hs
    simp at hs
  · exact TreeAll_setBase e Q hQ n _ hn h rfl

/-- The loop of `AddEntry` keeps a property of all nodes of a well-formed subtree, when the
node operations keep it. -/
theorem AddEntryLoop_all (e : Bool) (Q : CArtNode → Prop) (hQ : NodeInv e Q)
    (P : Nat → Prop) (hP : ∀ c, P c → c < 256)
    (key : List Nat) (value : Nat) (hkey : ∀ x, x ∈ key → P x) :
    ∀ (fuel depth : Nat) (n : CArtNode) (t : CAdaptiveRadixTree) (I : List Nat),
      TreeOK e P t.suffix_table_ n → TreeAll e Q n → depth ≤ key.length →
      key.length < depth + fuel →
      t.suffix_table_.length + (key.length - depth) < 4294967296 →
      TreeAll e Q (AddEntryLoop e key value fuel depth n t I).1 := by
  intro fuel
  induction fuel with
  | zero => intro depth n t I _ _ h1 h2; omega
  | succ fuel ih =>
    intro depth n t I hOK hall hd hf hS
    have hOK0 := hOK
    cases hOK with
    | mk _ hnode hbound hval hpfx hbyte hkids =>
    obtain ⟨m1, m2, m3, m4⟩ := mismatchAt_spec key t.suffix_table_ depth n hd hbound
    by_cases hA : depth + mismatchAt key t.suffix_table_ depth n = key.length ∧
        mismatchAt key t.suffix_table_ depth n = n.base.prefix_length_
    · rw [AddEntryLoop_full e key value fuel depth n t I hA]
      exact TreeAll_setBase e Q hQ n _ hnode hall rfl
    · by_cases hB : mismatchAt key t.suffix_table_ depth n < n.base.prefix_length_
      · obtain ⟨s1, s2, s3, s4, s5, s6⟩ := split_spec e P hP t.suffix_table_ n
          (mismatchAt key t.suffix_table_ depth n) hOK0 hB
        have hcb : t.suffix_table_.getD
            (n.base.prefix_position_ + mismatchAt key t.suffix_table_ depth n) 0 < 256 := by
          rw [← pfx_getD t.suffix_table_ n _ hB]
          refine hP _ (hpfx _ (getD_mem_of_lt _ _ ?_))
          rw [pfx_length t.suffix_table_ n hbound]
          exact hB
        have hs := TreeAll_split e Q hQ n (mismatchAt key t.suffix_table_ depth n) _ hcb hnode hall
        have hn1 : NodeOK e (InsertInNode e (splitParent n (mismatchAt key t.suffix_table_ depth n))
            (t.suffix_table_.getD
              (n.base.prefix_position_ + mismatchAt key t.suffix_table_ depth n) 0)
            (Ptr.to (splitChild n (mismatchAt key t.suffix_table_ depth n)))).1 := by
          cases s1 with
          | mk _ h _ _ _ _ _ => exact h
        by_cases hC : depth + mismatchAt key t.suffix_table_ depth n < key.length
        · rw [AddEntryLoop_split_more e key value fuel depth n t I hA hB hC hS]
          have hxy := m4 hB hC
          rw [pfx_getD t.suffix_table_ n _ hB] at hxy
          refine TreeAll_attachLeaf e Q hQ key value fuel _ _ _ t I hn1 hs
            (hP _ (hkey _ (getD_mem_of_lt _ _ hC))) ?_ (by omega) (by omega)
          intro s hs'
          obtain ⟨_, ch, hch⟩ := slots_node e _ hn1 _ s hs'
          have := (s4 _ _).1 ((mem_kids e _ _ _).2 ⟨s, hs', hch⟩)
          exact hxy this.1
        · rw [AddEntryLoop_split_end e key value fuel depth n t I hA hB hC]
          exact TreeAll_setBase e Q hQ _ _ hn1 hs rfl
      · have hm : mismatchAt key t.suffix_table_ depth n = n.base.prefix_length_ := by omega
        have hC : depth + mismatchAt key t.suffix_table_ depth n < key.length := by
          by_contra h
          exact hA ⟨by omega, hm⟩
        have hyP : P (key.getD (depth + mismatchAt key t.suffix_table_ depth n) 0) :=
          hkey _ (getD_mem_of_lt _ _ hC)
        cases hfind : FindChild e n
            (key.getD (depth + mismatchAt key t.suffix_table_ depth n) 0) with
        | some slot =>
          have hslot := FindChild_some e n _ slot hnode hfind (hP _ hyP)
          obtain ⟨_, ch, hch⟩ := slots_node e n hnode _ slot hslot
          rw [AddEntryLoop_found e key value fuel depth n t I slot ch hA hB hC hfind hch]
          have hkid : (key.getD (depth + mismatchAt key t.suffix_table_ depth n) 0, Ptr.to ch) ∈
              n.kids e := (mem_kids e n _ _).2 ⟨slot, hslot, hch⟩
          have hallch : TreeAll e Q ch := by
            cases hall with
            | mk _ _ hk => exact hk _ ch hkid
          exact TreeAll_setChild e Q hQ n _ slot _ hnode hall hslot
            (ih _ ch t I (hkids _ ch hkid) hallch (by omega) (by omega) (by omega))
        | none =>
          have hnew := FindChild_none e n _ hnode hfind
          rw [AddEntryLoop_new e key value fuel depth n t I hA hB hC hfind hS]
          exact TreeAll_attachLeaf e Q hQ key value fuel _ n _ t I hnode hall (hP _ hyP) hnew
            (by omega) (by omega)

theorem TreeAll_InTree (e : Bool) (Q : CArtNode → Prop) (root m : CArtNode)
    (hm : InTree e root m) : TreeAll e Q root → Q m := by
  induction hm with
  | root n =>
    intro h
    cases h with
    | mk _ hq _ => exact hq
  | child n c ch m hkid _ ih =>
    intro h
    cases h with
    | mk _ _ hkids => exact ih (hkids c ch hkid)

theorem AddEntries_snoc (e : Bool) (st : CAdaptiveRadixTree × List Nat)
    (es : List (List Nat × Nat)) (p : List Nat × Nat) :
    AddEntries e st (es ++ [p]) =
      AddEntry e (AddEntries e st es).1 (AddEntries e st es).2 p.1 p.2 := by
  unfold AddEntries
  rw [List.foldl_append]
  rfl

/-- A property of all nodes that the node operations keep holds in every tree built by
`AddEntry` calls on a freshly constructed tree. -/
theorem AddEntries_all (e : Bool) (Q : CArtNode → Prop) (hQ : NodeInv e Q)
    (h0 : Q CArtNode.new256) (n : Nat) :
    ∀ (es : List (List Nat × Nat)), (es.map Prod.snd).Nodup →
      (∀ p, p ∈ es → p.2 < GetIndexVectorLength (CAdaptiveRadixTree.new n).2) →
      (∀ p, p ∈ es → ∀ c, c ∈ p.1 → c < 256) → totalLength es < 4294967296 →
      ∀ root, (AddEntries e (CAdaptiveRadixTree.new n) es).1.root_ = Ptr.to root →
        TreeAll e Q root := by
  intro es
  induction es using List.reverseRecOn with
  | nil =>
    intro _ _ _ _ root hroot
    have : root = CArtNode.new256 := by
      have h : (Ptr.to CArtNode.new256 : Ptr CArtNode) = Ptr.to root := hroot
      injection h with h
      exact h.symm
    subst this
    refine TreeAll.mk _ h0 ?_
    intro c ch hc
    rw [CArtNode.kids, (NodeOK_new256 e).2] at hc
    simp at hc
  | append_singleton es p ih =>
    intro hd hlt hbytes htot root hroot
    have hd' : (es.map Prod.snd).Nodup := by
      rw [List.map_append, List.nodup_append] at hd
      exact hd.1
    have hlt' : ∀ q, q ∈ es → q.2 < GetIndexVectorLength (CAdaptiveRadixTree.new n).2 :=
      fun q hq => hlt q (List.mem_append_left _ hq)
    have hbytes' : ∀ q, q ∈ es → ∀ c, c ∈ q.1 → c < 256 :=
      fun q hq => hbytes q (List.mem_append_left _ hq)
    rw [totalLength_snoc] at htot
    have htot' : totalLength es < 4294967296 := by omega
    obtain ⟨⟨root', hroot', htree', _, _, _, _, _, h8, _, h10⟩, _⟩ :=
      AddEntries_spec e (fun c => c < 256) (fun c hc => hc)
        (CAdaptiveRadixTree.new n).2 (length_new n) es hd' hlt' hbytes' htot'
    rw [entriesOf_map] at h8
    have hroot' : (AddEntries e (CAdaptiveRadixTree.new n) es).1.root_ = Ptr.to root' := hroot'
    have htree' : TreeOK e (fun c => c < 256)
        (AddEntries e (CAdaptiveRadixTree.new n) es).1.suffix_table_ root' := htree'
    have hall' := ih hd' hlt' hbytes' htot' root' hroot'
    rw [AddEntries_snoc] at hroot
    rw [AddEntry_eq e _ _ p.1 p.2 root' hroot'] at hroot
    change Ptr.to _ = Ptr.to root at hroot
    injection hroot with h
    rw [← h]
    refine AddEntryLoop_all e Q hQ (fun c => c < 256) (fun c hc => hc) p.1 p.2
      (hbytes p (List.mem_append_right _ (List.mem_singleton_self _))) _ 0 root' _ _
      htree' hall' (Nat.zero_le _) (by omega) ?_
    simp only []
    have h10' : (AddEntries e (CAdaptiveRadixTree.new n) es).1.suffix_table_.length ≤
        totalLength es := by
      have h8' : (AddEntries e (CAdaptiveRadixTree.new n) es).1.total_string_length_ =
          totalLength es := h8
      rw [← h8']; exact h10
    omega

theorem slots_bytes_nodup (e : Bool) (n : CArtNode) (h : NodeOK e n) :
    ((n.slots e).map Prod.fst).Nodup := by
  have := slots_sorted e n h
  rw [List.Nodup, List.pairwise_map]
  exact this.imp (fun h => Nat.ne_of_lt h)

theorem mem_slots_bytes (e : Bool) (n : CArtNode) (c : Nat) :
    c ∈ (n.slots e).map Prod.fst ↔ ∃ q, (c, q) ∈ n.kids e := by
  constructor
  · intro h
    obtain ⟨p, hp, hpc⟩ := List.mem_map.1 h
    obtain ⟨c', s⟩ := p
    simp only [] at hpc
    subst hpc
    exact ⟨_, (mem_kids e n c' _).2 ⟨s, hp, rfl⟩⟩
  · rintro ⟨q, hq⟩
    obtain ⟨s, hs, _⟩ := (mem_kids e n c q).1 hq
    exact List.mem_map.2 ⟨(c, s), hs, rfl⟩

/-- `InsertInNode` of a new byte adds one pair to the children of a well-formed node. -/
theorem insert_slots_length (e : Bool) (n : CArtNode) (c : Nat) (x : CArtNode)
    (hn : NodeOK e n) (hc : c < 256) (hnew : ∀ s, (c, s) ∉ n.slots e) :
    ((InsertInNode e n c (Ptr.to x)).1.slots e).length = (n.slots e).length + 1 := by
  obtain ⟨hi1, _, _, hi4, _⟩ := InsertInNode_spec e n c x hn hc hnew
  have hnot : c ∉ (n.slots e).map Prod.fst := by
    intro h
    obtain ⟨p, hp, hpc⟩ := List.mem_map.1 h
    obtain ⟨c', s⟩ := p
    simp only [] at hpc
    subst hpc
    exact hnew s hp
  have hperm : List.Perm (((InsertInNode e n c (Ptr.to x)).1.slots e).map Prod.fst)
      (c :: (n.slots e).map Prod.fst) := by
    rw [List.perm_ext_iff_of_nodup (slots_bytes_nodup e _ hi1)
      (List.nodup_cons.2 ⟨hnot, slots_bytes_nodup e n hn⟩)]
    intro a
    rw [List.mem_cons, mem_slots_bytes, mem_slots_bytes]
    constructor
    · rintro ⟨q, hq⟩
      rcases (hi4 a q).1 hq with ⟨h, _⟩ | h
      · exact Or.inl h
      · exact Or.inr ⟨q, h⟩
    · rintro (h | ⟨q, hq⟩)
      · exact ⟨_, (hi4 a _).2 (Or.inl ⟨h, rfl⟩)⟩
      · exact ⟨q, (hi4 a q).2 (Or.inr hq)⟩
  have := hperm.length_eq
  simpa using this

theorem slots_length_small (e : Bool) (n : CArtNode)
    (h : n.node_type_ = NodeType.Fanout4 ∨ n.node_type_ = NodeType.Fanout16) :
    (n.slots e).length = n.base.children_count_ := by
  cases n with
  | Fanout4 b k ch => simp [CArtNode.slots, CArtNode.base]
  | Fanout16 b k ch => simp [CArtNode.slots, CArtNode.base]
  | Fanout48 b k ch => rcases h with h | h <;> cases h
  | Fanout256 b ch => rcases h with h | h <;> cases h

/-- In a counted node, `children_count_` is the number of key bytes present. -/
theorem slots_length (e : Bool) (n : CArtNode) (hc : Counted e n) :
    (n.slots e).length = n.base.children_count_ := by
  cases n with
  | Fanout4 b k ch => simp [CArtNode.slots, CArtNode.base]
  | Fanout16 b k ch => simp [CArtNode.slots, CArtNode.base]
  | Fanout48 b k ch => exact hc.1
  | Fanout256 b ch => exact hc

theorem Counted_setBase (e : Bool) (n : CArtNode) (b : CArtNodeBase) (h : Counted e n)
    (hb : b.children_count_ = n.base.children_count_) : Counted e (n.setBase b) := by
  cases n with
  | Fanout4 b' k ch => simp only [CArtNode.base] at hb; simpa only [Counted, CArtNode.setBase, hb] using h
  | Fanout16 b' k ch => simp only [CArtNode.base] at hb; simpa only [Counted, CArtNode.setBase, hb] using h
  | Fanout48 b' k ch =>
    simp only [CArtNode.base] at hb
    simpa only [Counted, CArtNode.setBase, hb, CArtNode.slots] using h
  | Fanout256 b' ch =>
    simp only [CArtNode.base] at hb
    simpa only [Counted, CArtNode.setBase, hb, CArtNode.slots] using h

theorem Counted_setChild (e : Bool) (n : CArtNode) (c s : Nat) (x : CArtNode) (hn : NodeOK e n)
    (h : Counted e n) (hs : (c, s) ∈ n.slots e) : Counted e (n.setChild s (Ptr.to x)) := by
  obtain ⟨_, hsl, _, _⟩ := setChild_spec e n c s x hn hs
  cases n with
  | Fanout4 b k ch =>
    have hlt := ((mem_slots4 e b k ch c s).1 hs).1
    intro i hi
    show (ch.set s (Ptr.to x)).getD i Ptr.nullptr = Ptr.nullptr
    rw [getD_set_ne ch s i _ _ (by omega)]
    exact h i hi
  | Fanout16 b k ch =>
    have hlt := ((mem_slots16 e b k ch c s).1 hs).1
    intro i hi
    show (ch.set s (Ptr.to x)).getD i Ptr.nullptr = Ptr.nullptr
    rw [getD_set_ne ch s i _ _ (by omega)]
    exact h i hi
  | Fanout48 b k ch =>
    obtain ⟨_, h2, h3⟩ := (mem_slots48 e b k ch c s).1 hs
    obtain ⟨_, hl, hcc, hidx, _⟩ := hn
    refine ⟨?_, ?_⟩
    · have : ((CArtNode.Fanout48 b k ch).setChild s (Ptr.to x)).slots e =
          (CArtNode.Fanout48 b k (ch.set s (Ptr.to x))).slots e := rfl
      rw [← this, hsl]
      exact h.1
    · intro s' hs'
      by_cases hss : s' = s
      · refine ⟨x, ?_⟩
        rw [hss, getD_set_ptr ch s s _ _ (by
          have := (hidx c (by omega) h2).1
          omega), if_pos rfl]
      · rw [getD_set_ne ch s s' _ _ hss]
        exact h.2 s' hs'
  | Fanout256 b ch =>
    have : ((CArtNode.Fanout256 b ch).setChild s (Ptr.to x)).slots e =
        (CArtNode.Fanout256 b (ch.set s (Ptr.to x))).slots e := rfl
    show ((CArtNode.Fanout256 b (ch.set s (Ptr.to x))).slots e).length = b.children_count_
    rw [← this, hsl]
    exact h

/-- The `CArtNode4` / `CArtNode16` insertion at a position `pos ≤ children_count_` keeps
the cells of `child_` behind the children empty. -/
theorem beyond_memmove (ch : List (Ptr CArtNode)) (pos count : Nat) (p : Ptr CArtNode)
    (hpos : pos ≤ count) (hcount : count < ch.length)
    (h : ∀ i, count ≤ i → ch.getD i Ptr.nullptr = Ptr.nullptr) :
    ∀ i, count + 1 ≤ i →
      ((memmove ch (pos + 1) pos (count - pos)).set pos p).getD i Ptr.nullptr = Ptr.nullptr := by
  intro i hi
  rw [getD_memmove_set ch pos count p Ptr.nullptr hpos hcount i,
    if_neg (by omega), if_neg (by omega), if_neg (by omega)]
  exact h i (by omega)

theorem Counted_insert16 (e : Bool) (b : CArtNodeBase) (k : List Nat)
    (ch : List (Ptr CArtNode)) (c : Nat) (p : Ptr CArtNode)
    (hcnt : b.children_count_ < 16) (hlen : ch.length = 16)
    (h : ∀ i, b.children_count_ ≤ i → ch.getD i Ptr.nullptr = Ptr.nullptr)
    (hslot : (InsertInNode16 e b k ch c p).2 ≤ b.children_count_) :
    Counted e (InsertInNode16 e b k ch c p).1 := by
  unfold InsertInNode16 at hslot ⊢
  rw [if_pos hcnt] at hslot ⊢
  dsimp only at hslot ⊢
  exact beyond_memmove ch _ _ p hslot (by omega) h

theorem Counted_insert4 (e : Bool) (b : CArtNodeBase) (k : List Nat)
    (ch : List (Ptr CArtNode)) (c : Nat) (p : Ptr CArtNode)
    (hcnt : b.children_count_ < 4) (hlen : ch.length = 4)
    (h : ∀ i, b.children_count_ ≤ i → ch.getD i Ptr.nullptr = Ptr.nullptr)
    (hslot : (InsertInNode4 e b k ch c p).2 ≤ b.children_count_) :
    Counted e (InsertInNode4 e b k ch c p).1 := by
  unfold InsertInNode4 at hslot ⊢
  rw [if_pos hcnt] at hslot ⊢
  dsimp only at hslot ⊢
  exact beyond_memmove ch _ _ p hslot (by omega) h

theorem live48_insert (b : CArtNodeBase) (idx : List Nat) (ch : List (Ptr CArtNode))
    (c : Nat) (x : CArtNode) (hcnt : b.children_count_ < 48) (hlen : ch.length = 48)
    (hnull : ch.getD b.children_count_ Ptr.nullptr = Ptr.nullptr)
    (hlive : ∀ s, s < b.children_count_ → ∃ y, ch.getD s Ptr.nullptr = Ptr.to y) :
    ∃ idx' ch', (InsertInNode48 b idx ch c (Ptr.to x)).1 =
        CArtNode.Fanout48 { b with children_count_ := b.children_count_ + 1 } idx' ch' ∧
      ∀ s, s < b.children_count_ + 1 → ∃ y, ch'.getD s Ptr.nullptr = Ptr.to y := by
  unfold InsertInNode48
  rw [if_pos hcnt]
  dsimp only
  rw [hnull]
  simp only [Ptr.isNull, Bool.not_true, Bool.false_eq_true, if_false]
  refine ⟨_, _, rfl, ?_⟩
  intro s hs
  by_cases hsc : s = b.children_count_
  · exact ⟨x, by rw [hsc, getD_set_ptr ch _ _ _ _ (by omega), if_pos rfl]⟩
  · rw [getD_set_ne ch _ s _ _ hsc]
    exact hlive s (by omega)

theorem slot_lt_count (e : Bool) (n : CArtNode) (c s : Nat) (hs : (c, s) ∈ n.slots e)
    (ht : n.node_type_ = NodeType.Fanout4 ∨ n.node_type_ = NodeType.Fanout16) :
    s < n.base.children_count_ := by
  cases n with
  | Fanout4 b k ch => exact ((mem_slots4 e b k ch c s).1 hs).1
  | Fanout16 b k ch => exact ((mem_slots16 e b k ch c s).1 hs).1
  | Fanout48 b k ch => rcases ht with h | h <;> cases h
  | Fanout256 b ch => rcases ht with h | h <;> cases h

theorem memcpy_beyond (n : Nat) (ch : List (Ptr CArtNode)) (count : Nat)
    (h : count ≤ ch.length) :
    ∀ i, count ≤ i →
      (memcpy (List.replicate n Ptr.nullptr) ch count).getD i Ptr.nullptr = Ptr.nullptr := by
  intro i hi
  rw [getD_memcpy _ _ _ _ h, if_neg (by omega), getD_replicate_self]

/-- `InsertInNode` of a new byte keeps a well-formed node counted. -/
theorem Counted_insert (e : Bool) (n : CArtNode) (c : Nat) (x : CArtNode) (hn : NodeOK e n)
    (hq : Counted e n) (hc : c < 256) (hnew : ∀ s, (c, s) ∉ n.slots e) :
    Counted e (InsertInNode e n c (Ptr.to x)).1 := by
  obtain ⟨hi1, hi2, _, _, hi5⟩ := InsertInNode_spec e n c x hn hc hnew
  have hlen := insert_slots_length e n c x hn hc hnew
  rw [slots_length e n hq] at hlen
  cases n with
  | Fanout4 b k ch =>
    obtain ⟨_, hl, hcc, _⟩ := hn
    have hq' : ∀ i, b.children_count_ ≤ i → ch.getD i Ptr.nullptr = Ptr.nullptr := hq
    by_cases hcnt : b.children_count_ < 4
    · have ht := InsertInNode_type_below e (CArtNode.Fanout4 b k ch) c (Ptr.to x) 4 rfl hcnt
      have hslot := slot_lt_count e _ c _ hi2 (Or.inl ht)
      rw [hi5] at hslot
      exact Counted_insert4 e b k ch c (Ptr.to x) hcnt hl hq' (Nat.le_of_lt_succ hslot)
    · have h4 : b.children_count_ = 4 := by omega
      have ht := InsertInNode_type_full e (CArtNode.Fanout4 b k ch) c (Ptr.to x)
        (by simp [CArtNode.capacity, CArtNode.base, h4])
      have hslot := slot_lt_count e _ c _ hi2 (Or.inr ht)
      rw [hi5] at hslot
      have hgrow : InsertInNode e (CArtNode.Fanout4 b k ch) c (Ptr.to x) =
          InsertInNode16 e b
            ((List.range 4).foldl
              (fun a i => a.set i (if e = true then FlipSign (k.getD i 0) else k.getD i 0))
              (List.replicate 16 0))
            (memcpy (List.replicate 16 Ptr.nullptr) ch b.children_count_) c (Ptr.to x) := by
        show InsertInNode4 e b k ch c (Ptr.to x) = _
        unfold InsertInNode4
        rw [if_neg hcnt]
      rw [hgrow] at hslot ⊢
      exact Counted_insert16 e b _ _ c (Ptr.to x) (by omega)
        (by rw [length_memcpy _ _ _ (by omega) (by rw [List.length_replicate]; omega),
          List.length_replicate])
        (memcpy_beyond 16 ch _ (by omega)) (Nat.le_of_lt_succ hslot)
  | Fanout16 b k ch =>
    obtain ⟨_, hl, hcc, _, _, hlive⟩ := hn
    have hq' : ∀ i, b.children_count_ ≤ i → ch.getD i Ptr.nullptr = Ptr.nullptr := hq
    by_cases hcnt : b.children_count_ < 16
    · have ht := InsertInNode_type_below e (CArtNode.Fanout16 b k ch) c (Ptr.to x) 16 rfl hcnt
      have hslot := slot_lt_count e _ c _ hi2 (Or.inr ht)
      rw [hi5] at hslot
      exact Counted_insert16 e b k ch c (Ptr.to x) hcnt hl hq' (Nat.le_of_lt_succ hslot)
    · have h16 : b.children_count_ = 16 := by omega
      have hgrow : InsertInNode e (CArtNode.Fanout16 b k ch) c (Ptr.to x) =
          InsertInNode48 b
            ((List.range b.children_count_).foldl
              (fun idx i =>
                idx.set (if e = true then FlipSign (k.getD i 0) else k.getD i 0) i)
              (List.replicate 256 CArtNode.EMPTY_MARKER))
            (memcpy (List.replicate 48 Ptr.nullptr) ch b.children_count_) c (Ptr.to x) := by
        show InsertInNode16 e b k ch c (Ptr.to x) = _
        unfold InsertInNode16
        rw [if_neg hcnt]
      obtain ⟨idx', ch', hshape, hl'⟩ := live48_insert b
        ((List.range b.children_count_).foldl
          (fun idx i =>
            idx.set (if e = true then FlipSign (k.getD i 0) else k.getD i 0) i)
          (List.replicate 256 CArtNode.EMPTY_MARKER))
        (memcpy (List.replicate 48 Ptr.nullptr) ch b.children_count_) c x (by omega)
        (by rw [length_memcpy _ _ _ (by omega) (by rw [List.length_replicate]; omega),
          List.length_replicate])
        (memcpy_beyond 48 ch _ (by omega) _ (Nat.le_refl _))
        (fun s hs => by
          rw [getD_memcpy _ _ _ _ (by omega), if_pos hs]
          exact hlive s hs)
      rw [hgrow, hshape] at hlen ⊢
      exact ⟨hlen, hl'⟩
  | Fanout48 b k ch =>
    obtain ⟨_, hl, hcc, _, _, hnull⟩ := hn
    by_cases hcnt : b.children_count_ < 48
    · obtain ⟨idx', ch', hshape, hl'⟩ := live48_insert b k ch c x hcnt hl
        (hnull _ (Nat.le_refl _)) hq.2
      have hshape' : (InsertInNode e (CArtNode.Fanout48 b k ch) c (Ptr.to x)).1 = _ := hshape
      rw [hshape'] at hlen ⊢
      exact ⟨hlen, hl'⟩
    · have hgrow : (InsertInNode e (CArtNode.Fanout48 b k ch) c (Ptr.to x)).1 =
          CArtNode.Fanout256 { b with children_count_ := b.children_count_ + 1 }
            (((List.range 256).map (fun i =>
              if k.getD i 0 ≠ 48 then ch.getD (k.getD i 0) Ptr.nullptr
              else Ptr.EMPTY_NODE)).set c (Ptr.to x)) := by
        show (InsertInNode48 b k ch c (Ptr.to x)).1 = _
        unfold InsertInNode48
        rw [if_neg hcnt]
        rfl
      rw [hgrow] at hlen ⊢
      exact hlen
  | Fanout256 b ch =>
    have hshape : (InsertInNode e (CArtNode.Fanout256 b ch) c (Ptr.to x)).1 =
        CArtNode.Fanout256 { b with children_count_ := b.children_count_ + 1 }
          (ch.set c (Ptr.to x)) := rfl
    rw [hshape] at hlen ⊢
    exact hlen

theorem NodeInv_Counted (e : Bool) : NodeInv e (Counted e) := by
  refine ⟨?_, ?_, ?_, ?_⟩
  · intro b hb i _
    show (List.replicate 4 (Ptr.nullptr : Ptr CArtNode)).getD i Ptr.nullptr = Ptr.nullptr
    exact getD_replicate_self _ _ _
  · intro n b _ hq hb
    exact Counted_setBase e n b hq hb
  · intro n c s x hn hq hs
    exact Counted_setChild e n c s x hn hq hs
  · intro n c x hn hq hc hnew
    exact Counted_insert e n c x hn hq hc hnew

theorem Counted_new256 (e : Bool) : Counted e CArtNode.new256 := by
  show (CArtNode.new256.slots e).length = 0
  rw [(NodeOK_new256 e).2]
  rfl

theorem countP_leading {α : Type} (p : α → Bool) (d : α) : ∀ (l : List α) (k : Nat),
    k ≤ l.length → (∀ i, i < k → p (l.getD i d) = true) →
    (∀ i, k ≤ i → i < l.length → p (l.getD i d) = false) → l.countP p = k
  | [], k, hk, _, _ => by
    have : k = 0 := by simpa using hk
    subst this
    rfl
  | a :: t, 0, _, _, h2 => by
    rw [List.countP_eq_zero]
    intro x hx
    obtain ⟨i, hi, hxi⟩ := List.getElem_of_mem hx
    have := h2 i (Nat.zero_le _) hi
    rw [List.getD_eq_getElem _ _ hi, hxi] at this
    simp [this]
  | a :: t, k + 1, hk, h1, h2 => by
    have ha : p a = true := h1 0 (Nat.succ_pos _)
    rw [List.countP_cons_of_pos _ _ ha]
    congr 1
    refine countP_leading p d t k (by simpa using hk) (fun i hi => ?_) (fun i hi hl => ?_)
    · exact h1 (i + 1) (by omega)
    · exact h2 (i + 1) (by omega) (by simpa using hl)

theorem countP_range {α : Type} (p : α → Bool) (d : α) (l : List α) :
    l.countP p = ((List.range l.length).filter (fun i => p (l.getD i d))).length := by
  have hl : l = (List.range l.length).map (fun i => l.getD i d) := by
    apply List.ext_getElem
    · simp
    · intro i h1 h2
      simp only [List.getElem_map, List.getElem_range]
      rw [List.getD_eq_getElem _ _ h1]
  conv_lhs => rw [hl]
  rw [List.countP_map, List.countP_eq_length_filter]
  rfl

/-- What `NodeOK` and `Counted` say about the counters and cells of one node. -/
theorem Counted_facts (e : Bool) (m : CArtNode) (hn : NodeOK e m) (hq : Counted e m) :
    ((m.slots e).map Prod.fst).Nodup ∧
    (∀ c p q, (c, p) ∈ m.kids e → (c, q) ∈ m.kids e → p = q) ∧
    (m.slots e).length = m.base.children_count_ ∧
    m.liveSlots = m.base.children_count_ ∧
    (∀ cap, m.capacity = some cap → m.base.children_count_ ≤ cap) ∧
    m.base.children_count_ ≤ 256 ∧
    (m.node_type_ = NodeType.Fanout4 ∨ m.node_type_ = NodeType.Fanout16 →
      ∀ i, i < m.child_.length →
        ((m.child_.getD i Ptr.nullptr).isNull = false ↔ i < m.base.children_count_)) ∧
    (∀ b child_index_ child_, m = CArtNode.Fanout48 b child_index_ child_ →
      ∀ i j, i < 256 → j < 256 → child_index_.getD i 0 ≠ CArtNode.EMPTY_MARKER →
        child_index_.getD i 0 < 48 ∧
        (∃ ch, child_.getD (child_index_.getD i 0) Ptr.nullptr = Ptr.to ch) ∧
        (child_index_.getD i 0 = child_index_.getD j 0 → i = j)) := by
  refine ⟨slots_bytes_nodup e m hn, fun c p q h1 h2 => kids_fun e m hn c p q h1 h2,
    slots_length e m hq, ?_, ?_, ?_, ?_, ?_⟩
  · cases m with
    | Fanout4 b k ch =>
      obtain ⟨_, hl, hcc, _, _, hlive⟩ := hn
      show ch.countP (fun p => !p.isNull) = b.children_count_
      refine countP_leading _ Ptr.nullptr ch _ (by omega) (fun i hi => ?_) (fun i hi _ => ?_)
      · obtain ⟨y, hy⟩ := hlive i hi
        rw [hy]; rfl
      · rw [hq i hi]; rfl
    | Fanout16 b k ch =>
      obtain ⟨_, hl, hcc, _, _, hlive⟩ := hn
      show ch.countP (fun p => !p.isNull) = b.children_count_
      refine countP_leading _ Ptr.nullptr ch _ (by omega) (fun i hi => ?_) (fun i hi _ => ?_)
      · obtain ⟨y, hy⟩ := hlive i hi
        rw [hy]; rfl
      · rw [hq i hi]; rfl
    | Fanout48 b k ch =>
      obtain ⟨_, hl, hcc, _, _, hnull⟩ := hn
      show ch.countP (fun p => !p.isNull) = b.children_count_
      refine countP_leading _ Ptr.nullptr ch _ (by omega) (fun i hi => ?_) (fun i hi _ => ?_)
      · obtain ⟨y, hy⟩ := hq.2 i hi
        rw [hy]; rfl
      · rw [hnull i hi]; rfl
    | Fanout256 b ch =>
      obtain ⟨hl, _⟩ := hn
      show ch.countP (fun p => !p.isEmpty) = b.children_count_
      rw [countP_range _ Ptr.nullptr, hl]
      have h : ((CArtNode.Fanout256 b ch).slots e).length = b.children_count_ := hq
      simpa [CArtNode.slots] using h
  · intro cap hcap
    cases m with
    | Fanout4 b k ch =>
      simp only [CArtNode.capacity, Option.some.injEq] at hcap
      subst hcap; exact hn.2.2.1
    | Fanout16 b k ch =>
      simp only [CArtNode.capacity, Option.some.injEq] at hcap
      subst hcap; exact hn.2.2.1
    | Fanout48 b k ch =>
      simp only [CArtNode.capacity, Option.some.injEq] at hcap
      subst hcap; exact hn.2.2.1
    | Fanout256 b ch => simp [CArtNode.capacity] at hcap
  · rw [← slots_length e m hq]
    have hsub : ∀ x, x ∈ (m.slots e).map Prod.fst → x ∈ List.range 256 := by
      intro x hx
      obtain ⟨p, hp, hpx⟩ := List.mem_map.1 hx
      rw [List.mem_range, ← hpx]
      exact slots_byte e m hn p.1 p.2 hp
    have := (List.subperm_of_subset (slots_bytes_nodup e m hn) hsub).length_le
    simpa using this
  · intro ht i hi
    cases m with
    | Fanout4 b k ch =>
      obtain ⟨_, hl, hcc, _, _, hlive⟩ := hn
      show (ch.getD i Ptr.nullptr).isNull = false ↔ i < b.children_count_
      constructor
      · intro h
        by_contra hlt
        rw [show ch.getD i Ptr.nullptr = Ptr.nullptr from hq i (by omega)] at h
        cases h
      · intro h
        obtain ⟨y, hy⟩ := hlive i h
        show (ch.getD i Ptr.nullptr).isNull = false
        rw [hy]; rfl
    | Fanout16 b k ch =>
      obtain ⟨_, hl, hcc, _, _, hlive⟩ := hn
      show (ch.getD i Ptr.nullptr).isNull = false ↔ i < b.children_count_
      constructor
      · intro h
        by_contra hlt
        rw [show ch.getD i Ptr.nullptr = Ptr.nullptr from hq i (by omega)] at h
        cases h
      · intro h
        obtain ⟨y, hy⟩ := hlive i h
        show (ch.getD i Ptr.nullptr).isNull = false
        rw [hy]; rfl
    | Fanout48 b k ch => rcases ht with h | h <;> cases h
    | Fanout256 b ch => rcases ht with h | h <;> cases h
  · intro b idx ch hm i j hi hj hne
    subst hm
    obtain ⟨_, _, hcc, hidx, hinj, _⟩ := hn
    obtain ⟨h1, h2⟩ := hidx i hi hne
    exact ⟨by omega, h2, fun h => hinj i j hi hj hne h⟩

theorem RootOK_run (e : Bool) : ∀ (ops : List Op) (st : CAdaptiveRadixTree × List Nat),
    RootOK st.1 → RootOK (run e st ops).1
  | [], _, h => h
  | Op.AddEntry key v :: ops, st, h =>
    RootOK_run e ops _ (RootOK_AddEntry e st.1 st.2 key v h)
  | Op.AddNullString v :: ops, st, h => RootOK_run e ops (AddNullString st.1 st.2 v) h

/-- What one `AddEntry` call does to the chain of its key in a well-formed tree: the tree
stays well-formed and stores the key with the head `v`, the cell `v` of the row-id vector
receives `old`, which is the head the key had before when it was stored, and the suffix
table grows by fewer bytes than the key has. -/
theorem AddEntry_head (e : Bool) (t : CAdaptiveRadixTree) (I : List Nat) (key : List Nat)
    (v : Nat) (hwf : TreeWF e t) (hkey : ∀ c, c ∈ key → c < 256)
    (hS : t.suffix_table_.length + key.length < 4294967296) :
    ∃ root old, (AddEntry e t I key v).1.root_ = Ptr.to root ∧
      TreeOK e (fun c => c < 256) (AddEntry e t I key v).1.suffix_table_ root ∧
      Holds e (AddEntry e t I key v).1.suffix_table_ root key v ∧
      (AddEntry e t I key v).2 = I.set v old ∧
      (AddEntry e t I key v).1.suffix_table_.length ≤ t.suffix_table_.length + key.length ∧
      (∀ r w, t.root_ = Ptr.to r → Holds e t.suffix_table_ r key w → old = w) := by
  obtain ⟨root, hroot, htree⟩ := hwf
  rw [AddEntry_eq e t I key v root hroot]
  have hspec := AddEntryLoop_spec e (fun c => c < 256) (fun c hc => hc) key v hkey
    (key.length + 1) 0 root
    { t with total_string_length_ := sizeT e (t.total_string_length_ + key.length),
             max_string_length_ := max t.max_string_length_ key.length } I htree
    (Nat.zero_le _) (by omega) (by simpa using hS)
  generalize AddEntryLoop e key v (key.length + 1) 0 root
    { t with total_string_length_ := sizeT e (t.total_string_length_ + key.length),
             max_string_length_ := max t.max_string_length_ key.length } I = r at hspec ⊢
  obtain ⟨ext, old, u, a1, a2, a3, a4, a5, ⟨j, hj1, hj2⟩, a7⟩ := hspec
  refine ⟨r.1, old, rfl, ?_, ?_, a2, ?_, ?_⟩
  · show TreeOK e _ r.2.1.suffix_table_ r.1
    rw [a1]
    exact a3
  · show Holds e r.2.1.suffix_table_ r.1 key v
    rw [a1]
    exact (a4 key v).2 (Or.inl ⟨rfl, rfl⟩)
  · show r.2.1.suffix_table_.length ≤ _
    rw [a1]
    show (t.suffix_table_ ++ ext).length ≤ _
    rw [List.length_append, hj2, List.length_drop]
    omega
  · intro r0 w hr0 hh
    rw [hroot] at hr0
    injection hr0 with hr0
    subst hr0
    rcases a5 with ⟨h, _, _⟩ | ⟨h, _, _⟩
    · exact Holds_unique e _ _ _ htree _ _ _ h hh
    · exact absurd hh (h w)

theorem next_self_loop (I : List Nat) (v : Nat) (h : I.getD v 0 = v) :
    ∀ n, (CIndexIterator.next I)^[n] ⟨v⟩ = ⟨v⟩
  | 0 => rfl
  | n + 1 => by
    rw [Function.iterate_succ_apply]
    have : CIndexIterator.next I ⟨v⟩ = ⟨v⟩ := by
      show (⟨I.getD v 0⟩ : CIndexIterator) = ⟨v⟩
      rw [h]
    rw [this]
    exact next_self_loop I v h n

theorem chainFrom_self_loop (I : List Nat) (v : Nat) (h : I.getD v 0 = v)
    (hlast : v ≠ LAST_INDEX_IDENTIFIER) : ∀ fuel, chainFrom I fuel v = none
  | 0 => rfl
  | fuel + 1 => by
    have ih := chainFrom_self_loop I v h hlast fuel
    unfold chainFrom at ih ⊢
    unfold CIndexIterator.collect
    have hne : (⟨v⟩ : CIndexIterator) ≠ ⟨LAST_INDEX_IDENTIFIER⟩ := by
      intro hc
      injection hc with hc
      exact hlast hc
    rw [if_neg hne]
    have : CIndexIterator.next I ⟨v⟩ = ⟨v⟩ := by
      show (⟨I.getD v 0⟩ : CIndexIterator) = ⟨v⟩
      rw [h]
    rw [this, ih]
    rfl

theorem Merge_roots_right (e : Bool) (Sr : List Nat) (fuel : Nat) (l r : CArtNode)
    (t : CAdaptiveRadixTree) (I : List Nat)
    (res : CArtNode × Ptr CArtNode × CAdaptiveRadixTree × List Nat) (hl : IsRoot l)
    (hr : IsRoot r) (h : Merge e Sr fuel l r t I = some res) : res.2.1 = Ptr.nullptr := by
  cases fuel with
  | zero => simp [Merge] at h
  | succ fuel =>
    have hm : mergeMismatch t.suffix_table_ Sr l r = 0 := by
      unfold mergeMismatch
      rw [hl.2]
      rfl
    rw [Merge_both e Sr fuel l r t I ⟨by rw [hm, hl.2], by rw [hm, hr.2]⟩] at h
    cases hc : MergeChildNodes e Sr fuel l r t I with
    | none => rw [hc] at h; simp at h
    | some s =>
      rw [hc] at h
      simp only [Option.map_some', Option.some.injEq] at h
      subst h
      rfl

theorem Join_donor (e : Bool) (fuel : Nat) (this other : CAdaptiveRadixTree) (I : List Nat)
    (r : CAdaptiveRadixTree × CAdaptiveRadixTree × List Nat) (hA : RootOK this)
    (hB : RootOK other) (hj : Join e fuel this other I = some r) :
    r.2.1 = { other with root_ := Ptr.nullptr } := by
  obtain ⟨root, hroot, hR⟩ := hA
  obtain ⟨ro, ho, hRo⟩ := hB
  unfold Join at hj
  cases h1 : joinNullLoop fuel (GetNullStringBegin other) this I with
  | none => rw [h1] at hj; simp at hj
  | some s =>
    have hr1 := joinNullLoop_root _ _ _ _ s h1
    rw [h1] at hj
    simp only [Option.some_bind] at hj
    rw [hr1, hroot, ho] at hj
    dsimp only at hj
    cases hm : Merge e other.suffix_table_ fuel root ro s.1 s.2 with
    | none => rw [hm] at hj; simp at hj
    | some m =>
      rw [hm] at hj
      simp only [Option.map_some', Option.some.injEq] at hj
      subst hj
      show { other with root_ := m.2.1 } = _
      rw [Merge_roots_right e _ fuel root ro s.1 s.2 m hR hRo hm]

theorem AddEntry_null_root (e : Bool) (t : CAdaptiveRadixTree) (J : List Nat) (key : List Nat)
    (v : Nat) (h : t.root_ = Ptr.nullptr) :
    AddEntry e t J key v =
      ({ t with total_string_length_ := sizeT e (t.total_string_length_ + key.length),
                max_string_length_ := max t.max_string_length_ key.length }, J) := by
  unfold AddEntry
  simp only [h]

theorem Traverse_null_root (e : Bool) (t : CAdaptiveRadixTree) (h : t.root_ = Ptr.nullptr) :
    Traverse e t = [] := by
  unfold Traverse
  rw [h]

theorem TraverseIndexes_null_root (e : Bool) (t : CAdaptiveRadixTree)
    (h : t.root_ = Ptr.nullptr) : TraverseIndexes e t = [] := by
  unfold TraverseIndexes
  rw [h]

theorem terminalOf_null_root (e : Bool) (t : CAdaptiveRadixTree) (k : List Nat)
    (h : t.root_ = Ptr.nullptr) : terminalOf e t k = none := by
  unfold terminalOf
  rw [h]

/-! ## The traversal with the exception of `append` -/

theorem TraverseChildrenChecked_getD (e : Bool) (S : List Nat) :
    ∀ (c : List (Ptr CArtNode)) (s : Nat),
      (TraverseChildrenChecked e S c).getD s (fun _ st => Except.ok st) =
        TraversePtrChecked e S (c.getD s Ptr.nullptr)
  | [], s => by
    rw [TraverseChildrenChecked]
    funext level st
    simp [TraversePtrChecked]
  | p :: ps, 0 => by
    rw [TraverseChildrenChecked]
    rfl
  | p :: ps, s + 1 => by
    rw [TraverseChildrenChecked]
    simp only [List.getD_cons_succ]
    exact TraverseChildrenChecked_getD e S ps s

theorem foldl_bind_error {γ : Type} (f : TraverseState → γ → TraverseOutcome) (c : List Call) :
    ∀ l : List γ,
      l.foldl (fun (r : TraverseOutcome) i => r.bind (fun st => f st i)) (Except.error c) =
        Except.error c
  | [] => rfl
  | _ :: l => foldl_bind_error f c l

theorem foldl_bind_ok {γ : Type} (f : TraverseState → γ → TraverseOutcome)
    (g : TraverseState → γ → TraverseState)
    (hstep : ∀ i st st', f st i = Except.ok st' → g st i = st') :
    ∀ (l : List γ) (a st' : TraverseState),
      l.foldl (fun (r : TraverseOutcome) i => r.bind (fun st => f st i)) (Except.ok a) =
        Except.ok st' → l.foldl g a = st'
  | [], a, st', h => by
    injection h
  | x :: l, a, st', h => by
    rw [List.foldl_cons] at h ⊢
    cases hf : f a x with
    | error c =>
      have : (Except.ok a : TraverseOutcome).bind (fun st => f st x) = Except.error c := hf
      rw [this, foldl_bind_error] at h
      cases h
    | ok s =>
      have : (Except.ok a : TraverseOutcome).bind (fun st => f st x) = Except.ok s := hf
      rw [this] at h
      rw [hstep x a s hf]
      exact foldl_bind_ok f g hstep l s st' h

theorem foldl_bind_total {γ : Type} (f : TraverseState → γ → TraverseOutcome)
    (g : TraverseState → γ → TraverseState) :
    ∀ (l : List γ) (a : TraverseState), (∀ i, i ∈ l → ∀ st, f st i = Except.ok (g st i)) →
      l.foldl (fun (r : TraverseOutcome) i => r.bind (fun st => f st i)) (Except.ok a) =
        Except.ok (l.foldl g a)
  | [], _, _ => rfl
  | x :: l, a, hstep => by
    rw [List.foldl_cons, List.foldl_cons]
    have : (Except.ok a : TraverseOutcome).bind (fun st => f st x) = Except.ok (g a x) :=
      hstep x (List.mem_cons_self _ _) a
    rw [this]
    exact foldl_bind_total f g l _ (fun i hi => hstep i (List.mem_cons_of_mem _ hi))

theorem map_ok_inv {α β : Type} (r : Except (List Call) α) (f : α → β) (y : β)
    (h : r.map f = Except.ok y) : ∃ x, r = Except.ok x ∧ f x = y := by
  cases r with
  | error c => cases h
  | ok x =>
    refine ⟨x, rfl, ?_⟩
    have : (Except.ok (f x) : Except (List Call) β) = Except.ok y := h
    injection this

theorem map_ite_ok (c : Prop) [Decidable c] (rc : TraverseOutcome) (rt x : TraverseState)
    (F : TraverseState → TraverseState) (st' : TraverseState)
    (hrc : ∀ s, rc = Except.ok s → rt = s)
    (h : (if c then rc else Except.ok x).map F = Except.ok st') :
    F (if c then rt else x) = st' := by
  obtain ⟨y, hy, hF⟩ := map_ok_inv _ _ _ h
  by_cases hc : c
  · rw [if_pos hc] at hy ⊢
    rw [hrc y hy]
    exact hF
  · rw [if_neg hc] at hy ⊢
    injection hy with hy
    rw [hy]
    exact hF

/-- The head of the checked traversal: the `append` succeeds, with the string of `appendSub`,
or the traversal ends. -/
theorem checked_head (key S : List Nat) (b : CArtNodeBase) (level : Nat) :
    (if b.prefix_length_ ≠ 0 then
        (appendSubChecked key S b.prefix_position_ b.prefix_length_).map
          (fun key => (key, level + b.prefix_length_))
      else some (key, level)) =
    if b.prefix_length_ ≠ 0 ∧ S.length < b.prefix_position_ then none
    else some (if b.prefix_length_ ≠ 0 then
        (appendSub key S b.prefix_position_ b.prefix_length_, level + b.prefix_length_)
      else (key, level)) := by
  unfold appendSubChecked
  by_cases hp : b.prefix_length_ = 0
  · simp [hp]
  · by_cases hl : b.prefix_position_ ≤ S.length
    · simp [hp, hl, Nat.not_lt.2 hl]
    · simp [hp, hl, Nat.lt_of_not_le hl]

/-- Whenever the checked traversal of a node returns, the state it returns is the state of
`TraverseRecursive`. -/
theorem TraverseRecursiveChecked_ok (e : Bool) (S : List Nat) :
    ∀ (n : CArtNode) (level : Nat) (st st' : TraverseState),
      TraverseRecursiveChecked e S n level st = Except.ok st' →
      TraverseRecursive e S n level st = st' := by
  intro n
  induction n using CArtNode.induct with
  | h n ih =>
    have hptr : ∀ (s level : Nat) (st st' : TraverseState),
        (TraverseChildrenChecked e S n.child_).getD s (fun _ st => Except.ok st) level st =
          Except.ok st' →
        (TraverseChildren e S n.child_).getD s (fun _ st => st) level st = st' := by
      intro s level st st' h
      rw [TraverseChildrenChecked_getD] at h
      rw [TraverseChildren_getD_ptr]
      rcases hp : n.child_.getD s Ptr.nullptr with _ | _ | ch
      · rw [hp] at h
        have h' : (Except.ok st : TraverseOutcome) = Except.ok st' := h
        injection h'
      · rw [hp] at h
        have h' : (Except.ok st : TraverseOutcome) = Except.ok st' := h
        injection h'
      · rw [hp] at h
        rw [TraversePtrChecked] at h
        rw [TraversePtr]
        exact ih s ch hp level st st' h
    have hmap : ∀ (s level lv : Nat) (st st' : TraverseState),
        ((TraverseChildrenChecked e S n.child_).getD s (fun _ st => Except.ok st) level st).map
          (fun st => (st.1, resize st.2 lv)) = Except.ok st' →
        (((TraverseChildren e S n.child_).getD s (fun _ st => st) level st).1,
          resize ((TraverseChildren e S n.child_).getD s (fun _ st => st) level st).2 lv) =
          st' := by
      intro s level lv st st' h
      obtain ⟨x, hx, hy⟩ := map_ok_inv _ _ _ h
      rw [hptr s level st x hx]
      exact hy
    intro level st st' h
    obtain ⟨calls, key⟩ := st
    cases n with
    | Fanout4 b k ch =>
      rw [TraverseRecursiveChecked] at h
      rw [TraverseRecursive]
      simp only [CArtNode.child_] at hmap hptr
      dsimp only at h ⊢
      rw [checked_head] at h
      by_cases hthrow : b.prefix_length_ ≠ 0 ∧ S.length < b.prefix_position_
      · rw [if_pos hthrow] at h
        cases h
      · rw [if_neg hthrow] at h
        dsimp only at h
        refine foldl_bind_ok _ _ ?_ _ _ _ h
        intro i st st' hst
        exact hmap _ _ _ _ _ hst
    | Fanout16 b k ch =>
      rw [TraverseRecursiveChecked] at h
      rw [TraverseRecursive]
      simp only [CArtNode.child_] at hmap hptr
      dsimp only at h ⊢
      rw [checked_head] at h
      by_cases hthrow : b.prefix_length_ ≠ 0 ∧ S.length < b.prefix_position_
      · rw [if_pos hthrow] at h
        cases h
      · rw [if_neg hthrow] at h
        dsimp only at h
        refine foldl_bind_ok _ _ ?_ _ _ _ h
        intro i st st' hst
        dsimp only at hst ⊢
        by_cases h0 : (if e = true then FlipSign (k.getD i 0) else k.getD i 0) = 0
        · rw [if_pos h0] at hst ⊢
          injection hst
        · rw [if_neg h0] at hst ⊢
          exact map_ite_ok _ _ _ _ _ _ (fun s hs => hptr _ _ _ s hs) hst
    | Fanout48 b idx ch =>
      rw [TraverseRecursiveChecked] at h
      rw [TraverseRecursive]
      simp only [CArtNode.child_] at hmap hptr
      dsimp only at h ⊢
      rw [checked_head] at h
      by_cases hthrow : b.prefix_length_ ≠ 0 ∧ S.length < b.prefix_position_
      · rw [if_pos hthrow] at h
        cases h
      · rw [if_neg hthrow] at h
        dsimp only at h
        by_cases hc : b.children_count_ = 0
        · rw [if_neg (not_not.2 hc)] at h ⊢
          injection h
        · rw [if_pos hc] at h ⊢
          refine foldl_bind_ok _ _ ?_ _ _ _ h
          intro i st st' hst
          dsimp only at hst ⊢
          by_cases h0 : idx.getD i 0 ≠ CArtNode.EMPTY_MARKER
          · rw [if_pos h0] at hst ⊢
            exact map_ite_ok _ _ _ _ _ _ (fun s hs => hptr _ _ _ s hs) hst
          · rw [if_neg h0] at hst ⊢
            injection hst
    | Fanout256 b ch =>
      rw [TraverseRecursiveChecked] at h
      rw [TraverseRecursive]
      simp only [CArtNode.child_] at hmap hptr
      dsimp only at h ⊢
      rw [checked_head] at h
      by_cases hthrow : b.prefix_length_ ≠ 0 ∧ S.length < b.prefix_position_
      · rw [if_pos hthrow] at h
        cases h
      · rw [if_neg hthrow] at h
        dsimp only at h
        by_cases hc : b.children_count_ = 0
        · rw [if_neg (not_not.2 hc)] at h ⊢
          injection h
        · rw [if_pos hc] at h ⊢
          refine foldl_bind_ok _ _ ?_ _ _ _ h
          intro i st st' hst
          dsimp only at hst ⊢
          by_cases h0 : (!(ch.getD i Ptr.nullptr).isEmpty) = true
          · rw [if_pos h0] at hst ⊢
            exact hmap _ _ _ _ _ hst
          · rw [if_neg h0] at hst ⊢
            injection hst

/-- On a well-formed subtree no `append` of the traversal throws: the checked traversal
returns, with the state of `TraverseRecursive`. -/
theorem TraverseRecursiveChecked_of_TreeOK (e : Bool) (P : Nat → Prop) (S : List Nat)
    (n : CArtNode) (h : TreeOK e P S n) :
    ∀ (level : Nat) (st : TraverseState),
      TraverseRecursiveChecked e S n level st = Except.ok (TraverseRecursive e S n level st) := by
  induction h with
  | mk n hnode hbound hval hpfx hbyte hkids ih =>
    have hchild : ∀ (s c : Nat), (c, s) ∈ n.slots e → ∀ (level : Nat) (st : TraverseState),
        (TraverseChildrenChecked e S n.child_).getD s (fun _ st => Except.ok st) level st =
          Except.ok ((TraverseChildren e S n.child_).getD s (fun _ st => st) level st) := by
      intro s c hs level st
      rw [TraverseChildrenChecked_getD, TraverseChildren_getD_ptr]
      rcases hp : n.child_.getD s Ptr.nullptr with _ | _ | ch
      · rfl
      · rfl
      · rw [TraversePtrChecked, TraversePtr]
        exact ih c ch ((mem_kids e n c _).2 ⟨s, hs, hp⟩) level st
    have hno : ¬ (n.base.prefix_length_ ≠ 0 ∧ S.length < n.base.prefix_position_) := by
      rintro ⟨_, h2⟩
      omega
    intro level st
    obtain ⟨calls, key⟩ := st
    cases n with
    | Fanout4 b k ch =>
      rw [TraverseRecursiveChecked, TraverseRecursive]
      simp only [CArtNode.child_] at hchild
      simp only [CArtNode.base] at hno
      dsimp only
      rw [checked_head, if_neg hno]
      dsimp only
      refine foldl_bind_total _ _ _ _ ?_
      intro i hi st
      dsimp only
      rw [hchild i (k.getD i 0) ((mem_slots4 e b k ch _ _).2 ⟨List.mem_range.1 hi, rfl⟩)]
      rfl
    | Fanout16 b k ch =>
      rw [TraverseRecursiveChecked, TraverseRecursive]
      simp only [CArtNode.child_] at hchild
      simp only [CArtNode.base] at hno
      dsimp only
      rw [checked_head, if_neg hno]
      dsimp only
      refine foldl_bind_total _ _ _ _ ?_
      intro i hi st
      dsimp only
      by_cases h0 : (if e = true then FlipSign (k.getD i 0) else k.getD i 0) = 0
      · rw [if_pos h0, if_pos h0]
      · rw [if_neg h0, if_neg h0]
        by_cases hc : (!(ch.getD i Ptr.nullptr).isNull) = true
        · rw [if_pos hc, if_pos hc,
            hchild i _ ((mem_slots16 e b k ch _ _).2 ⟨List.mem_range.1 hi, rfl⟩)]
          rfl
        · rw [if_neg hc, if_neg hc]
          rfl
    | Fanout48 b idx ch =>
      rw [TraverseRecursiveChecked, TraverseRecursive]
      simp only [CArtNode.child_] at hchild
      simp only [CArtNode.base] at hno
      dsimp only
      rw [checked_head, if_neg hno]
      dsimp only
      by_cases hcc : b.children_count_ = 0
      · rw [if_neg (not_not.2 hcc), if_neg (not_not.2 hcc)]
      · rw [if_pos hcc, if_pos hcc]
        refine foldl_bind_total _ _ _ _ ?_
        intro i hi st
        dsimp only
        by_cases h0 : idx.getD i 0 ≠ CArtNode.EMPTY_MARKER
        · rw [if_pos h0, if_pos h0]
          by_cases hc : (!(ch.getD (idx.getD i 0) Ptr.nullptr).isNull) = true
          · rw [if_pos hc, if_pos hc,
              hchild _ i ((mem_slots48 e b idx ch _ _).2 ⟨List.mem_range.1 hi, h0, rfl⟩)]
            rfl
          · rw [if_neg hc, if_neg hc]
            rfl
        · rw [if_neg h0, if_neg h0]
    | Fanout256 b ch =>
      rw [TraverseRecursiveChecked, TraverseRecursive]
      simp only [CArtNode.child_] at hchild
      simp only [CArtNode.base] at hno
      dsimp only
      rw [checked_head, if_neg hno]
      dsimp only
      by_cases hcc : b.children_count_ = 0
      · rw [if_neg (not_not.2 hcc), if_neg (not_not.2 hcc)]
      · rw [if_pos hcc, if_pos hcc]
        refine foldl_bind_total _ _ _ _ ?_
        intro i hi st
        dsimp only
        by_cases h0 : (!(ch.getD i Ptr.nullptr).isEmpty) = true
        · rw [if_pos h0, if_pos h0,
            hchild i i ((mem_slots256 e b ch _ _).2
              ⟨List.mem_range.1 hi, by simpa using h0, rfl⟩)]
          rfl
        · rw [if_neg h0, if_neg h0]

/-- Whenever `Traverse` returns on the code, the calls it has made are those of the model
`Traverse`. -/
theorem TraverseChecked_ok (e : Bool) (t : CAdaptiveRadixTree) (calls : List Call)
    (h : TraverseChecked e t = Except.ok calls) : Traverse e t = calls := by
  unfold TraverseChecked at h
  unfold Traverse
  rcases hr : t.root_ with _ | _ | root
  · rw [hr] at h
    injection h
  · rw [hr] at h
    injection h
  · rw [hr] at h
    dsimp only at h ⊢
    obtain ⟨x, hx, hy⟩ := map_ok_inv _ _ _ h
    rw [TraverseRecursiveChecked_ok e _ root 0 _ x hx]
    exact hy

/-- On a well-formed tree `Traverse` returns: no `append` throws, and the calls are those of
the model `Traverse`. -/
theorem TraverseChecked_of_TreeWF (e : Bool) (t : CAdaptiveRadixTree) (h : TreeWF e t) :
    TraverseChecked e t = Except.ok (Traverse e t) := by
  obtain ⟨root, hr, hOK⟩ := h
  unfold TraverseChecked Traverse
  rw [hr]
  dsimp only
  rw [TraverseRecursiveChecked_of_TreeOK e _ _ root hOK]
  rfl

/-- Whenever `Traverse` returns, `TraverseIndexes` makes its `HandleTuple` calls with the keys
dropped: the same pairs of iterators in the same order, and so the same chain start values.
On a well-formed tree `Traverse` does return. -/
theorem TraverseIndexes_eq_TraverseChecked (e : Bool) (t : CAdaptiveRadixTree) :
    (∀ calls, TraverseChecked e t = Except.ok calls →
      TraverseIndexes e t = chainsOf calls ∧
      (TraverseIndexes e t).map (fun c => c.1.index_) = (tuplesOf calls).map Prod.snd) ∧
    (TreeWF e t → TraverseChecked e t = Except.ok (Traverse e t)) := by
  refine ⟨?_, TraverseChecked_of_TreeWF e t⟩
  intro calls hc
  have hT := TraverseChecked_ok e t calls hc
  subst hT
  have h : TraverseIndexes e t = chainsOf (Traverse e t) := by
    unfold TraverseIndexes Traverse
    rcases t.root_ with _ | _ | root
    · rfl
    · rfl
    · exact (TraverseIndexRecursive_eq e t.suffix_table_ root 0 ([], []) [] rfl).symm
  exact ⟨h, by rw [h, chainsOf_tuplesOf]⟩
/-! ## The properties of insertion and traversal -/

/-- C3. For entries inserted by `AddEntry` on a freshly constructed tree with distinct row
ids below the length of the row-id vector (keys of bytes, fewer than `2^32` key bytes in
all), every inserted key `k` has a terminal node, found by the descent `terminalOf`, and the
chain iterated from its head row id up to `LAST_INDEX_IDENTIFIER` yields exactly the row
ids inserted with `k`, the most recent first. -/
theorem AddEntry_chain_most_recent_first (e : Bool) (n : Nat) (es : List (List Nat × Nat))
    (hd : (es.map Prod.snd).Nodup)
    (hlt : ∀ p, p ∈ es → p.2 < GetIndexVectorLength (CAdaptiveRadixTree.new n).2)
    (hbytes : ∀ p, p ∈ es → ∀ c, c ∈ p.1 → c < 256)
    (htot : totalLength es < 4294967296)
    (k : List Nat) (hk : k ∈ keysOf es) :
    ∃ head, terminalOf e (AddEntries e (CAdaptiveRadixTree.new n) es).1 k = some head ∧
      chainFrom (AddEntries e (CAdaptiveRadixTree.new n) es).2
        (GetIndexVectorLength (AddEntries e (CAdaptiveRadixTree.new n) es).2 + 1) head =
        some (idsOf es k).reverse := by
  have h := fresh_chain e n (es.map (fun p => Op.AddEntry p.1 p.2))
    (by rw [value_map]; exact hd)
    (by
      rw [value_map]
      intro x hx
      obtain ⟨p, hp, rfl⟩ := List.mem_map.1 hx
      exact hlt p hp)
    (by
      intro k v hm c hc
      obtain ⟨p, hp, hpe⟩ := List.mem_map.1 hm
      injection hpe with h1 h2
      subst h1
      exact hbytes p hp c hc)
    (by rw [entriesOf_map]; exact htot) k (by rw [entriesOf_map]; exact hk)
  rw [entriesOf_map, ← AddEntries_eq_run] at h
  exact h

/-- Scenario S3 as an instance of C3: after `("k",0)`, `("k",1)`, `("k",2)` the chain of
`"k"` yields `2, 1, 0`. -/
theorem AddEntry_chain_most_recent_first_witness :
    ∃ head, terminalOf true
        (AddEntries true (CAdaptiveRadixTree.new 3) [([107], 0), ([107], 1), ([107], 2)]).1
        [107] = some head ∧
      chainFrom (AddEntries true (CAdaptiveRadixTree.new 3) [([107], 0), ([107], 1), ([107], 2)]).2
        (GetIndexVectorLength
          (AddEntries true (CAdaptiveRadixTree.new 3) [([107], 0), ([107], 1), ([107], 2)]).2 + 1)
        head = some [2, 1, 0] :=
  AddEntry_chain_most_recent_first true 3 [([107], 0), ([107], 1), ([107], 2)]
    (by decide) (by decide) (by decide) (by decide) [107] (by decide)

/-- C4. For entries inserted by `AddEntry` on a freshly constructed tree with distinct row
ids below the length of the row-id vector (keys of bytes, fewer than `2^32` key bytes in
all), the keys passed to `HandleTuple` by `Traverse` are strictly ascending in the unsigned
byte-wise lexicographic order `keyLt`, in which a key comes before every key that extends
it. -/
theorem Traverse_keys_ascending (e : Bool) (n : Nat) (es : List (List Nat × Nat))
    (hd : (es.map Prod.snd).Nodup)
    (hlt : ∀ p, p ∈ es → p.2 < GetIndexVectorLength (CAdaptiveRadixTree.new n).2)
    (hbytes : ∀ p, p ∈ es → ∀ c, c ∈ p.1 → c < 256)
    (htot : totalLength es < 4294967296) :
    ((tuplesOf (Traverse e (AddEntries e (CAdaptiveRadixTree.new n) es).1)).map
      Prod.fst).Pairwise keyLt := by
  obtain ⟨⟨root, hroot, htree, _⟩, _⟩ := AddEntries_spec e (fun c => c < 256) (fun c hc => hc)
    (CAdaptiveRadixTree.new n).2 (length_new n) es hd hlt hbytes htot
  rw [List.pairwise_map]
  exact (Traverse_tuples e _ _ root hroot htree).2.2

/-- Scenario S1 as an instance of C4. -/
theorem Traverse_keys_ascending_witness :
    ((tuplesOf (Traverse true (AddEntries true (CAdaptiveRadixTree.new 3)
      [([97], 0), ([97, 98], 1), ([97, 98, 99], 2)]).1)).map Prod.fst).Pairwise keyLt :=
  Traverse_keys_ascending true 3 [([97], 0), ([97, 98], 1), ([97, 98, 99], 2)]
    (by decide) (by decide) (by decide) (by decide)

/-- C5. After calls of `AddEntry` and `AddNullString` on a freshly constructed tree with
distinct row ids below the length of the row-id vector (keys of bytes, fewer than `2^32`
key bytes in all), `GetUniqueStringCount` is the number of distinct keys inserted by
`AddEntry`, plus one exactly when there was an `AddNullString` call. -/
theorem GetUniqueStringCount_spec (e : Bool) (n : Nat) (ops : List Op)
    (hd : (ops.map Op.value).Nodup)
    (hlt : ∀ x, x ∈ ops.map Op.value → x < GetIndexVectorLength (CAdaptiveRadixTree.new n).2)
    (hbytes : ∀ p, p ∈ entriesOf ops → ∀ c, c ∈ p.1 → c < 256)
    (htot : totalLength (entriesOf ops) < 4294967296) :
    GetUniqueStringCount (run e (CAdaptiveRadixTree.new n) ops).1 =
      (keysOf (entriesOf ops)).dedup.length + (if nullsOf ops = [] then 0 else 1) := by
  obtain ⟨⟨root, hroot, htree, _, _, hnull, _, huc, _⟩, _⟩ :=
    fresh_spec e n ops hd hlt
      (fun k v hm => hbytes (k, v) ((mem_entriesOf ops k v).2 hm)) htot
  unfold GetUniqueStringCount
  rw [huc]
  by_cases hn : nullsOf ops = []
  · rw [hn] at hnull
    have h0 : (run e (CAdaptiveRadixTree.new n) ops).1.null_string_ = LAST_INDEX_IDENTIFIER :=
      hnull
    rw [if_pos h0, if_pos hn]
    rfl
  · have hne : (run e (CAdaptiveRadixTree.new n) ops).1.null_string_ ≠ LAST_INDEX_IDENTIFIER := by
      cases hr : (nullsOf ops).reverse with
      | nil => exact absurd (List.reverse_eq_nil_iff.1 hr) hn
      | cons x xs =>
        rw [hr] at hnull
        obtain ⟨h1, h2, _⟩ := hnull
        rw [h1]; exact h2
    rw [if_neg hne, if_neg hn]

/-- An instance of C5: two distinct keys, one of them inserted twice, and two null
strings. -/
theorem GetUniqueStringCount_spec_witness :
    GetUniqueStringCount (run true (CAdaptiveRadixTree.new 5)
      [Op.AddEntry [97] 0, Op.AddNullString 1, Op.AddEntry [98, 99] 2, Op.AddEntry [97] 3,
        Op.AddNullString 4]).1 = 3 :=
  GetUniqueStringCount_spec true 5
    [Op.AddEntry [97] 0, Op.AddNullString 1, Op.AddEntry [98, 99] 2, Op.AddEntry [97] 3,
      Op.AddNullString 4]
    (by decide) (by decide) (by decide) (by decide)

/-- C6. After `AddEntry` calls on a freshly constructed tree, with fewer than `2^32` key
bytes in all (so that no `size_t` counter wraps), `GetTotalStringLength` is the sum of the
key lengths of all calls and `GetMaxStringLength` is the largest key length of a call, `0`
when there was none. -/
theorem GetTotalStringLength_spec (e : Bool) (n : Nat) (es : List (List Nat × Nat))
    (htot : totalLength es < 4294967296) :
    GetTotalStringLength (AddEntries e (CAdaptiveRadixTree.new n) es).1 = totalLength es ∧
    GetMaxStringLength (AddEntries e (CAdaptiveRadixTree.new n) es).1 = maxLength es := by
  have h := AddEntries_stats e (CAdaptiveRadixTree.new n) es
    (by show 0 + totalLength es < 4294967296; omega)
  unfold GetTotalStringLength GetMaxStringLength
  rw [h.1, h.2]
  constructor
  · show 0 + totalLength es = totalLength es
    omega
  · show max 0 (maxLength es) = maxLength es
    omega

/-- An instance of C6: a key inserted twice counts twice. -/
theorem GetTotalStringLength_spec_witness :
    GetTotalStringLength (AddEntries false (CAdaptiveRadixTree.new 3)
      [([97, 98], 0), ([97, 98], 1), ([120, 121, 122], 2)]).1 = 7 ∧
    GetMaxStringLength (AddEntries false (CAdaptiveRadixTree.new 3)
      [([97, 98], 0), ([97, 98], 1), ([120, 121, 122], 2)]).1 = 3 :=
  GetTotalStringLength_spec false 3 [([97, 98], 0), ([97, 98], 1), ([120, 121, 122], 2)]
    (by decide)

/-- C2. The test `TraverseCheck` passes for every fixture: for strings over the alphabet
`[a-zA-Z0-9]` inserted with the row ids `0, 1, 2, ..` into a tree constructed for as many
row ids (fewer than `2^32` strings and key bytes), the visitor `CTraverser` ends with the
three counters that the test computes from the reference map `values_` (number of distinct
keys, number of row ids, number of key bytes), these are the number of insertions and the
number of inserted key bytes, `Traverse` reports exactly the keys of the map, each once,
and the chain reported for a key holds exactly the row ids that the map has for it. -/
theorem TraverseCheck_agrees_with_values (e : Bool) (strs : List (List Nat))
    (hcount : strs.length < 4294967296)
    (halpha : ∀ s, s ∈ strs → ∀ c, c ∈ s → c ∈ alphabet_)
    (htot : (strs.map List.length).sum < 4294967296) :
    CTraverser.visit (fixture e strs).2 (strs.length + 1) (Traverse e (fixture e strs).1)
        { total_char_count := 0, unique_string_count := 0, index_count := 0 } =
      some { unique_string_count := (values_ strs).length,
             index_count := ((values_ strs).map (fun p => p.2.length)).sum,
             total_char_count := ((values_ strs).map (fun p => p.1.length * p.2.length)).sum } ∧
    ((values_ strs).map (fun p => p.2.length)).sum = strs.length ∧
    ((values_ strs).map (fun p => p.1.length * p.2.length)).sum = (strs.map List.length).sum ∧
    ((tuplesOf (Traverse e (fixture e strs).1)).map Prod.fst).Perm
      ((values_ strs).map Prod.fst) ∧
    (∀ k head, (k, head) ∈ tuplesOf (Traverse e (fixture e strs).1) →
      ∃ ids chain, (k, ids) ∈ values_ strs ∧
        chainFrom (fixture e strs).2 (strs.length + 1) head = some chain ∧ chain.Perm ids) := by
  unfold fixture values_
  generalize hes : strs.zip (List.range strs.length) = es
  have hlen : (List.range strs.length).length = strs.length := List.length_range _
  have hsnd : es.map Prod.snd = List.range strs.length := by
    rw [← hes]; exact List.map_snd_zip _ _ (by rw [hlen])
  have hfst : es.map Prod.fst = strs := by
    rw [← hes]; exact List.map_fst_zip _ _ (by rw [hlen])
  have hnew : (CAdaptiveRadixTree.new strs.length).2.length = strs.length := by
    unfold CAdaptiveRadixTree.new
    rw [List.length_replicate]
    exact u32_of_lt _ hcount
  have htl : totalLength es = (strs.map List.length).sum := by
    unfold totalLength
    rw [← hfst, List.map_map]
    rfl
  obtain ⟨⟨root, hroot, htree, hH1, hH2, _⟩, hI⟩ := AddEntries_spec e (fun c => c ∈ alphabet_)
    (fun c hc => (alphabet_bytes c hc).1) (CAdaptiveRadixTree.new strs.length).2
    (length_new _) es (by rw [hsnd]; exact List.nodup_range _)
    (by
      intro p hp
      have : p.2 ∈ List.range strs.length := hsnd ▸ List.mem_map_of_mem _ hp
      rw [hnew]
      exact List.mem_range.1 this)
    (by
      intro p hp c hc
      exact halpha p.1 (hfst ▸ List.mem_map_of_mem _ hp) c hc)
    (by rw [htl]; exact htot)
  rw [entriesOf_map] at hH1 hH2
  have hnewS : (CAdaptiveRadixTree.newShared, (CAdaptiveRadixTree.new strs.length).2) =
      CAdaptiveRadixTree.new strs.length := rfl
  rw [hnewS] at hroot htree hH1 hH2 hI
  generalize AddEntries e (CAdaptiveRadixTree.new strs.length) es = st at hroot htree hH1 hH2 hI
  obtain ⟨t, I⟩ := st
  simp only [] at hroot htree hH1 hH2 hI ⊢
  obtain ⟨hd, hm, hs1, hs2⟩ := mapPush_fold es
  generalize es.foldl (fun m p => mapPush m p.1 p.2) [] = m at hd hm hs1 hs2
  obtain ⟨ht1, ht2, ht3⟩ := Traverse_tuples e _ t root hroot htree
  have ht2 := ht2 (fun c hc => (alphabet_bytes c hc).2)
  -- the chain of every reported key
  have hchain : ∀ k h, (k, h) ∈ tuplesOf (Traverse e t) →
      chainFrom I (strs.length + 1) h = some (idsOf es k).reverse := by
    intro k h hkh
    refine collect_of_Chain I _ h _ (hH1 k h (ht1 k h hkh)).2 ?_
    rw [List.length_reverse]
    refine Nat.lt_succ_of_le ?_
    have := length_le_of_nodup (idsOf es k) strs.length
      (idsOf_nodup es k (by rw [hsnd]; exact List.nodup_range _))
      (by
        intro x hx
        rw [mem_idsOf] at hx
        have : x ∈ List.range strs.length := hsnd ▸ List.mem_map_of_mem Prod.snd hx
        exact List.mem_range.1 this)
    exact this
  -- the reported keys are the keys of the map
  have hperm : ((tuplesOf (Traverse e t)).map Prod.fst).Perm (m.map Prod.fst) := by
    rw [List.perm_ext_iff_of_nodup _ hd]
    · intro k
      constructor
      · intro hk
        obtain ⟨p, hp, rfl⟩ := List.mem_map.1 hk
        have := (hH1 p.1 p.2 (ht1 p.1 p.2 hp)).1
        exact List.mem_map.2 ⟨(p.1, idsOf es p.1), (hm _ _).2 ⟨rfl, this⟩, rfl⟩
      · intro hk
        obtain ⟨p, hp, rfl⟩ := List.mem_map.1 hk
        have := (hm p.1 p.2).1 hp
        obtain ⟨v, hv⟩ := hH2 p.1 (this.1 ▸ this.2)
        exact List.mem_map.2 ⟨(p.1, v), ht2 p.1 v hv, rfl⟩
    · show List.Pairwise (fun a b => a ≠ b) _
      rw [List.pairwise_map]
      refine ht3.imp ?_
      intro a b hlt heq
      rw [heq] at hlt
      exact keyLt_irrefl _ hlt
  have hsum : ∀ g : List Nat → Nat,
      ((tuplesOf (Traverse e t)).map (fun p => g p.1)).sum = (m.map (fun p => g p.1)).sum := by
    intro g
    have := (hperm.map g).sum_eq
    rw [List.map_map, List.map_map] at this
    exact this
  have hval : ∀ p, p ∈ m → p.2 = idsOf es p.1 := fun p hp => ((hm p.1 p.2).1 hp).1
  refine ⟨?_, hs1.trans (by rw [← hes, List.length_zip, hlen, Nat.min_self]),
    hs2.trans htl, hperm, ?_⟩
  · have hends : EndsOK (Traverse e t) := by
      unfold Traverse
      simp only [hroot]
      exact Traverse_ends e _ _ root htree 0 ([], []) (fun k b e' hm => by simp at hm)
    rw [visit_spec I (strs.length + 1) (fun k => (idsOf es k).reverse) _ _ hends hchain]
    simp only [Nat.zero_add, List.length_reverse]
    rw [hsum (fun k => k.length * (idsOf es k).length), hsum (fun k => (idsOf es k).length)]
    have h1 : (tuplesOf (Traverse e t)).length = m.length := by
      have := hperm.length_eq
      simpa using this
    have e1 : m.map (fun p => (idsOf es p.1).length) = m.map (fun p => p.2.length) :=
      List.map_congr_left (fun p hp => by
        show (idsOf es p.1).length = p.2.length
        rw [hval p hp])
    have e2 : m.map (fun p => p.1.length * (idsOf es p.1).length) =
        m.map (fun p => p.1.length * p.2.length) :=
      List.map_congr_left (fun p hp => by
        show p.1.length * (idsOf es p.1).length = p.1.length * p.2.length
        rw [hval p hp])
    rw [h1, e1, e2]
  · intro k head hkh
    have hne := (hH1 k head (ht1 k head hkh)).1
    exact ⟨idsOf es k, (idsOf es k).reverse, (hm _ _).2 ⟨rfl, hne⟩, hchain k head hkh,
      List.reverse_perm _⟩

/-- An instance of C2: the strings `"ab"`, `"a"`, `"ab"` with the row ids `0`, `1`, `2`. -/
theorem TraverseCheck_agrees_with_values_witness :
    CTraverser.visit (fixture true [[97, 98], [97], [97, 98]]).2 4
        (Traverse true (fixture true [[97, 98], [97], [97, 98]]).1)
        { total_char_count := 0, unique_string_count := 0, index_count := 0 } =
      some { unique_string_count := 2, index_count := 3, total_char_count := 5 } :=
  (TraverseCheck_agrees_with_values true [[97, 98], [97], [97, 98]]
    (by decide) (by decide) (by decide)).1

/-! ## The properties of `Join` -/

/-- C9. Two trees `A` and `B` are filled by calls of `AddEntry` and `AddNullString` on one
row-id vector of `n` cells, with pairwise distinct row ids below `n` (keys of bytes, fewer
than `2^32` key bytes): the null chain of `A` lists the row ids of its `AddNullString`
calls, most recent first, and so does the null chain of `B`. Then `A.Join( B )` returns
(with fuel above the height of the tree of `B` plus `n + 1`), and afterwards the null
chain of `A`, from `GetNullStringBegin` to `LAST_INDEX_IDENTIFIER`, yields every row id of
the former null chain of `B` (in reverse of its former order) followed by the former null
chain of `A`, each row id once, and `GetNullStringCount` is the sum of the two former
counts. -/
theorem Join_null_chain (e : Bool) (n fuel : Nat) (opsA opsB : List Op)
    (hd : ((opsA ++ opsB).map Op.value).Nodup)
    (hlt : ∀ x, x ∈ (opsA ++ opsB).map Op.value → x < n) (hn : n ≤ 4294967295)
    (hbytes : ∀ p, p ∈ entriesOf (opsA ++ opsB) → ∀ c, c ∈ p.1 → c < 256)
    (htot : totalLength (entriesOf opsA) + totalLength (entriesOf opsB) < 4294967296)
    (hfuel : heightPtr (buildPair e n opsA opsB).2.1.root_ + n + 1 < fuel) :
    chainFrom (buildPair e n opsA opsB).2.2 (n + 1)
        (GetNullStringBegin (buildPair e n opsA opsB).1).index_ = some (nullsOf opsA).reverse ∧
    chainFrom (buildPair e n opsA opsB).2.2 (n + 1)
        (GetNullStringBegin (buildPair e n opsA opsB).2.1).index_ =
      some (nullsOf opsB).reverse ∧
    ∃ r, joinPair e fuel n opsA opsB = some r ∧
      chainFrom r.2.2 (n + 1) (GetNullStringBegin r.1).index_ =
        some (nullsOf opsB ++ (nullsOf opsA).reverse) ∧
      (nullsOf opsB ++ (nullsOf opsA).reverse).Nodup ∧
      GetNullStringCount r.1 = GetNullStringCount (buildPair e n opsA opsB).1 +
        GetNullStringCount (buildPair e n opsA opsB).2.1 := by
  obtain ⟨hbA, hbB, hlen⟩ := buildPair_spec e (fun c => c < 256) (fun c hc => hc) n opsA opsB
    hd hlt hn hbytes htot
  unfold joinPair
  generalize buildPair e n opsA opsB = p at hbA hbB hlen hfuel ⊢
  obtain ⟨tA, tB, I⟩ := p
  simp only [] at hbA hbB hlen hfuel ⊢
  have hdAB := hd
  rw [List.map_append, List.nodup_append] at hd
  obtain ⟨hdA, hdB, hdisj⟩ := hd
  have hltA : ∀ x, x ∈ opsA.map Op.value → x < n := fun x hx =>
    hlt x (by rw [List.map_append]; exact List.mem_append_left _ hx)
  have hltB : ∀ x, x ∈ opsB.map Op.value → x < n := fun x hx =>
    hlt x (by rw [List.map_append]; exact List.mem_append_right _ hx)
  -- the null chains before the join
  have hnA : Chain I tA.null_string_ (nullsOf opsA).reverse := by
    obtain ⟨_, _, _, _, _, h, _⟩ := hbA; exact h
  have hnB : Chain I tB.null_string_ (nullsOf opsB).reverse := by
    obtain ⟨_, _, _, _, _, h, _⟩ := hbB; exact h
  have hcA : tA.null_string_count_ = (nullsOf opsA).length := by
    obtain ⟨_, _, _, _, _, _, h, _⟩ := hbA; exact h
  have hcB : tB.null_string_count_ = (nullsOf opsB).length := by
    obtain ⟨_, _, _, _, _, _, h, _⟩ := hbB; exact h
  have hnodup : (nullsOf opsB ++ (nullsOf opsA).reverse).Nodup := by
    rw [List.nodup_append]
    refine ⟨nullsOf_nodup opsB hdB, List.nodup_reverse.2 (nullsOf_nodup opsA hdA), ?_⟩
    intro x hx hx'
    exact hdisj (nullsOf_sub opsA x (List.mem_reverse.1 hx')) (nullsOf_sub opsB x hx)
  have hlenAB : (nullsOf opsB ++ (nullsOf opsA).reverse).length ≤ n :=
    length_le_of_nodup _ n hnodup (by
      intro x hx
      rcases List.mem_append.1 hx with hx | hx
      · exact hltB x (nullsOf_sub opsB x hx)
      · exact hltA x (nullsOf_sub opsA x (List.mem_reverse.1 hx)))
  rw [List.length_append, List.length_reverse] at hlenAB
  refine ⟨collect_of_Chain I _ _ _ hnA (by rw [List.length_reverse]; omega),
    collect_of_Chain I _ _ _ hnB (by rw [List.length_reverse]; omega), ?_⟩
  -- the drain of the null chain of the donor
  obtain ⟨t1, I1, hloop, hlen1, hfr1, ht1, hch1⟩ := joinNullLoop_spec (nullsOf opsB).reverse
    tB.null_string_ fuel tA I hnB (List.nodup_reverse.2 (nullsOf_nodup opsB hdB))
    (by rw [List.length_reverse]; omega) (by rw [List.length_reverse, hcA]; omega)
  have hch1 := hch1 _ hnA
    (fun x hx hx' => hdisj (nullsOf_sub opsA x (List.mem_reverse.1 hx'))
      (nullsOf_sub opsB x (List.mem_reverse.1 hx)))
    (fun x hx => by rw [hlen]; exact hltB x (nullsOf_sub opsB x (List.mem_reverse.1 hx)))
  rw [List.reverse_reverse] at hch1
  -- the merge of the trees
  obtain ⟨rootA, hrootA, _⟩ := hbA
  have hbB' := hbB
  obtain ⟨rootB, hrootB, htreeB, _⟩ := hbB'
  obtain ⟨hro, hown⟩ := Built_RightOK e _ opsB tB I rootB n hbB hrootB hdB hltB
  have hro1 : RightOK e tB.suffix_table_ (chainOfId (entriesOf opsB)) n I1 rootB := by
    refine RightOK_frame e _ _ n I I1 rootB hro ?_
    intro x hx
    refine hfr1 x (fun hxn => ?_)
    exact nulls_entries_disjoint opsB hdB x (List.mem_reverse.1 hxn) (hown x hx)
  rw [hrootB, heightPtr] at hfuel
  obtain ⟨res, hres, hfr2⟩ := (Merge_safe e _ tB.suffix_table_ (chainOfId (entriesOf opsB)) n
    fuel).1 rootA rootB t1 I1 (KidsOK_of_TreeOK e _ _ rootB htreeB) hro1 (by omega)
  have hroot1 : t1.root_ = Ptr.to rootA := by rw [ht1]; exact hrootA
  refine ⟨_, Join_eq e fuel tA tB I t1 I1 rootA rootB res hloop hroot1 hrootB hres, ?_, hnodup, ?_⟩
  · obtain ⟨_, hfrI, ext, u, hext⟩ := hfr2
    have hnull : res.2.2.1.null_string_ = t1.null_string_ := by rw [hext]
    refine collect_of_Chain _ _ _ _ ?_ (by rw [List.length_append, List.length_reverse]; omega)
    show Chain res.2.2.2 res.2.2.1.null_string_ _
    rw [hnull]
    refine Chain_frame I1 _ _ _ ?_ hch1
    intro x hx
    refine hfrI x (fun hxo => ?_)
    have hxe := hown x hxo
    rcases List.mem_append.1 hx with hx | hx
    · exact nulls_entries_disjoint opsB hdB x hx hxe
    · exact hdisj (nullsOf_sub opsA x (List.mem_reverse.1 hx))
        ((entries_sublist opsB).subset hxe)
  · obtain ⟨_, _, ext, u, hext⟩ := hfr2
    show res.2.2.1.null_string_count_ = tA.null_string_count_ + tB.null_string_count_
    rw [hext]
    show t1.null_string_count_ = _
    rw [ht1]
    show tA.null_string_count_ + (nullsOf opsB).reverse.length = _
    rw [List.length_reverse, ← hcB]

/-- C8, amended. `A` and `B` are built on one row-id vector of length `n` by `AddEntry` and
`AddNullString` calls with pairwise distinct row ids below `n`, and the key `k`, without a
zero byte, has been added to both. Before the join, the chain of `k` in each tree lists
the row ids of the key in that tree, most recent first. `A.Join( B )` returns (with fuel
above the height of the tree of `B` plus `n + 1`), and afterwards the chain of `k` in `A`
lists the row ids that `B` had for the key first, in the order in which they were added
to `B` (the reverse of the former chain of `B`), followed by the row ids of `A` for the
key, most recent first. -/
theorem Join_key_chain (e : Bool) (n fuel : Nat) (opsA opsB : List Op)
    (hd : ((opsA ++ opsB).map Op.value).Nodup)
    (hlt : ∀ x, x ∈ (opsA ++ opsB).map Op.value → x < n) (hn : n ≤ 4294967295)
    (hbytes : ∀ p, p ∈ entriesOf (opsA ++ opsB) → ∀ c, c ∈ p.1 → c < 256)
    (htot : totalLength (entriesOf opsA) + totalLength (entriesOf opsB) < 4294967296)
    (hfuel : heightPtr (buildPair e n opsA opsB).2.1.root_ + n + 1 < fuel)
    (k : List Nat) (hkA : k ∈ keysOf (entriesOf opsA)) (hkB : k ∈ keysOf (entriesOf opsB))
    (hzk : ∀ b, b ∈ k → b ≠ 0) :
    (∃ head, terminalOf e (buildPair e n opsA opsB).1 k = some head ∧
      chainFrom (buildPair e n opsA opsB).2.2 (n + 1) head =
        some (idsOf (entriesOf opsA) k).reverse) ∧
    (∃ head, terminalOf e (buildPair e n opsA opsB).2.1 k = some head ∧
      chainFrom (buildPair e n opsA opsB).2.2 (n + 1) head =
        some (idsOf (entriesOf opsB) k).reverse) ∧
    ∃ r, joinPair e fuel n opsA opsB = some r ∧
      ∃ head, terminalOf e r.1 k = some head ∧
        chainFrom r.2.2 (n + 1) head =
          some (idsOf (entriesOf opsB) k ++ (idsOf (entriesOf opsA) k).reverse) := by
  have hP : ∀ c, (fun c => c < 256) c → c < 256 := fun c hc => hc
  obtain ⟨hbA, hbB, hlen⟩ := buildPair_spec e (fun c => c < 256) hP n opsA opsB
    hd hlt hn hbytes htot
  unfold joinPair
  generalize buildPair e n opsA opsB = p at hbA hbB hlen hfuel ⊢
  obtain ⟨tA, tB, I⟩ := p
  simp only [] at hbA hbB hlen hfuel ⊢
  have hdAB := hd
  rw [List.map_append, List.nodup_append] at hd
  obtain ⟨hdA, hdB, hdisj⟩ := hd
  have hltA : ∀ x, x ∈ opsA.map Op.value → x < n := fun x hx =>
    hlt x (by rw [List.map_append]; exact List.mem_append_left _ hx)
  have hltB : ∀ x, x ∈ opsB.map Op.value → x < n := fun x hx =>
    hlt x (by rw [List.map_append]; exact List.mem_append_right _ hx)
  have hnB : Chain I tB.null_string_ (nullsOf opsB).reverse := by
    obtain ⟨_, _, _, _, _, h, _⟩ := hbB; exact h
  have hcA : tA.null_string_count_ = (nullsOf opsA).length := by
    obtain ⟨_, _, _, _, _, _, h, _⟩ := hbA; exact h
  have hnullAB : (nullsOf opsB ++ (nullsOf opsA).reverse).Nodup := by
    rw [List.nodup_append]
    refine ⟨nullsOf_nodup opsB hdB, List.nodup_reverse.2 (nullsOf_nodup opsA hdA), ?_⟩
    intro x hx hx'
    exact hdisj (nullsOf_sub opsA x (List.mem_reverse.1 hx')) (nullsOf_sub opsB x hx)
  have hlenAB : (nullsOf opsB ++ (nullsOf opsA).reverse).length ≤ n :=
    length_le_of_nodup _ n hnullAB (by
      intro x hx
      rcases List.mem_append.1 hx with hx | hx
      · exact hltB x (nullsOf_sub opsB x hx)
      · exact hltA x (nullsOf_sub opsA x (List.mem_reverse.1 hx)))
  rw [List.length_append, List.length_reverse] at hlenAB
  -- the chains of the key before the join
  have hbA' := hbA
  have hbB' := hbB
  obtain ⟨rootA, hrootA, htreeA, hholdsA, hexA, _⟩ := hbA'
  obtain ⟨rootB, hrootB, htreeB, hholdsB, hexB, _⟩ := hbB'
  obtain ⟨vA, hvA⟩ := hexA k ((idsOf_ne_nil _ k).2 hkA)
  obtain ⟨vB, hvB⟩ := hexB k ((idsOf_ne_nil _ k).2 hkB)
  have hchA := (hholdsA k vA hvA).2
  have hchB := (hholdsB k vB hvB).2
  have hidsAB : (idsOf (entriesOf opsB) k ++ (idsOf (entriesOf opsA) k).reverse).Nodup := by
    rw [List.nodup_append]
    refine ⟨((idsOf_sublist opsB k).nodup hdB),
      List.nodup_reverse.2 ((idsOf_sublist opsA k).nodup hdA), ?_⟩
    intro x hx hx'
    exact hdisj (idsOf_sub opsA k x (List.mem_reverse.1 hx')) (idsOf_sub opsB k x hx)
  have hidslen : (idsOf (entriesOf opsB) k ++ (idsOf (entriesOf opsA) k).reverse).length ≤ n :=
    length_le_of_nodup _ n hidsAB (by
      intro x hx
      rcases List.mem_append.1 hx with hx | hx
      · exact hltB x (idsOf_sub opsB k x hx)
      · exact hltA x (idsOf_sub opsA k x (List.mem_reverse.1 hx)))
  have hidslen' := hidslen
  rw [List.length_append, List.length_reverse] at hidslen'
  refine ⟨⟨vA, ?_, collect_of_Chain I _ _ _ hchA (by rw [List.length_reverse]; omega)⟩,
    ⟨vB, ?_, collect_of_Chain I _ _ _ hchB (by rw [List.length_reverse]; omega)⟩, ?_⟩
  · unfold terminalOf
    rw [hrootA]
    exact findTerminal_of_Holds e _ hP _ rootA htreeA k vA _ hvA (Nat.lt_succ_self _)
  · unfold terminalOf
    rw [hrootB]
    exact findTerminal_of_Holds e _ hP _ rootB htreeB k vB _ hvB (Nat.lt_succ_self _)
  -- the drain of the null chain of the donor
  obtain ⟨t1, I1, hloop, hlen1, hfr1, ht1, _⟩ := joinNullLoop_spec (nullsOf opsB).reverse
    tB.null_string_ fuel tA I hnB (List.nodup_reverse.2 (nullsOf_nodup opsB hdB))
    (by rw [List.length_reverse]; omega) (by rw [List.length_reverse, hcA]; omega)
  have hroot1 : t1.root_ = Ptr.to rootA := by rw [ht1]; exact hrootA
  have hS1 : t1.suffix_table_ = tA.suffix_table_ := by rw [ht1]
  obtain ⟨hro, hown⟩ := Built_RightOK e _ opsB tB I rootB n hbB hrootB hdB hltB
  have hro1 : RightOK e tB.suffix_table_ (chainOfId (entriesOf opsB)) n I1 rootB := by
    refine RightOK_frame e _ _ n I I1 rootB hro ?_
    intro x hx
    refine hfr1 x (fun hxn => ?_)
    exact nulls_entries_disjoint opsB hdB x (List.mem_reverse.1 hxn) (hown x hx)
  have hchA1 : Chain I1 vA (idsOf (entriesOf opsA) k).reverse := by
    refine Chain_frame I I1 _ _ ?_ hchA
    intro x hx
    refine hfr1 x (fun hxn => ?_)
    exact hdisj (idsOf_sub opsA k x (List.mem_reverse.1 hx))
      (nullsOf_sub opsB x (List.mem_reverse.1 hxn))
  have hvBmem : vB ∈ idsOf (entriesOf opsB) k :=
    List.mem_reverse.1 (Chain_head_mem I vB _ hchB
      (fun h => (hholdsB k vB hvB).1 (List.reverse_eq_nil_iff.1 h)))
  have hcvB : chainOfId (entriesOf opsB) vB = (idsOf (entriesOf opsB) k).reverse :=
    chainOfId_eq (entriesOf opsB) ((entries_sublist opsB).nodup hdB) k vB hvBmem
  rw [hrootB, heightPtr] at hfuel
  obtain ⟨res, hres, hfr2, v', hfinds, hch2⟩ := (Merge_path e _ hP tB.suffix_table_
    (chainOfId (entriesOf opsB)) n fuel).1 rootA rootB t1 I1 k vA vB
    (idsOf (entriesOf opsA) k).reverse hzk (by rw [hS1]; exact htreeA)
    (by rw [hS1]; exact hvA) hchA1 htreeB hvB hro1
    (fun x hx hxo => hdisj (idsOf_sub opsA k x (List.mem_reverse.1 hx))
      ((entries_sublist opsB).subset (hown x hxo)))
    (fun x hxo => by
      rw [hlen1, hlen]; exact hltB x ((entries_sublist opsB).subset (hown x hxo)))
    (by omega)
  rw [hcvB, List.reverse_reverse] at hch2
  refine ⟨_, Join_eq e fuel tA tB I t1 I1 rootA rootB res hloop hroot1 hrootB hres, v', ?_, ?_⟩
  · show findTerminal e res.2.2.1.suffix_table_ (k.length + 1) res.1 k = some v'
    exact findTerminal_of_Finds e _ _ res.1 k v' hfinds (Nat.lt_succ_self _)
  · exact collect_of_Chain _ _ _ _ hch2 (by omega)

/-! ## The properties of `Reset`, `Split`, the node variants and `TraverseIndexes` -/

/-- C11. A tree is in any state reached by calls `ops0` on a fresh tree with `n` row ids;
`Reset` is called and then the calls `s` are made, with distinct row ids inside the vector
(keys of bytes, fewer than `2^32` key bytes in all). The calls that `Traverse` makes are
then the calls that it makes on a freshly constructed tree with a vector of the same length
after the same calls `s`, every key is reported with the same chain of row ids (the row ids
of the key in `s`, most recent first), and the null chain is the same (the row ids of the
`AddNullString` calls of `s`, most recent first), whatever links the earlier calls have left
in the row-id vector. -/
theorem Reset_then_calls (e : Bool) (n : Nat) (ops0 s : List Op)
    (hd : (s.map Op.value).Nodup)
    (hlt : ∀ x, x ∈ s.map Op.value → x < GetIndexVectorLength (CAdaptiveRadixTree.new n).2)
    (hbytes : ∀ p, p ∈ entriesOf s → ∀ c, c ∈ p.1 → c < 256)
    (htot : totalLength (entriesOf s) < 4294967296) :
    GetIndexVectorLength (run e (CAdaptiveRadixTree.new n) ops0).2 =
      GetIndexVectorLength (CAdaptiveRadixTree.new n).2 ∧
    Traverse e (run e (Reset (run e (CAdaptiveRadixTree.new n) ops0).1,
        (run e (CAdaptiveRadixTree.new n) ops0).2) s).1 =
      Traverse e (run e (CAdaptiveRadixTree.new n) s).1 ∧
    traversalOf e (GetIndexVectorLength (CAdaptiveRadixTree.new n).2 + 1)
        (run e (Reset (run e (CAdaptiveRadixTree.new n) ops0).1,
          (run e (CAdaptiveRadixTree.new n) ops0).2) s).1
        (run e (Reset (run e (CAdaptiveRadixTree.new n) ops0).1,
          (run e (CAdaptiveRadixTree.new n) ops0).2) s).2 =
      traversalOf e (GetIndexVectorLength (CAdaptiveRadixTree.new n).2 + 1)
        (run e (CAdaptiveRadixTree.new n) s).1 (run e (CAdaptiveRadixTree.new n) s).2 ∧
    (∀ p, p ∈ traversalOf e (GetIndexVectorLength (CAdaptiveRadixTree.new n).2 + 1)
        (run e (CAdaptiveRadixTree.new n) s).1 (run e (CAdaptiveRadixTree.new n) s).2 →
      p.2 = some (idsOf (entriesOf s) p.1).reverse) ∧
    chainFrom (run e (Reset (run e (CAdaptiveRadixTree.new n) ops0).1,
          (run e (CAdaptiveRadixTree.new n) ops0).2) s).2
        (GetIndexVectorLength (CAdaptiveRadixTree.new n).2 + 1)
        (GetNullStringBegin (run e (Reset (run e (CAdaptiveRadixTree.new n) ops0).1,
          (run e (CAdaptiveRadixTree.new n) ops0).2) s).1).index_ =
      some (nullsOf s).reverse ∧
    chainFrom (run e (CAdaptiveRadixTree.new n) s).2
        (GetIndexVectorLength (CAdaptiveRadixTree.new n).2 + 1)
        (GetNullStringBegin (run e (CAdaptiveRadixTree.new n) s).1).index_ =
      some (nullsOf s).reverse := by
  have hP : ∀ c, (fun c => c < 256) c → c < 256 := fun c hc => hc
  have hbytes' : ∀ k v, Op.AddEntry k v ∈ s → ∀ c, c ∈ k → c < 256 :=
    fun k v hm => hbytes (k, v) ((mem_entriesOf s k v).2 hm)
  have hlen0 := (run_vector e ops0 (CAdaptiveRadixTree.new n)).1
  have hnew := length_new n
  generalize run e (CAdaptiveRadixTree.new n) ops0 = st at hlen0 ⊢
  obtain ⟨t0, I⟩ := st
  simp only [] at hlen0 ⊢
  unfold GetIndexVectorLength at hlt ⊢
  -- the run after `Reset`, the run on the stale vector and the run on the fresh vector
  obtain ⟨a', b', h1, h2⟩ := run_withTotals e s CAdaptiveRadixTree.newShared I
    (CAdaptiveRadixTree.new n).2 t0.total_string_length_ t0.max_string_length_
  rw [← Reset_eq] at h1 h2
  have hfree := run_vector_free e s CAdaptiveRadixTree.newShared I (CAdaptiveRadixTree.new n).2
  obtain ⟨hbC, hlenC, _⟩ := run_spec e _ hP I (by rw [hlen0]; exact hnew) s hd
    (by rw [hlen0]; exact hlt) hbytes' htot
  obtain ⟨hbB, hlenB⟩ := fresh_spec e n s hd hlt hbytes' htot
  have hB : run e (CAdaptiveRadixTree.new n) s =
      run e (CAdaptiveRadixTree.newShared, (CAdaptiveRadixTree.new n).2) s := rfl
  rw [h2]
  rw [hfree] at hbC
  rw [← hB] at hbC h1
  generalize run e (CAdaptiveRadixTree.new n) s = B at hbC hbB hlenB h1 ⊢
  generalize run e (CAdaptiveRadixTree.newShared, I) s = C at hbC hlenC ⊢
  generalize run e (Reset t0, I) s = A at h1 ⊢
  obtain ⟨tB, IB⟩ := B
  obtain ⟨tC, IC⟩ := C
  obtain ⟨tA, IA⟩ := A
  simp only [] at hbC hbB hlenB hlenC h1 ⊢
  subst h1
  obtain ⟨root, hroot, htree, hholdsB, _, hnullB, _⟩ := hbB
  obtain ⟨root', hroot', _, hholdsC, _, hnullC, _⟩ := hbC
  have hrr : root' = root := by
    rw [hroot] at hroot'
    injection hroot' with h
    exact h.symm
  subst hrr
  have htup := (Traverse_tuples e _ tB root' hroot htree).1
  have hidlen : ∀ k, (idsOf (entriesOf s) k).reverse.length <
      (CAdaptiveRadixTree.new n).2.length + 1 := by
    intro k
    rw [List.length_reverse]
    have := length_le_of_nodup _ (CAdaptiveRadixTree.new n).2.length
      ((idsOf_sublist s k).nodup hd) (fun x hx => hlt x (idsOf_sub s k x hx))
    omega
  have hnlen : (nullsOf s).reverse.length < (CAdaptiveRadixTree.new n).2.length + 1 := by
    rw [List.length_reverse]
    have := length_le_of_nodup _ (CAdaptiveRadixTree.new n).2.length
      (nullsOf_nodup s hd) (fun x hx => hlt x (nullsOf_sub s x hx))
    omega
  refine ⟨hlen0, rfl, ?_, ?_, collect_of_Chain _ _ _ _ hnullC hnlen,
    collect_of_Chain _ _ _ _ hnullB hnlen⟩
  · unfold traversalOf
    rw [Traverse_withTotals]
    refine List.map_congr_left ?_
    intro p hp
    have hh := htup p.1 p.2 hp
    rw [collect_of_Chain _ _ _ _ (hholdsC p.1 p.2 hh).2 (hidlen p.1),
      collect_of_Chain _ _ _ _ (hholdsB p.1 p.2 hh).2 (hidlen p.1)]
  · intro p hp
    unfold traversalOf at hp
    obtain ⟨q, hq, rfl⟩ := List.mem_map.1 hp
    have hh := htup q.1 q.2 hq
    simp only []
    rw [collect_of_Chain _ _ _ _ (hholdsB q.1 q.2 hh).2 (hidlen q.1)]

/-- C13. A well-formed node that is full (a `CArtNode4` with 4 children, a `CArtNode16` with
16 or a `CArtNode48` with 48) does not hold the byte `c`. After `InsertInNode( slot, c, x )`
the slot holds a node of the next larger variant, on which `FindChild` leads, for every
byte that was present, to the child that it led to before, and to the new child `x` for
`c`. -/
theorem InsertInNode_grow_keeps_children (e : Bool) (n : CArtNode) (c : Nat) (x : CArtNode)
    (h : NodeOK e n) (hfull : n.capacity = some n.base.children_count_) (hc : c < 256)
    (hnew : FindChild e n c = none) :
    (InsertInNode e n c (Ptr.to x)).1.node_type_ = n.node_type_.next ∧
    (∀ b q, b < 256 → findChildNode e n b = some q →
      findChildNode e (InsertInNode e n c (Ptr.to x)).1 b = some q) ∧
    FindChild e (InsertInNode e n c (Ptr.to x)).1 c = some (InsertInNode e n c (Ptr.to x)).2 ∧
    findChildNode e (InsertInNode e n c (Ptr.to x)).1 c = some (Ptr.to x) := by
  have hnew' := (findChildNode_none e n h c hc).1 hnew
  obtain ⟨_, hfind, hchild, _, hother⟩ := InsertInNode_find e n c x h hc hnew'
  refine ⟨InsertInNode_type_full e n c _ hfull, ?_, hfind, ?_⟩
  · intro b q hb hq
    have hbc : b ≠ c := by
      intro hbc
      subst hbc
      unfold findChildNode at hq
      rw [hnew] at hq
      cases hq
    rw [hother b hb hbc]
    exact hq
  · unfold findChildNode
    rw [hfind, Option.map_some', hchild]

/-- C14. In a tree built by `AddEntry` calls on a freshly constructed tree (distinct row ids
inside the row-id vector, keys of bytes, fewer than `2^32` key bytes in all), at every node
`m` of every variant the child loop of `TraverseRecursive` runs over the pairs `tslots` of
key byte and child slot: their key bytes are strictly ascending as unsigned bytes, and each
slot holds a child of the node. The array `key_[0 .. children_count_)` of a `CArtNode4` is
strictly ascending, and that of a `CArtNode16` is in the order in which the bytes that its
cells stand for (`storedByte`, which undoes the sign flip) are strictly ascending. -/
theorem child_iteration_ascending (e : Bool) (n : Nat) (es : List (List Nat × Nat))
    (hd : (es.map Prod.snd).Nodup)
    (hlt : ∀ p, p ∈ es → p.2 < GetIndexVectorLength (CAdaptiveRadixTree.new n).2)
    (hbytes : ∀ p, p ∈ es → ∀ c, c ∈ p.1 → c < 256)
    (htot : totalLength es < 4294967296) :
    ∃ root, rootNode (AddEntries e (CAdaptiveRadixTree.new n) es).1 = some root ∧
      ∀ m, InTree e root m →
        (∀ level st,
          TraverseRecursive e (AddEntries e (CAdaptiveRadixTree.new n) es).1.suffix_table_ m
              level st =
            (m.tslots e).foldl
              (travStep (TraverseChildren e
                (AddEntries e (CAdaptiveRadixTree.new n) es).1.suffix_table_ m.child_)
                (travLevel m level))
              (travHead (AddEntries e (CAdaptiveRadixTree.new n) es).1.suffix_table_ m level
                st)) ∧
        (m.tslots e).Pairwise (fun p q => p.1 < q.1) ∧
        (∀ p, p ∈ m.tslots e → p.1 < 256 ∧
          ∃ ch, m.child_.getD p.2 Ptr.nullptr = Ptr.to ch ∧ (p.1, Ptr.to ch) ∈ m.kids e) ∧
        (∀ b key_ child_, m = CArtNode.Fanout4 b key_ child_ →
          ∀ i j, i < j → j < b.children_count_ → key_.getD i 0 < key_.getD j 0) ∧
        (∀ b key_ child_, m = CArtNode.Fanout16 b key_ child_ →
          ∀ i j, i < j → j < b.children_count_ →
            storedByte e (key_.getD i 0) < storedByte e (key_.getD j 0)) := by
  obtain ⟨⟨root, hroot, htree, _⟩, _⟩ := AddEntries_spec e (fun c => c < 256) (fun c hc => hc)
    (CAdaptiveRadixTree.new n).2 (length_new n) es hd hlt hbytes htot
  refine ⟨root, by unfold rootNode; rw [show (AddEntries e (CAdaptiveRadixTree.new n) es).1.root_
    = Ptr.to root from hroot], ?_⟩
  intro m hm
  have hok : NodeOK e m := by
    cases TreeOK_InTree e _ _ root m hm htree with
    | mk _ hn _ _ _ _ _ => exact hn
  refine ⟨fun level st => TraverseRecursive_eq e _ m level st hok, tslots_sorted e m hok, ?_,
    ?_, ?_⟩
  · intro p hp
    have hs := (mem_tslots e m p).1 hp
    obtain ⟨_, ch, hch⟩ := slots_node e m hok p.1 p.2 hs
    exact ⟨slots_byte e m hok p.1 p.2 hs, ch, hch, (mem_kids e m p.1 _).2 ⟨p.2, hs, hch⟩⟩
  · intro b key_ child_ hm' i j hij hj
    subst hm'
    exact hok.2.2.2.1 i j hij hj
  · intro b key_ child_ hm' i j hij hj
    subst hm'
    exact hok.2.2.2.1 i j hij hj

/-- C16, amended. On a well-formed node `FindChild( node, b )` returns no slot when the node
holds no child under `b`, and so it does on a freshly constructed node of each variant.
After `InsertInNode( slot, b, x )` on a node that is not full and does not hold `b`, the
node in the slot is of the same variant, `FindChild` returns for `b` the slot that holds
`x`, and for every other byte it returns no slot if it returned none before, and else a
slot that holds the child that the slot returned before held (on a `CArtNode4` and a
`CArtNode16` that slot can be the next one of the array). -/
theorem FindChild_after_InsertInNode (e : Bool) (n : CArtNode) (b : Nat) (x : CArtNode)
    (h : NodeOK e n) (hroom : n.capacity ≠ some n.base.children_count_) (hb : b < 256)
    (hnew : ∀ q, (b, q) ∉ n.kids e) :
    FindChild e n b = none ∧
    (FindChild e CArtNode.new4 b = none ∧ FindChild e CArtNode.new16 b = none ∧
      FindChild e CArtNode.new48 b = none ∧ FindChild e CArtNode.new256 b = none) ∧
    (InsertInNode e n b (Ptr.to x)).1.node_type_ = n.node_type_ ∧
    FindChild e (InsertInNode e n b (Ptr.to x)).1 b = some (InsertInNode e n b (Ptr.to x)).2 ∧
    (InsertInNode e n b (Ptr.to x)).1.child_.getD (InsertInNode e n b (Ptr.to x)).2
      Ptr.nullptr = Ptr.to x ∧
    ∀ b', b' < 256 → b' ≠ b →
      findChildNode e (InsertInNode e n b (Ptr.to x)).1 b' = findChildNode e n b' := by
  obtain ⟨_, hfind, hchild, _, hother⟩ := InsertInNode_find e n b x h hb hnew
  exact ⟨(findChildNode_none e n h b hb).2 hnew, FindChild_fresh e b hb,
    InsertInNode_type_room e n b _ h hroom, hfind, hchild, hother⟩

/-- C17. After calls `ops` on a freshly constructed tree, `AddNullString( v )` is called,
all row ids distinct and inside the row-id vector. The call stores the previous head of
the null chain in the cell `v` of the vector and changes no other cell, `v` is the new
head, `GetNullStringCount` has grown by one, and the root, the suffix table,
`total_string_length_`, `max_string_length_` and `unique_string_count_` are as before.
The null chain from `GetNullStringBegin` to `GetNullStringEnd` then yields `v` followed by
the row ids of the earlier `AddNullString` calls, most recent first, and
`GetNullStringCount` is the number of `AddNullString` calls. -/
theorem AddNullString_spec (e : Bool) (n : Nat) (ops : List Op) (v : Nat)
    (hd : ((ops ++ [Op.AddNullString v]).map Op.value).Nodup)
    (hlt : ∀ x, x ∈ (ops ++ [Op.AddNullString v]).map Op.value →
      x < GetIndexVectorLength (CAdaptiveRadixTree.new n).2) :
    (AddNullString (run e (CAdaptiveRadixTree.new n) ops).1
        (run e (CAdaptiveRadixTree.new n) ops).2 v).2 =
      (run e (CAdaptiveRadixTree.new n) ops).2.set v
        (GetNullStringBegin (run e (CAdaptiveRadixTree.new n) ops).1).index_ ∧
    (AddNullString (run e (CAdaptiveRadixTree.new n) ops).1
        (run e (CAdaptiveRadixTree.new n) ops).2 v).2.getD v 0 =
      (GetNullStringBegin (run e (CAdaptiveRadixTree.new n) ops).1).index_ ∧
    (GetNullStringBegin (AddNullString (run e (CAdaptiveRadixTree.new n) ops).1
        (run e (CAdaptiveRadixTree.new n) ops).2 v).1).index_ = v ∧
    GetNullStringCount (AddNullString (run e (CAdaptiveRadixTree.new n) ops).1
        (run e (CAdaptiveRadixTree.new n) ops).2 v).1 =
      GetNullStringCount (run e (CAdaptiveRadixTree.new n) ops).1 + 1 ∧
    (AddNullString (run e (CAdaptiveRadixTree.new n) ops).1
        (run e (CAdaptiveRadixTree.new n) ops).2 v).1 =
      { (run e (CAdaptiveRadixTree.new n) ops).1 with
        null_string_ := v,
        null_string_count_ := (run e (CAdaptiveRadixTree.new n) ops).1.null_string_count_ + 1 } ∧
    CIndexIterator.collect
        (AddNullString (run e (CAdaptiveRadixTree.new n) ops).1
          (run e (CAdaptiveRadixTree.new n) ops).2 v).2
        (GetIndexVectorLength (CAdaptiveRadixTree.new n).2 + 1)
        (GetNullStringBegin (AddNullString (run e (CAdaptiveRadixTree.new n) ops).1
          (run e (CAdaptiveRadixTree.new n) ops).2 v).1)
        (GetNullStringEnd (AddNullString (run e (CAdaptiveRadixTree.new n) ops).1
          (run e (CAdaptiveRadixTree.new n) ops).2 v).1) =
      some (v :: (nullsOf ops).reverse) ∧
    GetNullStringCount (AddNullString (run e (CAdaptiveRadixTree.new n) ops).1
        (run e (CAdaptiveRadixTree.new n) ops).2 v).1 = (nullsOf ops).length + 1 := by
  have hd0 := hd
  rw [List.map_append, List.nodup_append] at hd
  obtain ⟨hd1, _, hdisj⟩ := hd
  have hlt1 : ∀ x, x ∈ ops.map Op.value → x < (CAdaptiveRadixTree.new n).2.length :=
    fun x hx => hlt x (by rw [List.map_append]; exact List.mem_append_left _ hx)
  have hvI : v < (CAdaptiveRadixTree.new n).2.length := hlt v (by simp [Op.value])
  obtain ⟨hc1, hn1⟩ := run_nulls e (CAdaptiveRadixTree.new n).2 (length_new n) ops hd1 hlt1
  obtain ⟨hc2, hn2⟩ := run_nulls e (CAdaptiveRadixTree.new n).2 (length_new n)
    (ops ++ [Op.AddNullString v]) hd0 hlt
  have hlen := (run_vector e ops (CAdaptiveRadixTree.new n)).1
  have hnew := length_new n
  have hcount : (nullsOf (ops ++ [Op.AddNullString v])).length ≤
      (CAdaptiveRadixTree.new n).2.length :=
    length_le_of_nodup _ _ (nullsOf_nodup _ hd0) (fun x hx => hlt x (nullsOf_sub _ x hx))
  rw [run_append, nullsOf_append] at hc2 hn2
  rw [nullsOf_append] at hcount
  simp only [nullsOf, List.length_append, List.length_singleton, List.reverse_append,
    List.reverse_cons, List.reverse_nil, List.nil_append, List.singleton_append] at hc2 hn2 hcount
  have hB : run e (CAdaptiveRadixTree.new n) ops =
      run e (CAdaptiveRadixTree.newShared, (CAdaptiveRadixTree.new n).2) ops := rfl
  rw [← hB] at hc1 hn1 hc2 hn2
  generalize run e (CAdaptiveRadixTree.new n) ops = st at hc1 hn1 hc2 hn2 hlen
  obtain ⟨t, I⟩ := st
  simp only [] at hc1 hn1 hc2 hn2 hlen
  have hu : u32 (t.null_string_count_ + 1) = t.null_string_count_ + 1 :=
    u32_of_lt _ (by rw [hn1]; omega)
  refine ⟨rfl, ?_, rfl, ?_, ?_, ?_, ?_⟩
  · show (I.set v t.null_string_).getD v 0 = t.null_string_
    rw [getD_set_ptr I v v _ 0 (by rw [hlen]; exact hvI), if_pos rfl]
  · exact hu
  · show ({ t with null_string_ := v, null_string_count_ := u32 (t.null_string_count_ + 1) } :
      CAdaptiveRadixTree) = _
    rw [hu]
  · exact collect_of_Chain _ _ _ _ hc2 (by
      rw [List.length_cons, List.length_reverse]; unfold GetIndexVectorLength; omega)
  · exact hn2

/-- C18. `Split` leaves the tree as it is and returns a tree whose root is a new
`CArtNode256` without children that is not an end of string, with an empty suffix table
and an empty null chain, for which `GetUniqueStringCount`, `GetNullStringCount`,
`GetTotalStringLength` and `GetMaxStringLength` are `0` and on which `Traverse` calls
`HandleNode` for the root and passes no key to `HandleTuple`. The member `indexes_` of the
returned tree is that of the tree, so that `GetIndexVectorLength` is the same for both and
the vector that one of them sees after `AddEntry` or `AddNullString` on the other is the
vector that this call has written. -/
theorem Split_spec (e : Bool) (heap : List (List Nat)) (this : TreeObject)
    (hh : this.indexes_ < heap.length) :
    (Split this).1 = this ∧
    (Split this).2.members.root_ = Ptr.to CArtNode.new256 ∧
    CArtNode.new256.node_type_ = NodeType.Fanout256 ∧
    CArtNode.new256.base.children_count_ = 0 ∧
    CArtNode.new256.base.end_of_string_ = false ∧
    CArtNode.new256.kids e = [] ∧
    (Split this).2.members.suffix_table_ = [] ∧
    GetNullStringBegin (Split this).2.members = GetNullStringEnd (Split this).2.members ∧
    GetUniqueStringCount (Split this).2.members = 0 ∧
    GetNullStringCount (Split this).2.members = 0 ∧
    GetTotalStringLength (Split this).2.members = 0 ∧
    GetMaxStringLength (Split this).2.members = 0 ∧
    Traverse e (Split this).2.members = [Call.HandleNode CArtNode.new256 [] 0] ∧
    tuplesOf (Traverse e (Split this).2.members) = [] ∧
    TraverseIndexes e (Split this).2.members = [] ∧
    (Split this).2.indexes_ = this.indexes_ ∧
    GetIndexVectorLength ((Split this).2.indexes heap) =
      GetIndexVectorLength (this.indexes heap) ∧
    (∀ key v, this.indexes (AddEntryOn e heap (Split this).2 key v).2 =
      (AddEntry e (Split this).2.members (this.indexes heap) key v).2) ∧
    (∀ v, this.indexes (AddNullStringOn heap (Split this).2 v).2 =
      (this.indexes heap).set v LAST_INDEX_IDENTIFIER) ∧
    (∀ key v, (Split this).2.indexes (AddEntryOn e heap this key v).2 =
      (AddEntry e this.members (this.indexes heap) key v).2) ∧
    (∀ v, (Split this).2.indexes (AddNullStringOn heap this v).2 =
      (this.indexes heap).set v this.members.null_string_) := by
  have hkids : CArtNode.new256.kids e = [] := by
    unfold CArtNode.kids
    rw [(NodeOK_new256 e).2]
    rfl
  have htrav := Traverse_newShared e
  have htravI := TraverseIndexes_newShared e
  have hget : ∀ x : List Nat, (heap.set this.indexes_ x).getD this.indexes_ [] = x := by
    intro x
    rw [getD_set_ptr heap this.indexes_ this.indexes_ x [] hh, if_pos rfl]
  have hS : (Split this).2.members = CAdaptiveRadixTree.newShared := rfl
  have hS1 : (Split this).2.indexes_ = this.indexes_ := rfl
  rw [hS]
  refine ⟨rfl, rfl, rfl, rfl, rfl, hkids, rfl, rfl, ?_, rfl, rfl, rfl, htrav, ?_, htravI, hS1,
    ?_, ?_, ?_, ?_, ?_⟩
  · unfold GetUniqueStringCount
    rw [if_pos (show CAdaptiveRadixTree.newShared.null_string_ = LAST_INDEX_IDENTIFIER from rfl)]
    rfl
  · rw [htrav]
    rfl
  · unfold TreeObject.indexes
    rw [hS1]
  · intro key v
    exact hget _
  · intro v
    exact hget _
  · intro key v
    exact hget _
  · intro v
    exact hget _

/-- The operators of `CIndexIterator` on the code: `operator*` yields the current index,
`operator++` replaces it by `indexes[current]`, and a consumer that iterates from a start
different from the end reads the start and then what it reads from `indexes[start]`. For the
index vector `[ 2 | 4 | x | 1 | x ]` of the comment on the class (`x` a cell that holds
`LAST_INDEX_IDENTIFIER`), iterating up to the `LAST_INDEX_IDENTIFIER` end iterator yields `2`
alone from the start `2` (cell `2` holds `x`), and `0, 2` from the start `0`, for every
bound on the number of comparisons that is large enough. -/
theorem CIndexIterator_follows_vector (indexes : List Nat) (it end_ : CIndexIterator)
    (fuel : Nat) (h : it ≠ end_) :
    it.deref = it.index_ ∧ (it.next indexes).index_ = indexes.getD it.index_ 0 ∧
    CIndexIterator.collect indexes (fuel + 1) it end_ =
      (CIndexIterator.collect indexes fuel (it.next indexes) end_).map
        (fun rest => it.deref :: rest) ∧
    CIndexIterator.collect docVector (fuel + 2) ⟨2⟩ ⟨LAST_INDEX_IDENTIFIER⟩ = some [2] ∧
    CIndexIterator.collect docVector (fuel + 3) ⟨0⟩ ⟨LAST_INDEX_IDENTIFIER⟩ = some [0, 2] := by
  refine ⟨rfl, rfl, ?_, ?_, ?_⟩
  · rw [CIndexIterator.collect, if_neg h]; rfl
  · simp [CIndexIterator.collect, CIndexIterator.next, docVector, LAST_INDEX_IDENTIFIER]
  · simp [CIndexIterator.collect, CIndexIterator.next, docVector, LAST_INDEX_IDENTIFIER]

/-- C22. The root of a tree is a `CArtNode256` with an empty prefix (`RootOK`) after either
constructor and after `Reset`; `AddEntry`, `AddNullString` and, for the recipient, `Join`
keep it so, whatever the donor is. For two trees built by calls on one row-id vector (as in
C9) `Join` returns with enough fuel, and the root of the recipient is a `CArtNode256` with an
empty prefix before and after it. -/
theorem root_stays_Fanout256 (e : Bool) :
    (∀ n, RootOK (CAdaptiveRadixTree.new n).1) ∧ RootOK CAdaptiveRadixTree.newShared ∧
    (∀ t, RootOK (Reset t)) ∧
    (∀ t I key v, RootOK t → RootOK (AddEntry e t I key v).1) ∧
    (∀ t I v, RootOK t → RootOK (AddNullString t I v).1) ∧
    (∀ fuel this other I r, RootOK this → Join e fuel this other I = some r → RootOK r.1) ∧
    (∀ n fuel opsA opsB, ((opsA ++ opsB).map Op.value).Nodup →
      (∀ x, x ∈ (opsA ++ opsB).map Op.value → x < n) → n ≤ 4294967295 →
      (∀ p, p ∈ entriesOf (opsA ++ opsB) → ∀ c, c ∈ p.1 → c < 256) →
      totalLength (entriesOf opsA) + totalLength (entriesOf opsB) < 4294967296 →
      heightPtr (buildPair e n opsA opsB).2.1.root_ + n + 1 < fuel →
      RootOK (buildPair e n opsA opsB).1 ∧
      ∃ r, joinPair e fuel n opsA opsB = some r ∧ RootOK r.1) := by
  refine ⟨fun _ => ⟨CArtNode.new256, rfl, rfl, rfl⟩, ⟨CArtNode.new256, rfl, rfl, rfl⟩,
    fun _ => ⟨CArtNode.new256, rfl, rfl, rfl⟩,
    fun t I key v h => RootOK_AddEntry e t I key v h,
    fun t I v h => h,
    fun fuel this other I r h hj => RootOK_Join e fuel this other I r h hj, ?_⟩
  intro n fuel opsA opsB hd hlt hn hbytes htot hfuel
  have hA : RootOK (buildPair e n opsA opsB).1 :=
    RootOK_run e opsA _ ⟨CArtNode.new256, rfl, rfl, rfl⟩
  obtain ⟨r, hr⟩ := joinPair_returns e n fuel opsA opsB hd hlt hn hbytes htot hfuel
  exact ⟨hA, r, hr, RootOK_Join e fuel _ _ _ r hA hr⟩

/-- C23. In a tree built by `AddEntry` calls on a freshly constructed tree (distinct row ids
inside the row-id vector, keys of bytes, fewer than `2^32` key bytes in all), every node `m`
lies on a path from the root, and for every terminal node `m`, with `k` the stored prefixes
and edge bytes on the path from the root down to `m`: the head row id `value_` of `m` is not
`LAST_INDEX_IDENTIFIER`, the chain iterated from it reaches `LAST_INDEX_IDENTIFIER` (within
one comparison more than the vector has cells), the chain is not empty and consists of the
row ids inserted with the key `k` followed by the stored prefix of `m`, most recent first,
so every row id on it was inserted with exactly that key. -/
theorem terminal_node_chain (e : Bool) (n : Nat) (es : List (List Nat × Nat))
    (hd : (es.map Prod.snd).Nodup)
    (hlt : ∀ p, p ∈ es → p.2 < GetIndexVectorLength (CAdaptiveRadixTree.new n).2)
    (hbytes : ∀ p, p ∈ es → ∀ c, c ∈ p.1 → c < 256)
    (htot : totalLength es < 4294967296) :
    ∃ root, rootNode (AddEntries e (CAdaptiveRadixTree.new n) es).1 = some root ∧
      (∀ m, InTree e root m →
        ∃ k, PathBefore e (AddEntries e (CAdaptiveRadixTree.new n) es).1.suffix_table_ root m k) ∧
      ∀ m k, PathBefore e (AddEntries e (CAdaptiveRadixTree.new n) es).1.suffix_table_ root m k →
        m.base.end_of_string_ = true →
        m.base.value_ ≠ LAST_INDEX_IDENTIFIER ∧
        (∃ ids, chainFrom (AddEntries e (CAdaptiveRadixTree.new n) es).2
            (GetIndexVectorLength (AddEntries e (CAdaptiveRadixTree.new n) es).2 + 1)
            m.base.value_ = some ids ∧ ids ≠ [] ∧
          ids = (idsOf es
            (k ++ m.pfx (AddEntries e (CAdaptiveRadixTree.new n) es).1.suffix_table_)).reverse ∧
          ∀ id, id ∈ ids →
            (k ++ m.pfx (AddEntries e (CAdaptiveRadixTree.new n) es).1.suffix_table_, id) ∈ es) := by
  obtain ⟨⟨root, hroot, htree, hH1, _⟩, hlen⟩ :=
    AddEntries_spec e (fun c => c < 256) (fun c hc => hc)
      (CAdaptiveRadixTree.new n).2 (length_new n) es hd hlt hbytes htot
  rw [entriesOf_map] at hH1
  refine ⟨root, by unfold rootNode; rw [show (AddEntries e (CAdaptiveRadixTree.new n) es).1.root_
    = Ptr.to root from hroot], fun m hm => PathBefore_of_InTree e _ root m hm, ?_⟩
  intro m k hp heos
  obtain ⟨hne, hchain⟩ := hH1 _ _ (Holds_of_PathBefore e _ root m k hp heos)
  have hle : (idsOf es
      (k ++ m.pfx (AddEntries e (CAdaptiveRadixTree.new n) es).1.suffix_table_)).length ≤
      GetIndexVectorLength (AddEntries e (CAdaptiveRadixTree.new n) es).2 := by
    rw [GetIndexVectorLength, show (AddEntries e (CAdaptiveRadixTree.new n) es).2.length =
      (CAdaptiveRadixTree.new n).2.length from hlen]
    refine length_le_of_nodup _ _ (idsOf_nodup es _ hd) ?_
    intro x hx
    exact hlt (_, x) ((mem_idsOf es _ x).1 hx)
  obtain ⟨c1, c2, c3⟩ := chain_facts _ _ _ _ hne hchain hle
  refine ⟨c1, _, c2, c3, rfl, ?_⟩
  intro id hid
  exact (mem_idsOf es _ id).1 (List.mem_reverse.1 hid)

/-- C24. In a tree built by `AddEntry` calls on a freshly constructed tree (distinct row ids
inside the row-id vector, keys of bytes, fewer than `2^32` key bytes in all), for every node
`m`: the key bytes of its children are pairwise distinct, so a byte leads to one child;
`children_count_` is the number of key bytes present and the number of live cells of
`child_`; it does not exceed the capacity 4, 16, 48 of the variant, nor 256; in a `CArtNode4`
and a `CArtNode16` a cell of `child_` is live exactly when its index is below
`children_count_`; and in a `CArtNode48` every byte that is present is mapped by
`child_index_` to a cell below 48 that is live, distinct bytes to distinct cells. -/
theorem node_invariants (e : Bool) (n : Nat) (es : List (List Nat × Nat))
    (hd : (es.map Prod.snd).Nodup)
    (hlt : ∀ p, p ∈ es → p.2 < GetIndexVectorLength (CAdaptiveRadixTree.new n).2)
    (hbytes : ∀ p, p ∈ es → ∀ c, c ∈ p.1 → c < 256)
    (htot : totalLength es < 4294967296) :
    ∃ root, rootNode (AddEntries e (CAdaptiveRadixTree.new n) es).1 = some root ∧
      ∀ m, InTree e root m →
        ((m.slots e).map Prod.fst).Nodup ∧
        (∀ c p q, (c, p) ∈ m.kids e → (c, q) ∈ m.kids e → p = q) ∧
        (m.slots e).length = m.base.children_count_ ∧
        m.liveSlots = m.base.children_count_ ∧
        (∀ cap, m.capacity = some cap → m.base.children_count_ ≤ cap) ∧
        m.base.children_count_ ≤ 256 ∧
        (m.node_type_ = NodeType.Fanout4 ∨ m.node_type_ = NodeType.Fanout16 →
          ∀ i, i < m.child_.length →
            ((m.child_.getD i Ptr.nullptr).isNull = false ↔ i < m.base.children_count_)) ∧
        (∀ b child_index_ child_, m = CArtNode.Fanout48 b child_index_ child_ →
          ∀ i j, i < 256 → j < 256 → child_index_.getD i 0 ≠ CArtNode.EMPTY_MARKER →
            child_index_.getD i 0 < 48 ∧
            (∃ ch, child_.getD (child_index_.getD i 0) Ptr.nullptr = Ptr.to ch) ∧
            (child_index_.getD i 0 = child_index_.getD j 0 → i = j)) := by
  obtain ⟨⟨root, hroot, htree, _⟩, _⟩ := AddEntries_spec e (fun c => c < 256) (fun c hc => hc)
    (CAdaptiveRadixTree.new n).2 (length_new n) es hd hlt hbytes htot
  have hroot' : (AddEntries e (CAdaptiveRadixTree.new n) es).1.root_ = Ptr.to root := hroot
  have hall := AddEntries_all e (Counted e) (NodeInv_Counted e) (Counted_new256 e) n es
    hd hlt hbytes htot root hroot'
  refine ⟨root, by unfold rootNode; rw [hroot'], ?_⟩
  intro m hm
  have hok : NodeOK e m := by
    cases TreeOK_InTree e _ _ root m hm htree with
    | mk _ hn _ _ _ _ _ => exact hn
  exact Counted_facts e m hok (TreeAll_InTree e _ root m hm hall)

/-- C26. The loop of `AddEntry` is at a slot that holds the node `n` of a well-formed
subtree, at the offset `depth` of the key, and the stored prefix of `n`, of length `p`,
agrees with the rest of the key on exactly `m = mismatchAt .. < p` bytes. Afterwards the
slot holds a `CArtNode4` whose prefix is the `m` common bytes (at the arena position of the
prefix of `n` when `m > 0`). The old node `splitChild n m` has kept its array `child_`, its
children, its variant, `end_of_string_`, `value_` and `children_count_`, and its prefix is
the `p - m - 1` bytes after offset `m`. When the key has bytes left, the new node is not an
end of string and has exactly two children, under different bytes: the old node under the
prefix byte at offset `m`, and under the key byte at offset `m` a new `CArtNode4` leaf
without children that is an end of string with the chain head `v` and whose prefix is the
rest of the key. When the key ends at the split point, the new node has the old node as its
one child and is itself an end of string with the chain head `v`. -/
theorem AddEntryLoop_prefix_split (e : Bool) (key : List Nat) (v fuel depth : Nat) (n : CArtNode)
    (t : CAdaptiveRadixTree) (I : List Nat)
    (hOK : TreeOK e (fun c => c < 256) t.suffix_table_ n) (hkey : ∀ c, c ∈ key → c < 256)
    (hd : depth ≤ key.length) (hf : key.length ≤ depth + fuel)
    (hS : t.suffix_table_.length + (key.length - depth) < 4294967296)
    (hm : mismatchAt key t.suffix_table_ depth n < n.base.prefix_length_) :
    (key.drop depth).take (mismatchAt key t.suffix_table_ depth n) =
      (n.pfx t.suffix_table_).take (mismatchAt key t.suffix_table_ depth n) ∧
    (AddEntryLoop e key v (fuel + 1) depth n t I).1.node_type_ = NodeType.Fanout4 ∧
    (AddEntryLoop e key v (fuel + 1) depth n t I).1.base.prefix_length_ =
      mismatchAt key t.suffix_table_ depth n ∧
    (mismatchAt key t.suffix_table_ depth n ≠ 0 →
      (AddEntryLoop e key v (fuel + 1) depth n t I).1.base.prefix_position_ =
        n.base.prefix_position_) ∧
    (AddEntryLoop e key v (fuel + 1) depth n t I).1.pfx
        (AddEntryLoop e key v (fuel + 1) depth n t I).2.1.suffix_table_ =
      (n.pfx t.suffix_table_).take (mismatchAt key t.suffix_table_ depth n) ∧
    ((splitChild n (mismatchAt key t.suffix_table_ depth n)).child_ = n.child_ ∧
      (splitChild n (mismatchAt key t.suffix_table_ depth n)).kids e = n.kids e ∧
      (splitChild n (mismatchAt key t.suffix_table_ depth n)).node_type_ = n.node_type_ ∧
      (splitChild n (mismatchAt key t.suffix_table_ depth n)).base.end_of_string_ =
        n.base.end_of_string_ ∧
      (splitChild n (mismatchAt key t.suffix_table_ depth n)).base.value_ = n.base.value_ ∧
      (splitChild n (mismatchAt key t.suffix_table_ depth n)).base.children_count_ =
        n.base.children_count_ ∧
      (splitChild n (mismatchAt key t.suffix_table_ depth n)).base.prefix_length_ =
        n.base.prefix_length_ - mismatchAt key t.suffix_table_ depth n - 1 ∧
      (splitChild n (mismatchAt key t.suffix_table_ depth n)).pfx
          (AddEntryLoop e key v (fuel + 1) depth n t I).2.1.suffix_table_ =
        (n.pfx t.suffix_table_).drop (mismatchAt key t.suffix_table_ depth n + 1)) ∧
    (depth + mismatchAt key t.suffix_table_ depth n < key.length →
      key.getD (depth + mismatchAt key t.suffix_table_ depth n) 0 ≠
        (n.pfx t.suffix_table_).getD (mismatchAt key t.suffix_table_ depth n) 0 ∧
      (AddEntryLoop e key v (fuel + 1) depth n t I).1.base.end_of_string_ = false ∧
      (AddEntryLoop e key v (fuel + 1) depth n t I).1.base.children_count_ = 2 ∧
      ∃ leaf, leaf.node_type_ = NodeType.Fanout4 ∧ leaf.base.end_of_string_ = true ∧
        leaf.base.value_ = v ∧ leaf.base.children_count_ = 0 ∧
        leaf.pfx (AddEntryLoop e key v (fuel + 1) depth n t I).2.1.suffix_table_ =
          key.drop (depth + mismatchAt key t.suffix_table_ depth n + 1) ∧
        ∀ c q, (c, q) ∈ (AddEntryLoop e key v (fuel + 1) depth n t I).1.kids e ↔
          (c = (n.pfx t.suffix_table_).getD (mismatchAt key t.suffix_table_ depth n) 0 ∧
            q = Ptr.to (splitChild n (mismatchAt key t.suffix_table_ depth n))) ∨
          (c = key.getD (depth + mismatchAt key t.suffix_table_ depth n) 0 ∧ q = Ptr.to leaf)) ∧
    (depth + mismatchAt key t.suffix_table_ depth n = key.length →
      (AddEntryLoop e key v (fuel + 1) depth n t I).1.base.end_of_string_ = true ∧
      (AddEntryLoop e key v (fuel + 1) depth n t I).1.base.value_ = v ∧
      (AddEntryLoop e key v (fuel + 1) depth n t I).1.base.children_count_ = 1 ∧
      ∀ c q, (c, q) ∈ (AddEntryLoop e key v (fuel + 1) depth n t I).1.kids e ↔
        c = (n.pfx t.suffix_table_).getD (mismatchAt key t.suffix_table_ depth n) 0 ∧
          q = Ptr.to (splitChild n (mismatchAt key t.suffix_table_ depth n))) := by
  have hP : ∀ c, (fun c => c < 256) c → c < 256 := fun c hc => hc
  have hOK0 := hOK
  cases hOK with
  | mk _ hnode hbound hval hpfx hbyte hkids =>
  obtain ⟨m1, m2, m3, m4⟩ := mismatchAt_spec key t.suffix_table_ depth n hd hbound
  have hpl := pfx_length t.suffix_table_ n hbound
  obtain ⟨s1, s2, s3, s4, s5, s6⟩ := split_spec e _ hP t.suffix_table_ n
    (mismatchAt key t.suffix_table_ depth n) hOK0 hm
  have hA : ¬ (depth + mismatchAt key t.suffix_table_ depth n = key.length ∧
      mismatchAt key t.suffix_table_ depth n = n.base.prefix_length_) := fun h => by omega
  have hbyte_eq := pfx_getD t.suffix_table_ n _ hm
  generalize hmm : mismatchAt key t.suffix_table_ depth n = m at *
  have hsp : splitParent n m = CArtNode.new4.setBase { CArtNodeBase.init with
      prefix_position_ := if m ≠ 0 then n.base.prefix_position_ else 0, prefix_length_ := m } :=
    splitParent_eq n m
  have hb1 := InsertInNode_base e (splitParent n m)
    (t.suffix_table_.getD (n.base.prefix_position_ + m) 0) (Ptr.to (splitChild n m))
  have ht1 := InsertInNode_type_below e (splitParent n m)
    (t.suffix_table_.getD (n.base.prefix_position_ + m) 0) (Ptr.to (splitChild n m)) 4
    (by rw [hsp]; rfl) (by rw [hsp, base_setBase]; exact (by decide : (0 : Nat) < 4))
  generalize hnode1 : (InsertInNode e (splitParent n m)
    (t.suffix_table_.getD (n.base.prefix_position_ + m) 0)
    (Ptr.to (splitChild n m))).1 = node1 at *
  rw [hsp, base_setBase] at hb1
  rw [hsp, node_type_setBase] at ht1
  rw [← hbyte_eq] at s4
  have hn1 : NodeOK e node1 := by
    cases s1 with
    | mk _ h _ _ _ _ _ => exact h
  have hbd1 : node1.base.prefix_position_ + node1.base.prefix_length_ ≤
      t.suffix_table_.length := by
    cases s1 with
    | mk _ _ h _ _ _ _ => exact h
  have hcb : (splitChild n m).base = { n.base with
      prefix_length_ := n.base.prefix_length_ - m - 1,
      prefix_position_ := n.base.prefix_position_ + m + 1 } := by
    unfold splitChild; rw [base_setBase]
  have hcp : (splitChild n m).pfx t.suffix_table_ = (n.pfx t.suffix_table_).drop (m + 1) := by
    have h5 : n.pfx t.suffix_table_ = ((n.pfx t.suffix_table_).take m ++
        [t.suffix_table_.getD (n.base.prefix_position_ + m) 0]) ++
        (splitChild n m).pfx t.suffix_table_ := by
      rw [List.append_assoc]; exact s5
    have hlen : ((n.pfx t.suffix_table_).take m ++
        [t.suffix_table_.getD (n.base.prefix_position_ + m) 0]).length = m + 1 := by
      rw [List.length_append, List.length_take, hpl, Nat.min_eq_left (by omega)]; rfl
    conv_rhs => rw [h5]
    rw [List.drop_left' hlen]
  have hcbd : (splitChild n m).base.prefix_position_ + (splitChild n m).base.prefix_length_ ≤
      t.suffix_table_.length := by
    rw [hcb]; simp only []; omega
  have hold : ∀ S', (∃ ext, S' = t.suffix_table_ ++ ext) →
      (splitChild n m).child_ = n.child_ ∧ (splitChild n m).kids e = n.kids e ∧
      (splitChild n m).node_type_ = n.node_type_ ∧
      (splitChild n m).base.end_of_string_ = n.base.end_of_string_ ∧
      (splitChild n m).base.value_ = n.base.value_ ∧
      (splitChild n m).base.children_count_ = n.base.children_count_ ∧
      (splitChild n m).base.prefix_length_ = n.base.prefix_length_ - m - 1 ∧
      (splitChild n m).pfx S' = (n.pfx t.suffix_table_).drop (m + 1) := by
    rintro S' ⟨ext, rfl⟩
    refine ⟨child_setBase _ _, (NodeOK_setBase e n { n.base with
        prefix_length_ := n.base.prefix_length_ - m - 1,
        prefix_position_ := n.base.prefix_position_ + m + 1 } rfl).2.2.2.1, node_type_setBase _ _,
      by rw [hcb], by rw [hcb], by rw [hcb], by rw [hcb], ?_⟩
    rw [pfx_append _ _ _ hcbd, hcp]
  by_cases hC : depth + m < key.length
  · have hxy := m4 hm hC
    have hnew : ∀ s, (key.getD (depth + m) 0, s) ∉ node1.slots e := by
      intro s hs
      obtain ⟨_, ch, hch⟩ := slots_node e node1 hn1 _ s hs
      have := (s4 _ _).1 ((mem_kids e node1 _ _).2 ⟨s, hs, hch⟩)
      exact hxy this.1
    have hy : key.getD (depth + m) 0 < 256 := hkey _ (getD_mem_of_lt _ _ hC)
    have hres : AddEntryLoop e key v (fuel + 1) depth n t I = _ :=
      (AddEntryLoop_split_more e key v fuel depth n t I (by rw [hmm]; exact hA)
        (by rw [hmm]; exact hm) (by rw [hmm]; exact hC) hS)
    rw [hmm, hnode1, attachLeaf_eq e key v fuel (depth + m + 1) node1 _ t I hn1 hy hnew
      (by omega) (by omega)] at hres
    rw [hres]
    obtain ⟨hi1, hi2, hi3, hi4, hi5⟩ := InsertInNode_spec e node1 (key.getD (depth + m) 0)
      (newLeaf key t.suffix_table_ (depth + m + 1)) hn1 hy hnew
    have ht2 := InsertInNode_type_below e node1 (key.getD (depth + m) 0)
      (Ptr.to (newLeaf key t.suffix_table_ (depth + m + 1))) 4
      (by cases node1 <;> first | rfl | cases ht1) (by rw [hb1]; exact (by decide : (1 : Nat) < 4))
    have hk := kids_setChild e _ (key.getD (depth + m) 0) _
      ((newLeaf key t.suffix_table_ (depth + m + 1)).setBase
        { (newLeaf key t.suffix_table_ (depth + m + 1)).base with
          end_of_string_ := true, value_ := v }) hi1 hi2
    generalize InsertInNode e node1 (key.getD (depth + m) 0)
      (Ptr.to (newLeaf key t.suffix_table_ (depth + m + 1))) = r2 at *
    obtain ⟨hl1, hl2, hl3⟩ := newLeaf_spec e (fun c => c < 256) key t.suffix_table_
      (depth + m + 1) hkey
    refine ⟨m3, ?_, ?_, ?_, ?_, hold _ ⟨_, rfl⟩, fun _ => ⟨hxy, ?_, ?_,
        (newLeaf key t.suffix_table_ (depth + m + 1)).setBase
          { (newLeaf key t.suffix_table_ (depth + m + 1)).base with
            end_of_string_ := true, value_ := v }, ?_, ?_, ?_, ?_, ?_, ?_⟩,
      fun h => absurd h (by omega)⟩
    · rw [node_type_setChild, ht2, ht1]; rfl
    · rw [base_setChild, hi5, hb1]
    · intro hm0
      rw [base_setChild, hi5, hb1]
      simp only [ne_eq, hm0, not_false_eq_true, if_true]
    · show CArtNode.pfx (t.suffix_table_ ++ _) _ = _
      rw [← s2, ← pfx_append t.suffix_table_ (key.drop (depth + m + 1)) node1 hbd1]
      exact pfx_congr _ _ _ (by rw [base_setChild, hi5]) (by rw [base_setChild, hi5])
    · rw [base_setChild, hi5]; exact s3
    · rw [base_setChild, hi5, hb1]; rfl
    · rfl
    · rfl
    · rfl
    · rfl
    · show CArtNode.pfx (t.suffix_table_ ++ _) _ = _
      refine Eq.trans ?_ hl2
      exact pfx_congr _ _ _ rfl rfl
    · intro c q
      rw [hk, hi4, s4]
      constructor
      · rintro (h | ⟨hne, (⟨h, _⟩ | h)⟩)
        · exact Or.inr h
        · exact absurd h hne
        · exact Or.inl h
      · rintro (h | h)
        · exact Or.inr ⟨fun hc => hxy (hc.symm.trans h.1), Or.inr h⟩
        · exact Or.inl h
  · have hres : AddEntryLoop e key v (fuel + 1) depth n t I = _ :=
      (AddEntryLoop_split_end e key v fuel depth n t I (by rw [hmm]; exact hA)
        (by rw [hmm]; exact hm) (by rw [hmm]; exact hC))
    rw [hmm, hnode1] at hres
    obtain ⟨u, i1, _⟩ := InsertValue_spec e _ t I node1 v s1
    rw [i1] at hres
    rw [hres]
    refine ⟨m3, ?_, ?_, ?_, ?_, hold _ ⟨[], (List.append_nil _).symm⟩,
      fun h => absurd h hC, fun _ => ⟨?_, ?_, ?_, ?_⟩⟩
    · rw [node_type_setBase, ht1]; rfl
    · rw [base_setBase, hb1]
    · intro hm0
      rw [base_setBase, hb1]
      simp only [ne_eq, hm0, not_false_eq_true, if_true]
    · show CArtNode.pfx t.suffix_table_ _ = _
      rw [← s2]
      exact pfx_congr _ _ _ (by rw [base_setBase]) (by rw [base_setBase])
    · rw [base_setBase]
    · rw [base_setBase]
    · rw [base_setBase, hb1]; rfl
    · intro c q
      rw [(NodeOK_setBase e node1 { node1.base with end_of_string_ := true, value_ := v }
        rfl).2.2.2.1, s4]

/-- C27. `InsertInNode` increments `children_count_` and leaves the other header fields
(`prefix_length_`, `prefix_position_`, `end_of_string_`, `value_`) as they are, in every
case. A node whose `children_count_` is below the capacity of its variant keeps the variant;
a `CArtNode4` with 4 children, a `CArtNode16` with 16 and a `CArtNode48` with 48 is replaced
by a `CArtNode16`, a `CArtNode48` and a `CArtNode256`; a `CArtNode256` stays a
`CArtNode256`. -/
theorem InsertInNode_fanout_machine (e : Bool) (n : CArtNode) (c : Nat) (p : Ptr CArtNode) :
    (InsertInNode e n c p).1.base =
      { n.base with children_count_ := n.base.children_count_ + 1 } ∧
    (∀ cap, n.capacity = some cap → n.base.children_count_ < cap →
      (InsertInNode e n c p).1.node_type_ = n.node_type_) ∧
    (n.capacity = some n.base.children_count_ →
      (InsertInNode e n c p).1.node_type_ = n.node_type_.next) ∧
    (n.node_type_ = NodeType.Fanout256 →
      (InsertInNode e n c p).1.node_type_ = NodeType.Fanout256) := by
  refine ⟨InsertInNode_base e n c p, fun cap hcap h => InsertInNode_type_below e n c p cap hcap h,
    InsertInNode_type_full e n c p, ?_⟩
  intro h
  cases n with
  | Fanout256 b ch => rfl
  | Fanout4 b k ch => cases h
  | Fanout16 b k ch => cases h
  | Fanout48 b k ch => cases h

/-- C28. For bytes `x`, `y` the signed comparison of `x ^ 0x80` with `y ^ 0x80` is the
unsigned comparison of `x` with `y`, and `FlipSign` is an involution. For a `CArtNode16`
with fewer than 16 children whose bytes `key_[0 .. children_count_)` are strictly ascending,
and a byte `c` that is not among them, the SIMD path of `InsertInNode` (on the flipped keys)
inserts at the same index as the scalar loop of the other path (on the keys as they are),
the two results hold the same children in the same cells and the same keys up to
`FlipSign`, and the SIMD path of `FindChild` returns the slot that the scalar scan
returns, for every byte. -/
theorem Fanout16_simd_agrees_with_scalar (b : CArtNodeBase) (k : List Nat)
    (ch : List (Ptr CArtNode)) (c : Nat) (p : Ptr CArtNode)
    (hl : k.length = 16) (hcnt : b.children_count_ < 16) (hc : c < 256)
    (hb : ∀ i, i < b.children_count_ → k.getD i 0 < 256)
    (hsorted : ∀ j, j < b.children_count_ → ∀ i, i < j → k.getD i 0 < k.getD j 0)
    (hnew : ∀ i, i < b.children_count_ → k.getD i 0 ≠ c) :
    (∀ x y, x < 256 → y < 256 → (toInt8 (FlipSign x) < toInt8 (FlipSign y) ↔ x < y)) ∧
    (∀ x, FlipSign (FlipSign x) = x) ∧
    (InsertInNode16 true b (k.map FlipSign) ch c p).2 = (InsertInNode16 false b k ch c p).2 ∧
    (InsertInNode16 false b k ch c p).2 = insertPosLoop k b.children_count_ c ∧
    (∃ b' k' ch', (InsertInNode16 false b k ch c p).1 = CArtNode.Fanout16 b' k' ch' ∧
      (InsertInNode16 true b (k.map FlipSign) ch c p).1 =
        CArtNode.Fanout16 b' (k'.map FlipSign) ch') ∧
    (∀ y, FindChild true (CArtNode.Fanout16 b (k.map FlipSign) ch) y =
      FindChild false (CArtNode.Fanout16 b k ch) y) := by
  have hpos := simdPos_eq_scalar k b.children_count_ c hl (by omega) hc hb
    (fun i j hij hj => hsorted j hj i hij) hnew
  have e1 : InsertInNode16 true b (k.map FlipSign) ch c p =
      (CArtNode.Fanout16 { b with children_count_ := b.children_count_ + 1 }
        (((memmove k (insertPosLoop k b.children_count_ c + 1)
            (insertPosLoop k b.children_count_ c)
            (b.children_count_ - insertPosLoop k b.children_count_ c)).set
            (insertPosLoop k b.children_count_ c) c).map FlipSign)
        ((memmove ch (insertPosLoop k b.children_count_ c + 1)
            (insertPosLoop k b.children_count_ c)
            (b.children_count_ - insertPosLoop k b.children_count_ c)).set
            (insertPosLoop k b.children_count_ c) p), insertPosLoop k b.children_count_ c) := by
    unfold InsertInNode16
    rw [if_pos hcnt]
    simp only [if_true]
    rw [hpos, memmove_map, set_map]
  have e2 : InsertInNode16 false b k ch c p =
      (CArtNode.Fanout16 { b with children_count_ := b.children_count_ + 1 }
        ((memmove k (insertPosLoop k b.children_count_ c + 1)
            (insertPosLoop k b.children_count_ c)
            (b.children_count_ - insertPosLoop k b.children_count_ c)).set
            (insertPosLoop k b.children_count_ c) c)
        ((memmove ch (insertPosLoop k b.children_count_ c + 1)
            (insertPosLoop k b.children_count_ c)
            (b.children_count_ - insertPosLoop k b.children_count_ c)).set
            (insertPosLoop k b.children_count_ c) p), insertPosLoop k b.children_count_ c) := by
    unfold InsertInNode16
    rw [if_pos hcnt]
    simp only [Bool.false_eq_true, if_false]
  refine ⟨toInt8_FlipSign_lt, FlipSign_FlipSign, ?_, ?_,
    ⟨_, _, _, congrArg Prod.fst e2, congrArg Prod.fst e1⟩, ?_⟩
  · rw [e1, e2]
  · rw [e2]
  · intro y
    exact findSimd_eq_scalar b k ch y hl (by omega)

/-- C29. In a well-formed tree whose suffix table and the key together have fewer than
`2^32` bytes, `AddEntry( key, key_length, v )` only appends to the suffix table: the table
afterwards is the table before followed by bytes `ext`, where `ext` is `key[j ..]` for some
`j > 0`, hence at most `key_length - 1` bytes, and `ext` is empty when the key is already
stored. The tree is well-formed afterwards. -/
theorem AddEntry_arena_append_only (e : Bool) (t : CAdaptiveRadixTree) (I : List Nat)
    (key : List Nat) (v : Nat) (hwf : TreeWF e t) (hkey : ∀ c, c ∈ key → c < 256)
    (hS : t.suffix_table_.length + key.length < 4294967296) :
    ∃ ext, (AddEntry e t I key v).1.suffix_table_ = t.suffix_table_ ++ ext ∧
      (∃ j, 0 < j ∧ ext = key.drop j) ∧ ext.length ≤ key.length - 1 ∧
      (Stores e t key → ext = []) ∧ TreeWF e (AddEntry e t I key v).1 := by
  obtain ⟨root, hroot, htree⟩ := hwf
  rw [AddEntry_eq e t I key v root hroot]
  have hspec := AddEntryLoop_spec e (fun c => c < 256) (fun c hc => hc) key v hkey
    (key.length + 1) 0 root
    { t with total_string_length_ := sizeT e (t.total_string_length_ + key.length),
             max_string_length_ := max t.max_string_length_ key.length } I htree
    (Nat.zero_le _) (by omega) (by simpa using hS)
  generalize AddEntryLoop e key v (key.length + 1) 0 root
    { t with total_string_length_ := sizeT e (t.total_string_length_ + key.length),
             max_string_length_ := max t.max_string_length_ key.length } I = r at hspec ⊢
  obtain ⟨ext, old, u, a1, a2, a3, a4, a5, ⟨j, hj1, hj2⟩, a7⟩ := hspec
  refine ⟨ext, ?_, ⟨j, hj1, hj2⟩, ?_, ?_, ⟨r.1, rfl, ?_⟩⟩
  · show r.2.1.suffix_table_ = _
    rw [a1]
  · rw [hj2, List.length_drop]; omega
  · rintro ⟨root', v', hr', hh⟩
    rw [hroot] at hr'
    injection hr' with hr'
    subst hr'
    rcases a5 with ⟨_, _, h⟩ | ⟨h, _, _⟩
    · exact h
    · exact absurd hh (by simpa using h v')
  · show TreeOK e _ r.2.1.suffix_table_ r.1
    rw [a1]
    exact a3

/-- C30. For a well-formed tree, the calls of `Traverse` have the shape `CallsShape`: each
`HandleNode( m, prefix, level )` has `level` equal to the length of `prefix` and is followed
by `HandleTuple( prefix + stored prefix of m, chain of m )` exactly when `m` is an end of
string, and every `HandleTuple` call follows such a `HandleNode` call. The `prefix` passed
with `m` is the concatenation of the stored prefixes and edge bytes on the path from the
root down to `m`, without the stored prefix of `m`. And when `TraverseRecursive` runs on a
node `m` with the buffer `key`, the buffer is `key` followed by the stored prefix of `m` on
entry to the child loop and again after every child of the loop. -/
theorem Traverse_call_arguments (e : Bool) (t : CAdaptiveRadixTree) (hwf : TreeWF e t) :
    ∃ root, rootNode t = some root ∧
      CallsShape t.suffix_table_ (Traverse e t) ∧
      (∀ m pre lvl, Call.HandleNode m pre lvl ∈ Traverse e t →
        lvl = pre.length ∧ PathBefore e t.suffix_table_ root m pre) ∧
      (∀ k b en, Call.HandleTuple k b en ∈ Traverse e t →
        ∃ m pre, Call.HandleNode m pre pre.length ∈ Traverse e t ∧
          m.base.end_of_string_ = true ∧ k = pre ++ m.pfx t.suffix_table_ ∧
          b = ⟨m.base.value_⟩ ∧ en = ⟨LAST_INDEX_IDENTIFIER⟩) ∧
      (∀ m key, PathBefore e t.suffix_table_ root m key → ∀ calls l1 l2,
        m.tslots e = l1 ++ l2 →
        TraverseRecursive e t.suffix_table_ m key.length (calls, key) =
          (m.tslots e).foldl
            (travStep (TraverseChildren e t.suffix_table_ m.child_) (travLevel m key.length))
            (travHead t.suffix_table_ m key.length (calls, key)) ∧
        (travHead t.suffix_table_ m key.length (calls, key)).2 = key ++ m.pfx t.suffix_table_ ∧
        (l1.foldl
          (travStep (TraverseChildren e t.suffix_table_ m.child_) (travLevel m key.length))
          (travHead t.suffix_table_ m key.length (calls, key))).2 =
          key ++ m.pfx t.suffix_table_) := by
  obtain ⟨root, hroot, htree⟩ := hwf
  obtain ⟨evs, h1, h2, h3⟩ := Traverse_calls e _ t.suffix_table_ root htree [] []
  have hT : Traverse e t = evs := by
    unfold Traverse
    rw [hroot]
    show (TraverseRecursive e t.suffix_table_ root ([] : List Nat).length ([], [])).1 = evs
    rw [h1]
    rfl
  rw [hT]
  refine ⟨root, by unfold rootNode; rw [hroot], ⟨h2⟩, ?_, ?_, ?_⟩
  · intro m pre lvl hm
    obtain ⟨k, hk1, hk2⟩ := h3 m pre lvl hm
    rw [List.nil_append] at hk2
    subst hk2
    exact ⟨CallsShapeAux_node _ evs none h2 m pre lvl hm, hk1⟩
  · intro k b en hm
    rcases CallsShapeAux_tuple _ evs none h2 k b en hm with ⟨p, hp, _⟩ | h
    · cases hp
    · exact h
  · intro m key hp calls l1 l2 hl
    have hm : TreeOK e _ t.suffix_table_ m :=
      TreeOK_InTree e _ _ root m (InTree_of_PathBefore e _ root m key hp) htree
    have hm0 := hm
    cases hm with
    | mk _ hnode hbound _ _ _ _ =>
      obtain ⟨hhead, _⟩ := travHead_eq t.suffix_table_ m calls key hbound
      refine ⟨TraverseRecursive_eq e _ m _ _ hnode, by rw [hhead], ?_⟩
      rw [hhead]
      refine travLoop_buffer e _ t.suffix_table_ m hm0 key l1 ?_ _
      intro p hp'
      exact (mem_tslots e m p).1 (by rw [hl]; exact List.mem_append_left _ hp')

/-! ## A repeated row id, and the donor after `Join` -/

/-- C31. Row ids have to be distinct for a chain to end. In a well-formed tree, two successive
calls `AddEntry( key, key_length, v )` with the same key and the same row id `v` (a cell of
the row-id vector, different from `LAST_INDEX_IDENTIFIER`) are both carried out, no check
rejects the second. Afterwards the terminal node of the key has the head `v`, the cell `v` of
the row-id vector holds `v` itself, no number of increments of the chain iterator from that
head reaches `LAST_INDEX_IDENTIFIER`, and a consumer that iterates the chain up to the end
iterator does not finish, whatever its fuel. This holds for every key, in particular for a
non-empty one. -/
theorem AddEntry_repeated_row_id_self_loop (e : Bool) (t : CAdaptiveRadixTree) (I : List Nat)
    (key : List Nat) (v : Nat) (hwf : TreeWF e t) (hkey : ∀ c, c ∈ key → c < 256)
    (hS : t.suffix_table_.length + 2 * key.length < 4294967296)
    (hv : v < I.length) (hlast : v ≠ LAST_INDEX_IDENTIFIER) :
    terminalOf e (AddEntries e (t, I) [(key, v), (key, v)]).1 key = some v ∧
    (AddEntries e (t, I) [(key, v), (key, v)]).2.getD v 0 = v ∧
    (∀ n, (CIndexIterator.next (AddEntries e (t, I) [(key, v), (key, v)]).2)^[n] ⟨v⟩ ≠
      ⟨LAST_INDEX_IDENTIFIER⟩) ∧
    (∀ fuel, chainFrom (AddEntries e (t, I) [(key, v), (key, v)]).2 fuel v = none) := by
  show terminalOf e (AddEntry e (AddEntry e t I key v).1 (AddEntry e t I key v).2 key v).1 key
      = some v ∧
    (AddEntry e (AddEntry e t I key v).1 (AddEntry e t I key v).2 key v).2.getD v 0 = v ∧
    (∀ n, (CIndexIterator.next
        (AddEntry e (AddEntry e t I key v).1 (AddEntry e t I key v).2 key v).2)^[n] ⟨v⟩ ≠
      ⟨LAST_INDEX_IDENTIFIER⟩) ∧
    (∀ fuel, chainFrom (AddEntry e (AddEntry e t I key v).1 (AddEntry e t I key v).2 key v).2
      fuel v = none)
  obtain ⟨root1, old1, hr1, ht1, hh1, hI1, hS1, _⟩ :=
    AddEntry_head e t I key v hwf hkey (by omega)
  generalize AddEntry e t I key v = s1 at hr1 ht1 hh1 hI1 hS1 ⊢
  obtain ⟨root2, old2, hr2, ht2, hh2, hI2, _, hold⟩ :=
    AddEntry_head e s1.1 s1.2 key v ⟨root1, hr1, ht1⟩ hkey (by omega)
  have hold2 : old2 = v := hold root1 v hr1 hh1
  rw [hold2] at hI2
  generalize AddEntry e s1.1 s1.2 key v = s2 at hr2 ht2 hh2 hI2 ⊢
  have hcell : s2.2.getD v 0 = v := by
    rw [hI2, hI1, List.getD_eq_getElem _ _ (by simpa using hv)]
    simp
  refine ⟨?_, hcell, ?_, chainFrom_self_loop _ _ hcell hlast⟩
  · unfold terminalOf
    rw [hr2]
    exact findTerminal_of_Holds e (fun c => c < 256) (fun c hc => hc) _ _ ht2 key v _ hh2
      (Nat.lt_succ_self _)
  · intro n
    rw [next_self_loop _ _ hcell n]
    intro hc
    injection hc with hc
    exact hlast hc

/-- C32. When `A.Join( B )` returns for two trees whose roots are `CArtNode256` nodes with an
empty prefix, the donor `B` afterwards is `B` before with a null root: its null head, its
counters, its lengths and its suffix table are as before. `B.Traverse` and
`B.TraverseIndexes` then call no visitor method, and `B.AddEntry( key, key_length, id )`
changes `total_string_length_` and `max_string_length_` only: the root stays null, the
key is not stored, the suffix table and the row-id vector are untouched, and the traversals
still make no call. For two trees built by calls on one row-id vector (as in C9) `Join`
returns with enough fuel and leaves the donor so. -/
theorem Join_leaves_donor_null_root (e : Bool) :
    (∀ fuel this other I r, RootOK this → RootOK other → Join e fuel this other I = some r →
      r.2.1 = { other with root_ := Ptr.nullptr } ∧
      Traverse e r.2.1 = [] ∧ TraverseIndexes e r.2.1 = [] ∧
      ∀ J key id,
        AddEntry e r.2.1 J key id =
          ({ r.2.1 with
              total_string_length_ := sizeT e (r.2.1.total_string_length_ + key.length),
              max_string_length_ := max r.2.1.max_string_length_ key.length }, J) ∧
        terminalOf e (AddEntry e r.2.1 J key id).1 key = none ∧
        Traverse e (AddEntry e r.2.1 J key id).1 = [] ∧
        TraverseIndexes e (AddEntry e r.2.1 J key id).1 = []) ∧
    (∀ n fuel opsA opsB, ((opsA ++ opsB).map Op.value).Nodup →
      (∀ x, x ∈ (opsA ++ opsB).map Op.value → x < n) → n ≤ 4294967295 →
      (∀ p, p ∈ entriesOf (opsA ++ opsB) → ∀ c, c ∈ p.1 → c < 256) →
      totalLength (entriesOf opsA) + totalLength (entriesOf opsB) < 4294967296 →
      heightPtr (buildPair e n opsA opsB).2.1.root_ + n + 1 < fuel →
      ∃ r, joinPair e fuel n opsA opsB = some r ∧
        r.2.1 = { (buildPair e n opsA opsB).2.1 with root_ := Ptr.nullptr }) := by
  have key : ∀ fuel this other I r, RootOK this → RootOK other →
      Join e fuel this other I = some r → r.2.1 = { other with root_ := Ptr.nullptr } :=
    fun fuel this other I r hA hB hj => Join_donor e fuel this other I r hA hB hj
  refine ⟨?_, ?_⟩
  · intro fuel this other I r hA hB hj
    have hd := key fuel this other I r hA hB hj
    have hnull : r.2.1.root_ = Ptr.nullptr := by rw [hd]
    refine ⟨hd, Traverse_null_root e _ hnull, TraverseIndexes_null_root e _ hnull, ?_⟩
    intro J k id
    have ha := AddEntry_null_root e r.2.1 J k id hnull
    have hnull' : (AddEntry e r.2.1 J k id).1.root_ = Ptr.nullptr := by rw [ha]; exact hnull
    exact ⟨ha, terminalOf_null_root e _ k hnull', Traverse_null_root e _ hnull',
      TraverseIndexes_null_root e _ hnull'⟩
  · intro n fuel opsA opsB hd hlt hn hbytes htot hfuel
    have hA : RootOK (buildPair e n opsA opsB).1 :=
      RootOK_run e opsA _ ⟨CArtNode.new256, rfl, rfl, rfl⟩
    have hB : RootOK (buildPair e n opsA opsB).2.1 :=
      RootOK_run e opsB _ ⟨CArtNode.new256, rfl, rfl, rfl⟩
    obtain ⟨r, hr⟩ := joinPair_returns e n fuel opsA opsB hd hlt hn hbytes htot hfuel
    exact ⟨r, hr, key fuel _ _ _ r hA hB hr⟩

/-! ## Evaluation of the code on concrete inputs -/

set_option maxRecDepth 100000

/-- C1 fails on the code. After `AddEntry` of the five keys `"a\x00"`, .., `"a\x04"` with the
row ids `0`, .., `4`, the node under `a` is a `CArtNode16`; the descent finds the terminal
node of `"a\x00"` with the chain `[0]`, but `Traverse` passes only the other four keys to
`HandleTuple`, on either environment. -/
theorem Traverse_skips_zero_byte_child :
    terminalOf true (run true (CAdaptiveRadixTree.new 5) (entriesA 0 0 5)).1 [97, 0] = some 0 ∧
    traversalOf true 6 (run true (CAdaptiveRadixTree.new 5) (entriesA 0 0 5)).1
        (run true (CAdaptiveRadixTree.new 5) (entriesA 0 0 5)).2 =
      [([97, 1], some [1]), ([97, 2], some [2]), ([97, 3], some [3]), ([97, 4], some [4])] ∧
    traversalOf false 6 (run false (CAdaptiveRadixTree.new 5) (entriesA 0 0 5)).1
        (run false (CAdaptiveRadixTree.new 5) (entriesA 0 0 5)).2 =
      [([97, 1], some [1]), ([97, 2], some [2]), ([97, 3], some [3]), ([97, 4], some [4])] := by
  decide!

/-- C10 fails on the code. `A` holds `"b"` (row id 5) and `B` holds the five keys `"a\x00"`,
.., `"a\x04"` (row ids `0`, .., `4`): the union has six keys, but after `A.Join( B )`
`GetUniqueStringCount` is `5`, because the `CArtNode16` loop of `MovePrefix` skips the child
under the byte `0`. -/
theorem Join_unique_count_misses_zero_byte_key :
    (joinPair true 7 6 [Op.AddEntry [98] 5] (entriesA 0 0 5)).map
      (fun r => GetUniqueStringCount r.1) = some 5 ∧
    (keysOf (entriesOf ([Op.AddEntry [98] 5] ++ entriesA 0 0 5))).dedup.length = 6 := by
  decide!

/-- The claim C8 fails on the code. `A` holds `("k", 0)` and `B` holds `("k", 1)`, `("k", 2)`
on one row-id vector: before the join the chain of `"k"` is `[0]` in `A` and `[2, 1]` in
`B`; after `A.Join( B )` the chain of `"k"` in `A` is `[1, 2, 0]`, not `[2, 1, 0]`. -/
theorem Join_reverses_donor_chain :
    traversalOf true 10 (buildPair true 3 [Op.AddEntry [107] 0]
        [Op.AddEntry [107] 1, Op.AddEntry [107] 2]).1
      (buildPair true 3 [Op.AddEntry [107] 0] [Op.AddEntry [107] 1, Op.AddEntry [107] 2]).2.2 =
      [([107], some [0])] ∧
    traversalOf true 10 (buildPair true 3 [Op.AddEntry [107] 0]
        [Op.AddEntry [107] 1, Op.AddEntry [107] 2]).2.1
      (buildPair true 3 [Op.AddEntry [107] 0] [Op.AddEntry [107] 1, Op.AddEntry [107] 2]).2.2 =
      [([107], some [2, 1])] ∧
    (joinPair true 10 3 [Op.AddEntry [107] 0] [Op.AddEntry [107] 1, Op.AddEntry [107] 2]).map
      (fun r => traversalOf true 10 r.1 r.2.2) = some [([107], some [1, 2, 0])] ∧
    (joinPair true 10 3 [Op.AddEntry [107] 0] [Op.AddEntry [107] 1, Op.AddEntry [107] 2]).map
      (fun r => traversalOf true 10 r.1 r.2.2) ≠ some [([107], some ([2, 1] ++ [0]))] := by
  decide!

/-- C7 fails on the code. `A` holds the 17 keys `"a\x01"`, .., `"a\x11"` (row ids `0`, ..,
`16`) and `B` holds the five keys `"a\x00"`, .., `"a\x04"` (row ids `17`, .., `21`). The
traversal of `A` after the entries of `B` have been inserted one by one reports 18 keys,
the first being `"a\x00"`; the traversal of `A` after `A.Join( B )` reports 17 keys and not
`"a\x00"`, because the `CArtNode16` loop of `MergeChildNodes` skips the child of `B` under
the byte `0`. -/
theorem Join_loses_zero_byte_key :
    (traversalOf true 23 (insertPair true 22 (entriesA 1 0 17) (entriesA 0 17 5)).1
        (insertPair true 22 (entriesA 1 0 17) (entriesA 0 17 5)).2).map Prod.fst =
      (List.range 18).map (fun i => [97, i]) ∧
    (joinPair true 23 22 (entriesA 1 0 17) (entriesA 0 17 5)).map
        (fun r => (traversalOf true 23 r.1 r.2.2).map Prod.fst) =
      some ((List.range 17).map (fun i => [97, i + 1])) := by
  decide!

/-- An instance of C9: `A` has the null row id `0`, `B` has the null row ids `2` and `3`. -/
theorem Join_null_chain_witness :
    ∃ r, joinPair true 16 5 [Op.AddNullString 0, Op.AddEntry [97] 1]
        [Op.AddNullString 2, Op.AddEntry [97, 98] 4, Op.AddNullString 3] = some r ∧
      chainFrom r.2.2 6 (GetNullStringBegin r.1).index_ = some [2, 3, 0] ∧
      [2, 3, 0].Nodup ∧ GetNullStringCount r.1 = 1 + 2 :=
  (Join_null_chain true 5 16 [Op.AddNullString 0, Op.AddEntry [97] 1]
    [Op.AddNullString 2, Op.AddEntry [97, 98] 4, Op.AddNullString 3]
    (by decide) (by decide) (by decide) (by decide) (by decide) (by decide!)).2.2

/-- An instance of C8 as amended: `A` holds `("k", 0)` and `B` holds `("k", 1)`, `("k", 2)`;
after the join the chain of `"k"` in `A` is `[1, 2, 0]`. -/
theorem Join_key_chain_witness :
    ∃ r, joinPair true 10 3 [Op.AddEntry [107] 0]
        [Op.AddEntry [107] 1, Op.AddEntry [107] 2] = some r ∧
      ∃ head, terminalOf true r.1 [107] = some head ∧
        chainFrom r.2.2 4 head = some [1, 2, 0] :=
  (Join_key_chain true 3 10 [Op.AddEntry [107] 0] [Op.AddEntry [107] 1, Op.AddEntry [107] 2]
    (by decide) (by decide) (by decide) (by decide) (by decide) (by decide!)
    [107] (by decide) (by decide) (by decide)).2.2

/-- The claim C12 fails on the code. After `AddEntry( "ab", 2, 0 )` on a fresh tree, `Reset`
installs a new root, empties the suffix table and the null chain and sets
`null_string_count_` and `unique_string_count_` to `0`, but `GetTotalStringLength` and
`GetMaxStringLength` still return `2`; after a further `AddEntry( "c", 1, 0 )` they return
`3` and `2`, where a freshly constructed tree returns `1` and `1`. -/
theorem Reset_keeps_total_and_max_length :
    GetUniqueStringCount (Reset (run true (CAdaptiveRadixTree.new 1) [Op.AddEntry [97, 98] 0]).1)
      = 0 ∧
    GetNullStringCount (Reset (run true (CAdaptiveRadixTree.new 1) [Op.AddEntry [97, 98] 0]).1)
      = 0 ∧
    (Reset (run true (CAdaptiveRadixTree.new 1) [Op.AddEntry [97, 98] 0]).1).suffix_table_
      = [] ∧
    GetTotalStringLength
      (Reset (run true (CAdaptiveRadixTree.new 1) [Op.AddEntry [97, 98] 0]).1) = 2 ∧
    GetMaxStringLength
      (Reset (run true (CAdaptiveRadixTree.new 1) [Op.AddEntry [97, 98] 0]).1) = 2 ∧
    GetTotalStringLength (run true
      (Reset (run true (CAdaptiveRadixTree.new 1) [Op.AddEntry [97, 98] 0]).1,
        (run true (CAdaptiveRadixTree.new 1) [Op.AddEntry [97, 98] 0]).2)
      [Op.AddEntry [99] 0]).1 = 3 ∧
    GetMaxStringLength (run true
      (Reset (run true (CAdaptiveRadixTree.new 1) [Op.AddEntry [97, 98] 0]).1,
        (run true (CAdaptiveRadixTree.new 1) [Op.AddEntry [97, 98] 0]).2)
      [Op.AddEntry [99] 0]).1 = 2 ∧
    GetTotalStringLength (run true (CAdaptiveRadixTree.new 1) [Op.AddEntry [99] 0]).1 = 1 ∧
    GetMaxStringLength (run true (CAdaptiveRadixTree.new 1) [Op.AddEntry [99] 0]).1 = 1 := by
  decide!

/-- The claim C15 fails on the code. After `AddEntry` of the five keys `"a\x00"`, ..,
`"a\x04"` with the row ids `0`, .., `4`, the node under `a` is a `CArtNode16` with
`children_count_ == 5` and the descent finds the terminal node of `"a\x00"`, but
`TraverseIndexes` makes four `HandleTuple` calls, for the chains that start at the row ids
`1`, .., `4`: the loop over the `CArtNode16` has skipped the child under the key byte `0`. -/
theorem TraverseIndexes_skips_zero_byte_child :
    ((rootNode (run true (CAdaptiveRadixTree.new 5) (entriesA 0 0 5)).1).bind
        (fun r => childOf true r 97)).map (fun m => (m.node_type_, m.base.children_count_)) =
      some (NodeType.Fanout16, 5) ∧
    terminalOf true (run true (CAdaptiveRadixTree.new 5) (entriesA 0 0 5)).1 [97, 0] = some 0 ∧
    (TraverseIndexes true (run true (CAdaptiveRadixTree.new 5) (entriesA 0 0 5)).1).map
        (fun c => c.1.index_) = [1, 2, 3, 4] := by
  decide!

/-- The claim C16 fails on the code. A `CArtNode4` holds one child under the byte `5`:
`FindChild` returns the slot `child_[0]` for `5`. After `InsertInNode( slot, 3, x )`, which
moves the entry of `5` up in the sorted arrays, `FindChild` returns the slot `child_[1]` for
`5`: the result for a byte other than the inserted one has changed (the child that the
returned slot holds has not). -/
theorem FindChild_slot_moves :
    FindChild true (grown true [(5, CArtNode.new4)]) 5 = some 0 ∧
    FindChild true
      (InsertInNode true (grown true [(5, CArtNode.new4)]) 3 (Ptr.to CArtNode.new16)).1 5 =
      some 1 ∧
    FindChild true
      (InsertInNode true (grown true [(5, CArtNode.new4)]) 3 (Ptr.to CArtNode.new16)).1 5 ≠
      FindChild true (grown true [(5, CArtNode.new4)]) 5 := by
  decide!

/-- An instance of C11: the earlier calls leave links in the cells `0` and `1`. -/
theorem Reset_then_calls_witness :
    traversalOf true 4
        (run true (Reset (run true (CAdaptiveRadixTree.new 3)
            [Op.AddEntry [107] 0, Op.AddEntry [107] 1, Op.AddNullString 2]).1,
          (run true (CAdaptiveRadixTree.new 3)
            [Op.AddEntry [107] 0, Op.AddEntry [107] 1, Op.AddNullString 2]).2)
          [Op.AddEntry [107] 1, Op.AddNullString 0, Op.AddEntry [107] 2]).1
        (run true (Reset (run true (CAdaptiveRadixTree.new 3)
            [Op.AddEntry [107] 0, Op.AddEntry [107] 1, Op.AddNullString 2]).1,
          (run true (CAdaptiveRadixTree.new 3)
            [Op.AddEntry [107] 0, Op.AddEntry [107] 1, Op.AddNullString 2]).2)
          [Op.AddEntry [107] 1, Op.AddNullString 0, Op.AddEntry [107] 2]).2 =
      traversalOf true 4
        (run true (CAdaptiveRadixTree.new 3)
          [Op.AddEntry [107] 1, Op.AddNullString 0, Op.AddEntry [107] 2]).1
        (run true (CAdaptiveRadixTree.new 3)
          [Op.AddEntry [107] 1, Op.AddNullString 0, Op.AddEntry [107] 2]).2 :=
  (Reset_then_calls true 3 [Op.AddEntry [107] 0, Op.AddEntry [107] 1, Op.AddNullString 2]
    [Op.AddEntry [107] 1, Op.AddNullString 0, Op.AddEntry [107] 2]
    (by decide) (by decide) (by decide) (by decide)).2.2.1

/-- An instance of C13: the fifth child of a `CArtNode4`. -/
theorem InsertInNode_grow_keeps_children_witness :
    (InsertInNode true
        (grown true [(1, CArtNode.new4), (2, CArtNode.new4), (3, CArtNode.new4),
          (4, CArtNode.new4)]) 5 (Ptr.to CArtNode.new16)).1.node_type_ = NodeType.Fanout16 ∧
    findChildNode true (InsertInNode true
        (grown true [(1, CArtNode.new4), (2, CArtNode.new4), (3, CArtNode.new4),
          (4, CArtNode.new4)]) 5 (Ptr.to CArtNode.new16)).1 5 = some (Ptr.to CArtNode.new16) :=
  ⟨(InsertInNode_grow_keeps_children true
      (grown true [(1, CArtNode.new4), (2, CArtNode.new4), (3, CArtNode.new4),
        (4, CArtNode.new4)]) 5 CArtNode.new16
      (NodeOK_grown true _ (by decide) (by decide)) (by decide!) (by decide) (by decide!)).1,
   (InsertInNode_grow_keeps_children true
      (grown true [(1, CArtNode.new4), (2, CArtNode.new4), (3, CArtNode.new4),
        (4, CArtNode.new4)]) 5 CArtNode.new16
      (NodeOK_grown true _ (by decide) (by decide)) (by decide!) (by decide) (by decide!)).2.2.2⟩

/-- Scenario S4 as an instance of C14: after `"a"`, .., `"e"` the root is a `CArtNode256`
whose child loop runs over the bytes `a`, .., `e` in this order. -/
theorem child_iteration_ascending_witness :
    (∃ root, rootNode (AddEntries true (CAdaptiveRadixTree.new 5)
        [([97], 0), ([98], 1), ([99], 2), ([100], 3), ([101], 4)]).1 = some root ∧
      (root.tslots true).Pairwise (fun p q => p.1 < q.1)) ∧
    (rootNode (AddEntries true (CAdaptiveRadixTree.new 5)
        [([97], 0), ([98], 1), ([99], 2), ([100], 3), ([101], 4)]).1).map
      (fun r => (r.node_type_, (r.tslots true).map Prod.fst)) =
      some (NodeType.Fanout256, [97, 98, 99, 100, 101]) :=
  ⟨(child_iteration_ascending true 5 [([97], 0), ([98], 1), ([99], 2), ([100], 3), ([101], 4)]
      (by decide) (by decide) (by decide) (by decide)).imp
      (fun root h => ⟨h.1, (h.2 root (InTree.root root)).2.1⟩),
   by decide!⟩

/-- An instance of C16 as amended: a second child for a `CArtNode4`. -/
theorem FindChild_after_InsertInNode_witness :
    FindChild true (InsertInNode true (grown true [(5, CArtNode.new4)]) 3
        (Ptr.to CArtNode.new16)).1 3 =
      some (InsertInNode true (grown true [(5, CArtNode.new4)]) 3 (Ptr.to CArtNode.new16)).2 ∧
    findChildNode true (InsertInNode true (grown true [(5, CArtNode.new4)]) 3
        (Ptr.to CArtNode.new16)).1 5 =
      findChildNode true (grown true [(5, CArtNode.new4)]) 5 :=
  ⟨(FindChild_after_InsertInNode true (grown true [(5, CArtNode.new4)]) 3 CArtNode.new16
      (NodeOK_grown true _ (by decide) (by decide)) (by decide!) (by decide)
      ((findChildNode_none true _ (NodeOK_grown true _ (by decide) (by decide)) 3
        (by decide)).1 (by decide!))).2.2.2.1,
   (FindChild_after_InsertInNode true (grown true [(5, CArtNode.new4)]) 3 CArtNode.new16
      (NodeOK_grown true _ (by decide) (by decide)) (by decide!) (by decide)
      ((findChildNode_none true _ (NodeOK_grown true _ (by decide) (by decide)) 3
        (by decide)).1 (by decide!))).2.2.2.2.2 5 (by decide) (by decide)⟩

/-- An instance of C17: the third of three `AddNullString` calls. -/
theorem AddNullString_spec_witness :
    CIndexIterator.collect
        (AddNullString (run true (CAdaptiveRadixTree.new 3)
            [Op.AddNullString 0, Op.AddNullString 1]).1
          (run true (CAdaptiveRadixTree.new 3) [Op.AddNullString 0, Op.AddNullString 1]).2 2).2
        4
        (GetNullStringBegin (AddNullString (run true (CAdaptiveRadixTree.new 3)
            [Op.AddNullString 0, Op.AddNullString 1]).1
          (run true (CAdaptiveRadixTree.new 3) [Op.AddNullString 0, Op.AddNullString 1]).2 2).1)
        (GetNullStringEnd (AddNullString (run true (CAdaptiveRadixTree.new 3)
            [Op.AddNullString 0, Op.AddNullString 1]).1
          (run true (CAdaptiveRadixTree.new 3) [Op.AddNullString 0, Op.AddNullString 1]).2 2).1) =
      some [2, 1, 0] ∧
    GetNullStringCount (AddNullString (run true (CAdaptiveRadixTree.new 3)
        [Op.AddNullString 0, Op.AddNullString 1]).1
      (run true (CAdaptiveRadixTree.new 3) [Op.AddNullString 0, Op.AddNullString 1]).2 2).1 = 3 :=
  (AddNullString_spec true 3 [Op.AddNullString 0, Op.AddNullString 1] 2
    (by decide) (by decide)).2.2.2.2.2

/-- An instance of C18: a tree with one key on the only vector of the store. -/
theorem Split_spec_witness :
    (Split { members := (run true (CAdaptiveRadixTree.new 2) [Op.AddEntry [107] 0]).1,
             indexes_ := 0 }).2.indexes_ = 0 ∧
    GetIndexVectorLength ((Split
        { members := (run true (CAdaptiveRadixTree.new 2) [Op.AddEntry [107] 0]).1,
          indexes_ := 0 }).2.indexes
        [(run true (CAdaptiveRadixTree.new 2) [Op.AddEntry [107] 0]).2]) =
      GetIndexVectorLength (TreeObject.indexes
        [(run true (CAdaptiveRadixTree.new 2) [Op.AddEntry [107] 0]).2]
        { members := (run true (CAdaptiveRadixTree.new 2) [Op.AddEntry [107] 0]).1,
          indexes_ := 0 }) :=
  ⟨(Split_spec true [(run true (CAdaptiveRadixTree.new 2) [Op.AddEntry [107] 0]).2]
      { members := (run true (CAdaptiveRadixTree.new 2) [Op.AddEntry [107] 0]).1,
        indexes_ := 0 } (by decide)).2.2.2.2.2.2.2.2.2.2.2.2.2.2.2.1,
   (Split_spec true [(run true (CAdaptiveRadixTree.new 2) [Op.AddEntry [107] 0]).2]
      { members := (run true (CAdaptiveRadixTree.new 2) [Op.AddEntry [107] 0]).1,
        indexes_ := 0 } (by decide)).2.2.2.2.2.2.2.2.2.2.2.2.2.2.2.2.1⟩

/-- C21 fails on the code. For the index vector `[ 2 | 4 | x | 1 | x ]` of the comment on
`CIndexIterator`, which states `2 => 2, 4`, the iteration from the start `2` up to the
`LAST_INDEX_IDENTIFIER` end iterator reads `2` and stops, because `operator++` replaces the
index by the cell `2`, which holds `LAST_INDEX_IDENTIFIER`: the code does not yield `2, 4`. -/
theorem CIndexIterator_start_2_yields_2 :
    CIndexIterator.collect docVector 5 ⟨2⟩ ⟨LAST_INDEX_IDENTIFIER⟩ = some [2] ∧
    CIndexIterator.collect docVector 5 ⟨2⟩ ⟨LAST_INDEX_IDENTIFIER⟩ ≠ some [2, 4] := by
  decide

/-- The start `0` of the comment on `CIndexIterator`: the iteration yields `0, 2`. -/
theorem CIndexIterator_follows_vector_witness :
    CIndexIterator.collect docVector 3 ⟨0⟩ ⟨LAST_INDEX_IDENTIFIER⟩ =
      (CIndexIterator.collect docVector 2
        (CIndexIterator.next docVector ⟨0⟩) ⟨LAST_INDEX_IDENTIFIER⟩).map
        (fun rest => CIndexIterator.deref ⟨0⟩ :: rest) ∧
    CIndexIterator.collect docVector 3 ⟨0⟩ ⟨LAST_INDEX_IDENTIFIER⟩ = some [0, 2] :=
  ⟨(CIndexIterator_follows_vector docVector ⟨0⟩ ⟨LAST_INDEX_IDENTIFIER⟩ 2 (by decide)).2.2.1,
   (CIndexIterator_follows_vector docVector ⟨0⟩ ⟨LAST_INDEX_IDENTIFIER⟩ 0 (by decide)).2.2.2.2⟩

/-- An instance of C22: the root after an `AddEntry` on a new tree. -/
theorem root_stays_Fanout256_witness :
    RootOK (AddEntry true CAdaptiveRadixTree.newShared [0] [97] 0).1 ∧
    (rootNode (AddEntry true CAdaptiveRadixTree.newShared [0] [97] 0).1).map
      (fun r => (r.node_type_, r.base.prefix_length_)) = some (NodeType.Fanout256, 0) :=
  ⟨(root_stays_Fanout256 true).2.2.2.1 _ _ _ _ (root_stays_Fanout256 true).2.1, by decide!⟩

/-- Scenario S3 with a second key as an instance of C23. -/
theorem terminal_node_chain_witness :
    ∃ root, rootNode (AddEntries true (CAdaptiveRadixTree.new 4)
        [([107], 0), ([107], 1), ([107, 97], 2), ([107], 3)]).1 = some root ∧
      ∀ m k, PathBefore true (AddEntries true (CAdaptiveRadixTree.new 4)
          [([107], 0), ([107], 1), ([107, 97], 2), ([107], 3)]).1.suffix_table_ root m k →
        m.base.end_of_string_ = true → m.base.value_ ≠ LAST_INDEX_IDENTIFIER := by
  obtain ⟨root, h1, _, h2⟩ := terminal_node_chain true 4
    [([107], 0), ([107], 1), ([107, 97], 2), ([107], 3)]
    (by decide) (by decide) (by decide) (by decide)
  exact ⟨root, h1, fun m k hp he => (h2 m k hp he).1⟩

/-- Scenario S4 as an instance of C24. -/
theorem node_invariants_witness :
    ∃ root, rootNode (AddEntries true (CAdaptiveRadixTree.new 5)
        [([97], 0), ([98], 1), ([99], 2), ([100], 3), ([101], 4)]).1 = some root ∧
      ∀ m, InTree true root m →
        m.liveSlots = m.base.children_count_ ∧ m.base.children_count_ ≤ 256 := by
  obtain ⟨root, h1, h2⟩ := node_invariants true 5
    [([97], 0), ([98], 1), ([99], 2), ([100], 3), ([101], 4)]
    (by decide) (by decide) (by decide) (by decide)
  exact ⟨root, h1, fun m hm => ⟨(h2 m hm).2.2.2.1, (h2 m hm).2.2.2.2.2.1⟩⟩

/-- An instance of C27: the fifth child of a `CArtNode4`. -/
theorem InsertInNode_fanout_machine_witness :
    (InsertInNode true
        (grown true [(1, CArtNode.new4), (2, CArtNode.new4), (3, CArtNode.new4),
          (4, CArtNode.new4)]) 5 (Ptr.to CArtNode.new4)).1.node_type_ =
      (grown true [(1, CArtNode.new4), (2, CArtNode.new4), (3, CArtNode.new4),
          (4, CArtNode.new4)]).node_type_.next ∧
    (InsertInNode true
        (grown true [(1, CArtNode.new4), (2, CArtNode.new4), (3, CArtNode.new4),
          (4, CArtNode.new4)]) 5 (Ptr.to CArtNode.new4)).1.node_type_ = NodeType.Fanout16 :=
  ⟨(InsertInNode_fanout_machine true
      (grown true [(1, CArtNode.new4), (2, CArtNode.new4), (3, CArtNode.new4),
        (4, CArtNode.new4)]) 5 (Ptr.to CArtNode.new4)).2.2.1 (by decide!), by decide!⟩

/-- An instance of C28: the byte `2` goes between the bytes `1` and `3`. -/
theorem Fanout16_simd_agrees_with_scalar_witness :
    (InsertInNode16 true { CArtNodeBase.init with children_count_ := 2 }
        ((1 :: 3 :: List.replicate 14 0).map FlipSign) (List.replicate 16 Ptr.nullptr) 2
        Ptr.nullptr).2 =
      (InsertInNode16 false { CArtNodeBase.init with children_count_ := 2 }
        (1 :: 3 :: List.replicate 14 0) (List.replicate 16 Ptr.nullptr) 2 Ptr.nullptr).2 ∧
    (InsertInNode16 false { CArtNodeBase.init with children_count_ := 2 }
        (1 :: 3 :: List.replicate 14 0) (List.replicate 16 Ptr.nullptr) 2 Ptr.nullptr).2 = 1 :=
  ⟨(Fanout16_simd_agrees_with_scalar { CArtNodeBase.init with children_count_ := 2 }
      (1 :: 3 :: List.replicate 14 0) (List.replicate 16 Ptr.nullptr) 2 Ptr.nullptr
      (by decide) (by decide) (by decide) (by decide) (by decide) (by decide)).2.2.1,
   by decide⟩

/-- An instance of C29: `"kb"` after `"ka"` appends no byte, since the rest of the key
behind the new edge byte is empty; `"kbc"` appends `"c"`. -/
theorem AddEntry_arena_append_only_witness :
    (∃ ext, (AddEntry true (AddEntries true (CAdaptiveRadixTree.new 2) [([107, 97], 0)]).1
          (AddEntries true (CAdaptiveRadixTree.new 2) [([107, 97], 0)]).2
          [107, 98, 99] 1).1.suffix_table_ =
        (AddEntries true (CAdaptiveRadixTree.new 2) [([107, 97], 0)]).1.suffix_table_ ++ ext ∧
      ext.length ≤ [107, 98, 99].length - 1) ∧
    (AddEntry true (AddEntries true (CAdaptiveRadixTree.new 2) [([107, 97], 0)]).1
        (AddEntries true (CAdaptiveRadixTree.new 2) [([107, 97], 0)]).2
        [107, 98, 99] 1).1.suffix_table_ = [97, 99] := by
  obtain ⟨ext, h1, _, h2, _⟩ := AddEntry_arena_append_only true
    (AddEntries true (CAdaptiveRadixTree.new 2) [([107, 97], 0)]).1
    (AddEntries true (CAdaptiveRadixTree.new 2) [([107, 97], 0)]).2 [107, 98, 99] 1
    (TreeWF_AddEntries true 2 [([107, 97], 0)] (by decide) (by decide) (by decide)
      (by decide)).1 (by decide) (by decide!)
  exact ⟨⟨ext, h1, h2⟩, by decide!⟩

/-- Scenario S1 as an instance of C30. -/
theorem Traverse_call_arguments_witness :
    CallsShape (AddEntries true (CAdaptiveRadixTree.new 3)
        [([97], 0), ([97, 98], 1), ([97, 98, 99], 2)]).1.suffix_table_
      (Traverse true (AddEntries true (CAdaptiveRadixTree.new 3)
        [([97], 0), ([97, 98], 1), ([97, 98, 99], 2)]).1) ∧
    ∀ m pre lvl, Call.HandleNode m pre lvl ∈ Traverse true (AddEntries true
        (CAdaptiveRadixTree.new 3) [([97], 0), ([97, 98], 1), ([97, 98, 99], 2)]).1 →
      lvl = pre.length := by
  obtain ⟨root, _, h2, h3, _⟩ := Traverse_call_arguments true
    (AddEntries true (CAdaptiveRadixTree.new 3) [([97], 0), ([97, 98], 1), ([97, 98, 99], 2)]).1
    (TreeWF_AddEntries true 3 [([97], 0), ([97, 98], 1), ([97, 98, 99], 2)]
      (by decide) (by decide) (by decide) (by decide)).1
  exact ⟨h2, fun m pre lvl hm => (h3 m pre lvl hm).1⟩

/-- C25 fails on the code for the recipient of `Join`. `A` holds `"b"` (row id 5); `B` holds
`"a\x01xxx"`, .., `"a\x04xxx"` and then `"a\x00xxx"` (row ids `0`, .., `4`), so the node under
`a` is a `CArtNode16` and the leaf under the byte `0` has its prefix `"xxx"` at the position
13 of the suffix table of `B`, which has 16 bytes. After `A.Join( B )` the suffix table of `A`
has 12 bytes, the leaf under the byte `1` has its prefix at the position 0, but the leaf
under the byte `0`, which the `CArtNode16` loop of `MovePrefix` skips, still has the position
13 and the length 3: its prefix lies outside the suffix table of `A`, and the key
`"a\x00xxx"` is not found in `A`. -/
theorem Join_leaves_prefix_outside_arena :
    (buildPair true 6 [Op.AddEntry [98] 5]
      [Op.AddEntry [97, 1, 120, 120, 120] 0, Op.AddEntry [97, 2, 120, 120, 120] 1,
       Op.AddEntry [97, 3, 120, 120, 120] 2, Op.AddEntry [97, 4, 120, 120, 120] 3,
       Op.AddEntry [97, 0, 120, 120, 120] 4]).2.1.suffix_table_.length = 16 ∧
    (joinPair true 8 6 [Op.AddEntry [98] 5]
      [Op.AddEntry [97, 1, 120, 120, 120] 0, Op.AddEntry [97, 2, 120, 120, 120] 1,
       Op.AddEntry [97, 3, 120, 120, 120] 2, Op.AddEntry [97, 4, 120, 120, 120] 3,
       Op.AddEntry [97, 0, 120, 120, 120] 4]).map (fun r =>
        (r.1.suffix_table_.length,
         ((rootNode r.1).bind (fun root => childOf true root 97)).bind (fun a =>
           (childOf true a 1).map (fun m => (m.base.prefix_position_, m.base.prefix_length_))),
         ((rootNode r.1).bind (fun root => childOf true root 97)).bind (fun a =>
           (childOf true a 0).map (fun m => (m.base.prefix_position_, m.base.prefix_length_))),
         terminalOf true r.1 [97, 0, 120, 120, 120])) =
      some (12, some (0, 3), some (13, 3), none) := by
  decide!

/-- Scenario S2 as an instance of C26. After `("alize", 0)` the slot under `a` holds the leaf
with the prefix `"lize"`; the loop of `AddEntry( "alt", 3, 1 )` reaches it at the offset 1,
where the prefix agrees with the key on one byte. Afterwards the slot holds a `CArtNode4`
with the prefix `"l"` that is not an end of string and branches on the bytes `i` and `t`,
and `Traverse` yields `"alize"` and then `"alt"`. -/
theorem AddEntryLoop_prefix_split_witness :
    (AddEntryLoop true [97, 108, 116] 1 (2 + 1) 1
      (AddEntryLoop true [97, 108, 105, 122, 101] 0 5 1
        (newLeaf [97, 108, 105, 122, 101] CAdaptiveRadixTree.newShared.suffix_table_ 1)
        { CAdaptiveRadixTree.newShared with
          suffix_table_ := CAdaptiveRadixTree.newShared.suffix_table_ ++
            List.drop 1 [97, 108, 105, 122, 101] } [0, 0]).1
      { CAdaptiveRadixTree.newShared with
        suffix_table_ := CAdaptiveRadixTree.newShared.suffix_table_ ++
          List.drop 1 [97, 108, 105, 122, 101] } [0, 0]).1.node_type_ = NodeType.Fanout4 ∧
    tuplesOf (Traverse true (AddEntries true (CAdaptiveRadixTree.new 2)
      [([97, 108, 105, 122, 101], 0), ([97, 108, 116], 1)]).1) =
      [([97, 108, 105, 122, 101], 0), ([97, 108, 116], 1)] ∧
    ((rootNode (AddEntries true (CAdaptiveRadixTree.new 2)
        [([97, 108, 105, 122, 101], 0), ([97, 108, 116], 1)]).1).bind
      (fun root => childOf true root 97)).map (fun m =>
        (m.node_type_, m.pfx (AddEntries true (CAdaptiveRadixTree.new 2)
            [([97, 108, 105, 122, 101], 0), ([97, 108, 116], 1)]).1.suffix_table_,
          (m.tslots true).map Prod.fst, m.base.end_of_string_)) =
      some (NodeType.Fanout4, [108], [105, 116], false) :=
  ⟨(AddEntryLoop_prefix_split true [97, 108, 116] 1 2 1
      (AddEntryLoop true [97, 108, 105, 122, 101] 0 5 1
        (newLeaf [97, 108, 105, 122, 101] CAdaptiveRadixTree.newShared.suffix_table_ 1)
        { CAdaptiveRadixTree.newShared with
          suffix_table_ := CAdaptiveRadixTree.newShared.suffix_table_ ++
            List.drop 1 [97, 108, 105, 122, 101] } [0, 0]).1
      { CAdaptiveRadixTree.newShared with
        suffix_table_ := CAdaptiveRadixTree.newShared.suffix_table_ ++
          List.drop 1 [97, 108, 105, 122, 101] } [0, 0]
      (leaf_step true (fun c => c < 256) [97, 108, 105, 122, 101] 0 (by decide) 5 1
        CAdaptiveRadixTree.newShared [0, 0] (by decide) (by decide)).2.2.1
      (by decide) (by decide) (by decide) (by decide) (by decide!)).2.1,
   by decide!, by decide!⟩

/-- The self-loop of C31 on a fresh tree with a vector of two cells: after
`AddEntry( "a", 1, 1 )` twice the vector is `[0, 1]`, the key `"a"` has the head `1`, and no
number of steps from that head reaches `LAST_INDEX_IDENTIFIER`. -/
theorem AddEntry_repeated_row_id_self_loop_witness :
    (AddEntries true (CAdaptiveRadixTree.new 2) [([97], 1), ([97], 1)]).2 = [0, 1] ∧
    terminalOf true (AddEntries true (CAdaptiveRadixTree.new 2) [([97], 1), ([97], 1)]).1 [97] =
      some 1 ∧
    (∀ fuel, chainFrom (AddEntries true (CAdaptiveRadixTree.new 2) [([97], 1), ([97], 1)]).2
      fuel 1 = none) :=
  ⟨by decide!,
   (AddEntry_repeated_row_id_self_loop true (CAdaptiveRadixTree.new 2).1
      (CAdaptiveRadixTree.new 2).2 [97] 1
      (TreeWF_AddEntries true 2 [] (by decide) (by simp) (by simp) (by decide)).1
      (by decide) (by decide) (by decide) (by decide)).1,
   (AddEntry_repeated_row_id_self_loop true (CAdaptiveRadixTree.new 2).1
      (CAdaptiveRadixTree.new 2).2 [97] 1
      (TreeWF_AddEntries true 2 [] (by decide) (by simp) (by simp) (by decide)).1
      (by decide) (by decide) (by decide) (by decide)).2.2.2⟩

/-- The donor of C32 for `A = {"a" -> 0}` and `B = {"bc" -> 1, null -> 2}`: after
`A.Join( B )` the root of `B` is null while its null head `2`, its counters and its suffix
table `"c"` are as before, `B.Traverse` makes no call, and `B.AddEntry( "def", 3, 0 )` then
changes the two lengths only. -/
theorem Join_leaves_donor_null_root_witness :
    (∃ r, joinPair true 16 3 [Op.AddEntry [97] 0]
        [Op.AddEntry [98, 99] 1, Op.AddNullString 2] = some r ∧
      r.2.1 = { (buildPair true 3 [Op.AddEntry [97] 0]
        [Op.AddEntry [98, 99] 1, Op.AddNullString 2]).2.1 with root_ := Ptr.nullptr }) ∧
    (joinPair true 16 3 [Op.AddEntry [97] 0]
        [Op.AddEntry [98, 99] 1, Op.AddNullString 2]).map (fun r =>
      (r.2.1.root_.isNull, r.2.1.null_string_, r.2.1.null_string_count_,
        r.2.1.unique_string_count_)) = some (true, 2, 1, 1) ∧
    (joinPair true 16 3 [Op.AddEntry [97] 0]
        [Op.AddEntry [98, 99] 1, Op.AddNullString 2]).map (fun r =>
      (r.2.1.total_string_length_, r.2.1.max_string_length_, r.2.1.suffix_table_,
        (Traverse true r.2.1).length)) = some (2, 2, [99], 0) ∧
    (joinPair true 16 3 [Op.AddEntry [97] 0]
        [Op.AddEntry [98, 99] 1, Op.AddNullString 2]).map (fun r =>
      ((AddEntry true r.2.1 r.2.2 [100, 101, 102] 0).1.root_.isNull,
        (AddEntry true r.2.1 r.2.2 [100, 101, 102] 0).1.unique_string_count_,
        (AddEntry true r.2.1 r.2.2 [100, 101, 102] 0).1.total_string_length_,
        (AddEntry true r.2.1 r.2.2 [100, 101, 102] 0).1.max_string_length_)) =
      some (true, 1, 5, 3) ∧
    (joinPair true 16 3 [Op.AddEntry [97] 0]
        [Op.AddEntry [98, 99] 1, Op.AddNullString 2]).map (fun r =>
      ((AddEntry true r.2.1 r.2.2 [100, 101, 102] 0).1.suffix_table_,
        (AddEntry true r.2.1 r.2.2 [100, 101, 102] 0).2 == r.2.2)) = some ([99], true) :=
  ⟨(Join_leaves_donor_null_root true).2 3 16 [Op.AddEntry [97] 0]
      [Op.AddEntry [98, 99] 1, Op.AddNullString 2]
      (by decide) (by decide) (by decide) (by decide) (by decide) (by decide!),
   by decide!, by decide!, by decide!, by decide!⟩

/-- C19 fails on the code. `A` holds `"b"` (row id 5) and `B` holds `"a\x01xxx"`, ..,
`"a\x04xxx"` and then `"a\x00xxx"` (row ids `0`, .., `4`) on one row-id vector of 18 cells.
After `A.Join( B )`, whose `MovePrefix` skips the leaf under the byte `0` of the `CArtNode16`
under `a`, the calls `A.AddEntry( "a\x05", 2, 6 )`, .., `A.AddEntry( "a\x10", 2, 17 )` make
that node a `CArtNode48` with 17 children; the suffix table of `A` has 12 bytes and the leaf
under the byte `0` still has the prefix position 13 and the prefix length 3. The loops of a
`CArtNode48` visit that leaf. `TraverseIndexes` makes 18 `HandleTuple` calls, one for each
terminal node. `Traverse` calls `HandleNode` for the root, for the node under `a` and for the
leaf, and then `key.append( suffix_table_, 13, 3 )` throws `std::out_of_range`: `Traverse` is
left by the exception and has made no `HandleTuple` call. -/
theorem Traverse_throws_where_TraverseIndexes_returns :
    (joinPair true 8 18 [Op.AddEntry [98] 5]
      [Op.AddEntry [97, 1, 120, 120, 120] 0, Op.AddEntry [97, 2, 120, 120, 120] 1,
       Op.AddEntry [97, 3, 120, 120, 120] 2, Op.AddEntry [97, 4, 120, 120, 120] 3,
       Op.AddEntry [97, 0, 120, 120, 120] 4]).map (fun r =>
        ((run true (r.1, r.2.2) (entriesA 5 6 12)).1.suffix_table_.length,
         ((rootNode (run true (r.1, r.2.2) (entriesA 5 6 12)).1).bind
            (fun root => childOf true root 97)).map
              (fun a => (a.node_type_, a.base.children_count_)),
         ((rootNode (run true (r.1, r.2.2) (entriesA 5 6 12)).1).bind
            (fun root => childOf true root 97)).bind (fun a =>
              (childOf true a 0).map
                (fun m => (m.base.prefix_position_, m.base.prefix_length_))))) =
      some (12, some (NodeType.Fanout48, 17), some (13, 3)) ∧
    (joinPair true 8 18 [Op.AddEntry [98] 5]
      [Op.AddEntry [97, 1, 120, 120, 120] 0, Op.AddEntry [97, 2, 120, 120, 120] 1,
       Op.AddEntry [97, 3, 120, 120, 120] 2, Op.AddEntry [97, 4, 120, 120, 120] 3,
       Op.AddEntry [97, 0, 120, 120, 120] 4]).map (fun r =>
        ((TraverseIndexes true (run true (r.1, r.2.2) (entriesA 5 6 12)).1).length,
         (thrownAfter (TraverseChecked true (run true (r.1, r.2.2) (entriesA 5 6 12)).1)).map
           (fun calls => (calls.length, (tuplesOf calls).length)))) =
      some (18, some (3, 0)) ∧
    (joinPair false 8 18 [Op.AddEntry [98] 5]
      [Op.AddEntry [97, 1, 120, 120, 120] 0, Op.AddEntry [97, 2, 120, 120, 120] 1,
       Op.AddEntry [97, 3, 120, 120, 120] 2, Op.AddEntry [97, 4, 120, 120, 120] 3,
       Op.AddEntry [97, 0, 120, 120, 120] 4]).map (fun r =>
        ((TraverseIndexes false (run false (r.1, r.2.2) (entriesA 5 6 12)).1).length,
         (thrownAfter (TraverseChecked false (run false (r.1, r.2.2) (entriesA 5 6 12)).1)).map
           (fun calls => (calls.length, (tuplesOf calls).length)))) =
      some (18, some (3, 0)) := by
  refine ⟨?_, ?_, ?_⟩
  · decide!
  · decide!
  · decide!
